import Mathlib

/-!
# Simplex tableau engine: shallow embedding and verification

Embedding of `matrix.cc`, `tableau.cc`, `simplex.cc` and `dual.cc`.

The file holds two embeddings of the same program text.

* **The program on doubles** (namespace `Simplex.Dbl`, over the type
  `Simplex.Double`).  The entries of the source are C `double`s (IEEE 754
  binary64).  `Double` has the finite numbers (as rationals), the negative
  zero, the infinities and a NaN; `*`, `/` and `+` round the exact result to
  the nearest binary64 number, ties to even (`Double.round`), `-x` flips the
  sign bit, and `<`, `<=`, `>`, `>=`, `==`, `!=` are the IEEE comparisons
  (false on a NaN, except `!=`; `-0.0 == 0.0`).  Assumed of the compiled
  program: every operation of the source is evaluated in binary64 and rounded
  once, in the default rounding mode (no fused multiply-add, no extended
  precision).
* **The program in exact arithmetic** (namespace `Simplex`, over `ℚ`): the
  same functions, line by line, with the exact `+`, `*`, `/` and the
  comparisons of `ℚ`.  This is the arithmetic the specification speaks of
  ("real values", "exact zero/sign comparisons"), and the program follows it
  as long as no operation rounds.  `1 / 0` is `0` here, where the program
  computes an infinity or a NaN.

The claims that speak of comparisons, of index bookkeeping, of data movement
or of a concrete run whose arithmetic is exact in binary64 are stated on the
exact embedding.  The claims whose truth depends on rounding are stated on
doubles: each is refuted by a run of the program on doubles, and proved in
the form that holds of the program: what holds whatever the rounding (which
entries are written, with which rounded products and sums; which
comparisons hold at a return), and the remainder for the runs that commit no
rounding error.  `Dbl.Tableau.to_rat` reads a tableau
of finite doubles as the tableau of its values, `Tableau.to_double` is the
tableau of doubles of given entries, and "no rounding error" says that the
result on doubles, read by `to_rat`, is the result in exact arithmetic.

Modelling conventions common to the two embeddings.
* A matrix is its dimensions and its flat row-major buffer; entry `(i, j)`
  lives at position `i * n + j`, as in `Matrix::at`.
* `int` loop counters and dimensions are `Nat`; the functions of the source
  that return `-1` as a sentinel return `Int`.
* A failed `assert` aborts the program: functions whose assertion a caller
  can violate return `Option` (`none` = abort).  The assertions of the leaf
  accessors (`at`, `scale_row`, `add_premultiplied_row`, `swap_rows`) are
  established by every caller modelled here (loop bounds, or an assertion
  checked by the caller just before).
* The `goto` loops of the two solvers take a fuel argument; `none` means the
  fuel ran out, never a result of the program.
-/

namespace Simplex

/-! ## Binary64 arithmetic -/

/-- A value of the C type `double` (IEEE 754 binary64): a finite number
`fin q` (`fin 0` is `+0.0`), the negative zero, an infinity or a NaN.  The
doubles are the values with `q` a binary64 number; the operations below
return only such values. -/
inductive Double where
  | fin (q : ℚ)
  | negzero
  | inf (neg : Bool)
  | nan
deriving DecidableEq, Repr

namespace Double

/-- Round-half-to-even of the quotient `n / d` of two naturals (`d > 0`). -/
def round_even (n d : Nat) : Nat :=
  let q := n / d
  let r := n % d
  if 2 * r < d then q
  else if d < 2 * r then q + 1
  else if q % 2 = 0 then q else q + 1

/-- The number of binary digits of `n`, by repeated halving (at most `fuel`
times). -/
def bits : Nat → Nat → Nat
  | 0, _ => 0
  | fuel + 1, n => if n = 0 then 0 else bits fuel (n / 2) + 1

/-- `floor (log2 (n / d))` for positive naturals `n`, `d`. -/
def floor_log2 (n d : Nat) : Int :=
  let e0 : Int := (bits n n : Int) - (bits d d : Int)
  if 0 ≤ e0 then
    if d * 2 ^ e0.toNat ≤ n then e0 else e0 - 1
  else
    if d ≤ n * 2 ^ (-e0).toNat then e0 else e0 - 1

/-- The binary64 number nearest to the real `q` (ties to even): 53 bits of
precision above `2^-1022`, multiples of `2^-1074` below, overflow to
infinity from `2^1024` on, underflow to a signed zero. -/
def round (q : ℚ) : Double :=
  if q = 0 then fin 0
  else
    let n := q.num.natAbs
    let d := q.den
    let e := floor_log2 n d
    let qe : Int := max (e - 52) (-1074)
    let m : Nat :=
      if 0 ≤ qe then round_even n (d * 2 ^ qe.toNat) else round_even (n * 2 ^ (-qe).toNat) d
    if m = 0 then (if q < 0 then negzero else fin 0)
    else
      let v : ℚ :=
        if 0 ≤ qe then ((m * 2 ^ qe.toNat : Nat) : ℚ)
        else (m : ℚ) / ((2 ^ (-qe).toNat : Nat) : ℚ)
      if ((2 ^ 1024 : Nat) : ℚ) ≤ v then inf (decide (q < 0))
      else fin (if q < 0 then -v else v)

/-- The sign bit. -/
def sign : Double → Bool
  | fin q => decide (q < 0)
  | negzero => true
  | inf neg => neg
  | nan => false

/-- The zero of sign bit `neg`. -/
def zero (neg : Bool) : Double := if neg then negzero else fin 0

/-- The real value of a finite double. -/
def value? : Double → Option ℚ
  | fin q => some q
  | negzero => some 0
  | _ => none

/-- IEEE addition `a + b`. -/
def add (a b : Double) : Double :=
  match a, b with
  | nan, _ => nan
  | _, nan => nan
  | inf s, inf t => if s = t then inf s else nan
  | inf s, _ => inf s
  | _, inf t => inf t
  | negzero, negzero => negzero
  | negzero, fin q => round q
  | fin q, negzero => round q
  | fin p, fin q => round (p + q)

/-- IEEE multiplication `a * b`. -/
def mul (a b : Double) : Double :=
  match a.value?, b.value? with
  | some p, some q =>
    if p * q = 0 then zero (xor a.sign b.sign) else round (p * q)
  | some p, none =>
    if b = nan then nan else if p = 0 then nan else inf (xor a.sign b.sign)
  | none, some q =>
    if a = nan then nan else if q = 0 then nan else inf (xor a.sign b.sign)
  | none, none =>
    if a = nan ∨ b = nan then nan else inf (xor a.sign b.sign)

/-- IEEE division `a / b`. -/
def div (a b : Double) : Double :=
  match a.value?, b.value? with
  | some p, some q =>
    if q = 0 then (if p = 0 then nan else inf (xor a.sign b.sign))
    else if p = 0 then zero (xor a.sign b.sign)
    else round (p / q)
  | some _, none =>
    if b = nan then nan else zero (xor a.sign b.sign)
  | none, some _ =>
    if a = nan then nan else inf (xor a.sign b.sign)
  | none, none => nan

/-- Unary minus: the sign bit flipped. -/
def neg : Double → Double
  | fin q => if q = 0 then negzero else fin (-q)
  | negzero => fin 0
  | inf s => inf (!s)
  | nan => nan

/-- IEEE `a < b`. -/
def lt (a b : Double) : Bool :=
  match a, b with
  | nan, _ => false
  | _, nan => false
  | inf s, inf t => s && !t
  | inf s, _ => s
  | _, inf t => !t
  | _, _ => decide ((a.value?.getD 0) < (b.value?.getD 0))

/-- IEEE `a == b`. -/
def eq (a b : Double) : Bool :=
  match a, b with
  | nan, _ => false
  | _, nan => false
  | inf s, inf t => s == t
  | inf _, _ => false
  | _, inf _ => false
  | _, _ => decide ((a.value?.getD 0) = (b.value?.getD 0))

/-- IEEE `a <= b`. -/
def le (a b : Double) : Bool := a.lt b || a.eq b

/-- IEEE `a != b`. -/
def ne (a b : Double) : Bool := !a.eq b

instance : Add Double := ⟨add⟩
instance : Mul Double := ⟨mul⟩
instance : Div Double := ⟨div⟩
instance : Neg Double := ⟨neg⟩
instance : LT Double := ⟨fun a b => a.lt b = true⟩
instance : LE Double := ⟨fun a b => a.le b = true⟩
instance (a b : Double) : Decidable (a < b) := inferInstanceAs (Decidable (a.lt b = true))
instance (a b : Double) : Decidable (a ≤ b) := inferInstanceAs (Decidable (a.le b = true))
instance (n : Nat) : OfNat Double n := ⟨fin n⟩

end Double

/-! ## The program on doubles -/

namespace Dbl


/-! ### Dense matrix of doubles (`matrix.h`, `matrix.cc`) -/

/-- Dense matrix: `_m`, `_n` and the row-major `buffer`. -/
structure Matrix where
  m : Nat
  n : Nat
  buffer : List Double
deriving DecidableEq, Repr

namespace Matrix

/-- Getter `Matrix::at(i, j)`: `buffer[i * _n + j]`. -/
def at_ (M : Matrix) (i j : Nat) : Double := M.buffer.getD (i * M.n + j) 0

/-- Setter `Matrix::at(i, j, val)`: `buffer[i * _n + j] = val`. -/
def at_set (M : Matrix) (i j : Nat) (val : Double) : Matrix :=
  { M with buffer := M.buffer.set (i * M.n + j) val }

/-- `Matrix::swap_rows`. -/
def swap_rows (M : Matrix) (row1 row2 : Nat) : Matrix :=
  (List.range M.n).foldl
    (fun A j =>
      let temp := A.at_ row1 j
      (A.at_set row1 j (A.at_ row2 j)).at_set row2 j temp)
    M

/-- `Matrix::scale_row`. -/
def scale_row (M : Matrix) (row : Nat) (k : Double) : Matrix :=
  (List.range M.n).foldl (fun A j => A.at_set row j (A.at_ row j * k)) M

/-- `Matrix::add_premultiplied_row`. -/
def add_premultiplied_row (M : Matrix) (src : Nat) (k : Double) (dst : Nat) : Matrix :=
  (List.range M.n).foldl
    (fun A j => A.at_set dst j (A.at_ dst j + A.at_ src j * k)) M

/-- `new Matrix(m, n, NULL)`: the zero-filled matrix. -/
def zeros (m n : Nat) : Matrix :=
  { m := m, n := n, buffer := List.replicate (m * n) 0 }

/-- The auxiliary matrix of `Matrix::invert`: zero-filled, then ones on the
diagonal. -/
def identity (m n : Nat) : Matrix :=
  (List.range n).foldl (fun A j => A.at_set j j 1) (zeros m n)

/-- Pivot search of `Matrix::invert` in column `j`: the first row `i >= j`
with `at(i, j) != 0.0`. -/
def find_pivot_row (M : Matrix) (j : Nat) : Option Nat :=
  (List.range' j (M.m - j)).find? (fun i => (M.at_ i j).ne 0)

/-- Body of the column loop of `Matrix::invert` on the pair (matrix,
auxiliary matrix): `none` when the column has no pivot (`pivot == 0.0`). -/
def invert_column (st : Matrix × Matrix) (j : Nat) : Option (Matrix × Matrix) :=
  match find_pivot_row st.1 j with
  | none => none
  | some i =>
    let pivot := st.1.at_ i j
    -- move the pivot in the correct position
    let st1 : Matrix × Matrix :=
      if j ≠ i then (st.1.swap_rows j i, st.2.swap_rows j i) else st
    -- scale the pivot to assume value 1.0
    let st2 : Matrix × Matrix :=
      (st1.1.scale_row j (1 / pivot), st1.2.scale_row j (1 / pivot))
    -- nullify every element in the column that is not the pivot
    some ((List.range st2.1.m).foldl
      (fun (s : Matrix × Matrix) i =>
        if i = j then s
        else
          let value := s.1.at_ i j
          let multiplier := -1 * value
          (s.1.add_premultiplied_row j multiplier i,
            s.2.add_premultiplied_row j multiplier i))
      st2)

end Matrix

/-- How `Matrix::invert` leaves: `inverted` after the final `memcpy`, or
`singular j` when it prints its error and returns at column `j`; either way
with the matrix as the call leaves it. -/
inductive InvertResult where
  | inverted (M : Matrix)
  | singular (j : Nat) (M : Matrix)
deriving DecidableEq, Repr

namespace Matrix

/-- The column loop of `Matrix::invert` over the columns `js`, with the
early return and the final `memcpy` of `m * n` entries. -/
def invert_loop : List Nat → Matrix × Matrix → InvertResult
  | [], st =>
    InvertResult.inverted
      { st.1 with buffer :=
          st.2.buffer.take (st.1.m * st.1.n) ++ st.1.buffer.drop (st.1.m * st.1.n) }
  | j :: js, st =>
    match invert_column st j with
    | none => InvertResult.singular j st.1
    | some st1 => invert_loop js st1

/-- `Matrix::invert`; the assertion `m() == n()` is checked. -/
def invert (M : Matrix) : Option InvertResult :=
  if M.m = M.n then some (invert_loop (List.range M.n) (M, identity M.m M.n))
  else none

/-- `Matrix::multiply_by`; the assertion `n() == mat->m()` is checked. -/
def multiply_by (M mat : Matrix) : Option Matrix :=
  if M.n = mat.m then
    let result := zeros M.m mat.n
    some ((List.range result.m).foldl
      (fun r i => (List.range result.n).foldl
        (fun r1 j => (List.range M.n).foldl
          (fun r2 z => r2.at_set i j (r2.at_ i j + M.at_ i z * mat.at_ z j)) r1) r)
      result)
  else none

end Matrix

/-! ### Tableau of doubles (`tableau.h`, `tableau.cc`) -/

/-- Tableau: a matrix with the basis map `basis_indices` and its
`basis_indices_set` flags (one entry per constraint row). -/
structure Tableau extends Matrix where
  basis_indices : List Nat
  basis_indices_set : List Bool
deriving DecidableEq, Repr

/-- Constructor `Tableau(m, n, buffer, indices)`: with a basis array every
row is marked set, without one (`NULL`) the arrays are zero-filled. -/
def Tableau.new (m n : Nat) (buffer : List Double) (indices : Option (List Nat)) : Tableau :=
  match indices with
  | some ix =>
    { m := m, n := n, buffer := buffer,
      basis_indices := ix, basis_indices_set := List.replicate (m - 1) true }
  | none =>
    { m := m, n := n, buffer := buffer,
      basis_indices := List.replicate (m - 1) 0,
      basis_indices_set := List.replicate (m - 1) false }

namespace Tableau

/-- Entry `(i, j)` of the tableau (inherited `Matrix::at`). -/
def at_ (t : Tableau) (i j : Nat) : Double := t.toMatrix.at_ i j

/-- Getter `basis_at(i)`. -/
def basis_at (t : Tableau) (i : Nat) : Nat := t.basis_indices.getD i 0

/-- Getter `basis_set_at(i)`. -/
def basis_set_at (t : Tableau) (i : Nat) : Bool := t.basis_indices_set.getD i false

/-- Setter `basis_at(i, col)`; its assertion
`i >= 0 && i < m() - 1 && col >= 0 && col < n() - 1` is checked. -/
def basis_at_set (t : Tableau) (i : Int) (col : Int) : Option Tableau :=
  if 0 ≤ i ∧ i < (t.m : Int) - 1 ∧ 0 ≤ col ∧ col < (t.n : Int) - 1 then
    some { t with
      basis_indices_set := t.basis_indices_set.set i.toNat true
      basis_indices := t.basis_indices.set i.toNat col.toNat }
  else none

/-- Body of `Tableau::pivot` once its assertion holds. -/
def pivot_body (t : Tableau) (row col : Nat) : Tableau :=
  let pivot := t.at_ row col
  let t1 : Tableau :=
    if pivot.ne 1 then { t with toMatrix := t.toMatrix.scale_row row (1 / pivot) } else t
  (List.range t1.m).foldl
    (fun a i =>
      if i = row then a
      else
        let value := a.at_ i col
        if value.eq 0 then a
        else
          let multiplier := -1 * value
          { a with toMatrix := a.toMatrix.add_premultiplied_row row multiplier i })
    t1

/-- `Tableau::pivot(row, col)`; the assertion
`row >= 0 && col >= 0 && row < m() - 1 && col < n() - 1` is checked. -/
def pivot (t : Tableau) (row col : Int) : Option Tableau :=
  if 0 ≤ row ∧ 0 ≤ col ∧ row < (t.m : Int) - 1 ∧ col < (t.n : Int) - 1 then
    some (t.pivot_body row.toNat col.toNat)
  else none

/-- `Tableau::canonicalize`: pivot on `(i, basis_indices[i])` for every
constraint row, in row order. -/
def canonicalize (t : Tableau) : Option Tableau :=
  (List.range (t.m - 1)).foldl
    (fun a (i : Nat) => a.bind (fun s => s.pivot (i : Int) (s.basis_indices.getD i 0 : Nat)))
    (some t)

/-- Loop of `Tableau::delete_row`: `swap_rows(i, i+1)` and, while
`i < m() - 2`, `basis_at(i, basis_at(i+1))` (whose assertion is checked). -/
def delete_row_loop (row : Nat) (t : Tableau) : Option Tableau :=
  (List.range' row (t.m - 1 - row)).foldl
    (fun a (i : Nat) => a.bind (fun s =>
      let s1 : Tableau := { s with toMatrix := s.toMatrix.swap_rows i (i + 1) }
      if (i : Int) < (s1.m : Int) - 2 then s1.basis_at_set i (s1.basis_at (i + 1))
      else some s1))
    (some t)

/-- `Tableau::delete_row(row)`; the assertion `row >= 0 && row <= m() - 1`
is checked.  The buffer and the basis arrays keep their allocated size. -/
def delete_row (t : Tableau) (row : Int) : Option Tableau :=
  if 0 ≤ row ∧ row ≤ (t.m : Int) - 1 then
    (delete_row_loop row.toNat t).map (fun s => { s with m := s.m - 1 })
  else none

/-- The first `k` passes of the loop of `Tableau::canonicalize`. -/
def canonicalize_upto (t : Tableau) (k : Nat) : Option Tableau :=
  (List.range k).foldl
    (fun a (i : Nat) => a.bind (fun s => s.pivot (i : Int) (s.basis_indices.getD i 0 : Nat)))
    (some t)

end Tableau

/-- How a solver run ends: a returned cost or one of the raised failures;
`abort` is a failed assertion. -/
inductive Outcome where
  | value (cost : Double)
  | unlimited
  | invalidForm
  | impossible
  | abort
deriving DecidableEq, Repr

/-! ### Primal simplex on doubles (`simplex.cc`) -/

namespace PrimalSimplex

/-- `test_optimality`: no reduced cost (objective row, columns `0..n-2`) is
negative. -/
def test_optimality (tab : Tableau) : Bool :=
  (List.range (tab.n - 1)).all (fun j => ¬ tab.at_ (tab.m - 1) j < 0)

/-- `select_entering_column`: the first column with a negative reduced cost;
`none` is the `assert(0)` after the loop. -/
def select_entering_column (tab : Tableau) : Option Nat :=
  (List.range (tab.n - 1)).find? (fun j => tab.at_ (tab.m - 1) j < 0)

/-- `test_unlimited`: returns 0 at the first constraint row whose entry in
the entering column is `>= 0`, else 1. -/
def test_unlimited (tab : Tableau) (entering_column : Nat) : Bool :=
  (List.range (tab.m - 1)).all (fun i => ¬ tab.at_ i entering_column ≥ 0)

/-- One iteration of the loop of `select_exiting_column` on the pair
`(min_ratio, min_ratio_position)`. -/
def exiting_step (tab : Tableau) (j : Nat) (st : Double × Int) (i : Nat) : Double × Int :=
  if tab.at_ i j ≤ 0 then st
  else
    let r := tab.at_ i (tab.n - 1) / tab.at_ i j
    if st.2 = -1 ∨ r < st.1 ∨
        (r.eq st.1 = true ∧ tab.basis_at i < tab.basis_at st.2.toNat) then (r, (i : Int))
    else st

/-- `select_exiting_column`: the row of the minimal ratio, ties broken by the
smaller basis column; `-1` when no row has a positive entry. -/
def select_exiting_column (tab : Tableau) (j : Nat) : Int :=
  ((List.range (tab.m - 1)).foldl (exiting_step tab j) (0, -1)).2

/-- `PrimalSimplex::simplex`; the result is the outcome and the tableau as
the run leaves it. -/
def simplex : Nat → Tableau → Option (Outcome × Tableau)
  | 0, _ => none
  | fuel + 1, tab =>
    if test_optimality tab then
      some (Outcome.value (- tab.at_ (tab.m - 1) (tab.n - 1)), tab)
    else
      match select_entering_column tab with
      | none => some (Outcome.abort, tab)
      | some j =>
        if test_unlimited tab j then some (Outcome.unlimited, tab)
        else
          let i := select_exiting_column tab j
          match tab.basis_at_set i j with
          | none => some (Outcome.abort, tab)
          | some tab1 =>
            match tab1.pivot i j with
            | none => some (Outcome.abort, tab1)
            | some tab2 => simplex fuel tab2

/-- Inner loop of `search_usable_variables` over the constraint rows of
column `j`, on the pair `(elem_row, positive_elements)`, with its `break`s. -/
def usable_scan (tab : Tableau) (j : Nat) : List Nat → Int × Nat → Int × Nat
  | [], st => st
  | i :: rest, st =>
    if tab.at_ i j < 0 then (st.1, 0)
    else
      let st1 : Int × Nat := if tab.at_ i j > 0 then ((i : Int), st.2 + 1) else st
      if st1.2 > 1 then st1 else usable_scan tab j rest st1

/-- One iteration of the outer loop of `search_usable_variables` on the pair
`(tab, found_indices)`; `none` is a failed assertion of `basis_at`. -/
def usable_step (st : Option (Tableau × Nat)) (j : Nat) : Option (Tableau × Nat) :=
  st.bind (fun p =>
    let tab := p.1
    let found_indices := p.2
    if (found_indices : Int) ≥ (tab.m : Int) - 1 then some p
    else
      let sc := usable_scan tab j (List.range (tab.m - 1)) (-1, 0)
      let elem_row := sc.1
      if sc.2 = 1 then
        if tab.basis_set_at elem_row.toNat = false then
          (tab.basis_at_set elem_row j).map (fun tab1 =>
            let value := tab1.at_ elem_row.toNat j
            ({ tab1 with toMatrix := tab1.toMatrix.scale_row elem_row.toNat (1 / value) },
              found_indices + 1))
        else some p
      else some p)

/-- `search_usable_variables`: the tableau as it is left and the count
returned. -/
def search_usable_variables (tab : Tableau) : Option (Tableau × Nat) :=
  (List.range (tab.n - 1)).foldl usable_step (some (tab, 0))

/-- `create_artificial_tableau(orig_tab, art_columns)`. -/
def create_artificial_tableau (orig_tab : Tableau) (art_columns : Nat) : Option Tableau :=
  let m := orig_tab.m
  let n := orig_tab.n
  let art0 : Tableau :=
    Tableau.new m (n + art_columns) (List.replicate (m * (n + art_columns)) 0) none
  -- fill the basis indices
  let art1 : Option Tableau :=
    (List.range (m - 1)).foldl
      (fun a (i : Nat) => a.bind (fun s =>
        if orig_tab.basis_set_at i then s.basis_at_set i (orig_tab.basis_at i) else some s))
      (some art0)
  -- fill the matrix
  let art2 : Option Tableau := art1.map (fun s =>
    (List.range (m - 1)).foldl
      (fun s1 i => (List.range (n - 1)).foldl
        (fun (s2 : Tableau) j =>
          { s2 with toMatrix := s2.toMatrix.at_set i j (orig_tab.at_ i j) }) s1)
      s)
  -- the artificial columns
  let art3 : Option Tableau :=
    (List.range (m - 1)).foldl
      (fun a (i : Nat) => (List.range' (n - 1) art_columns).foldl
        (fun a1 (j : Nat) => a1.bind (fun (s : Tableau) =>
          if s.basis_set_at i = false ∧ j - (n - 1) = i then
            ({ s with toMatrix := s.toMatrix.at_set i j 1 } : Tableau).basis_at_set i j
          else some s))
        a)
      art2
  -- the cost function of the artificial variables
  let art4 : Option Tableau := art3.map (fun s =>
    (List.range' (n - 1) art_columns).foldl
      (fun (s1 : Tableau) j => { s1 with toMatrix := s1.toMatrix.at_set (m - 1) j 1 }) s)
  -- the values of the variables column
  art4.map (fun s =>
    (List.range (m - 1)).foldl
      (fun (s1 : Tableau) i =>
        { s1 with toMatrix :=
            s1.toMatrix.at_set i ((n - 1) + art_columns) (orig_tab.at_ i (n - 1)) })
      s)

/-- Where the `step_3` loop of `two_phase` leaves: a raised failure, or the
jump to `phase_II` with the two tableaux. -/
inductive Step3 where
  | failed (o : Outcome) (tab : Tableau)
  | phase_II (art_tab tab : Tableau)
deriving DecidableEq, Repr

/-- The `step_3` loop of `two_phase`. -/
def step_3 (cost : Double) : Nat → Tableau → Tableau → Option Step3
  | 0, _, _ => none
  | fuel + 1, art_tab, tab =>
    if cost > 0 then some (Step3.failed Outcome.impossible tab)
    else
      match (List.range (art_tab.m - 1)).find?
          (fun i => art_tab.basis_at i ≥ tab.n) with
      | none => some (Step3.phase_II art_tab tab)
      | some art_var_row =>
        match (List.range (tab.n - 1)).find?
            (fun j => (art_tab.at_ art_var_row j).ne 0) with
        | none =>
          match art_tab.delete_row art_var_row with
          | none => some (Step3.failed Outcome.abort tab)
          | some art_tab1 =>
            match tab.delete_row art_var_row with
            | none => some (Step3.failed Outcome.abort tab)
            | some tab1 => step_3 cost fuel art_tab1 tab1
        | some not_null_elem_column =>
          match art_tab.pivot art_var_row not_null_elem_column with
          | none => some (Step3.failed Outcome.abort tab)
          | some art_tab1 => step_3 cost fuel art_tab1 tab

/-- Phase II of `two_phase`: copy rows and basis from the auxiliary tableau,
canonicalize, run the simplex. -/
def phase_II (fuel : Nat) (art_tab tab : Tableau) : Option (Outcome × Tableau) :=
  -- copy the relevant rows into the original tableau
  let tab1 : Tableau :=
    (List.range (tab.m - 1)).foldl
      (fun s1 i => (List.range tab.n).foldl
        (fun (s2 : Tableau) j =>
          { s2 with toMatrix := s2.toMatrix.at_set i j (art_tab.at_ i j) }) s1)
      tab
  -- set the found variables in basis
  let tab2 : Option Tableau :=
    (List.range (tab1.m - 1)).foldl
      (fun a (i : Nat) => a.bind (fun s => s.basis_at_set i (art_tab.basis_at i)))
      (some tab1)
  match tab2 with
  | none => some (Outcome.abort, tab1)
  | some tab3 =>
    match tab3.canonicalize with
    | none => some (Outcome.abort, tab3)
    | some tab4 => simplex fuel tab4

/-- `PrimalSimplex::two_phase`. -/
def two_phase (fuel : Nat) (tab : Tableau) : Option (Outcome × Tableau) :=
  -- step 1
  let tab1 : Tableau :=
    (List.range (tab.m - 1)).foldl
      (fun (s : Tableau) i =>
        if s.at_ i (s.n - 1) < 0 then { s with toMatrix := s.toMatrix.scale_row i (-1) }
        else s)
      tab
  -- step 2
  match search_usable_variables tab1 with
  | none => some (Outcome.abort, tab1)
  | some (tab2, found_indices) =>
    let art_columns := (tab2.m - 1) - found_indices
    match create_artificial_tableau tab2 art_columns with
    | none => some (Outcome.abort, tab2)
    | some art_tab =>
      match art_tab.canonicalize with
      | none => some (Outcome.abort, tab2)
      | some art_tab1 =>
        match simplex fuel art_tab1 with
        | none => none
        | some (Outcome.value cost, art_tab2) =>
          match step_3 cost fuel art_tab2 tab2 with
          | none => none
          | some (Step3.failed o tab3) => some (o, tab3)
          | some (Step3.phase_II art_tab3 tab3) => phase_II fuel art_tab3 tab3
        | some (o, _) => some (o, tab2)

/-- Phase I of `two_phase` up to the call of the simplex, read off the
definition of `two_phase`: the tableau after steps 1 and 2 and the
canonicalized auxiliary tableau; `none` when an assertion fails on the
way. -/
def auxiliary_problem (tab : Tableau) : Option (Tableau × Tableau) :=
  let tab1 : Tableau :=
    (List.range (tab.m - 1)).foldl
      (fun (s : Tableau) i =>
        if s.at_ i (s.n - 1) < 0 then { s with toMatrix := s.toMatrix.scale_row i (-1) }
        else s)
      tab
  match search_usable_variables tab1 with
  | none => none
  | some (tab2, found_indices) =>
    match create_artificial_tableau tab2 ((tab2.m - 1) - found_indices) with
    | none => none
    | some art_tab =>
      match art_tab.canonicalize with
      | none => none
      | some art_tab1 => some (tab2, art_tab1)

end PrimalSimplex

/-! ### Dual simplex on doubles (`dual.cc`) -/

namespace DualSimplex

/-- `check_correct_form`: no reduced cost is negative. -/
def check_correct_form (tab : Tableau) : Bool :=
  (List.range (tab.n - 1)).all (fun j => ¬ tab.at_ (tab.m - 1) j < 0)

/-- `test_feasibility`: no right-hand side of a constraint row is negative. -/
def test_feasibility (tab : Tableau) : Bool :=
  (List.range (tab.m - 1)).all (fun i => ¬ tab.at_ i (tab.n - 1) < 0)

/-- One iteration of the loop of `select_pivot_row` on the pair
`(min_index, min_index_col)`. -/
def pivot_row_step (tab : Tableau) (st : Int × Int) (i : Nat) : Int × Int :=
  if tab.at_ i (tab.n - 1) < 0 then
    if (tab.basis_at i : Int) < st.2 ∨ st.1 = -1 then ((i : Int), (tab.basis_at i : Int))
    else st
  else st

/-- `select_pivot_row`: among the rows of negative right-hand side, the one
whose basis column is smallest; `-1` when there is none. -/
def select_pivot_row (tab : Tableau) : Int :=
  ((List.range (tab.m - 1)).foldl (pivot_row_step tab) (-1, -1)).1

/-- `test_unlimited`: returns 0 at the first negative entry of the row (the
last column excluded), else 1. -/
def test_unlimited (tab : Tableau) (entering_row : Nat) : Bool :=
  (List.range (tab.n - 1)).all (fun j => ¬ tab.at_ entering_row j < 0)

/-- One iteration of the loop of `select_pivot_column` on the pair
`(min_ratio, min_ratio_position)`. -/
def pivot_column_step (tab : Tableau) (i : Nat) (st : Double × Int) (j : Nat) : Double × Int :=
  if tab.at_ i j ≥ 0 then st
  else
    let r := tab.at_ (tab.m - 1) j / (- tab.at_ i j)
    if st.2 = -1 ∨ r < st.1 then (r, (j : Int)) else st

/-- `select_pivot_column`: the first column of minimal ratio among the
negative entries of row `i`; `-1` when there is none. -/
def select_pivot_column (tab : Tableau) (i : Nat) : Int :=
  ((List.range (tab.n - 1)).foldl (pivot_column_step tab i) (0, -1)).2

/-- The `step_2` loop of `DualSimplex::simplex`.  A negative `i` would fail
the assertion of `at` in `test_unlimited`. -/
def simplex_loop : Nat → Tableau → Option (Outcome × Tableau)
  | 0, _ => none
  | fuel + 1, tab =>
    if test_feasibility tab then
      some (Outcome.value (- tab.at_ (tab.m - 1) (tab.n - 1)), tab)
    else
      let i := select_pivot_row tab
      if i < 0 then some (Outcome.abort, tab)
      else if test_unlimited tab i.toNat then some (Outcome.unlimited, tab)
      else
        let j := select_pivot_column tab i.toNat
        match tab.basis_at_set i j with
        | none => some (Outcome.abort, tab)
        | some tab1 =>
          match tab1.pivot i j with
          | none => some (Outcome.abort, tab1)
          | some tab2 => simplex_loop fuel tab2

/-- `DualSimplex::simplex`. -/
def simplex (fuel : Nat) (tab : Tableau) : Option (Outcome × Tableau) :=
  if ¬ check_correct_form tab then some (Outcome.invalidForm, tab)
  else simplex_loop fuel tab

end DualSimplex

/-- One pass through the loop body of `PrimalSimplex::simplex`, read off the
definition of `simplex`: the tableau the next pass starts from, or `none`
when the run ends in this pass. -/
def PrimalSimplex.next_tableau (tab : Tableau) : Option Tableau :=
  if PrimalSimplex.test_optimality tab then none
  else
    match PrimalSimplex.select_entering_column tab with
    | none => none
    | some j =>
      if PrimalSimplex.test_unlimited tab j then none
      else
        let i := PrimalSimplex.select_exiting_column tab j
        match tab.basis_at_set i j with
        | none => none
        | some tab1 => tab1.pivot i j

/-- One pass through the loop body of `DualSimplex::simplex`, read off the
definition of `simplex_loop`: the tableau the next pass starts from, or
`none` when the run ends in this pass. -/
def DualSimplex.next_tableau (tab : Tableau) : Option Tableau :=
  if DualSimplex.test_feasibility tab then none
  else
    let i := DualSimplex.select_pivot_row tab
    if i < 0 then none
    else if DualSimplex.test_unlimited tab i.toNat then none
    else
      let j := DualSimplex.select_pivot_column tab i.toNat
      match tab.basis_at_set i j with
      | none => none
      | some tab1 => tab1.pivot i j

/-- The state `(tab, found_indices)` of `search_usable_variables` when its
outer loop has examined the columns `0..k-1`. -/
def PrimalSimplex.usable_upto (tab : Tableau) (k : Nat) : Option (Tableau × Nat) :=
  (List.range k).foldl PrimalSimplex.usable_step (some (tab, 0))

end Dbl

/-! ## The program in exact arithmetic

The same functions over `ℚ`: every `Double` of the embedding above is a
rational, every operation is exact.
-/


/-! ### Dense matrix in exact arithmetic (`matrix.h`, `matrix.cc`) -/

/-- Dense matrix: `_m`, `_n` and the row-major `buffer`. -/
structure Matrix where
  m : Nat
  n : Nat
  buffer : List ℚ
deriving DecidableEq, Repr

namespace Matrix

/-- Getter `Matrix::at(i, j)`: `buffer[i * _n + j]`. -/
def at_ (M : Matrix) (i j : Nat) : ℚ := M.buffer.getD (i * M.n + j) 0

/-- Setter `Matrix::at(i, j, val)`: `buffer[i * _n + j] = val`. -/
def at_set (M : Matrix) (i j : Nat) (val : ℚ) : Matrix :=
  { M with buffer := M.buffer.set (i * M.n + j) val }

/-- `Matrix::swap_rows`. -/
def swap_rows (M : Matrix) (row1 row2 : Nat) : Matrix :=
  (List.range M.n).foldl
    (fun A j =>
      let temp := A.at_ row1 j
      (A.at_set row1 j (A.at_ row2 j)).at_set row2 j temp)
    M

/-- `Matrix::scale_row`. -/
def scale_row (M : Matrix) (row : Nat) (k : ℚ) : Matrix :=
  (List.range M.n).foldl (fun A j => A.at_set row j (A.at_ row j * k)) M

/-- `Matrix::add_premultiplied_row`. -/
def add_premultiplied_row (M : Matrix) (src : Nat) (k : ℚ) (dst : Nat) : Matrix :=
  (List.range M.n).foldl
    (fun A j => A.at_set dst j (A.at_ dst j + A.at_ src j * k)) M

/-- `new Matrix(m, n, NULL)`: the zero-filled matrix. -/
def zeros (m n : Nat) : Matrix :=
  { m := m, n := n, buffer := List.replicate (m * n) 0 }

/-- The auxiliary matrix of `Matrix::invert`: zero-filled, then ones on the
diagonal. -/
def identity (m n : Nat) : Matrix :=
  (List.range n).foldl (fun A j => A.at_set j j 1) (zeros m n)

/-- Pivot search of `Matrix::invert` in column `j`: the first row `i >= j`
with `at(i, j) != 0.0`. -/
def find_pivot_row (M : Matrix) (j : Nat) : Option Nat :=
  (List.range' j (M.m - j)).find? (fun i => M.at_ i j ≠ 0)

/-- Body of the column loop of `Matrix::invert` on the pair (matrix,
auxiliary matrix): `none` when the column has no pivot (`pivot == 0.0`). -/
def invert_column (st : Matrix × Matrix) (j : Nat) : Option (Matrix × Matrix) :=
  match find_pivot_row st.1 j with
  | none => none
  | some i =>
    let pivot := st.1.at_ i j
    -- move the pivot in the correct position
    let st1 : Matrix × Matrix :=
      if j ≠ i then (st.1.swap_rows j i, st.2.swap_rows j i) else st
    -- scale the pivot to assume value 1.0
    let st2 : Matrix × Matrix :=
      (st1.1.scale_row j (1 / pivot), st1.2.scale_row j (1 / pivot))
    -- nullify every element in the column that is not the pivot
    some ((List.range st2.1.m).foldl
      (fun (s : Matrix × Matrix) i =>
        if i = j then s
        else
          let value := s.1.at_ i j
          let multiplier := -1 * value
          (s.1.add_premultiplied_row j multiplier i,
            s.2.add_premultiplied_row j multiplier i))
      st2)

end Matrix

/-- How `Matrix::invert` leaves: `inverted` after the final `memcpy`, or
`singular j` when it prints its error and returns at column `j`; either way
with the matrix as the call leaves it. -/
inductive InvertResult where
  | inverted (M : Matrix)
  | singular (j : Nat) (M : Matrix)
deriving DecidableEq, Repr

namespace Matrix

/-- The column loop of `Matrix::invert` over the columns `js`, with the
early return and the final `memcpy` of `m * n` entries. -/
def invert_loop : List Nat → Matrix × Matrix → InvertResult
  | [], st =>
    InvertResult.inverted
      { st.1 with buffer :=
          st.2.buffer.take (st.1.m * st.1.n) ++ st.1.buffer.drop (st.1.m * st.1.n) }
  | j :: js, st =>
    match invert_column st j with
    | none => InvertResult.singular j st.1
    | some st1 => invert_loop js st1

/-- `Matrix::invert`; the assertion `m() == n()` is checked. -/
def invert (M : Matrix) : Option InvertResult :=
  if M.m = M.n then some (invert_loop (List.range M.n) (M, identity M.m M.n))
  else none

/-- `Matrix::multiply_by`; the assertion `n() == mat->m()` is checked. -/
def multiply_by (M mat : Matrix) : Option Matrix :=
  if M.n = mat.m then
    let result := zeros M.m mat.n
    some ((List.range result.m).foldl
      (fun r i => (List.range result.n).foldl
        (fun r1 j => (List.range M.n).foldl
          (fun r2 z => r2.at_set i j (r2.at_ i j + M.at_ i z * mat.at_ z j)) r1) r)
      result)
  else none

end Matrix

/-! ### Tableau in exact arithmetic (`tableau.h`, `tableau.cc`) -/

/-- Tableau: a matrix with the basis map `basis_indices` and its
`basis_indices_set` flags (one entry per constraint row). -/
structure Tableau extends Matrix where
  basis_indices : List Nat
  basis_indices_set : List Bool
deriving DecidableEq, Repr

/-- Constructor `Tableau(m, n, buffer, indices)`: with a basis array every
row is marked set, without one (`NULL`) the arrays are zero-filled. -/
def Tableau.new (m n : Nat) (buffer : List ℚ) (indices : Option (List Nat)) : Tableau :=
  match indices with
  | some ix =>
    { m := m, n := n, buffer := buffer,
      basis_indices := ix, basis_indices_set := List.replicate (m - 1) true }
  | none =>
    { m := m, n := n, buffer := buffer,
      basis_indices := List.replicate (m - 1) 0,
      basis_indices_set := List.replicate (m - 1) false }

namespace Tableau

/-- Entry `(i, j)` of the tableau (inherited `Matrix::at`). -/
def at_ (t : Tableau) (i j : Nat) : ℚ := t.toMatrix.at_ i j

/-- Getter `basis_at(i)`. -/
def basis_at (t : Tableau) (i : Nat) : Nat := t.basis_indices.getD i 0

/-- Getter `basis_set_at(i)`. -/
def basis_set_at (t : Tableau) (i : Nat) : Bool := t.basis_indices_set.getD i false

/-- Setter `basis_at(i, col)`; its assertion
`i >= 0 && i < m() - 1 && col >= 0 && col < n() - 1` is checked. -/
def basis_at_set (t : Tableau) (i : Int) (col : Int) : Option Tableau :=
  if 0 ≤ i ∧ i < (t.m : Int) - 1 ∧ 0 ≤ col ∧ col < (t.n : Int) - 1 then
    some { t with
      basis_indices_set := t.basis_indices_set.set i.toNat true
      basis_indices := t.basis_indices.set i.toNat col.toNat }
  else none

/-- Body of `Tableau::pivot` once its assertion holds. -/
def pivot_body (t : Tableau) (row col : Nat) : Tableau :=
  let pivot := t.at_ row col
  let t1 : Tableau :=
    if pivot ≠ 1 then { t with toMatrix := t.toMatrix.scale_row row (1 / pivot) } else t
  (List.range t1.m).foldl
    (fun a i =>
      if i = row then a
      else
        let value := a.at_ i col
        if value = 0 then a
        else
          let multiplier := -1 * value
          { a with toMatrix := a.toMatrix.add_premultiplied_row row multiplier i })
    t1

/-- `Tableau::pivot(row, col)`; the assertion
`row >= 0 && col >= 0 && row < m() - 1 && col < n() - 1` is checked. -/
def pivot (t : Tableau) (row col : Int) : Option Tableau :=
  if 0 ≤ row ∧ 0 ≤ col ∧ row < (t.m : Int) - 1 ∧ col < (t.n : Int) - 1 then
    some (t.pivot_body row.toNat col.toNat)
  else none

/-- `Tableau::canonicalize`: pivot on `(i, basis_indices[i])` for every
constraint row, in row order. -/
def canonicalize (t : Tableau) : Option Tableau :=
  (List.range (t.m - 1)).foldl
    (fun a (i : Nat) => a.bind (fun s => s.pivot (i : Int) (s.basis_indices.getD i 0 : Nat)))
    (some t)

/-- Loop of `Tableau::delete_row`: `swap_rows(i, i+1)` and, while
`i < m() - 2`, `basis_at(i, basis_at(i+1))` (whose assertion is checked). -/
def delete_row_loop (row : Nat) (t : Tableau) : Option Tableau :=
  (List.range' row (t.m - 1 - row)).foldl
    (fun a (i : Nat) => a.bind (fun s =>
      let s1 : Tableau := { s with toMatrix := s.toMatrix.swap_rows i (i + 1) }
      if (i : Int) < (s1.m : Int) - 2 then s1.basis_at_set i (s1.basis_at (i + 1))
      else some s1))
    (some t)

/-- `Tableau::delete_row(row)`; the assertion `row >= 0 && row <= m() - 1`
is checked.  The buffer and the basis arrays keep their allocated size. -/
def delete_row (t : Tableau) (row : Int) : Option Tableau :=
  if 0 ≤ row ∧ row ≤ (t.m : Int) - 1 then
    (delete_row_loop row.toNat t).map (fun s => { s with m := s.m - 1 })
  else none

/-- The first `k` passes of the loop of `Tableau::canonicalize`. -/
def canonicalize_upto (t : Tableau) (k : Nat) : Option Tableau :=
  (List.range k).foldl
    (fun a (i : Nat) => a.bind (fun s => s.pivot (i : Int) (s.basis_indices.getD i 0 : Nat)))
    (some t)

end Tableau

/-- How a solver run ends: a returned cost or one of the raised failures;
`abort` is a failed assertion. -/
inductive Outcome where
  | value (cost : ℚ)
  | unlimited
  | invalidForm
  | impossible
  | abort
deriving DecidableEq, Repr

/-! ### Primal simplex in exact arithmetic (`simplex.cc`) -/

namespace PrimalSimplex

/-- `test_optimality`: no reduced cost (objective row, columns `0..n-2`) is
negative. -/
def test_optimality (tab : Tableau) : Bool :=
  (List.range (tab.n - 1)).all (fun j => ¬ tab.at_ (tab.m - 1) j < 0)

/-- `select_entering_column`: the first column with a negative reduced cost;
`none` is the `assert(0)` after the loop. -/
def select_entering_column (tab : Tableau) : Option Nat :=
  (List.range (tab.n - 1)).find? (fun j => tab.at_ (tab.m - 1) j < 0)

/-- `test_unlimited`: returns 0 at the first constraint row whose entry in
the entering column is `>= 0`, else 1. -/
def test_unlimited (tab : Tableau) (entering_column : Nat) : Bool :=
  (List.range (tab.m - 1)).all (fun i => ¬ tab.at_ i entering_column ≥ 0)

/-- One iteration of the loop of `select_exiting_column` on the pair
`(min_ratio, min_ratio_position)`. -/
def exiting_step (tab : Tableau) (j : Nat) (st : ℚ × Int) (i : Nat) : ℚ × Int :=
  if tab.at_ i j ≤ 0 then st
  else
    let r := tab.at_ i (tab.n - 1) / tab.at_ i j
    if st.2 = -1 ∨ r < st.1 ∨
        (r = st.1 ∧ tab.basis_at i < tab.basis_at st.2.toNat) then (r, (i : Int))
    else st

/-- `select_exiting_column`: the row of the minimal ratio, ties broken by the
smaller basis column; `-1` when no row has a positive entry. -/
def select_exiting_column (tab : Tableau) (j : Nat) : Int :=
  ((List.range (tab.m - 1)).foldl (exiting_step tab j) (0, -1)).2

/-- `PrimalSimplex::simplex`; the result is the outcome and the tableau as
the run leaves it. -/
def simplex : Nat → Tableau → Option (Outcome × Tableau)
  | 0, _ => none
  | fuel + 1, tab =>
    if test_optimality tab then
      some (Outcome.value (- tab.at_ (tab.m - 1) (tab.n - 1)), tab)
    else
      match select_entering_column tab with
      | none => some (Outcome.abort, tab)
      | some j =>
        if test_unlimited tab j then some (Outcome.unlimited, tab)
        else
          let i := select_exiting_column tab j
          match tab.basis_at_set i j with
          | none => some (Outcome.abort, tab)
          | some tab1 =>
            match tab1.pivot i j with
            | none => some (Outcome.abort, tab1)
            | some tab2 => simplex fuel tab2

/-- Inner loop of `search_usable_variables` over the constraint rows of
column `j`, on the pair `(elem_row, positive_elements)`, with its `break`s. -/
def usable_scan (tab : Tableau) (j : Nat) : List Nat → Int × Nat → Int × Nat
  | [], st => st
  | i :: rest, st =>
    if tab.at_ i j < 0 then (st.1, 0)
    else
      let st1 : Int × Nat := if tab.at_ i j > 0 then ((i : Int), st.2 + 1) else st
      if st1.2 > 1 then st1 else usable_scan tab j rest st1

/-- One iteration of the outer loop of `search_usable_variables` on the pair
`(tab, found_indices)`; `none` is a failed assertion of `basis_at`. -/
def usable_step (st : Option (Tableau × Nat)) (j : Nat) : Option (Tableau × Nat) :=
  st.bind (fun p =>
    let tab := p.1
    let found_indices := p.2
    if (found_indices : Int) ≥ (tab.m : Int) - 1 then some p
    else
      let sc := usable_scan tab j (List.range (tab.m - 1)) (-1, 0)
      let elem_row := sc.1
      if sc.2 = 1 then
        if tab.basis_set_at elem_row.toNat = false then
          (tab.basis_at_set elem_row j).map (fun tab1 =>
            let value := tab1.at_ elem_row.toNat j
            ({ tab1 with toMatrix := tab1.toMatrix.scale_row elem_row.toNat (1 / value) },
              found_indices + 1))
        else some p
      else some p)

/-- `search_usable_variables`: the tableau as it is left and the count
returned. -/
def search_usable_variables (tab : Tableau) : Option (Tableau × Nat) :=
  (List.range (tab.n - 1)).foldl usable_step (some (tab, 0))

/-- `create_artificial_tableau(orig_tab, art_columns)`. -/
def create_artificial_tableau (orig_tab : Tableau) (art_columns : Nat) : Option Tableau :=
  let m := orig_tab.m
  let n := orig_tab.n
  let art0 : Tableau :=
    Tableau.new m (n + art_columns) (List.replicate (m * (n + art_columns)) 0) none
  -- fill the basis indices
  let art1 : Option Tableau :=
    (List.range (m - 1)).foldl
      (fun a (i : Nat) => a.bind (fun s =>
        if orig_tab.basis_set_at i then s.basis_at_set i (orig_tab.basis_at i) else some s))
      (some art0)
  -- fill the matrix
  let art2 : Option Tableau := art1.map (fun s =>
    (List.range (m - 1)).foldl
      (fun s1 i => (List.range (n - 1)).foldl
        (fun (s2 : Tableau) j =>
          { s2 with toMatrix := s2.toMatrix.at_set i j (orig_tab.at_ i j) }) s1)
      s)
  -- the artificial columns
  let art3 : Option Tableau :=
    (List.range (m - 1)).foldl
      (fun a (i : Nat) => (List.range' (n - 1) art_columns).foldl
        (fun a1 (j : Nat) => a1.bind (fun (s : Tableau) =>
          if s.basis_set_at i = false ∧ j - (n - 1) = i then
            ({ s with toMatrix := s.toMatrix.at_set i j 1 } : Tableau).basis_at_set i j
          else some s))
        a)
      art2
  -- the cost function of the artificial variables
  let art4 : Option Tableau := art3.map (fun s =>
    (List.range' (n - 1) art_columns).foldl
      (fun (s1 : Tableau) j => { s1 with toMatrix := s1.toMatrix.at_set (m - 1) j 1 }) s)
  -- the values of the variables column
  art4.map (fun s =>
    (List.range (m - 1)).foldl
      (fun (s1 : Tableau) i =>
        { s1 with toMatrix :=
            s1.toMatrix.at_set i ((n - 1) + art_columns) (orig_tab.at_ i (n - 1)) })
      s)

/-- Where the `step_3` loop of `two_phase` leaves: a raised failure, or the
jump to `phase_II` with the two tableaux. -/
inductive Step3 where
  | failed (o : Outcome) (tab : Tableau)
  | phase_II (art_tab tab : Tableau)
deriving DecidableEq, Repr

/-- The `step_3` loop of `two_phase`. -/
def step_3 (cost : ℚ) : Nat → Tableau → Tableau → Option Step3
  | 0, _, _ => none
  | fuel + 1, art_tab, tab =>
    if cost > 0 then some (Step3.failed Outcome.impossible tab)
    else
      match (List.range (art_tab.m - 1)).find?
          (fun i => art_tab.basis_at i ≥ tab.n) with
      | none => some (Step3.phase_II art_tab tab)
      | some art_var_row =>
        match (List.range (tab.n - 1)).find?
            (fun j => art_tab.at_ art_var_row j ≠ 0) with
        | none =>
          match art_tab.delete_row art_var_row with
          | none => some (Step3.failed Outcome.abort tab)
          | some art_tab1 =>
            match tab.delete_row art_var_row with
            | none => some (Step3.failed Outcome.abort tab)
            | some tab1 => step_3 cost fuel art_tab1 tab1
        | some not_null_elem_column =>
          match art_tab.pivot art_var_row not_null_elem_column with
          | none => some (Step3.failed Outcome.abort tab)
          | some art_tab1 => step_3 cost fuel art_tab1 tab

/-- Phase II of `two_phase`: copy rows and basis from the auxiliary tableau,
canonicalize, run the simplex. -/
def phase_II (fuel : Nat) (art_tab tab : Tableau) : Option (Outcome × Tableau) :=
  -- copy the relevant rows into the original tableau
  let tab1 : Tableau :=
    (List.range (tab.m - 1)).foldl
      (fun s1 i => (List.range tab.n).foldl
        (fun (s2 : Tableau) j =>
          { s2 with toMatrix := s2.toMatrix.at_set i j (art_tab.at_ i j) }) s1)
      tab
  -- set the found variables in basis
  let tab2 : Option Tableau :=
    (List.range (tab1.m - 1)).foldl
      (fun a (i : Nat) => a.bind (fun s => s.basis_at_set i (art_tab.basis_at i)))
      (some tab1)
  match tab2 with
  | none => some (Outcome.abort, tab1)
  | some tab3 =>
    match tab3.canonicalize with
    | none => some (Outcome.abort, tab3)
    | some tab4 => simplex fuel tab4

/-- `PrimalSimplex::two_phase`. -/
def two_phase (fuel : Nat) (tab : Tableau) : Option (Outcome × Tableau) :=
  -- step 1
  let tab1 : Tableau :=
    (List.range (tab.m - 1)).foldl
      (fun (s : Tableau) i =>
        if s.at_ i (s.n - 1) < 0 then { s with toMatrix := s.toMatrix.scale_row i (-1) }
        else s)
      tab
  -- step 2
  match search_usable_variables tab1 with
  | none => some (Outcome.abort, tab1)
  | some (tab2, found_indices) =>
    let art_columns := (tab2.m - 1) - found_indices
    match create_artificial_tableau tab2 art_columns with
    | none => some (Outcome.abort, tab2)
    | some art_tab =>
      match art_tab.canonicalize with
      | none => some (Outcome.abort, tab2)
      | some art_tab1 =>
        match simplex fuel art_tab1 with
        | none => none
        | some (Outcome.value cost, art_tab2) =>
          match step_3 cost fuel art_tab2 tab2 with
          | none => none
          | some (Step3.failed o tab3) => some (o, tab3)
          | some (Step3.phase_II art_tab3 tab3) => phase_II fuel art_tab3 tab3
        | some (o, _) => some (o, tab2)

/-- Phase I of `two_phase` up to the call of the simplex, read off the
definition of `two_phase`: the tableau after steps 1 and 2 and the
canonicalized auxiliary tableau; `none` when an assertion fails on the
way. -/
def auxiliary_problem (tab : Tableau) : Option (Tableau × Tableau) :=
  let tab1 : Tableau :=
    (List.range (tab.m - 1)).foldl
      (fun (s : Tableau) i =>
        if s.at_ i (s.n - 1) < 0 then { s with toMatrix := s.toMatrix.scale_row i (-1) }
        else s)
      tab
  match search_usable_variables tab1 with
  | none => none
  | some (tab2, found_indices) =>
    match create_artificial_tableau tab2 ((tab2.m - 1) - found_indices) with
    | none => none
    | some art_tab =>
      match art_tab.canonicalize with
      | none => none
      | some art_tab1 => some (tab2, art_tab1)

end PrimalSimplex

/-! ### Dual simplex in exact arithmetic (`dual.cc`) -/

namespace DualSimplex

/-- `check_correct_form`: no reduced cost is negative. -/
def check_correct_form (tab : Tableau) : Bool :=
  (List.range (tab.n - 1)).all (fun j => ¬ tab.at_ (tab.m - 1) j < 0)

/-- `test_feasibility`: no right-hand side of a constraint row is negative. -/
def test_feasibility (tab : Tableau) : Bool :=
  (List.range (tab.m - 1)).all (fun i => ¬ tab.at_ i (tab.n - 1) < 0)

/-- One iteration of the loop of `select_pivot_row` on the pair
`(min_index, min_index_col)`. -/
def pivot_row_step (tab : Tableau) (st : Int × Int) (i : Nat) : Int × Int :=
  if tab.at_ i (tab.n - 1) < 0 then
    if (tab.basis_at i : Int) < st.2 ∨ st.1 = -1 then ((i : Int), (tab.basis_at i : Int))
    else st
  else st

/-- `select_pivot_row`: among the rows of negative right-hand side, the one
whose basis column is smallest; `-1` when there is none. -/
def select_pivot_row (tab : Tableau) : Int :=
  ((List.range (tab.m - 1)).foldl (pivot_row_step tab) (-1, -1)).1

/-- `test_unlimited`: returns 0 at the first negative entry of the row (the
last column excluded), else 1. -/
def test_unlimited (tab : Tableau) (entering_row : Nat) : Bool :=
  (List.range (tab.n - 1)).all (fun j => ¬ tab.at_ entering_row j < 0)

/-- One iteration of the loop of `select_pivot_column` on the pair
`(min_ratio, min_ratio_position)`. -/
def pivot_column_step (tab : Tableau) (i : Nat) (st : ℚ × Int) (j : Nat) : ℚ × Int :=
  if tab.at_ i j ≥ 0 then st
  else
    let r := tab.at_ (tab.m - 1) j / (- tab.at_ i j)
    if st.2 = -1 ∨ r < st.1 then (r, (j : Int)) else st

/-- `select_pivot_column`: the first column of minimal ratio among the
negative entries of row `i`; `-1` when there is none. -/
def select_pivot_column (tab : Tableau) (i : Nat) : Int :=
  ((List.range (tab.n - 1)).foldl (pivot_column_step tab i) (0, -1)).2

/-- The `step_2` loop of `DualSimplex::simplex`.  A negative `i` would fail
the assertion of `at` in `test_unlimited`. -/
def simplex_loop : Nat → Tableau → Option (Outcome × Tableau)
  | 0, _ => none
  | fuel + 1, tab =>
    if test_feasibility tab then
      some (Outcome.value (- tab.at_ (tab.m - 1) (tab.n - 1)), tab)
    else
      let i := select_pivot_row tab
      if i < 0 then some (Outcome.abort, tab)
      else if test_unlimited tab i.toNat then some (Outcome.unlimited, tab)
      else
        let j := select_pivot_column tab i.toNat
        match tab.basis_at_set i j with
        | none => some (Outcome.abort, tab)
        | some tab1 =>
          match tab1.pivot i j with
          | none => some (Outcome.abort, tab1)
          | some tab2 => simplex_loop fuel tab2

/-- `DualSimplex::simplex`. -/
def simplex (fuel : Nat) (tab : Tableau) : Option (Outcome × Tableau) :=
  if ¬ check_correct_form tab then some (Outcome.invalidForm, tab)
  else simplex_loop fuel tab

end DualSimplex

/-! ## Specification vocabulary -/

/-- The buffer holds the `m * n` entries (the constructor allocates exactly
that many; `delete_row` lowers `m` and keeps the allocation). -/
def Matrix.wf (M : Matrix) : Prop := M.m * M.n ≤ M.buffer.length

/-- A tableau as the constructor builds it: at least the objective row and
the right-hand-side column, a buffer of `m * n` entries and basis arrays
with one entry per constraint row. -/
def Tableau.wf (t : Tableau) : Prop :=
  1 ≤ t.m ∧ 1 ≤ t.n ∧ t.toMatrix.wf ∧
    t.m - 1 ≤ t.basis_indices.length ∧ t.m - 1 ≤ t.basis_indices_set.length

/-- Canonical form for the declared basis: for every constraint row `i`,
column `basis[i]` is a structural column holding 1 in row `i` and 0 in every
other row, the objective row included. -/
def Tableau.canonical (t : Tableau) : Prop :=
  ∀ i, i < t.m - 1 →
    t.basis_at i < t.n - 1 ∧ t.at_ i (t.basis_at i) = 1 ∧
      ∀ k, k < t.m → k ≠ i → t.at_ k (t.basis_at i) = 0

/-- Every constraint right-hand side is `>= 0` (primal feasibility of the
basic solution). -/
def Tableau.rhs_nonneg (t : Tableau) : Prop :=
  ∀ i, i < t.m - 1 → 0 ≤ t.at_ i (t.n - 1)

/-- Every reduced cost (objective row, columns `0..n-2`) is `>= 0` (dual
feasibility). -/
def Tableau.costs_nonneg (t : Tableau) : Prop :=
  ∀ j, j < t.n - 1 → 0 ≤ t.at_ (t.m - 1) j

/-- Left-hand side of row `i` at `x`: `sum_j a_ij * x_j` over the structural
columns. -/
def Tableau.row_dot (t : Tableau) (i : Nat) (x : Nat → ℚ) : ℚ :=
  ∑ j in Finset.range (t.n - 1), t.at_ i j * x j

/-- The vector `x` satisfies every constraint row:
`sum_j a_ij * x_j = b_i`. -/
def Tableau.satisfies (t : Tableau) (x : Nat → ℚ) : Prop :=
  ∀ i, i < t.m - 1 → t.row_dot i x = t.at_ i (t.n - 1)

/-- Feasible point of the linear program of the tableau: `x >= 0` on the
structural columns and every constraint row satisfied. -/
def Tableau.feasible (t : Tableau) (x : Nat → ℚ) : Prop :=
  (∀ j, j < t.n - 1 → 0 ≤ x j) ∧ t.satisfies x

/-- The objective-row functional `c.x - r`, with `[c | r]` the objective
row. -/
def Tableau.objective (t : Tableau) (x : Nat → ℚ) : ℚ :=
  t.row_dot (t.m - 1) x - t.at_ (t.m - 1) (t.n - 1)

/-- The tableau `t'` holds the entries a pivot of `t` on `(r, c)` produces:
row `r` divided by the pivot, every other row minus its multiple of the
scaled row `r`. -/
def Tableau.pivoted (t t' : Tableau) (r c : Nat) : Prop :=
  t'.m = t.m ∧ t'.n = t.n ∧
    ∀ i j, i < t.m → j < t.n →
      t'.at_ i j =
        if i = r then t.at_ r j / t.at_ r c
        else t.at_ i j - t.at_ i c * (t.at_ r j / t.at_ r c)

/-- The tableaux `t` and `t'` describe the same linear program: same shape,
same solutions of the constraint rows, same objective functional on them. -/
def Tableau.same_lp (t t' : Tableau) : Prop :=
  t'.m = t.m ∧ t'.n = t.n ∧ (∀ x, t'.satisfies x ↔ t.satisfies x) ∧
    ∀ x, t.satisfies x → t'.objective x = t.objective x

/-- The basic solution of a tableau: the basic variable of row `i` takes the
right-hand side of row `i`, every other variable is 0. -/
def Tableau.basic_solution (t : Tableau) (j : Nat) : ℚ :=
  ∑ i in Finset.range (t.m - 1), if t.basis_at i = j then t.at_ i (t.n - 1) else 0

/-- The set of basis columns of the constraint rows. -/
def Tableau.basis_set (t : Tableau) : Finset Nat :=
  (Finset.range (t.m - 1)).image t.basis_at

/-- One pass through the loop body of `DualSimplex::simplex`, read off the
definition of `simplex_loop`: the tableau the next pass starts from, or
`none` when the run ends in this pass. -/
def DualSimplex.next_tableau (tab : Tableau) : Option Tableau :=
  if DualSimplex.test_feasibility tab then none
  else
    let i := DualSimplex.select_pivot_row tab
    if i < 0 then none
    else if DualSimplex.test_unlimited tab i.toNat then none
    else
      let j := DualSimplex.select_pivot_column tab i.toNat
      match tab.basis_at_set i j with
      | none => none
      | some tab1 => tab1.pivot i j

/-- The tableau at the start of pass `k` of the loop of the dual simplex (the
last tableau is repeated once the run has ended). -/
def DualSimplex.tableau_seq (tab : Tableau) : Nat → Tableau
  | 0 => tab
  | k + 1 =>
    (DualSimplex.next_tableau (DualSimplex.tableau_seq tab k)).getD
      (DualSimplex.tableau_seq tab k)

/-- A pivot step of the dual simplex from `t` to `t'` on row `r` and column
`s`, as the selection rules choose it: `r` has a negative right-hand side and
the smallest basis column among such rows; `s` has a negative entry in row
`r` and the smallest ratio, and is the first column of that ratio; `t'` is
`t` pivoted on `(r, s)` with `s` as the basis column of row `r`. -/
def Tableau.dual_step (t t' : Tableau) (r s : Nat) : Prop :=
  r < t.m - 1 ∧ s < t.n - 1 ∧ t.at_ r (t.n - 1) < 0 ∧
    (∀ k, k < t.m - 1 → t.at_ k (t.n - 1) < 0 →
      t.basis_at r < t.basis_at k ∨ (t.basis_at r = t.basis_at k ∧ r ≤ k)) ∧
    t.at_ r s < 0 ∧
    (∀ k, k < t.n - 1 → t.at_ r k < 0 →
      t.at_ (t.m - 1) s / (- t.at_ r s) < t.at_ (t.m - 1) k / (- t.at_ r k) ∨
        (t.at_ (t.m - 1) s / (- t.at_ r s) = t.at_ (t.m - 1) k / (- t.at_ r k) ∧ s ≤ k)) ∧
    t.pivoted t' r s ∧
    (∀ k, t'.basis_at k = if k = r then s else t.basis_at k)

/-- Every solution of the constraint rows of `t` is a solution of those of
`t'`, with the same value of the objective functional; same shape. -/
def Tableau.relaxes (t t' : Tableau) : Prop :=
  t'.m = t.m ∧ t'.n = t.n ∧
    ∀ x, t.satisfies x → t'.satisfies x ∧ t'.objective x = t.objective x

/-- The entry `(i, k)` of the product of `A` and `B`:
`sum_z A(i,z) * B(z,k)` over the `A.n` columns of `A`. -/
def Matrix.product_entry (A B : Matrix) (i k : Nat) : ℚ :=
  ∑ z in Finset.range A.n, A.at_ i z * B.at_ z k

/-- The matrix holds the identity: 1 on the diagonal, 0 elsewhere. -/
def Matrix.is_identity (M : Matrix) : Prop :=
  ∀ i j, i < M.m → j < M.n → M.at_ i j = if i = j then 1 else 0

/-- The square matrix `A` is invertible: some matrix of the same size
multiplied by `A` from the right gives the identity. -/
def Matrix.invertible (A : Matrix) : Prop :=
  ∃ B : Matrix, B.m = A.n ∧ B.n = A.n ∧
    ∀ i k, i < A.n → k < A.n → A.product_entry B i k = if i = k then 1 else 0

/-- The pair (matrix, auxiliary matrix) of the column loop of `invert` on
`A` before column `j`: both are `n x n`, the auxiliary matrix multiplied by
`A` gives the matrix, and the columns before `j` are unit columns. -/
def Matrix.eliminated (A : Matrix) (j : Nat) (s : Matrix × Matrix) : Prop :=
  s.1.wf ∧ s.2.wf ∧ s.1.m = A.n ∧ s.1.n = A.n ∧ s.2.m = A.n ∧ s.2.n = A.n ∧
    (∀ i k, i < A.n → k < A.n → s.2.product_entry A i k = s.1.at_ i k) ∧
    ∀ c, c < j → ∀ i, i < A.n → s.1.at_ i c = if i = c then 1 else 0

/-- Only the zero vector is sent to zero by every row of the matrix. -/
def Matrix.kernel_trivial (M : Matrix) : Prop :=
  ∀ v : Nat → ℚ, (∀ i, i < M.m → ∑ k in Finset.range M.n, M.at_ i k * v k = 0) →
    ∀ k, k < M.n → v k = 0

/-- One pass through the loop body of `PrimalSimplex::simplex`, read off the
definition of `simplex`: the tableau the next pass starts from, or `none`
when the run ends in this pass. -/
def PrimalSimplex.next_tableau (tab : Tableau) : Option Tableau :=
  if PrimalSimplex.test_optimality tab then none
  else
    match PrimalSimplex.select_entering_column tab with
    | none => none
    | some j =>
      if PrimalSimplex.test_unlimited tab j then none
      else
        let i := PrimalSimplex.select_exiting_column tab j
        match tab.basis_at_set i j with
        | none => none
        | some tab1 => tab1.pivot i j

/-- The state `(tab, found_indices)` of `search_usable_variables` when its
outer loop has examined the columns `0..k-1`. -/
def PrimalSimplex.usable_upto (tab : Tableau) (k : Nat) : Option (Tableau × Nat) :=
  (List.range k).foldl PrimalSimplex.usable_step (some (tab, 0))

/-- The original tableau at the start of phase II, read off the definition
of `phase_II`: after the copy of the rows and of the basis, before
`canonicalize`; `none` when an assertion of `basis_at` fails. -/
def PrimalSimplex.phase_II_start (art_tab tab : Tableau) : Option Tableau :=
  let tab1 : Tableau :=
    (List.range (tab.m - 1)).foldl
      (fun s1 i => (List.range tab.n).foldl
        (fun (s2 : Tableau) j =>
          { s2 with toMatrix := s2.toMatrix.at_set i j (art_tab.at_ i j) }) s1)
      tab
  (List.range (tab1.m - 1)).foldl
    (fun a (i : Nat) => a.bind (fun s => s.basis_at_set i (art_tab.basis_at i)))
    (some tab1)

/-- The number of constraint rows whose basic variable is set. -/
def Tableau.rows_set (t : Tableau) : Nat :=
  ((Finset.range (t.m - 1)).filter (fun i => t.basis_set_at i = true)).card

/-! ## Tableaux of the scenarios and of the unit tests -/

/-- Tableau 3 of `PrimalSimplex::test` ("impossible problem"). -/
def test_tableau_3 : Tableau :=
  Tableau.new 3 5 [1, 2, 0, 1, -5,  0, 1, 2, 0, 6,  1, 0, 1, 0, 0] none

/-- Scenario "infeasible": rows `[1,1|1]` and `[1,1|3]`, with the objective
row `[c0, c1 | r]`, no basis. -/
def scenario_infeasible (c0 c1 r : ℚ) : Tableau :=
  Tableau.new 3 3 [1, 1, 1,  1, 1, 3,  c0, c1, r] none

/-- The matrix `b2` of `Matrix::test`: the 3x3 anti-diagonal matrix of 3s. -/
def test_matrix_2 : Matrix :=
  { m := 3, n := 3, buffer := [0, 0, 3,  0, 3, 0,  3, 0, 0] }

/-- A singular matrix: `[[1, 1], [1, 1]]`. -/
def singular_matrix : Matrix :=
  { m := 2, n := 2, buffer := [1, 1,  1, 1] }

/-- The tableau `two_phase` leaves of tableau 3 of `PrimalSimplex::test`. -/
def test_tableau_3_final : Tableau :=
  { m := 3, n := 5, buffer := [-1, -2, 0, -1, 5,  0, 1 / 2, 1, 0, 3,  1, 0, 1, 0, 0],
    basis_indices := [0, 2], basis_indices_set := [false, true] }

/-- The auxiliary tableau built for the scenario "infeasible". -/
def scenario_infeasible_art : Tableau :=
  { m := 3, n := 5, buffer := [1, 1, 1, 0, 1,  1, 1, 0, 1, 3,  0, 0, 1, 1, 0],
    basis_indices := [2, 3], basis_indices_set := [true, true] }

/-- The canonicalized auxiliary tableau of the scenario "infeasible". -/
def scenario_infeasible_aux : Tableau :=
  { m := 3, n := 5, buffer := [1, 1, 1, 0, 1,  1, 1, 0, 1, 3,  -2, -2, 0, 0, -4],
    basis_indices := [2, 3], basis_indices_set := [true, true] }

/-- The auxiliary tableau of the scenario "infeasible" at its optimum. -/
def scenario_infeasible_aux_final : Tableau :=
  { m := 3, n := 5, buffer := [1, 1, 1, 0, 1,  0, 0, -1, 1, 2,  0, 0, 2, 0, -2],
    basis_indices := [0, 3], basis_indices_set := [true, true] }

/-- The canonicalized auxiliary tableau of tableau 3 of
`PrimalSimplex::test`. -/
def test_tableau_3_aux : Tableau :=
  { m := 3, n := 6,
    buffer := [-1, -2, 0, -1, 1, 5,  0, 1 / 2, 1, 0, 0, 3,  1, 2, 0, 1, 0, -5],
    basis_indices := [4, 2], basis_indices_set := [true, true] }

/-- The inverse of the matrix `b2` of `Matrix::test`. -/
def test_matrix_2_inverse : Matrix :=
  { m := 3, n := 3, buffer := [0, 0, 1 / 3,  0, 1 / 3, 0,  1 / 3, 0, 0] }

/-- The 3x3 identity matrix. -/
def identity_3 : Matrix :=
  { m := 3, n := 3, buffer := [1, 0, 0,  0, 1, 0,  0, 0, 1] }

/-- The matrix `invert` leaves of `singular_matrix`. -/
def singular_matrix_left : Matrix :=
  { m := 2, n := 2, buffer := [1, 1,  0, 0] }

/-- A tableau whose first row finds a basic variable in step 2 and whose
second row does not: rows `[1,1|2]`, `[0,1|1]`, zero objective row, no
basis. -/
def second_row_unset : Tableau :=
  Tableau.new 3 3 [1, 1, 2,  0, 1, 1,  0, 0, 0] none

/-- The tableau `search_usable_variables` leaves of `second_row_unset`. -/
def second_row_unset_found : Tableau :=
  { m := 3, n := 3, buffer := [1, 1, 2,  0, 1, 1,  0, 0, 0],
    basis_indices := [0, 0], basis_indices_set := [true, false] }

/-- The auxiliary tableau built for `second_row_unset`. -/
def second_row_unset_art : Tableau :=
  { m := 3, n := 4, buffer := [1, 1, 0, 2,  0, 1, 0, 1,  0, 0, 1, 0],
    basis_indices := [0, 0], basis_indices_set := [true, false] }

/-- A degenerate system: row `[-1,-1|0]`, zero objective row, no basis. -/
def degenerate_row : Tableau :=
  Tableau.new 2 3 [-1, -1, 0,  0, 0, 0] none

/-- The canonicalized auxiliary tableau of `degenerate_row`, which is also
the tableau the simplex ends with. -/
def degenerate_row_aux : Tableau :=
  { m := 2, n := 4, buffer := [-1, -1, 1, 0,  1, 1, 0, 0],
    basis_indices := [2], basis_indices_set := [true] }

/-- Two degenerate rows: `[-1,-1|0]` twice, zero objective row, no basis. -/
def degenerate_rows : Tableau :=
  Tableau.new 3 3 [-1, -1, 0,  -1, -1, 0,  0, 0, 0] none

/-- The canonicalized auxiliary tableau of `degenerate_rows`, which is also
the tableau the simplex ends with. -/
def degenerate_rows_aux : Tableau :=
  { m := 3, n := 5, buffer := [-1, -1, 1, 0, 0,  -1, -1, 0, 1, 0,  2, 2, 0, 0, 0],
    basis_indices := [2, 3], basis_indices_set := [true, true] }

/-- The auxiliary tableau of `degenerate_rows` after the pivot on `(1, 0)`
of case 3.3.2. -/
def degenerate_rows_pivoted : Tableau :=
  { m := 3, n := 5, buffer := [0, 0, 1, -1, 0,  1, 1, 0, -1, 0,  0, 0, 0, 2, 0],
    basis_indices := [2, 3], basis_indices_set := [true, true] }

/-- A feasible system without usable column: rows `[1,1|2]`, `[1,-1|0]`,
zero objective row, no basis. -/
def two_artificials : Tableau :=
  Tableau.new 3 3 [1, 1, 2,  1, -1, 0,  0, 0, 0] none

/-- The canonicalized auxiliary tableau of `two_artificials`. -/
def two_artificials_aux : Tableau :=
  { m := 3, n := 5, buffer := [1, 1, 1, 0, 2,  1, -1, 0, 1, 0,  -2, 0, 0, 0, -2],
    basis_indices := [2, 3], basis_indices_set := [true, true] }

/-- The auxiliary tableau of `two_artificials` at its optimum. -/
def two_artificials_aux_final : Tableau :=
  { m := 3, n := 5,
    buffer := [0, 1, 1 / 2, -1 / 2, 1,  1, 0, 1 / 2, 1 / 2, 1,  0, 0, 1, 1, 0],
    basis_indices := [1, 0], basis_indices_set := [true, true] }

/-- The tableau of `two_artificials` at the start of phase II. -/
def two_artificials_start : Tableau :=
  { m := 3, n := 3, buffer := [0, 1, 1 / 2,  1, 0, 1 / 2,  0, 0, 0],
    basis_indices := [1, 0], basis_indices_set := [true, true] }

/-- Scenario "bounded optimum": rows `[1,1,1,0|4]`, `[1,0,0,1|3]`, objective
row `[-1,-1,0,0|0]`, basis `{2,3}`. -/
def scenario_bounded : Tableau :=
  Tableau.new 3 5 [1, 1, 1, 0, 4,  1, 0, 0, 1, 3,  -1, -1, 0, 0, 0] (some [2, 3])

/-- The tableau the run on `scenario_bounded` ends with. -/
def scenario_bounded_final : Tableau :=
  { m := 3, n := 5, buffer := [0, 1, 1, -1, 1,  1, 0, 0, 1, 3,  0, 0, 1, 0, 4],
    basis_indices := [1, 0], basis_indices_set := [true, true] }

/-- Scenario "unbounded": row `[-1,1|0]`, objective row `[-1,0|0]`, basis
`{1}`. -/
def scenario_unbounded : Tableau :=
  Tableau.new 2 3 [-1, 1, 0,  -1, 0, 0] (some [1])

/-- A feasible canonical tableau whose entering column holds a zero and no
positive entry: row `[0,1|0]`, objective row `[-1,0|0]`, basis `{1}`. -/
def zero_column : Tableau :=
  Tableau.new 2 3 [0, 1, 0,  -1, 0, 0] (some [1])

/-- Tableau 1 of `PrimalSimplex::test`. -/
def test_tableau_1 : Tableau :=
  Tableau.new 3 5 [12, 8, 2, 0, 48,  6, -4, 0, 2, 12,  -1, -1, 0, 0, 0] (some [2, 3])

/-- Tableau 2 of `PrimalSimplex::test`: tableau 1 with the sum of its two
rows as a third row, and no basis. -/
def test_tableau_2 : Tableau :=
  Tableau.new 4 5
    [12, 8, 2, 0, 48,  6, -4, 0, 2, 12,  18, 4, 2, 2, 60,  -1, -1, 0, 0, 0] none

/-- The tableau of `DualSimplex::test`. -/
def dual_test_tableau : Tableau :=
  Tableau.new 3 6
    [-2, -2, -1, 1, 0, -6,  -1, -2, -3, 0, 1, -5,  3, 4, 5, 0, 0, 0] (some [3, 4])

/-- The tableau the run on `dual_test_tableau` ends with. -/
def dual_test_final : Tableau :=
  { m := 3, n := 6,
    buffer := [1, 0, -2, -1, 1, 1,  0, 1, 5 / 2, 1 / 2, -1, 2,  0, 0, 1, 1, 1, -11],
    basis_indices := [0, 1], basis_indices_set := [true, true] }

/-! ### Doubles and exact values -/

/-- The real values of a list of doubles, when all are finite. -/
def Double.values? : List Double → Option (List ℚ)
  | [] => some []
  | d :: ds =>
    match d.value?, Double.values? ds with
    | some q, some qs => some (q :: qs)
    | _, _ => none

/-- The matrix of the real values of a matrix of doubles, when all its
entries are finite. -/
def Dbl.Matrix.to_rat (M : Dbl.Matrix) : Option Simplex.Matrix :=
  (Double.values? M.buffer).map
    (fun b => ({ m := M.m, n := M.n, buffer := b } : Simplex.Matrix))

/-- The tableau of the real values of a tableau of doubles, with the same
basis, when all its entries are finite. -/
def Dbl.Tableau.to_rat (T : Dbl.Tableau) : Option Simplex.Tableau :=
  T.toMatrix.to_rat.map (fun M =>
    ({ toMatrix := M, basis_indices := T.basis_indices,
       basis_indices_set := T.basis_indices_set } : Simplex.Tableau))

/-- The outcome with the real value of the returned cost, when it is
finite. -/
def Dbl.Outcome.to_rat : Dbl.Outcome → Option Simplex.Outcome
  | Dbl.Outcome.value cost => cost.value?.map Simplex.Outcome.value
  | Dbl.Outcome.unlimited => some Simplex.Outcome.unlimited
  | Dbl.Outcome.invalidForm => some Simplex.Outcome.invalidForm
  | Dbl.Outcome.impossible => some Simplex.Outcome.impossible
  | Dbl.Outcome.abort => some Simplex.Outcome.abort

/-- The real values of the result of `invert` on doubles. -/
def Dbl.InvertResult.to_rat : Dbl.InvertResult → Option Simplex.InvertResult
  | Dbl.InvertResult.inverted M => M.to_rat.map Simplex.InvertResult.inverted
  | Dbl.InvertResult.singular j M => M.to_rat.map (Simplex.InvertResult.singular j)

/-- The matrix of doubles whose entries are the rationals of `M` (meant for
entries that are binary64 numbers, as the integers of the tests are). -/
def Matrix.to_double (M : Simplex.Matrix) : Dbl.Matrix :=
  { m := M.m, n := M.n, buffer := M.buffer.map Double.fin }

/-- The tableau of doubles whose entries are the rationals of `t`, with the
basis of `t`. -/
def Tableau.to_double (t : Simplex.Tableau) : Dbl.Tableau :=
  { toMatrix := t.toMatrix.to_double, basis_indices := t.basis_indices,
    basis_indices_set := t.basis_indices_set }

/-! ## Vocabulary on doubles and tableaux on which rounding shows -/

/-- Column `j` of the tableau of doubles is the unit vector of row `i`, as
the comparisons of the program see it: `at(i,j) == 1.0` and `at(k,j) == 0`
for every other row `k`. -/
def Dbl.Tableau.unit_column (T : Dbl.Tableau) (i j : Nat) : Prop :=
  (T.at_ i j).eq 1 = true ∧ ∀ k, k < T.m → k ≠ i → (T.at_ k j).eq 0 = true

/-- Canonical form for the declared basis, as the comparisons of the program
see it: for every constraint row `i`, column `basis[i]` is a structural
column with `at(i, basis[i]) == 1.0` and `at(k, basis[i]) == 0` in every
other row, the objective row included. -/
def Dbl.Tableau.canonical (T : Dbl.Tableau) : Prop :=
  ∀ i, i < T.m - 1 → T.basis_at i < T.n - 1 ∧ T.unit_column i (T.basis_at i)

/-- The entries of `Tableau(3, 3, {49,7,49, 7,1,7, 1,0,0}, NULL)`. -/
def pivot_residue : Tableau := Tableau.new 3 3 [49, 7, 49, 7, 1, 7, 1, 0, 0] none

/-- The entries of `Tableau(2, 3, {49,1,49, -1,0,0}, {0})`. -/
def canonicalize_residue : Tableau := Tableau.new 2 3 [49, 1, 49, -1, 0, 0] (some [0])

/-- The entries of `Tableau(2, 2, {3,1, 1,0}, NULL)`: the row `3 x0 = 1` and
the objective row `[1 | 0]`. -/
def third_row : Tableau := Tableau.new 2 2 [3, 1, 1, 0] none

/-- A tableau of doubles as the constructor builds it: at least the objective
row and the right-hand-side column, a buffer of `m * n` entries and basis
arrays with one entry per constraint row. -/
def Dbl.Tableau.wf (T : Dbl.Tableau) : Prop :=
  1 ≤ T.m ∧ 1 ≤ T.n ∧ T.m * T.n ≤ T.buffer.length ∧
    T.m - 1 ≤ T.basis_indices.length ∧ T.m - 1 ≤ T.basis_indices_set.length

/-- The entries of `Tableau(2, 3, {49,1,49, -1,0,0}, {1})`: canonical for
the basis `{1}`, right-hand side 49. -/
def iteration_residue : Tableau := Tableau.new 2 3 [49, 1, 49, -1, 0, 0] (some [1])

/-- The buffer of a matrix of doubles holds the `m * n` entries. -/
def Dbl.Matrix.wf (M : Dbl.Matrix) : Prop := M.m * M.n ≤ M.buffer.length

/-- The number of constraint rows of a tableau of doubles whose basic
variable is set. -/
def Dbl.Tableau.rows_set (t : Dbl.Tableau) : Nat :=
  ((Finset.range (t.m - 1)).filter (fun i => t.basis_set_at i = true)).card

/-- A finite binary64 number: a signed zero, or `fin q` with `q` a value the
format holds (rounding leaves it as it is). -/
def Double.finite : Double → Bool
  | Double.fin q => decide (Double.round q = Double.fin q)
  | Double.negzero => true
  | _ => false

/-- The entries of `Tableau(2, 3, {49,1,49, -1,0,0}, NULL)`. -/
def usable_residue : Tableau := Tableau.new 2 3 [49, 1, 49, -1, 0, 0] none

/-- The entries of `Tableau(2, 3, {10,1,3, -1,0,0}, {1})`: the row
`10 x0 + x1 = 3`, the objective row `[-1, 0 | 0]`, basis `{1}`. -/
def rounded_optimum : Tableau := Tableau.new 2 3 [10, 1, 3, -1, 0, 0] (some [1])

/-- The entries of `Tableau(3, 4, {10,1,0,3, 10,0,1,3, -1,0,0,0}, {1,2})`. -/
def rounded_rhs : Tableau :=
  Tableau.new 3 4 [10, 1, 0, 3, 10, 0, 1, 3, -1, 0, 0, 0] (some [1, 2])

/-- The entries of `Tableau(2, 4, {-5,-7,1,-3, 5,7,0,0}, {2})`: the row
`-5 x0 - 7 x1 + x2 = -3`, the objective row `[5, 7, 0 | 0]`, basis `{2}`. -/
def rounded_dual : Tableau := Tableau.new 2 4 [-5, -7, 1, -3, 5, 7, 0, 0] (some [2])

/-- The set of basis columns of the constraint rows of a tableau of
doubles. -/
def Dbl.Tableau.basis_set (T : Dbl.Tableau) : Finset Nat :=
  (Finset.range (T.m - 1)).image T.basis_at

/-- The tableau at the start of pass `k` of the loop of the dual simplex on
doubles (the last tableau is repeated once the run has ended). -/
def Dbl.DualSimplex.tableau_seq (tab : Dbl.Tableau) : Nat → Dbl.Tableau
  | 0 => tab
  | k + 1 =>
    (Dbl.DualSimplex.next_tableau (Dbl.DualSimplex.tableau_seq tab k)).getD
      (Dbl.DualSimplex.tableau_seq tab k)

/-- The entries of `Tableau(3, 3, {1,1,2, 3,1,4, 0,0,0}, NULL)`: the rows
`x0 + x1 = 2` and `3 x0 + x1 = 4`, satisfied by `x = (1, 1)`, and a zero
objective row. -/
def rounded_phase_one : Tableau := Tableau.new 3 3 [1, 1, 2, 3, 1, 4, 0, 0, 0] none

/-- The 1x1 matrix `[49]`. -/
def rounded_inverse : Matrix := { m := 1, n := 1, buffer := [49] }

/-- The matrix `[[0, 2], [4, 0]]`, whose inverse `[[0, 1/4], [1/2, 0]]` is
computed without rounding. -/
def exact_inverse : Matrix := { m := 2, n := 2, buffer := [0, 2, 4, 0] }

/-- The anti-diagonal 3x3 matrix of the double nearest to `1/3`, which is
`6004799503160661 / 2^54`. -/
def test_matrix_2_rounded : Dbl.Matrix :=
  { m := 3, n := 3,
    buffer := [0, 0, Double.fin (6004799503160661 / 18014398509481984),
      0, Double.fin (6004799503160661 / 18014398509481984), 0,
      Double.fin (6004799503160661 / 18014398509481984), 0, 0] }

/-- The matrix a matrix of doubles holds as the program compares: entry
`(i, j)` compares equal to `1.0` when `i = j` and to 0 otherwise. -/
def Dbl.Matrix.is_identity (M : Dbl.Matrix) : Prop :=
  ∀ i j, i < M.m → j < M.n → (M.at_ i j).eq (if i = j then 1 else 0) = true

/-! ## Entry-wise description of the matrix operations -/

theorem index_inj (n i j i' j' : Nat) (hj : j < n) (hj' : j' < n) :
    i * n + j = i' * n + j' ↔ i = i' ∧ j = j' := by
  constructor
  · intro h
    have h1 : (i * n + j) / n = (i' * n + j') / n := by rw [h]
    have h2 : (i * n + j) % n = (i' * n + j') % n := by rw [h]
    have hn : 0 < n := by omega
    rw [Nat.mul_comm i n, Nat.mul_comm i' n, Nat.mul_add_div hn, Nat.mul_add_div hn,
      Nat.div_eq_of_lt hj, Nat.div_eq_of_lt hj'] at h1
    rw [Nat.mul_comm i n, Nat.mul_comm i' n, Nat.mul_add_mod, Nat.mul_add_mod,
      Nat.mod_eq_of_lt hj, Nat.mod_eq_of_lt hj'] at h2
    omega
  · rintro ⟨rfl, rfl⟩; rfl

theorem index_lt (M : Matrix) (hwf : M.wf) (i j : Nat) (hi : i < M.m) (hj : j < M.n) :
    i * M.n + j < M.buffer.length := by
  have h1 : (i + 1) * M.n ≤ M.m * M.n := Nat.mul_le_mul_right _ hi
  have h2 : (i + 1) * M.n = i * M.n + M.n := by ring
  unfold Matrix.wf at hwf
  omega

@[simp] theorem at_set_m (M : Matrix) (i j : Nat) (v : ℚ) : (M.at_set i j v).m = M.m := rfl
@[simp] theorem at_set_n (M : Matrix) (i j : Nat) (v : ℚ) : (M.at_set i j v).n = M.n := rfl
@[simp] theorem at_set_length (M : Matrix) (i j : Nat) (v : ℚ) :
    (M.at_set i j v).buffer.length = M.buffer.length := by
  simp [Matrix.at_set]

theorem at_set_wf (M : Matrix) (hwf : M.wf) (i j : Nat) (v : ℚ) : (M.at_set i j v).wf := by
  unfold Matrix.wf at *
  simpa using hwf

theorem at_at_set (M : Matrix) (hwf : M.wf) (i j : Nat) (v : ℚ) (hi : i < M.m)
    (hj : j < M.n) (i' j' : Nat) (hj' : j' < M.n) :
    (M.at_set i j v).at_ i' j' = if i' = i ∧ j' = j then v else M.at_ i' j' := by
  have hlt := index_lt M hwf i j hi hj
  unfold Matrix.at_ Matrix.at_set
  simp only [List.getD_eq_getElem?_getD, List.getElem?_set]
  by_cases h : i * M.n + j = i' * M.n + j'
  · have := (index_inj M.n i j i' j' hj hj').1 h
    have hlt' : i' * M.n + j' < M.buffer.length := h ▸ hlt
    simp [h, this.1.symm, this.2.symm, hlt']
  · have h' : ¬ (i' = i ∧ j' = j) := by
      rintro ⟨rfl, rfl⟩; exact h rfl
    simp [h, h']


/-- Generic row loop: every step writes position `(row, j)` with a value that
is a function `g` of the current entries of column `j`. -/
theorem foldl_scale_row (row : Nat) (k : ℚ) (l : List Nat) :
    ∀ (M : Matrix), M.wf → row < M.m → l.Nodup → (∀ j ∈ l, j < M.n) →
      let R := l.foldl (fun A j => A.at_set row j (A.at_ row j * k)) M
      R.m = M.m ∧ R.n = M.n ∧ R.buffer.length = M.buffer.length ∧
        ∀ i j, j < M.n →
          R.at_ i j = if i = row ∧ j ∈ l then M.at_ i j * k else M.at_ i j := by
  induction l with
  | nil => intro M _ _ _ _; simp
  | cons a l ih =>
    intro M hwf hrow hnd hl
    have ha : a < M.n := hl a (List.mem_cons_self _ _)
    have hnd' := List.nodup_cons.1 hnd
    have hwf1 : (M.at_set row a (M.at_ row a * k)).wf := at_set_wf M hwf _ _ _
    have := ih (M.at_set row a (M.at_ row a * k)) hwf1 (by simpa using hrow) hnd'.2
      (fun j hj => by simpa using hl j (List.mem_cons_of_mem _ hj))
    simp only [List.foldl_cons]
    obtain ⟨h1, h2, h3, h4⟩ := this
    refine ⟨by simpa using h1, by simpa using h2, by simpa using h3, ?_⟩
    intro i j hj
    rw [h4 i j (by simpa using hj), at_at_set M hwf row a _ hrow ha i j hj]
    by_cases hi : i = row
    · subst hi
      by_cases hja : j = a
      · subst hja
        simp [hnd'.1]
      · by_cases hjl : j ∈ l <;> simp [hja, hjl]
    · simp [hi]

theorem scale_row_spec (M : Matrix) (hwf : M.wf) (row : Nat) (k : ℚ) (hrow : row < M.m) :
    (M.scale_row row k).m = M.m ∧ (M.scale_row row k).n = M.n ∧
      (M.scale_row row k).buffer.length = M.buffer.length ∧
      ∀ i j, j < M.n →
        (M.scale_row row k).at_ i j = if i = row then M.at_ i j * k else M.at_ i j := by
  have := foldl_scale_row row k (List.range M.n) M hwf hrow (List.nodup_range _)
    (fun j hj => List.mem_range.1 hj)
  obtain ⟨h1, h2, h3, h4⟩ := this
  refine ⟨h1, h2, h3, ?_⟩
  intro i j hj
  have := h4 i j hj
  simp only [List.mem_range, hj, and_true] at this
  exact this

theorem foldl_add_row (src dst : Nat) (k : ℚ) (hne : src ≠ dst) (l : List Nat) :
    ∀ (M : Matrix), M.wf → dst < M.m → l.Nodup → (∀ j ∈ l, j < M.n) →
      let R := l.foldl (fun A j => A.at_set dst j (A.at_ dst j + A.at_ src j * k)) M
      R.m = M.m ∧ R.n = M.n ∧ R.buffer.length = M.buffer.length ∧
        ∀ i j, j < M.n →
          R.at_ i j = if i = dst ∧ j ∈ l then M.at_ i j + M.at_ src j * k else M.at_ i j := by
  induction l with
  | nil => intro M _ _ _ _; simp
  | cons a l ih =>
    intro M hwf hrow hnd hl
    have ha : a < M.n := hl a (List.mem_cons_self _ _)
    have hnd' := List.nodup_cons.1 hnd
    have hwf1 : (M.at_set dst a (M.at_ dst a + M.at_ src a * k)).wf := at_set_wf M hwf _ _ _
    have := ih (M.at_set dst a (M.at_ dst a + M.at_ src a * k)) hwf1 (by simpa using hrow)
      hnd'.2 (fun j hj => by simpa using hl j (List.mem_cons_of_mem _ hj))
    simp only [List.foldl_cons]
    obtain ⟨h1, h2, h3, h4⟩ := this
    refine ⟨by simpa using h1, by simpa using h2, by simpa using h3, ?_⟩
    intro i j hj
    rw [h4 i j (by simpa using hj), at_at_set M hwf dst a _ hrow ha i j hj,
      at_at_set M hwf dst a _ hrow ha src j hj]
    by_cases hi : i = dst
    · subst hi
      by_cases hja : j = a
      · subst hja
        simp [hnd'.1]
      · by_cases hjl : j ∈ l <;> simp [hja, hjl, hne]
    · simp [hi]

theorem add_premultiplied_row_spec (M : Matrix) (hwf : M.wf) (src dst : Nat) (k : ℚ)
    (hne : src ≠ dst) (hdst : dst < M.m) :
    (M.add_premultiplied_row src k dst).m = M.m ∧
      (M.add_premultiplied_row src k dst).n = M.n ∧
      (M.add_premultiplied_row src k dst).buffer.length = M.buffer.length ∧
      ∀ i j, j < M.n →
        (M.add_premultiplied_row src k dst).at_ i j =
          if i = dst then M.at_ i j + M.at_ src j * k else M.at_ i j := by
  have := foldl_add_row src dst k hne (List.range M.n) M hwf hdst (List.nodup_range _)
    (fun j hj => List.mem_range.1 hj)
  obtain ⟨h1, h2, h3, h4⟩ := this
  refine ⟨h1, h2, h3, ?_⟩
  intro i j hj
  have := h4 i j hj
  simp only [List.mem_range, hj, and_true] at this
  exact this


theorem tableau_wf_matrix (t : Tableau) (h : t.wf) : t.toMatrix.wf := h.2.2.1

theorem foldl_pivot_rows (row col : Nat) (l : List Nat) :
    ∀ (T : Tableau), T.wf → row < T.m → col < T.n → l.Nodup → (∀ i ∈ l, i < T.m) →
      let R := l.foldl
        (fun (a : Tableau) i =>
          if i = row then a
          else
            let value := a.at_ i col
            if value = 0 then a
            else
              let multiplier := -1 * value
              { a with toMatrix := a.toMatrix.add_premultiplied_row row multiplier i })
        T
      R.wf ∧ R.m = T.m ∧ R.n = T.n ∧ R.basis_indices = T.basis_indices ∧
        R.basis_indices_set = T.basis_indices_set ∧
        ∀ i j, j < T.n →
          R.at_ i j =
            if i ∈ l ∧ i ≠ row then T.at_ i j - T.at_ i col * T.at_ row j else T.at_ i j := by
  induction l with
  | nil => intro T h _ _ _ _; simp [h]
  | cons a l ih =>
    intro T hwf hrow hcol hnd hl
    have ha : a < T.m := hl a (List.mem_cons_self _ _)
    have hnd' := List.nodup_cons.1 hnd
    simp only [List.foldl_cons]
    by_cases har : a = row
    · subst har
      simp only [if_true]
      obtain ⟨h0, h1, h2, h3, h4, h5⟩ := ih T hwf hrow hcol hnd'.2
        (fun i hi => hl i (List.mem_cons_of_mem _ hi))
      refine ⟨h0, h1, h2, h3, h4, ?_⟩
      intro i j hj
      rw [h5 i j hj]
      by_cases hi : i = a
      · subst hi; simp
      · simp [hi]
    · simp only [har, if_false]
      by_cases hv : T.at_ a col = 0
      · simp only [hv, if_true]
        obtain ⟨h0, h1, h2, h3, h4, h5⟩ := ih T hwf hrow hcol hnd'.2
          (fun i hi => hl i (List.mem_cons_of_mem _ hi))
        refine ⟨h0, h1, h2, h3, h4, ?_⟩
        intro i j hj
        rw [h5 i j hj]
        by_cases hi : i = a
        · subst hi; simp [hnd'.1, hv]
        · simp [hi]
      · simp only [hv, if_false]
        obtain ⟨e1, e2, e3, e4⟩ := add_premultiplied_row_spec T.toMatrix
          (tableau_wf_matrix T hwf) row a (-1 * T.at_ a col) (Ne.symm har) ha
        have hwf1 : ({ T with toMatrix :=
            T.toMatrix.add_premultiplied_row row (-1 * T.at_ a col) a } : Tableau).wf := by
          refine ⟨?_, ?_, ?_, ?_, ?_⟩
          · show 1 ≤ (T.toMatrix.add_premultiplied_row row (-1 * T.at_ a col) a).m
            rw [e1]; exact hwf.1
          · show 1 ≤ (T.toMatrix.add_premultiplied_row row (-1 * T.at_ a col) a).n
            rw [e2]; exact hwf.2.1
          · show (T.toMatrix.add_premultiplied_row row (-1 * T.at_ a col) a).wf
            unfold Matrix.wf
            rw [e1, e2, e3]; exact hwf.2.2.1
          · show (T.toMatrix.add_premultiplied_row row (-1 * T.at_ a col) a).m - 1 ≤ _
            rw [e1]; exact hwf.2.2.2.1
          · show (T.toMatrix.add_premultiplied_row row (-1 * T.at_ a col) a).m - 1 ≤ _
            rw [e1]; exact hwf.2.2.2.2
        obtain ⟨h0, h1, h2, h3, h4, h5⟩ := ih _ hwf1 (by show row < (Matrix.add_premultiplied_row _ _ _ _).m; rw [e1]; exact hrow)
          (by show col < (Matrix.add_premultiplied_row _ _ _ _).n; rw [e2]; exact hcol) hnd'.2
          (fun i hi => by
            show i < (Matrix.add_premultiplied_row _ _ _ _).m
            rw [e1]; exact hl i (List.mem_cons_of_mem _ hi))
        refine ⟨h0, h1.trans e1, h2.trans e2, h3, h4, ?_⟩
        intro i j hj
        have hj' : j < (Matrix.add_premultiplied_row T.toMatrix row (-1 * T.at_ a col) a).n := by
          rw [e2]; exact hj
        rw [h5 i j hj']
        have key : ∀ i' j', j' < T.n →
            Tableau.at_ ({ T with toMatrix :=
              T.toMatrix.add_premultiplied_row row (-1 * T.at_ a col) a } : Tableau) i' j' =
            if i' = a then T.at_ i' j' + T.at_ row j' * (-1 * T.at_ a col) else T.at_ i' j' := by
          intro i' j' hj''
          exact e4 i' j' hj''
        rw [key i j hj, key i col hcol, key row j hj]
        by_cases hi : i = a
        · subst hi
          simp [hnd'.1, Ne.symm har, har]
          ring
        · simp [hi, Ne.symm har]


/-- Entry-wise description of `pivot_body`: the pivot row is divided by the
pivot, and every other row loses its multiple of the scaled pivot row. -/
theorem pivot_body_spec (t : Tableau) (hwf : t.wf) (row col : Nat) (hrow : row < t.m)
    (hcol : col < t.n) :
    (t.pivot_body row col).wf ∧ (t.pivot_body row col).m = t.m ∧
      (t.pivot_body row col).n = t.n ∧
      (t.pivot_body row col).basis_indices = t.basis_indices ∧
      (t.pivot_body row col).basis_indices_set = t.basis_indices_set ∧
      ∀ i j, i < t.m → j < t.n →
        (t.pivot_body row col).at_ i j =
          if i = row then t.at_ row j / t.at_ row col
          else t.at_ i j - t.at_ i col * (t.at_ row j / t.at_ row col) := by
  -- the scaled tableau
  have hs : ∃ t1 : Tableau, t1 = (if t.at_ row col ≠ 1 then
        ({ t with toMatrix := t.toMatrix.scale_row row (1 / t.at_ row col) } : Tableau) else t) ∧
      t1.wf ∧ t1.m = t.m ∧ t1.n = t.n ∧ t1.basis_indices = t.basis_indices ∧
      t1.basis_indices_set = t.basis_indices_set ∧
      ∀ i j, j < t.n → t1.at_ i j = if i = row then t.at_ row j / t.at_ row col else t.at_ i j := by
    by_cases hp : t.at_ row col = 1
    · refine ⟨t, by simp [hp], hwf, rfl, rfl, rfl, rfl, ?_⟩
      intro i j _
      by_cases hi : i = row
      · subst hi; simp [hp]
      · simp [hi]
    · obtain ⟨e1, e2, e3, e4⟩ := scale_row_spec t.toMatrix (tableau_wf_matrix t hwf) row
        (1 / t.at_ row col) hrow
      refine ⟨({ t with toMatrix := t.toMatrix.scale_row row (1 / t.at_ row col) } : Tableau),
        by simp [hp], ⟨?_, ?_, ?_, ?_, ?_⟩, e1, e2, rfl, rfl, ?_⟩
      · show 1 ≤ (Matrix.scale_row _ _ _).m
        rw [e1]; exact hwf.1
      · show 1 ≤ (Matrix.scale_row _ _ _).n
        rw [e2]; exact hwf.2.1
      · show (Matrix.scale_row _ _ _).wf
        unfold Matrix.wf
        rw [e1, e2, e3]; exact hwf.2.2.1
      · show (Matrix.scale_row _ _ _).m - 1 ≤ _
        rw [e1]; exact hwf.2.2.2.1
      · show (Matrix.scale_row _ _ _).m - 1 ≤ _
        rw [e1]; exact hwf.2.2.2.2
      · intro i j hj
        show (Matrix.scale_row _ _ _).at_ i j = _
        rw [e4 i j hj]
        by_cases hi : i = row
        · subst hi; simp [Tableau.at_, div_eq_mul_inv]
        · simp [hi, Tableau.at_]
  obtain ⟨t1, ht1, hwf1, hm1, hn1, hb1, hbs1, hat1⟩ := hs
  have hfold := foldl_pivot_rows row col (List.range t1.m) t1 hwf1 (hm1 ▸ hrow) (hn1 ▸ hcol)
    (List.nodup_range _) (fun i hi => List.mem_range.1 hi)
  have hdef : t.pivot_body row col = (List.range t1.m).foldl
        (fun (a : Tableau) i =>
          if i = row then a
          else
            let value := a.at_ i col
            if value = 0 then a
            else
              let multiplier := -1 * value
              { a with toMatrix := a.toMatrix.add_premultiplied_row row multiplier i })
        t1 := by
    rw [ht1]; rfl
  rw [hdef]
  obtain ⟨h0, h1, h2, h3, h4, h5⟩ := hfold
  refine ⟨h0, h1.trans hm1, h2.trans hn1, h3.trans hb1, h4.trans hbs1, ?_⟩
  intro i j hi hj
  rw [h5 i j (hn1 ▸ hj), hat1 i j hj, hat1 i col hcol, hat1 row j hj]
  by_cases hir : i = row
  · subst hir; simp
  · have : i ∈ List.range t1.m := List.mem_range.2 (hm1 ▸ hi)
    simp [hir, this]

section PrimalSelection
open PrimalSimplex

theorem exiting_fold_inv (tab : Tableau) (j : Nat) (p : Nat) :
    let st := (List.range p).foldl (exiting_step tab j) (0, -1)
    (st.2 = -1 ∧ ∀ k, k < p → tab.at_ k j ≤ 0) ∨
      ∃ i0 : Nat, st.2 = (i0 : Int) ∧ i0 < p ∧ 0 < tab.at_ i0 j ∧
        st.1 = tab.at_ i0 (tab.n - 1) / tab.at_ i0 j ∧
        ∀ k, k < p → 0 < tab.at_ k j →
          st.1 < tab.at_ k (tab.n - 1) / tab.at_ k j ∨
            (st.1 = tab.at_ k (tab.n - 1) / tab.at_ k j ∧ tab.basis_at i0 ≤ tab.basis_at k) := by
  induction p with
  | zero => left; simp
  | succ p ih =>
    simp only [List.range_succ, List.foldl_append, List.foldl_cons, List.foldl_nil]
    generalize (List.range p).foldl (exiting_step tab j) (0, -1) = st at ih ⊢
    simp only at ih
    unfold exiting_step
    by_cases hp : tab.at_ p j ≤ 0
    · simp only [hp, if_true]
      rcases ih with ⟨h1, h2⟩ | ⟨i0, h1, h2, h3, h4, h5⟩
      · left
        refine ⟨h1, fun k hk => ?_⟩
        rcases Nat.lt_succ_iff_lt_or_eq.1 hk with h | h
        · exact h2 k h
        · subst h; exact hp
      · right
        refine ⟨i0, h1, by omega, h3, h4, fun k hk hpos => ?_⟩
        rcases Nat.lt_succ_iff_lt_or_eq.1 hk with h | h
        · exact h5 k h hpos
        · subst h; exact absurd hpos (not_lt.2 hp)
    · simp only [hp, if_false]
      have hp' : 0 < tab.at_ p j := not_le.1 hp
      right
      rcases ih with ⟨h1, h2⟩ | ⟨i0, h1, h2, h3, h4, h5⟩
      · simp only [h1, true_or, if_true]
        refine ⟨p, rfl, by omega, hp', rfl, fun k hk hpos => ?_⟩
        rcases Nat.lt_succ_iff_lt_or_eq.1 hk with h | h
        · exact absurd hpos (not_lt.2 (h2 k h))
        · subst h; right; exact ⟨rfl, le_refl _⟩
      · by_cases hc : st.2 = -1 ∨ tab.at_ p (tab.n - 1) / tab.at_ p j < st.1 ∨
            (tab.at_ p (tab.n - 1) / tab.at_ p j = st.1 ∧
              tab.basis_at p < tab.basis_at st.2.toNat)
        · simp only [hc, if_true]
          refine ⟨p, rfl, by omega, hp', rfl, fun k hk hpos => ?_⟩
          rcases Nat.lt_succ_iff_lt_or_eq.1 hk with h | h
          · rcases hc with hc | hc | ⟨hc1, hc2⟩
            · rw [h1] at hc; omega
            · rcases h5 k h hpos with h6 | ⟨h6, _⟩
              · left; exact lt_trans hc h6
              · left; rw [← h6]; exact hc
            · rcases h5 k h hpos with h6 | ⟨h6, h7⟩
              · left; rw [hc1]; exact h6
              · right
                refine ⟨by rw [hc1]; exact h6, ?_⟩
                rw [h1] at hc2
                simp only [Int.toNat_ofNat] at hc2
                omega
          · subst h; right; exact ⟨rfl, le_refl _⟩
        · simp only [hc, if_false]
          refine ⟨i0, h1, by omega, h3, h4, fun k hk hpos => ?_⟩
          rcases Nat.lt_succ_iff_lt_or_eq.1 hk with h | h
          · exact h5 k h hpos
          · subst h
            push_neg at hc
            obtain ⟨_, hc2, hc3⟩ := hc
            rcases lt_or_eq_of_le hc2 with h6 | h6
            · left; exact h6
            · right
              refine ⟨h6, ?_⟩
              have := hc3 h6.symm
              rw [h1] at this
              simpa using this

/-- What `select_exiting_column` returns: `-1` when no constraint row has a
positive entry in column `j`; otherwise a row of positive entry and minimal
ratio, of smallest basis column among the rows of minimal ratio. -/
theorem select_exiting_column_spec (tab : Tableau) (j : Nat) :
    (select_exiting_column tab j = -1 ∧ ∀ k, k < tab.m - 1 → tab.at_ k j ≤ 0) ∨
      ∃ i0 : Nat, select_exiting_column tab j = (i0 : Int) ∧ i0 < tab.m - 1 ∧
        0 < tab.at_ i0 j ∧
        ∀ k, k < tab.m - 1 → 0 < tab.at_ k j →
          tab.at_ i0 (tab.n - 1) / tab.at_ i0 j < tab.at_ k (tab.n - 1) / tab.at_ k j ∨
            (tab.at_ i0 (tab.n - 1) / tab.at_ i0 j = tab.at_ k (tab.n - 1) / tab.at_ k j ∧
              tab.basis_at i0 ≤ tab.basis_at k) := by
  have := exiting_fold_inv tab j (tab.m - 1)
  simp only at this
  unfold select_exiting_column
  rcases this with h | ⟨i0, h1, h2, h3, h4, h5⟩
  · left; exact h
  · right
    refine ⟨i0, h1, h2, h3, fun k hk hpos => ?_⟩
    rw [← h4]
    exact h5 k hk hpos

theorem select_entering_column_spec (tab : Tableau) (j : Nat)
    (h : select_entering_column tab = some j) :
    j < tab.n - 1 ∧ tab.at_ (tab.m - 1) j < 0 ∧
      ∀ j', j' < j → 0 ≤ tab.at_ (tab.m - 1) j' := by
  unfold select_entering_column at h
  rw [List.find?_range_eq_some] at h
  obtain ⟨h1, h2, h3⟩ := h
  refine ⟨List.mem_range.1 h2, by simpa using h1, ?_⟩
  intro j' hj'
  have := h3 j' hj'
  simpa using this

theorem test_optimality_iff (tab : Tableau) :
    test_optimality tab = true ↔ tab.costs_nonneg := by
  unfold test_optimality Tableau.costs_nonneg
  simp [List.all_eq_true]

theorem test_unlimited_iff (tab : Tableau) (j : Nat) :
    test_unlimited tab j = true ↔ ∀ i, i < tab.m - 1 → tab.at_ i j < 0 := by
  unfold test_unlimited
  simp [List.all_eq_true]

theorem select_entering_none (tab : Tableau) (h : select_entering_column tab = none) :
    test_optimality tab = true := by
  unfold select_entering_column at h
  rw [List.find?_eq_none] at h
  rw [test_optimality_iff]
  intro j hj
  have := h j (List.mem_range.2 hj)
  simpa using this

end PrimalSelection

theorem pivoted_row_dot (t t' : Tableau) (r c : Nat) (h : t.pivoted t' r c) (hn : 1 ≤ t.n)
    (i : Nat) (hi : i < t.m) (x : Nat → ℚ) :
    t'.row_dot i x =
      if i = r then t.row_dot r x / t.at_ r c
      else t.row_dot i x - t.at_ i c * (t.row_dot r x / t.at_ r c) := by
  obtain ⟨hm, hn', hat⟩ := h
  unfold Tableau.row_dot
  rw [hn']
  have hlt : ∀ j ∈ Finset.range (t.n - 1), j < t.n := fun j hj => by
    have := Finset.mem_range.1 hj; omega
  by_cases hir : i = r
  · subst hir
    simp only [if_true]
    rw [Finset.sum_div]
    apply Finset.sum_congr rfl
    intro j hj
    rw [hat i j hi (hlt j hj)]
    simp only [if_true]
    ring
  · simp only [hir, if_false]
    rw [Finset.sum_div, Finset.mul_sum, ← Finset.sum_sub_distrib]
    apply Finset.sum_congr rfl
    intro j hj
    rw [hat i j hi (hlt j hj)]
    simp only [hir, if_false]
    ring

theorem pivoted_same_lp (t t' : Tableau) (r c : Nat) (h : t.pivoted t' r c) (hm : 1 ≤ t.m)
    (hn : 1 ≤ t.n) (hr : r < t.m - 1) (hp : t.at_ r c ≠ 0) : t.same_lp t' := by
  have hdot := pivoted_row_dot t t' r c h hn
  obtain ⟨hm', hn', hat⟩ := h
  have hrm : r < t.m := by omega
  have hlast : t.n - 1 < t.n := by omega
  refine ⟨hm', hn', ?_, ?_⟩
  · intro x
    constructor
    · intro hs i hi
      have him : i < t.m := by omega
      have hsr := hs r (by rw [hm']; exact hr)
      rw [hdot r hrm x, hn', hat r _ hrm hlast] at hsr
      simp only [if_true] at hsr
      have hr' : t.row_dot r x = t.at_ r (t.n - 1) := by
        field_simp at hsr
        exact hsr
      by_cases hir : i = r
      · subst hir; exact hr'
      · have hsi := hs i (by rw [hm']; exact hi)
        rw [hdot i him x, hn', hat i _ him hlast] at hsi
        simp only [hir, if_false] at hsi
        rw [hr'] at hsi
        linarith
    · intro hs i hi
      rw [hm'] at hi
      have him : i < t.m := by omega
      rw [hdot i him x, hn', hat i _ him hlast, hs r hr]
      by_cases hir : i = r
      · subst hir; simp
      · simp only [hir, if_false]
        rw [hs i hi]
  · intro x hs
    unfold Tableau.objective
    have hobj : t.m - 1 < t.m := by omega
    have hne : t.m - 1 ≠ r := by omega
    rw [hm', hn', hdot (t.m - 1) hobj x, hat _ _ hobj hlast, hs r hr]
    simp only [hne, if_false]
    ring

theorem same_lp_refl (t : Tableau) : t.same_lp t :=
  ⟨rfl, rfl, fun _ => Iff.rfl, fun _ _ => rfl⟩

theorem same_lp_trans (t t' t'' : Tableau) (h1 : t.same_lp t') (h2 : t'.same_lp t'') :
    t.same_lp t'' := by
  obtain ⟨a1, a2, a3, a4⟩ := h1
  obtain ⟨b1, b2, b3, b4⟩ := h2
  refine ⟨b1.trans a1, b2.trans a2, fun x => (b3 x).trans (a3 x), fun x hx => ?_⟩
  rw [b4 x ((a3 x).2 hx), a4 x hx]

/-- Effect of the basis update followed by the pivot, as both solvers do
them: the indices pass the assertions, the entries are those of a pivot and
only the basis entry of the pivot row changes. -/
theorem basis_pivot_spec (tab : Tableau) (hwf : tab.wf) (i j : Int) (tab1 tab2 : Tableau)
    (h1 : tab.basis_at_set i j = some tab1) (h2 : tab1.pivot i j = some tab2) :
    ∃ i0 j0 : Nat, i = (i0 : Int) ∧ j = (j0 : Int) ∧ i0 < tab.m - 1 ∧ j0 < tab.n - 1 ∧
      tab2.wf ∧ tab.pivoted tab2 i0 j0 ∧
      ∀ k, tab2.basis_at k = if k = i0 then j0 else tab.basis_at k := by
  unfold Tableau.basis_at_set at h1
  split_ifs at h1 with hc
  obtain ⟨c1, c2, c3, c4⟩ := hc
  obtain ⟨i0, rfl⟩ := Int.eq_ofNat_of_zero_le c1
  obtain ⟨j0, rfl⟩ := Int.eq_ofNat_of_zero_le c3
  have hi0 : i0 < tab.m - 1 := by omega
  have hj0 : j0 < tab.n - 1 := by omega
  simp only [Option.some.injEq, Int.toNat_ofNat] at h1
  have hwf1 : tab1.wf := by
    rw [← h1]
    refine ⟨hwf.1, hwf.2.1, hwf.2.2.1, ?_, ?_⟩
    · simpa using hwf.2.2.2.1
    · simpa using hwf.2.2.2.2
  have hm1 : tab1.m = tab.m := by rw [← h1]
  have hn1 : tab1.n = tab.n := by rw [← h1]
  have hat1 : ∀ a b, tab1.at_ a b = tab.at_ a b := by
    intro a b; rw [← h1]; rfl
  have hb1 : tab1.basis_indices = tab.basis_indices.set i0 j0 := by rw [← h1]
  unfold Tableau.pivot at h2
  split_ifs at h2 with hc2
  simp only [Option.some.injEq, Int.toNat_ofNat] at h2
  obtain ⟨e0, e1, e2, e3, _, e5⟩ := pivot_body_spec tab1 hwf1 i0 j0 (by omega) (by omega)
  rw [h2] at e0 e1 e2 e3 e5
  refine ⟨i0, j0, rfl, rfl, hi0, hj0, e0, ⟨e1.trans hm1, e2.trans hn1, ?_⟩, ?_⟩
  · intro a b ha hb
    rw [e5 a b (hm1 ▸ ha) (hn1 ▸ hb)]
    simp only [hat1]
  · intro k
    unfold Tableau.basis_at
    rw [e3, hb1]
    have hlen : i0 < tab.basis_indices.length := lt_of_lt_of_le hi0 hwf.2.2.2.1
    simp only [List.getD_eq_getElem?_getD, List.getElem?_set]
    by_cases hk : k = i0
    · subst hk; simp [hlen]
    · simp [hk, Ne.symm hk]

/-- A pivot on a non-zero element together with the basis update keeps the
tableau canonical. -/
theorem pivoted_canonical (tab tab2 : Tableau) (i0 j0 : Nat) (hcan : tab.canonical)
    (hm : 1 ≤ tab.m) (hi0 : i0 < tab.m - 1) (hj0 : j0 < tab.n - 1)
    (hp : tab.at_ i0 j0 ≠ 0) (hpiv : tab.pivoted tab2 i0 j0)
    (hb : ∀ k, tab2.basis_at k = if k = i0 then j0 else tab.basis_at k) :
    tab2.canonical := by
  obtain ⟨hm2, hn2, hat⟩ := hpiv
  intro i hi
  rw [hm2] at hi
  rw [hb i, hn2, hm2]
  have him : i < tab.m := by omega
  have hi0m : i0 < tab.m := by omega
  by_cases hii : i = i0
  · subst hii
    simp only [if_true]
    refine ⟨hj0, ?_, ?_⟩
    · rw [hat i j0 him (by omega)]
      simp [hp]
    · intro k hk hki
      rw [hat k j0 hk (by omega)]
      simp only [hki, if_false]
      field_simp
  · simp only [hii, if_false]
    obtain ⟨c1, c2, c3⟩ := hcan i hi
    have hz : tab.at_ i0 (tab.basis_at i) = 0 := c3 i0 hi0m (Ne.symm hii)
    refine ⟨c1, ?_, ?_⟩
    · rw [hat i _ him (by omega)]
      simp [hii, hz, c2]
    · intro k hk hki
      rw [hat k _ hk (by omega)]
      by_cases hk0 : k = i0
      · subst hk0; simp [hz]
      · simp [hk0, hz, c3 k hk hki]

/-- A pivot chosen by the min-ratio test keeps every right-hand side
non-negative. -/
theorem pivoted_rhs_nonneg (tab tab2 : Tableau) (i0 j0 : Nat) (hrhs : tab.rhs_nonneg)
    (hn : 1 ≤ tab.n) (hi0 : i0 < tab.m - 1) (hpos : 0 < tab.at_ i0 j0)
    (hmin : ∀ k, k < tab.m - 1 → 0 < tab.at_ k j0 →
      tab.at_ i0 (tab.n - 1) / tab.at_ i0 j0 ≤ tab.at_ k (tab.n - 1) / tab.at_ k j0)
    (hpiv : tab.pivoted tab2 i0 j0) : tab2.rhs_nonneg := by
  obtain ⟨hm2, hn2, hat⟩ := hpiv
  intro i hi
  rw [hm2] at hi
  rw [hn2, hat i _ (by omega) (by omega)]
  have hq : 0 ≤ tab.at_ i0 (tab.n - 1) / tab.at_ i0 j0 :=
    div_nonneg (hrhs i0 hi0) (le_of_lt hpos)
  by_cases hii : i = i0
  · subst hii; simpa using hq
  · simp only [hii, if_false]
    rcases le_or_lt (tab.at_ i j0) 0 with hle | hgt
    · have h1 : tab.at_ i j0 * (tab.at_ i0 (tab.n - 1) / tab.at_ i0 j0) ≤ 0 :=
        mul_nonpos_of_nonpos_of_nonneg hle hq
      have h2 := hrhs i hi
      linarith
    · have h1 := hmin i hi hgt
      have h2 : tab.at_ i j0 * (tab.at_ i0 (tab.n - 1) / tab.at_ i0 j0) ≤
          tab.at_ i j0 * (tab.at_ i (tab.n - 1) / tab.at_ i j0) :=
        mul_le_mul_of_nonneg_left h1 (le_of_lt hgt)
      have h3 : tab.at_ i j0 * (tab.at_ i (tab.n - 1) / tab.at_ i j0) = tab.at_ i (tab.n - 1) := by
        field_simp
      linarith

section PrimalRun
open PrimalSimplex

/-- One iteration of the primal simplex from a feasible canonical tableau:
the pivot is well defined, and the next tableau is again feasible and
canonical and describes the same linear program. -/
theorem primal_iteration (tab : Tableau) (hwf : tab.wf) (hcan : tab.canonical)
    (hrhs : tab.rhs_nonneg) (j : Nat) (tab1 tab2 : Tableau)
    (h1 : tab.basis_at_set (select_exiting_column tab j) j = some tab1)
    (h2 : tab1.pivot (select_exiting_column tab j) j = some tab2) :
    tab2.wf ∧ tab2.canonical ∧ tab2.rhs_nonneg ∧ tab.same_lp tab2 := by
  obtain ⟨i0, j0, hi, hjj, hi0, hj0, hwf2, hpiv, hb⟩ :=
    basis_pivot_spec tab hwf _ _ tab1 tab2 h1 h2
  have hjeq : j = j0 := by exact_mod_cast hjj
  subst hjeq
  rcases select_exiting_column_spec tab j with ⟨hneg, _⟩ | ⟨i1, hsel, _, hpos, hmin⟩
  · rw [hneg] at hi; omega
  · have hieq : i1 = i0 := by rw [hsel] at hi; exact_mod_cast hi
    subst hieq
    refine ⟨hwf2, ?_, ?_, ?_⟩
    · exact pivoted_canonical tab tab2 i1 j hcan hwf.1 hi0 hj0 (ne_of_gt hpos) hpiv hb
    · refine pivoted_rhs_nonneg tab tab2 i1 j hrhs hwf.2.1 hi0 hpos ?_ hpiv
      intro k hk hkpos
      rcases hmin k hk hkpos with h | ⟨h, _⟩
      · exact le_of_lt h
      · exact le_of_eq h
    · exact pivoted_same_lp tab tab2 i1 j hpiv hwf.1 hwf.2.1 hi0 (ne_of_gt hpos)

/-- Invariants of a whole run of the primal simplex. -/
theorem primal_run (fuel : Nat) :
    ∀ (tab : Tableau), tab.wf → tab.canonical → tab.rhs_nonneg →
      ∀ (o : Outcome) (tab' : Tableau), simplex fuel tab = some (o, tab') →
        tab'.wf ∧ tab'.canonical ∧ tab'.rhs_nonneg ∧ tab.same_lp tab' ∧
          ∀ v, o = Outcome.value v →
            tab'.costs_nonneg ∧ v = - tab'.at_ (tab'.m - 1) (tab'.n - 1) := by
  induction fuel with
  | zero => intro tab _ _ _ o tab' h; simp [simplex] at h
  | succ fuel ih =>
    intro tab hwf hcan hrhs o tab' h
    simp only [simplex] at h
    split_ifs at h with hopt
    · simp only [Option.some.injEq, Prod.mk.injEq] at h
      obtain ⟨ho, ht⟩ := h
      subst ht
      refine ⟨hwf, hcan, hrhs, same_lp_refl _, ?_⟩
      intro v hv
      rw [← ho] at hv
      injection hv with hv
      exact ⟨(test_optimality_iff tab).1 hopt, hv.symm⟩
    · cases hj : select_entering_column tab with
      | none =>
        exact absurd (select_entering_none tab hj) hopt
      | some j =>
        simp only [hj] at h
        split_ifs at h with hunl
        · simp only [Option.some.injEq, Prod.mk.injEq] at h
          obtain ⟨ho, ht⟩ := h
          subst ht
          refine ⟨hwf, hcan, hrhs, same_lp_refl _, ?_⟩
          intro v hv
          rw [← ho] at hv
          cases hv
        · cases h1 : tab.basis_at_set (select_exiting_column tab j) j with
          | none =>
            simp only [h1, Option.some.injEq, Prod.mk.injEq] at h
            obtain ⟨ho, ht⟩ := h
            subst ht
            refine ⟨hwf, hcan, hrhs, same_lp_refl _, ?_⟩
            intro v hv
            rw [← ho] at hv
            cases hv
          | some tab1 =>
            simp only [h1] at h
            cases h2 : tab1.pivot (select_exiting_column tab j) j with
            | none =>
              -- the assertion of `pivot` repeats the one of `basis_at`
              exfalso
              unfold Tableau.basis_at_set at h1
              split_ifs at h1 with hc
              simp only [Option.some.injEq] at h1
              unfold Tableau.pivot at h2
              rw [← h1] at h2
              simp only [hc.1, hc.2.1, hc.2.2.1, hc.2.2.2, and_self, if_true] at h2
              cases h2
            | some tab2 =>
              simp only [h2] at h
              obtain ⟨w2, c2, r2, l2⟩ := primal_iteration tab hwf hcan hrhs j tab1 tab2 h1 h2
              obtain ⟨w3, c3, r3, l3, hv⟩ := ih tab2 w2 c2 r2 o tab' h
              exact ⟨w3, c3, r3, same_lp_trans _ _ _ l2 l3, hv⟩

end PrimalRun

section Certificate
open PrimalSimplex

/-- In a canonical tableau the basic solution picks, in every row `k`, the
entries of the basis columns. -/
theorem row_dot_basic_solution (t : Tableau) (hcan : t.canonical) (k : Nat) :
    t.row_dot k t.basic_solution =
      ∑ i in Finset.range (t.m - 1), t.at_ k (t.basis_at i) * t.at_ i (t.n - 1) := by
  unfold Tableau.row_dot Tableau.basic_solution
  simp only [Finset.mul_sum]
  rw [Finset.sum_comm]
  apply Finset.sum_congr rfl
  intro i hi
  have hb := (hcan i (Finset.mem_range.1 hi)).1
  simp only [mul_ite, mul_zero]
  rw [Finset.sum_ite_eq]
  simp [hb]

/-- A feasible canonical tableau without negative reduced cost certifies its
optimum: the basic solution is feasible, its objective value is the negated
right-hand-side cell of the objective row, and no feasible point does
better. -/
theorem optimal_of_certificate (t : Tableau) (hwf : t.wf) (hcan : t.canonical)
    (hrhs : t.rhs_nonneg) (hcost : t.costs_nonneg) :
    t.feasible t.basic_solution ∧
      t.objective t.basic_solution = - t.at_ (t.m - 1) (t.n - 1) ∧
      ∀ x, t.feasible x → - t.at_ (t.m - 1) (t.n - 1) ≤ t.objective x := by
  have hm := hwf.1
  refine ⟨⟨?_, ?_⟩, ?_, ?_⟩
  · intro j _
    unfold Tableau.basic_solution
    apply Finset.sum_nonneg
    intro i hi
    split_ifs
    · exact hrhs i (Finset.mem_range.1 hi)
    · exact le_refl _
  · intro k hk
    rw [row_dot_basic_solution t hcan k]
    have : ∀ i ∈ Finset.range (t.m - 1),
        t.at_ k (t.basis_at i) * t.at_ i (t.n - 1) =
          if i = k then t.at_ i (t.n - 1) else 0 := by
      intro i hi
      have hi' := Finset.mem_range.1 hi
      by_cases hik : i = k
      · subst hik; simp [(hcan i hi').2.1]
      · simp [hik, (hcan i hi').2.2 k (by omega) (Ne.symm hik)]
    rw [Finset.sum_congr rfl this, Finset.sum_ite_eq']
    simp [hk]
  · unfold Tableau.objective
    rw [row_dot_basic_solution t hcan (t.m - 1)]
    have : ∀ i ∈ Finset.range (t.m - 1),
        t.at_ (t.m - 1) (t.basis_at i) * t.at_ i (t.n - 1) = 0 := by
      intro i hi
      have hi' := Finset.mem_range.1 hi
      simp [(hcan i hi').2.2 (t.m - 1) (by omega) (by omega)]
    rw [Finset.sum_eq_zero this]
    ring
  · intro x hx
    unfold Tableau.objective
    have : 0 ≤ t.row_dot (t.m - 1) x := by
      unfold Tableau.row_dot
      apply Finset.sum_nonneg
      intro j hj
      have hj' := Finset.mem_range.1 hj
      exact mul_nonneg (hcost j hj') (hx.1 j hj')
    linarith

/-- Optimality transfers along `same_lp`. -/
theorem optimal_of_same_lp (t t' : Tableau) (hlp : t.same_lp t') (hwf : t'.wf)
    (hcan : t'.canonical) (hrhs : t'.rhs_nonneg) (hcost : t'.costs_nonneg) (v : ℚ)
    (hv : v = - t'.at_ (t'.m - 1) (t'.n - 1)) :
    (∃ x, t.feasible x ∧ t.objective x = v) ∧ ∀ x, t.feasible x → v ≤ t.objective x := by
  obtain ⟨h1, h2, h3⟩ := optimal_of_certificate t' hwf hcan hrhs hcost
  obtain ⟨_, en, es, eo⟩ := hlp
  constructor
  · refine ⟨t'.basic_solution, ⟨?_, (es _).1 h1.2⟩, ?_⟩
    · intro j hj; exact h1.1 j (by rw [en]; exact hj)
    · rw [← eo _ ((es _).1 h1.2), h2, hv]
  · intro x hx
    have hx' : t'.feasible x := ⟨fun j hj => hx.1 j (by rw [← en]; exact hj), (es x).2 hx.2⟩
    rw [← eo x hx.2, hv]
    exact h3 x hx'

end Certificate

section PrimalFuel
open PrimalSimplex

/-- More fuel does not change the result of a finished run. -/
theorem primal_fuel_mono (fuel : Nat) :
    ∀ (tab : Tableau) (r : Outcome × Tableau), simplex fuel tab = some r →
      ∀ k, simplex (fuel + k) tab = some r := by
  induction fuel with
  | zero => intro tab r h; simp [simplex] at h
  | succ fuel ih =>
    intro tab r h k
    have e : fuel + 1 + k = (fuel + k) + 1 := by omega
    rw [e]
    simp only [simplex] at h ⊢
    split_ifs at h ⊢ with hopt
    · exact h
    · cases hj : select_entering_column tab with
      | none => simpa [hj] using h
      | some j =>
        simp only [hj] at h ⊢
        split_ifs at h ⊢ with hunl
        · exact h
        · cases h1 : tab.basis_at_set (select_exiting_column tab j) j with
          | none => simpa [h1] using h
          | some tab1 =>
            simp only [h1] at h ⊢
            cases h2 : tab1.pivot (select_exiting_column tab j) j with
            | none => simpa [h2] using h
            | some tab2 =>
              simp only [h2] at h ⊢
              exact ih tab2 r h k

end PrimalFuel

section DualSelection
open DualSimplex

theorem check_correct_form_iff (tab : Tableau) :
    check_correct_form tab = true ↔ tab.costs_nonneg := by
  unfold check_correct_form Tableau.costs_nonneg
  simp [List.all_eq_true]

theorem test_feasibility_iff (tab : Tableau) :
    test_feasibility tab = true ↔ tab.rhs_nonneg := by
  unfold test_feasibility Tableau.rhs_nonneg
  simp [List.all_eq_true]

theorem pivot_row_fold_inv (tab : Tableau) (p : Nat) :
    let st := (List.range p).foldl (pivot_row_step tab) (-1, -1)
    (st.1 = -1 ∧ ∀ k, k < p → 0 ≤ tab.at_ k (tab.n - 1)) ∨
      ∃ i0 : Nat, st.1 = (i0 : Int) ∧ st.2 = (tab.basis_at i0 : Int) ∧ i0 < p ∧
        tab.at_ i0 (tab.n - 1) < 0 ∧
        ∀ k, k < p → tab.at_ k (tab.n - 1) < 0 →
          tab.basis_at i0 < tab.basis_at k ∨ (tab.basis_at i0 = tab.basis_at k ∧ i0 ≤ k) := by
  induction p with
  | zero => left; simp
  | succ p ih =>
    simp only [List.range_succ, List.foldl_append, List.foldl_cons, List.foldl_nil]
    generalize (List.range p).foldl (pivot_row_step tab) (-1, -1) = st at ih ⊢
    simp only at ih
    unfold pivot_row_step
    by_cases hp : tab.at_ p (tab.n - 1) < 0
    · simp only [hp, if_true]
      right
      rcases ih with ⟨h1, h2⟩ | ⟨i0, h1, h1', h2, h3, h5⟩
      · simp only [h1, or_true, if_true]
        refine ⟨p, rfl, rfl, by omega, hp, fun k hk hneg => ?_⟩
        rcases Nat.lt_succ_iff_lt_or_eq.1 hk with h | h
        · exact absurd hneg (not_lt.2 (h2 k h))
        · subst h; right; exact ⟨rfl, le_refl _⟩
      · by_cases hc : (tab.basis_at p : Int) < st.2 ∨ st.1 = -1
        · simp only [hc, if_true]
          refine ⟨p, rfl, rfl, by omega, hp, fun k hk hneg => ?_⟩
          rcases Nat.lt_succ_iff_lt_or_eq.1 hk with h | h
          · rcases hc with hc | hc
            · rw [h1'] at hc
              have hc' : tab.basis_at p < tab.basis_at i0 := by exact_mod_cast hc
              rcases h5 k h hneg with h6 | ⟨h6, _⟩
              · left; omega
              · left; omega
            · rw [h1] at hc; omega
          · subst h; right; exact ⟨rfl, le_refl _⟩
        · simp only [hc, if_false]
          refine ⟨i0, h1, h1', by omega, h3, fun k hk hneg => ?_⟩
          rcases Nat.lt_succ_iff_lt_or_eq.1 hk with h | h
          · exact h5 k h hneg
          · subst h
            push_neg at hc
            have hc1 := hc.1
            rw [h1'] at hc1
            have hc' : tab.basis_at i0 ≤ tab.basis_at k := by exact_mod_cast hc1
            rcases lt_or_eq_of_le hc' with h6 | h6
            · left; exact h6
            · right; exact ⟨h6, by omega⟩
    · simp only [hp, if_false]
      rcases ih with ⟨h1, h2⟩ | ⟨i0, h1, h1', h2, h3, h5⟩
      · left
        refine ⟨h1, fun k hk => ?_⟩
        rcases Nat.lt_succ_iff_lt_or_eq.1 hk with h | h
        · exact h2 k h
        · subst h; exact not_lt.1 hp
      · right
        refine ⟨i0, h1, h1', by omega, h3, fun k hk hneg => ?_⟩
        rcases Nat.lt_succ_iff_lt_or_eq.1 hk with h | h
        · exact h5 k h hneg
        · subst h; exact absurd hneg hp

/-- What `select_pivot_row` returns: `-1` when no right-hand side is
negative; otherwise a constraint row of negative right-hand side whose basis
column is smallest among such rows. -/
theorem select_pivot_row_spec (tab : Tableau) :
    (select_pivot_row tab = -1 ∧ ∀ k, k < tab.m - 1 → 0 ≤ tab.at_ k (tab.n - 1)) ∨
      ∃ i0 : Nat, select_pivot_row tab = (i0 : Int) ∧ i0 < tab.m - 1 ∧
        tab.at_ i0 (tab.n - 1) < 0 ∧
        ∀ k, k < tab.m - 1 → tab.at_ k (tab.n - 1) < 0 →
          tab.basis_at i0 < tab.basis_at k ∨ (tab.basis_at i0 = tab.basis_at k ∧ i0 ≤ k) := by
  have := pivot_row_fold_inv tab (tab.m - 1)
  simp only at this
  unfold select_pivot_row
  rcases this with h | ⟨i0, h1, _, h2, h3, h5⟩
  · left; exact h
  · right; exact ⟨i0, h1, h2, h3, h5⟩

theorem pivot_column_fold_inv (tab : Tableau) (i : Nat) (p : Nat) :
    let st := (List.range p).foldl (pivot_column_step tab i) (0, -1)
    (st.2 = -1 ∧ ∀ k, k < p → 0 ≤ tab.at_ i k) ∨
      ∃ j0 : Nat, st.2 = (j0 : Int) ∧ j0 < p ∧ tab.at_ i j0 < 0 ∧
        st.1 = tab.at_ (tab.m - 1) j0 / (- tab.at_ i j0) ∧
        ∀ k, k < p → tab.at_ i k < 0 →
          st.1 < tab.at_ (tab.m - 1) k / (- tab.at_ i k) ∨
            (st.1 = tab.at_ (tab.m - 1) k / (- tab.at_ i k) ∧ j0 ≤ k) := by
  induction p with
  | zero => left; simp
  | succ p ih =>
    simp only [List.range_succ, List.foldl_append, List.foldl_cons, List.foldl_nil]
    generalize (List.range p).foldl (pivot_column_step tab i) (0, -1) = st at ih ⊢
    simp only at ih
    unfold pivot_column_step
    by_cases hp : tab.at_ i p ≥ 0
    · simp only [hp, if_true]
      rcases ih with ⟨h1, h2⟩ | ⟨j0, h1, h2, h3, h4, h5⟩
      · left
        refine ⟨h1, fun k hk => ?_⟩
        rcases Nat.lt_succ_iff_lt_or_eq.1 hk with h | h
        · exact h2 k h
        · subst h; exact hp
      · right
        refine ⟨j0, h1, by omega, h3, h4, fun k hk hneg => ?_⟩
        rcases Nat.lt_succ_iff_lt_or_eq.1 hk with h | h
        · exact h5 k h hneg
        · subst h; exact absurd hneg (not_lt.2 hp)
    · simp only [hp, if_false]
      have hp' : tab.at_ i p < 0 := not_le.1 hp
      right
      rcases ih with ⟨h1, h2⟩ | ⟨j0, h1, h2, h3, h4, h5⟩
      · simp only [h1, true_or, if_true]
        refine ⟨p, rfl, by omega, hp', rfl, fun k hk hneg => ?_⟩
        rcases Nat.lt_succ_iff_lt_or_eq.1 hk with h | h
        · exact absurd hneg (not_lt.2 (h2 k h))
        · subst h; right; exact ⟨rfl, le_refl _⟩
      · by_cases hc : st.2 = -1 ∨ tab.at_ (tab.m - 1) p / (- tab.at_ i p) < st.1
        · simp only [hc, if_true]
          refine ⟨p, rfl, by omega, hp', rfl, fun k hk hneg => ?_⟩
          rcases Nat.lt_succ_iff_lt_or_eq.1 hk with h | h
          · rcases hc with hc | hc
            · rw [h1] at hc; omega
            · rcases h5 k h hneg with h6 | ⟨h6, _⟩
              · left; exact lt_trans hc h6
              · left; rw [← h6]; exact hc
          · subst h; right; exact ⟨rfl, le_refl _⟩
        · simp only [hc, if_false]
          refine ⟨j0, h1, by omega, h3, h4, fun k hk hneg => ?_⟩
          rcases Nat.lt_succ_iff_lt_or_eq.1 hk with h | h
          · exact h5 k h hneg
          · subst h
            push_neg at hc
            rcases lt_or_eq_of_le hc.2 with h6 | h6
            · left; exact h6
            · right; exact ⟨h6, by omega⟩

/-- What `select_pivot_column` returns: `-1` when row `i` has no negative
structural entry; otherwise a column of negative entry and minimal ratio,
the first among the columns of minimal ratio. -/
theorem select_pivot_column_spec (tab : Tableau) (i : Nat) :
    (select_pivot_column tab i = -1 ∧ ∀ k, k < tab.n - 1 → 0 ≤ tab.at_ i k) ∨
      ∃ j0 : Nat, select_pivot_column tab i = (j0 : Int) ∧ j0 < tab.n - 1 ∧
        tab.at_ i j0 < 0 ∧
        ∀ k, k < tab.n - 1 → tab.at_ i k < 0 →
          tab.at_ (tab.m - 1) j0 / (- tab.at_ i j0) < tab.at_ (tab.m - 1) k / (- tab.at_ i k) ∨
            (tab.at_ (tab.m - 1) j0 / (- tab.at_ i j0) =
                tab.at_ (tab.m - 1) k / (- tab.at_ i k) ∧ j0 ≤ k) := by
  have := pivot_column_fold_inv tab i (tab.n - 1)
  simp only at this
  unfold select_pivot_column
  rcases this with h | ⟨j0, h1, h2, h3, h4, h5⟩
  · left; exact h
  · right
    refine ⟨j0, h1, h2, h3, fun k hk hneg => ?_⟩
    rw [← h4]
    exact h5 k hk hneg

end DualSelection

/-- A pivot chosen by the dual ratio test keeps every reduced cost
non-negative. -/
theorem pivoted_costs_nonneg (tab tab2 : Tableau) (i0 j0 : Nat) (hcost : tab.costs_nonneg)
    (hm : 1 ≤ tab.m) (hi0 : i0 < tab.m - 1) (hj0 : j0 < tab.n - 1) (hneg : tab.at_ i0 j0 < 0)
    (hmin : ∀ k, k < tab.n - 1 → tab.at_ i0 k < 0 →
      tab.at_ (tab.m - 1) j0 / (- tab.at_ i0 j0) ≤ tab.at_ (tab.m - 1) k / (- tab.at_ i0 k))
    (hpiv : tab.pivoted tab2 i0 j0) : tab2.costs_nonneg := by
  obtain ⟨hm2, hn2, hat⟩ := hpiv
  intro k hk
  rw [hn2] at hk
  rw [hm2, hat _ k (by omega) (by omega)]
  have hne : tab.m - 1 ≠ i0 := by omega
  simp only [hne, if_false]
  have hq : 0 ≤ tab.at_ (tab.m - 1) j0 / (- tab.at_ i0 j0) :=
    div_nonneg (hcost j0 hj0) (by linarith)
  have hck := hcost k hk
  have hrew : tab.at_ (tab.m - 1) j0 * (tab.at_ i0 k / tab.at_ i0 j0) =
      - (tab.at_ i0 k * (tab.at_ (tab.m - 1) j0 / (- tab.at_ i0 j0))) := by
    have : tab.at_ i0 j0 ≠ 0 := ne_of_lt hneg
    field_simp
    ring
  rw [hrew]
  rcases le_or_lt 0 (tab.at_ i0 k) with hge | hlt
  · have := mul_nonneg hge hq
    linarith
  · have h1 := hmin k hk hlt
    have hpos : 0 < - tab.at_ i0 k := by linarith
    have h2 : (- tab.at_ i0 k) * (tab.at_ (tab.m - 1) j0 / (- tab.at_ i0 j0)) ≤
        (- tab.at_ i0 k) * (tab.at_ (tab.m - 1) k / (- tab.at_ i0 k)) :=
      mul_le_mul_of_nonneg_left h1 (le_of_lt hpos)
    have h3 : (- tab.at_ i0 k) * (tab.at_ (tab.m - 1) k / (- tab.at_ i0 k)) =
        tab.at_ (tab.m - 1) k := by
      have : tab.at_ i0 k ≠ 0 := ne_of_lt hlt
      field_simp
    linarith

section DualRun
open DualSimplex

/-- One iteration of the dual simplex from a tableau without negative
reduced cost: the next tableau has no negative reduced cost either,
describes the same linear program, and is canonical if the tableau was. -/
theorem dual_iteration (tab : Tableau) (hwf : tab.wf) (hcost : tab.costs_nonneg)
    (i : Int) (tab1 tab2 : Tableau)
    (h1 : tab.basis_at_set i (select_pivot_column tab i.toNat) = some tab1)
    (h2 : tab1.pivot i (select_pivot_column tab i.toNat) = some tab2) :
    tab2.wf ∧ tab2.costs_nonneg ∧ tab.same_lp tab2 ∧ (tab.canonical → tab2.canonical) := by
  obtain ⟨i0, j0, hi, hjj, hi0, hj0, hwf2, hpiv, hb⟩ :=
    basis_pivot_spec tab hwf _ _ tab1 tab2 h1 h2
  subst hi
  simp only [Int.toNat_ofNat] at hjj
  rcases select_pivot_column_spec tab i0 with ⟨hneg, _⟩ | ⟨j1, hsel, _, hneg, hmin⟩
  · rw [hneg] at hjj; omega
  · have hjeq : j1 = j0 := by rw [hsel] at hjj; exact_mod_cast hjj
    subst hjeq
    refine ⟨hwf2, ?_, ?_, ?_⟩
    · refine pivoted_costs_nonneg tab tab2 i0 j1 hcost hwf.1 hi0 hj0 hneg ?_ hpiv
      intro k hk hkneg
      rcases hmin k hk hkneg with h | ⟨h, _⟩
      · exact le_of_lt h
      · exact le_of_eq h
    · exact pivoted_same_lp tab tab2 i0 j1 hpiv hwf.1 hwf.2.1 hi0 (ne_of_lt hneg)
    · intro hcan
      exact pivoted_canonical tab tab2 i0 j1 hcan hwf.1 hi0 hj0 (ne_of_lt hneg) hpiv hb

/-- Invariants of a whole run of the loop of the dual simplex. -/
theorem dual_loop_run (fuel : Nat) :
    ∀ (tab : Tableau), tab.wf → tab.costs_nonneg →
      ∀ (o : Outcome) (tab' : Tableau), simplex_loop fuel tab = some (o, tab') →
        tab'.wf ∧ tab'.costs_nonneg ∧ tab.same_lp tab' ∧ (tab.canonical → tab'.canonical) ∧
          ∀ v, o = Outcome.value v →
            tab'.rhs_nonneg ∧ v = - tab'.at_ (tab'.m - 1) (tab'.n - 1) := by
  induction fuel with
  | zero => intro tab _ _ o tab' h; simp [simplex_loop] at h
  | succ fuel ih =>
    intro tab hwf hcost o tab' h
    simp only [simplex_loop] at h
    split_ifs at h with hfeas hneg hunl
    · simp only [Option.some.injEq, Prod.mk.injEq] at h
      obtain ⟨ho, ht⟩ := h
      subst ht
      refine ⟨hwf, hcost, same_lp_refl _, id, ?_⟩
      intro v hv
      rw [← ho] at hv
      injection hv with hv
      exact ⟨(test_feasibility_iff tab).1 hfeas, hv.symm⟩
    · simp only [Option.some.injEq, Prod.mk.injEq] at h
      obtain ⟨ho, ht⟩ := h
      subst ht
      refine ⟨hwf, hcost, same_lp_refl _, id, ?_⟩
      intro v hv
      rw [← ho] at hv
      cases hv
    · simp only [Option.some.injEq, Prod.mk.injEq] at h
      obtain ⟨ho, ht⟩ := h
      subst ht
      refine ⟨hwf, hcost, same_lp_refl _, id, ?_⟩
      intro v hv
      rw [← ho] at hv
      cases hv
    · cases h1 : tab.basis_at_set (select_pivot_row tab)
          (select_pivot_column tab (select_pivot_row tab).toNat) with
      | none =>
        simp only [h1, Option.some.injEq, Prod.mk.injEq] at h
        obtain ⟨ho, ht⟩ := h
        subst ht
        refine ⟨hwf, hcost, same_lp_refl _, id, ?_⟩
        intro v hv
        rw [← ho] at hv
        cases hv
      | some tab1 =>
        simp only [h1] at h
        cases h2 : tab1.pivot (select_pivot_row tab)
            (select_pivot_column tab (select_pivot_row tab).toNat) with
        | none =>
          exfalso
          unfold Tableau.basis_at_set at h1
          split_ifs at h1 with hc
          simp only [Option.some.injEq] at h1
          unfold Tableau.pivot at h2
          rw [← h1] at h2
          simp only [hc.1, hc.2.1, hc.2.2.1, hc.2.2.2, and_self, if_true] at h2
          cases h2
        | some tab2 =>
          simp only [h2] at h
          obtain ⟨w2, c2, l2, k2⟩ := dual_iteration tab hwf hcost _ tab1 tab2 h1 h2
          obtain ⟨w3, c3, l3, k3, hv⟩ := ih tab2 w2 c2 o tab' h
          exact ⟨w3, c3, same_lp_trans _ _ _ l2 l3, fun hc => k3 (k2 hc), hv⟩

/-- More fuel does not change the result of a finished run of the dual
loop. -/
theorem dual_fuel_mono (fuel : Nat) :
    ∀ (tab : Tableau) (r : Outcome × Tableau), simplex_loop fuel tab = some r →
      ∀ k, simplex_loop (fuel + k) tab = some r := by
  induction fuel with
  | zero => intro tab r h; simp [simplex_loop] at h
  | succ fuel ih =>
    intro tab r h k
    have e : fuel + 1 + k = (fuel + k) + 1 := by omega
    rw [e]
    simp only [simplex_loop] at h ⊢
    split_ifs at h ⊢ with hfeas hneg hunl
    · exact h
    · exact h
    · exact h
    · cases h1 : tab.basis_at_set (select_pivot_row tab)
          (select_pivot_column tab (select_pivot_row tab).toNat) with
      | none => simpa [h1] using h
      | some tab1 =>
        simp only [h1] at h ⊢
        cases h2 : tab1.pivot (select_pivot_row tab)
            (select_pivot_column tab (select_pivot_row tab).toNat) with
        | none => simpa [h2] using h
        | some tab2 =>
          simp only [h2] at h ⊢
          exact ih tab2 r h k

end DualRun

/-! ## Termination of the dual simplex (Bland's rule) -/

theorem mem_basis_set (t : Tableau) (j : Nat) :
    j ∈ t.basis_set ↔ ∃ i, i < t.m - 1 ∧ t.basis_at i = j := by
  unfold Tableau.basis_set
  simp [Finset.mem_image]

/-- The entering column of a step is not basic before the step. -/
theorem dual_step_entering_not_basic (t t' : Tableau) (rr ss : Nat) (hm : 1 ≤ t.m)
    (hcan : t.canonical) (h : t.dual_step t' rr ss) : ss ∉ t.basis_set := by
  obtain ⟨hr, _, _, _, ha, _, _, _⟩ := h
  intro hmem
  obtain ⟨i, hi, hij⟩ := (mem_basis_set t ss).1 hmem
  rw [← hij] at ha
  by_cases hir : i = rr
  · subst hir
    rw [(hcan i hi).2.1] at ha
    linarith
  · rw [(hcan i hi).2.2 rr (by omega) (Ne.symm hir)] at ha
    exact lt_irrefl _ ha

section DualTermination
open DualSimplex

/-- What a pass of the loop that goes on does: a step of the dual simplex on
the row and the column the selection functions return. -/
theorem next_tableau_spec (tab tab2 : Tableau) (hwf : tab.wf)
    (h : next_tableau tab = some tab2) :
    tab2.wf ∧
      tab.dual_step tab2 (select_pivot_row tab).toNat
        (select_pivot_column tab (select_pivot_row tab).toNat).toNat := by
  unfold next_tableau at h
  simp only [] at h
  by_cases hfeas : test_feasibility tab = true
  · rw [if_pos hfeas] at h; cases h
  rw [if_neg hfeas] at h
  by_cases hneg : select_pivot_row tab < 0
  · rw [if_pos hneg] at h; cases h
  rw [if_neg hneg] at h
  by_cases hunl : test_unlimited tab (select_pivot_row tab).toNat = true
  · rw [if_pos hunl] at h; cases h
  rw [if_neg hunl] at h
  cases h1 : tab.basis_at_set (select_pivot_row tab)
      (select_pivot_column tab (select_pivot_row tab).toNat) with
  | none => simp [h1] at h
  | some tab1 =>
    simp only [h1] at h
    obtain ⟨i0, j0, hi, hjj, hi0, hj0, hwf2, hpiv, hb⟩ :=
      basis_pivot_spec tab hwf _ _ tab1 tab2 h1 h
    refine ⟨hwf2, ?_⟩
    rcases select_pivot_row_spec tab with ⟨hr, _⟩ | ⟨i1, hr, _, hbneg, hrmin⟩
    · rw [hr] at hi; omega
    · have hi1 : i1 = i0 := by rw [hr] at hi; exact_mod_cast hi
      subst hi1
      rw [hr] at hjj ⊢
      simp only [Int.toNat_ofNat] at hjj ⊢
      rcases select_pivot_column_spec tab i1 with ⟨hc, _⟩ | ⟨j1, hc, _, haneg, hcmin⟩
      · rw [hc] at hjj; omega
      · have hj1 : j1 = j0 := by rw [hc] at hjj; exact_mod_cast hjj
        subst hj1
        rw [hc]
        simp only [Int.toNat_ofNat]
        exact ⟨hi0, hj0, hbneg, hrmin, haneg, hcmin, hpiv, hb⟩

end DualTermination

section DualLoop
open DualSimplex

theorem loop_step_some (tab t2 : Tableau) (h : next_tableau tab = some t2) (fuel : Nat) :
    simplex_loop (fuel + 1) tab = simplex_loop fuel t2 := by
  unfold next_tableau at h
  simp only [] at h
  simp only [simplex_loop]
  by_cases hfeas : test_feasibility tab = true
  · rw [if_pos hfeas] at h; cases h
  rw [if_neg hfeas] at h ⊢
  by_cases hneg : select_pivot_row tab < 0
  · rw [if_pos hneg] at h; cases h
  rw [if_neg hneg] at h ⊢
  by_cases hunl : test_unlimited tab (select_pivot_row tab).toNat = true
  · rw [if_pos hunl] at h; cases h
  rw [if_neg hunl] at h ⊢
  cases h1 : tab.basis_at_set (select_pivot_row tab)
      (select_pivot_column tab (select_pivot_row tab).toNat) with
  | none => simp [h1] at h
  | some tab1 =>
    simp only [h1] at h ⊢
    rw [h]

end DualLoop

/-! ## Pivot and canonicalization -/

/-- `pivot` on indices within range is `pivot_body`. -/
theorem pivot_eq_body (t : Tableau) (i j : Nat) (hi : i < t.m - 1) (hj : j < t.n - 1) :
    t.pivot (i : Int) (j : Int) = some (t.pivot_body i j) := by
  unfold Tableau.pivot
  have hc : (0 : Int) ≤ (i : Int) ∧ (0 : Int) ≤ (j : Int) ∧ (i : Int) < (t.m : Int) - 1 ∧
      (j : Int) < (t.n : Int) - 1 := ⟨by omega, by omega, by omega, by omega⟩
  rw [if_pos hc]
  simp

/-- The entries of a pivot on a non-zero element: column `c` is the unit
vector of row `r`. -/
theorem pivoted_unit_column (t t' : Tableau) (r c : Nat) (h : t.pivoted t' r c)
    (hr : r < t.m) (hc : c < t.n) (hp : t.at_ r c ≠ 0) :
    t'.at_ r c = 1 ∧ ∀ k, k < t.m → k ≠ r → t'.at_ k c = 0 := by
  obtain ⟨_, _, hat⟩ := h
  constructor
  · rw [hat r c hr hc]; simp [hp]
  · intro k hk hkr
    rw [hat k c hk hc]
    simp only [hkr, if_false]
    field_simp

/-- A pivot on the unit column of its own row changes nothing. -/
theorem pivot_body_fixed (t : Tableau) (r c : Nat) (h1 : t.at_ r c = 1)
    (h0 : ∀ k, k < t.m → k ≠ r → t.at_ k c = 0) : t.pivot_body r c = t := by
  unfold Tableau.pivot_body
  simp only [h1, ne_eq, not_true_eq_false, if_false]
  have key : ∀ (l : List Nat), (∀ i ∈ l, i < t.m) →
      l.foldl
        (fun (a : Tableau) i =>
          if i = r then a
          else
            let value := a.at_ i c
            if value = 0 then a
            else
              let multiplier := -1 * value
              { a with toMatrix := a.toMatrix.add_premultiplied_row r multiplier i })
        t = t := by
    intro l
    induction l with
    | nil => intro _; rfl
    | cons a l ih =>
      intro hl
      simp only [List.foldl_cons]
      by_cases har : a = r
      · simp only [har, if_true]
        exact ih (fun i hi => hl i (List.mem_cons_of_mem _ hi))
      · have hz := h0 a (hl a (List.mem_cons_self _ _)) har
        simp only [har, if_false, hz, if_true]
        exact ih (fun i hi => hl i (List.mem_cons_of_mem _ hi))
  exact key (List.range t.m) (fun i hi => List.mem_range.1 hi)

theorem canonicalize_eq_upto (t : Tableau) : t.canonicalize = t.canonicalize_upto (t.m - 1) :=
  rfl

theorem canonicalize_upto_succ (t : Tableau) (k : Nat) :
    t.canonicalize_upto (k + 1) =
      (t.canonicalize_upto k).bind
        (fun s => s.pivot (k : Int) (s.basis_indices.getD k 0 : Nat)) := by
  unfold Tableau.canonicalize_upto
  rw [List.range_succ, List.foldl_append]
  rfl

/-- The passes of `canonicalize`: when every pivot element is non-zero as its
pass reaches it and the basis columns are structural columns, after `k`
passes the basis columns of the rows `< k` are unit columns and the basis is
unchanged. -/
theorem canonicalize_upto_spec (t : Tableau) (hwf : t.wf)
    (hb : ∀ i, i < t.m - 1 → t.basis_at i < t.n - 1)
    (hp : ∀ i s, i < t.m - 1 → t.canonicalize_upto i = some s → s.at_ i (s.basis_at i) ≠ 0)
    (k : Nat) (hk : k ≤ t.m - 1) :
    ∃ s, t.canonicalize_upto k = some s ∧ s.wf ∧ s.m = t.m ∧ s.n = t.n ∧
      s.basis_indices = t.basis_indices ∧ s.basis_indices_set = t.basis_indices_set ∧
      ∀ i, i < k → s.at_ i (t.basis_at i) = 1 ∧
        ∀ l, l < t.m → l ≠ i → s.at_ l (t.basis_at i) = 0 := by
  induction k with
  | zero =>
    exact ⟨t, rfl, hwf, rfl, rfl, rfl, rfl, fun i hi => absurd hi (Nat.not_lt_zero _)⟩
  | succ k ih =>
    obtain ⟨s, hs, hwfs, hm, hn, hbi, hbs, hunit⟩ := ih (by omega)
    have hk' : k < t.m - 1 := by omega
    have hbas : ∀ i, s.basis_at i = t.basis_at i := by
      intro i; unfold Tableau.basis_at; rw [hbi]
    have hpk := hp k s hk' hs
    rw [hbas k] at hpk
    have hbk := hb k hk'
    have hpiv : s.pivot (k : Int) (s.basis_indices.getD k 0 : Nat) =
        some (s.pivot_body k (t.basis_at k)) := by
      have : s.basis_indices.getD k 0 = t.basis_at k := hbas k
      rw [this]
      exact pivot_eq_body s k (t.basis_at k) (by rw [hm]; exact hk') (by rw [hn]; exact hbk)
    obtain ⟨e0, e1, e2, e3, e4, e5⟩ :=
      pivot_body_spec s hwfs k (t.basis_at k) (by rw [hm]; omega) (by rw [hn]; omega)
    refine ⟨s.pivot_body k (t.basis_at k), ?_, e0, e1.trans hm, e2.trans hn, e3.trans hbi,
      e4.trans hbs, ?_⟩
    · rw [canonicalize_upto_succ, hs]
      exact hpiv
    · have hpd : s.pivoted (s.pivot_body k (t.basis_at k)) k (t.basis_at k) := ⟨e1, e2, e5⟩
      intro i hi
      rcases Nat.lt_succ_iff_lt_or_eq.1 hi with hlt | heq
      · -- an earlier unit column stays
        obtain ⟨u1, u0⟩ := hunit i hlt
        have hbi' : t.basis_at i < s.n := by rw [hn]; have := hb i (by omega); omega
        have hzero : s.at_ k (t.basis_at i) = 0 := u0 k (by omega) (by omega)
        constructor
        · rw [e5 i _ (by rw [hm]; omega) hbi']
          have : i ≠ k := by omega
          simp [this, hzero, u1]
        · intro l hl hli
          rw [e5 l _ (by rw [hm]; exact hl) hbi']
          by_cases hlk : l = k
          · simp [hlk, hzero]
          · simp [hlk, hzero, u0 l hl hli]
      · subst heq
        obtain ⟨a1, a0⟩ := pivoted_unit_column s _ i (t.basis_at i) hpd (by rw [hm]; omega)
          (by rw [hn]; omega) hpk
        exact ⟨a1, fun l hl hli => a0 l (by rw [hm]; exact hl) hli⟩

/-! ## Row swap, zero matrix, product -/

theorem foldl_swap_rows (row1 row2 : Nat) (hne : row1 ≠ row2) (l : List Nat) :
    ∀ (M : Matrix), M.wf → row1 < M.m → row2 < M.m → l.Nodup → (∀ j ∈ l, j < M.n) →
      let R := l.foldl
        (fun A j =>
          let temp := A.at_ row1 j
          (A.at_set row1 j (A.at_ row2 j)).at_set row2 j temp)
        M
      R.m = M.m ∧ R.n = M.n ∧ R.buffer.length = M.buffer.length ∧
        ∀ i j, j < M.n →
          R.at_ i j =
            if j ∈ l then (if i = row1 then M.at_ row2 j
              else if i = row2 then M.at_ row1 j else M.at_ i j)
            else M.at_ i j := by
  induction l with
  | nil => intro M _ _ _ _ _; simp
  | cons a l ih =>
    intro M hwf h1 h2 hnd hl
    have ha : a < M.n := hl a (List.mem_cons_self _ _)
    have hnd' := List.nodup_cons.1 hnd
    simp only [List.foldl_cons]
    set M1 := (M.at_set row1 a (M.at_ row2 a)).at_set row2 a (M.at_ row1 a) with hM1
    have hwfa : (M.at_set row1 a (M.at_ row2 a)).wf := at_set_wf M hwf _ _ _
    have hwf1 : M1.wf := at_set_wf _ hwfa _ _ _
    have hat1 : ∀ i j, j < M.n → M1.at_ i j =
        if j = a then (if i = row1 then M.at_ row2 j
          else if i = row2 then M.at_ row1 j else M.at_ i j)
        else M.at_ i j := by
      intro i j hj
      rw [hM1, at_at_set _ hwfa row2 a _ (by simpa using h2) (by simpa using ha) i j
        (by simpa using hj), at_at_set M hwf row1 a _ h1 ha i j hj]
      by_cases hja : j = a
      · subst hja
        by_cases hi2 : i = row2
        · subst hi2
          have : i ≠ row1 := fun h => hne h.symm
          simp [this]
        · by_cases hi1 : i = row1
          · simp [hi1, hne]
          · simp [hi1, hi2]
      · simp [hja]
    obtain ⟨e1, e2, e3, e4⟩ := ih M1 hwf1 (by simpa [hM1] using h1) (by simpa [hM1] using h2)
      hnd'.2 (fun j hj => by simpa [hM1] using hl j (List.mem_cons_of_mem _ hj))
    refine ⟨by simpa [hM1] using e1, by simpa [hM1] using e2, by simpa [hM1] using e3, ?_⟩
    intro i j hj
    rw [e4 i j (by simpa [hM1] using hj)]
    by_cases hja : j = a
    · subst hja
      simp only [hnd'.1, if_false, List.mem_cons, true_or, if_true]
      rw [hat1 i j hj]
      simp
    · by_cases hjl : j ∈ l
      · simp only [hjl, if_true, List.mem_cons, or_true]
        rw [hat1 row2 j hj, hat1 row1 j hj, hat1 i j hj]
        simp [hja]
      · simp only [hjl, if_false, List.mem_cons, hja, or_self]
        rw [hat1 i j hj]
        simp [hja]

theorem swap_rows_spec (M : Matrix) (hwf : M.wf) (row1 row2 : Nat) (hne : row1 ≠ row2)
    (h1 : row1 < M.m) (h2 : row2 < M.m) :
    (M.swap_rows row1 row2).m = M.m ∧ (M.swap_rows row1 row2).n = M.n ∧
      (M.swap_rows row1 row2).buffer.length = M.buffer.length ∧
      ∀ i j, j < M.n →
        (M.swap_rows row1 row2).at_ i j =
          if i = row1 then M.at_ row2 j else if i = row2 then M.at_ row1 j else M.at_ i j := by
  obtain ⟨e1, e2, e3, e4⟩ := foldl_swap_rows row1 row2 hne (List.range M.n) M hwf h1 h2
    (List.nodup_range _) (fun j hj => List.mem_range.1 hj)
  refine ⟨e1, e2, e3, ?_⟩
  intro i j hj
  have := e4 i j hj
  simp only [List.mem_range, hj, if_true] at this
  exact this

theorem zeros_wf (m n : Nat) : (Matrix.zeros m n).wf := by
  unfold Matrix.wf Matrix.zeros
  simp

theorem zeros_at (m n i j : Nat) : (Matrix.zeros m n).at_ i j = 0 := by
  unfold Matrix.at_ Matrix.zeros
  simp only [List.getD_eq_getElem?_getD]
  by_cases h : i * n + j < m * n
  · simp [List.getElem?_replicate, h]
  · simp [List.getElem?_replicate, h]

theorem list_sum_range (f : Nat → ℚ) (n : Nat) :
    ((List.range n).map f).sum = ∑ z in Finset.range n, f z := by
  induction n with
  | zero => simp
  | succ n ih => simp [List.range_succ, Finset.sum_range_succ, ih]

/-- The innermost loop of `multiply_by`: entry `(i, j)` accumulates the
terms, nothing else changes. -/
theorem foldl_accumulate (i j : Nat) (f : Nat → ℚ) (l : List Nat) :
    ∀ (R : Matrix), R.wf → i < R.m → j < R.n →
      let R' := l.foldl (fun r2 z => r2.at_set i j (r2.at_ i j + f z)) R
      R'.m = R.m ∧ R'.n = R.n ∧ R'.wf ∧
        ∀ i' j', j' < R.n →
          R'.at_ i' j' = if i' = i ∧ j' = j then R.at_ i j + (l.map f).sum else R.at_ i' j' := by
  induction l with
  | nil =>
    intro R h _ _
    refine ⟨rfl, rfl, h, ?_⟩
    intro i' j' _
    by_cases hc : i' = i ∧ j' = j
    · simp [hc.1, hc.2]
    · simp [hc]
  | cons a l ih =>
    intro R hwf hi hj
    simp only [List.foldl_cons]
    have hwf1 : (R.at_set i j (R.at_ i j + f a)).wf := at_set_wf R hwf _ _ _
    obtain ⟨e1, e2, e3, e4⟩ := ih (R.at_set i j (R.at_ i j + f a)) hwf1 (by simpa using hi)
      (by simpa using hj)
    refine ⟨by simpa using e1, by simpa using e2, e3, ?_⟩
    intro i' j' hj'
    rw [e4 i' j' (by simpa using hj'), at_at_set R hwf i j _ hi hj i j hj,
      at_at_set R hwf i j _ hi hj i' j' hj']
    by_cases h : i' = i ∧ j' = j
    · simp [h, add_assoc]
    · simp [h]

/-- The middle loop of `multiply_by` over the columns `l` of row `i`. -/
theorem foldl_product_row (A B : Matrix) (i : Nat) (l : List Nat) :
    ∀ (R : Matrix), R.wf → i < R.m → l.Nodup → (∀ j ∈ l, j < R.n) →
      let R' := l.foldl
        (fun r1 j => (List.range A.n).foldl
          (fun r2 z => r2.at_set i j (r2.at_ i j + A.at_ i z * B.at_ z j)) r1) R
      R'.m = R.m ∧ R'.n = R.n ∧ R'.wf ∧
        ∀ i' j', j' < R.n →
          R'.at_ i' j' =
            if i' = i ∧ j' ∈ l then R.at_ i' j' + A.product_entry B i j' else R.at_ i' j' := by
  induction l with
  | nil => intro R h _ _ _; simp [h]
  | cons a l ih =>
    intro R hwf hi hnd hl
    have ha : a < R.n := hl a (List.mem_cons_self _ _)
    have hnd' := List.nodup_cons.1 hnd
    simp only [List.foldl_cons]
    obtain ⟨f1, f2, f3, f4⟩ := foldl_accumulate i a (fun z => A.at_ i z * B.at_ z a)
      (List.range A.n) R hwf hi ha
    obtain ⟨e1, e2, e3, e4⟩ := ih _ f3 (by rw [f1]; exact hi) hnd'.2
      (fun j hj => by rw [f2]; exact hl j (List.mem_cons_of_mem _ hj))
    refine ⟨e1.trans f1, e2.trans f2, e3, ?_⟩
    intro i' j' hj'
    rw [e4 i' j' (by rw [f2]; exact hj'), f4 i' j' hj']
    have hsum : ((List.range A.n).map (fun z => A.at_ i z * B.at_ z a)).sum =
        A.product_entry B i a := list_sum_range _ _
    rw [hsum]
    by_cases hi' : i' = i
    · subst hi'
      by_cases hja : j' = a
      · subst hja
        simp [hnd'.1]
      · by_cases hjl : j' ∈ l <;> simp [hja, hjl]
    · simp [hi']

/-- The outer loop of `multiply_by` over the rows `l`. -/
theorem foldl_product (A B : Matrix) (p : Nat) (l : List Nat) :
    ∀ (R : Matrix), R.wf → R.n = p → l.Nodup → (∀ i ∈ l, i < R.m) →
      let R' := l.foldl
        (fun r i => (List.range p).foldl
          (fun r1 j => (List.range A.n).foldl
            (fun r2 z => r2.at_set i j (r2.at_ i j + A.at_ i z * B.at_ z j)) r1) r) R
      R'.m = R.m ∧ R'.n = R.n ∧ R'.wf ∧
        ∀ i' j', j' < R.n →
          R'.at_ i' j' =
            if i' ∈ l then R.at_ i' j' + A.product_entry B i' j' else R.at_ i' j' := by
  induction l with
  | nil => intro R h _ _ _; simp [h]
  | cons a l ih =>
    intro R hwf hp hnd hl
    have ha : a < R.m := hl a (List.mem_cons_self _ _)
    have hnd' := List.nodup_cons.1 hnd
    simp only [List.foldl_cons]
    obtain ⟨f1, f2, f3, f4⟩ := foldl_product_row A B a (List.range p) R hwf ha
      (List.nodup_range _) (fun j hj => by rw [hp]; exact List.mem_range.1 hj)
    obtain ⟨e1, e2, e3, e4⟩ := ih _ f3 (f2.trans hp) hnd'.2
      (fun i hi => by rw [f1]; exact hl i (List.mem_cons_of_mem _ hi))
    refine ⟨e1.trans f1, e2.trans f2, e3, ?_⟩
    intro i' j' hj'
    rw [e4 i' j' (by rw [f2]; exact hj'), f4 i' j' hj']
    have hjp : j' ∈ List.range p := List.mem_range.2 (by rw [← hp]; exact hj')
    by_cases hi' : i' = a
    · subst hi'
      simp [hnd'.1, hjp]
    · by_cases hil : i' ∈ l <;> simp [hi', hil]

/-- Entry-wise description of `multiply_by`. -/
theorem multiply_by_spec (A B : Matrix) (h : A.n = B.m) :
    ∃ R, A.multiply_by B = some R ∧ R.m = A.m ∧ R.n = B.n ∧ R.wf ∧
      ∀ i j, i < A.m → j < B.n → R.at_ i j = A.product_entry B i j := by
  unfold Matrix.multiply_by
  rw [if_pos h]
  obtain ⟨e1, e2, e3, e4⟩ := foldl_product A B (Matrix.zeros A.m B.n).n
    (List.range (Matrix.zeros A.m B.n).m)
    (Matrix.zeros A.m B.n) (zeros_wf _ _) rfl (List.nodup_range _)
    (fun i hi => List.mem_range.1 hi)
  refine ⟨_, rfl, e1, e2, e3, ?_⟩
  intro i j hi hj
  have := e4 i j hj
  rw [zeros_at] at this
  have hmem : i ∈ List.range (Matrix.zeros A.m B.n).m := List.mem_range.2 hi
  simp only [hmem, if_true, zero_add] at this
  exact this

/-- One pass of the loop of `delete_row`. -/
theorem delete_row_pass (s : Tableau) (hwf : s.wf) (i : Nat) (hi : i + 1 < s.m)
    (hb : (i : Int) < (s.m : Int) - 2 → s.basis_at (i + 1) < s.n - 1) :
    ∃ s', (let s1 : Tableau := { s with toMatrix := s.toMatrix.swap_rows i (i + 1) }
        if (i : Int) < (s1.m : Int) - 2 then s1.basis_at_set i (s1.basis_at (i + 1))
        else some s1) = some s' ∧
      s'.wf ∧ s'.m = s.m ∧ s'.n = s.n ∧
      (∀ a b, b < s.n → s'.at_ a b =
        if a = i then s.at_ (i + 1) b else if a = i + 1 then s.at_ i b else s.at_ a b) ∧
      ∀ a, s'.basis_at a =
        if a = i ∧ (i : Int) < (s.m : Int) - 2 then s.basis_at (i + 1) else s.basis_at a := by
  obtain ⟨e1, e2, e3, e4⟩ := swap_rows_spec s.toMatrix (tableau_wf_matrix s hwf) i (i + 1)
    (by omega) (by omega) hi
  have hwf1 : ({ s with toMatrix := s.toMatrix.swap_rows i (i + 1) } : Tableau).wf := by
    refine ⟨?_, ?_, ?_, ?_, ?_⟩
    · show 1 ≤ (Matrix.swap_rows _ _ _).m
      rw [e1]; exact hwf.1
    · show 1 ≤ (Matrix.swap_rows _ _ _).n
      rw [e2]; exact hwf.2.1
    · show (Matrix.swap_rows _ _ _).wf
      unfold Matrix.wf
      rw [e1, e2, e3]; exact hwf.2.2.1
    · show (Matrix.swap_rows _ _ _).m - 1 ≤ _
      rw [e1]; exact hwf.2.2.2.1
    · show (Matrix.swap_rows _ _ _).m - 1 ≤ _
      rw [e1]; exact hwf.2.2.2.2
  have hm1 : ({ s with toMatrix := s.toMatrix.swap_rows i (i + 1) } : Tableau).m = s.m := e1
  simp only
  rw [hm1]
  by_cases hc : (i : Int) < (s.m : Int) - 2
  · rw [if_pos hc]
    have hbb := hb hc
    have hbas : ({ s with toMatrix := s.toMatrix.swap_rows i (i + 1) } : Tableau).basis_at
        (i + 1) = s.basis_at (i + 1) := rfl
    rw [hbas]
    unfold Tableau.basis_at_set
    have hcond : (0 : Int) ≤ (i : Int) ∧
        (i : Int) < (({ s with toMatrix := s.toMatrix.swap_rows i (i + 1) } : Tableau).m : Int) - 1 ∧
        (0 : Int) ≤ ((s.basis_at (i + 1) : Nat) : Int) ∧
        ((s.basis_at (i + 1) : Nat) : Int) <
          (({ s with toMatrix := s.toMatrix.swap_rows i (i + 1) } : Tableau).n : Int) - 1 := by
      have hn1 : ({ s with toMatrix := s.toMatrix.swap_rows i (i + 1) } : Tableau).n = s.n := e2
      rw [hm1, hn1]
      refine ⟨by omega, by omega, by omega, by omega⟩
    rw [if_pos hcond]
    refine ⟨_, rfl, ?_, e1, e2, ?_, ?_⟩
    · refine ⟨hwf1.1, hwf1.2.1, hwf1.2.2.1, ?_, ?_⟩
      · simpa using hwf1.2.2.2.1
      · simpa using hwf1.2.2.2.2
    · intro a b hb'
      show (Matrix.swap_rows _ _ _).at_ a b = _
      rw [e4 a b hb']
      rfl
    · intro a
      unfold Tableau.basis_at
      simp only [Int.toNat_ofNat, List.getD_eq_getElem?_getD, List.getElem?_set]
      have hlen : i < s.basis_indices.length := by
        have := hwf.2.2.2.1; omega
      by_cases hai : a = i
      · subst hai; simp [hlen, hc]
      · simp [hai, Ne.symm hai]
  · rw [if_neg hc]
    refine ⟨_, rfl, hwf1, e1, e2, ?_, ?_⟩
    · intro a b hb'
      show (Matrix.swap_rows _ _ _).at_ a b = _
      rw [e4 a b hb']
      rfl
    · intro a
      simp only [hc, and_false, if_false]
      rfl

/-- The loop of `delete_row` after `d` passes: the rows `row+1 .. row+d` have
moved up by one, the deleted row sits at `row + d`, and the basis entries of
the moved constraint rows have moved with them. -/
theorem delete_row_loop_spec (t : Tableau) (hwf : t.wf) (row : Nat)
    (hb : ∀ i, row < i → i < t.m - 1 → t.basis_at i < t.n - 1) (d : Nat)
    (hd : row + d ≤ t.m - 1) :
    ∃ s, (List.range' row d).foldl
        (fun a (i : Nat) => a.bind (fun s =>
          let s1 : Tableau := { s with toMatrix := s.toMatrix.swap_rows i (i + 1) }
          if (i : Int) < (s1.m : Int) - 2 then s1.basis_at_set i (s1.basis_at (i + 1))
          else some s1))
        (some t) = some s ∧
      s.wf ∧ s.m = t.m ∧ s.n = t.n ∧
      (∀ a b, b < t.n → s.at_ a b =
        if a < row then t.at_ a b else if a < row + d then t.at_ (a + 1) b
        else if a = row + d then t.at_ row b else t.at_ a b) ∧
      ∀ a, s.basis_at a =
        if row ≤ a ∧ a < row + d ∧ a + 2 < t.m then t.basis_at (a + 1) else t.basis_at a := by
  induction d with
  | zero =>
    refine ⟨t, rfl, hwf, rfl, rfl, ?_, ?_⟩
    · intro a b _
      by_cases h1 : a < row
      · simp [h1]
      · by_cases h2 : a = row
        · simp [h2]
        · simp [h1, h2]
    · intro a
      have : ¬ (row ≤ a ∧ a < row + 0 ∧ a + 2 < t.m) := by omega
      rw [if_neg this]
  | succ d ih =>
    obtain ⟨s, hs, hwfs, hm, hn, hat, hbas⟩ := ih (by omega)
    have hge : 1 ≤ t.m := hwf.1
    obtain ⟨s', hs', hwf', hm', hn', hat', hbas'⟩ := delete_row_pass s hwfs (row + d)
      (by rw [hm]; omega)
      (by
        intro hlt
        rw [hbas (row + d + 1), hn]
        have : ¬ (row ≤ row + d + 1 ∧ row + d + 1 < row + d ∧ row + d + 1 + 2 < t.m) := by omega
        rw [if_neg this]
        exact hb (row + d + 1) (by omega) (by rw [hm] at hlt; omega))
    refine ⟨s', ?_, hwf', hm'.trans hm, hn'.trans hn, ?_, ?_⟩
    · rw [List.range'_concat, List.foldl_append, hs]
      simp only [Nat.one_mul, List.foldl_cons, List.foldl_nil, Option.some_bind]
      exact hs'
    · intro a b hb'
      rw [hat' a b (by rw [hn]; exact hb')]
      by_cases h1 : a = row + d
      · subst h1
        rw [if_pos rfl, hat _ b hb']
        have c1 : ¬ (row + d + 1 < row) := by omega
        have c2 : ¬ (row + d + 1 < row + d) := by omega
        have c3 : ¬ (row + d + 1 = row + d) := by omega
        have c4 : ¬ (row + d < row) := by omega
        have c5 : row + d < row + (d + 1) := by omega
        simp [c1, c2, c3, c4, c5]
      · rw [if_neg h1]
        by_cases h2 : a = row + d + 1
        · subst h2
          rw [if_pos rfl, hat _ b hb']
          have c1 : ¬ (row + d < row) := by omega
          have c2 : ¬ (row + d < row + d) := by omega
          have c4 : ¬ (row + d + 1 < row) := by omega
          have c5 : ¬ (row + d + 1 < row + (d + 1)) := by omega
          have c6 : row + d + 1 = row + (d + 1) := by omega
          simp [c1, c2, c4, c5, c6]
        · rw [if_neg h2, hat a b hb']
          by_cases h3 : a < row
          · simp [h3]
          · by_cases h4 : a < row + d
            · have c5 : a < row + (d + 1) := by omega
              simp [h3, h4, c5]
            · have c5 : ¬ (a < row + (d + 1)) := by omega
              have c6 : ¬ (a = row + (d + 1)) := by omega
              simp [h3, h4, c5, c6, h1]
    · intro a
      rw [hbas' a]
      by_cases h1 : a = row + d ∧ ((row + d : Nat) : Int) < (s.m : Int) - 2
      · rw [if_pos h1]
        obtain ⟨h1a, h1b⟩ := h1
        subst h1a
        rw [hbas (row + d + 1)]
        have c1 : ¬ (row ≤ row + d + 1 ∧ row + d + 1 < row + d ∧ row + d + 1 + 2 < t.m) := by
          omega
        have c2 : row ≤ row + d ∧ row + d < row + (d + 1) ∧ row + d + 2 < t.m := by
          rw [hm] at h1b; omega
        rw [if_neg c1, if_pos c2]
      · rw [if_neg h1, hbas a]
        by_cases h2 : row ≤ a ∧ a < row + d ∧ a + 2 < t.m
        · have c2 : row ≤ a ∧ a < row + (d + 1) ∧ a + 2 < t.m := by omega
          rw [if_pos h2, if_pos c2]
        · have c2 : ¬ (row ≤ a ∧ a < row + (d + 1) ∧ a + 2 < t.m) := by
            rw [hm] at h1
            intro hcon
            apply h1
            constructor
            · omega
            · omega
          rw [if_neg h2, if_neg c2]

/-! ## Phase I of the two-phase method -/

theorem relaxes_refl (t : Tableau) : t.relaxes t :=
  ⟨rfl, rfl, fun _ hx => ⟨hx, rfl⟩⟩

theorem relaxes_trans (t t' t'' : Tableau) (h1 : t.relaxes t') (h2 : t'.relaxes t'') :
    t.relaxes t'' := by
  obtain ⟨a1, a2, a3⟩ := h1
  obtain ⟨b1, b2, b3⟩ := h2
  refine ⟨b1.trans a1, b2.trans a2, fun x hx => ?_⟩
  obtain ⟨c1, c2⟩ := a3 x hx
  obtain ⟨d1, d2⟩ := b3 x c1
  exact ⟨d1, d2.trans c2⟩

theorem same_lp_relaxes (t t' : Tableau) (h : t.same_lp t') : t.relaxes t' :=
  ⟨h.1, h.2.1, fun x hx => ⟨(h.2.2.1 x).2 hx, h.2.2.2 x hx⟩⟩

/-- Whatever the pivot element, the solutions of the constraint rows survive
a pivot, with their objective value. -/
theorem pivoted_relaxes (t t' : Tableau) (r c : Nat) (h : t.pivoted t' r c) (hm : 1 ≤ t.m)
    (hn : 1 ≤ t.n) (hr : r < t.m - 1) : t.relaxes t' := by
  have hdot := pivoted_row_dot t t' r c h hn
  obtain ⟨hm', hn', hat⟩ := h
  have hrm : r < t.m := by omega
  have hlast : t.n - 1 < t.n := by omega
  refine ⟨hm', hn', fun x hs => ⟨?_, ?_⟩⟩
  · intro i hi
    rw [hm'] at hi
    have him : i < t.m := by omega
    rw [hdot i him x, hn', hat i _ him hlast, hs r hr]
    by_cases hir : i = r
    · subst hir; simp
    · simp only [hir, if_false]
      rw [hs i hi]
  · unfold Tableau.objective
    have hobj : t.m - 1 < t.m := by omega
    have hne : t.m - 1 ≠ r := by omega
    rw [hm', hn', hdot (t.m - 1) hobj x, hat _ _ hobj hlast, hs r hr]
    simp only [hne, if_false]
    ring

/-- Scaling a constraint row keeps the solutions of the constraint rows and
the objective functional. -/
theorem scale_row_relaxes (s : Tableau) (hwf : s.wf) (r : Nat) (k : ℚ) (hr : r < s.m - 1) :
    ({ s with toMatrix := s.toMatrix.scale_row r k } : Tableau).wf ∧
      s.relaxes ({ s with toMatrix := s.toMatrix.scale_row r k } : Tableau) := by
  obtain ⟨e1, e2, e3, e4⟩ := scale_row_spec s.toMatrix (tableau_wf_matrix s hwf) r k (by omega)
  have hn := hwf.2.1
  have hat : ∀ i j, j < s.n →
      Tableau.at_ ({ s with toMatrix := s.toMatrix.scale_row r k } : Tableau) i j =
        if i = r then s.at_ i j * k else s.at_ i j := fun i j hj => e4 i j hj
  have hdot : ∀ i x, Tableau.row_dot ({ s with toMatrix := s.toMatrix.scale_row r k } : Tableau)
      i x = if i = r then s.row_dot i x * k else s.row_dot i x := by
    intro i x
    unfold Tableau.row_dot
    have en : ({ s with toMatrix := s.toMatrix.scale_row r k } : Tableau).n = s.n := e2
    rw [en]
    by_cases hir : i = r
    · simp only [hir, if_true]
      rw [Finset.sum_mul]
      apply Finset.sum_congr rfl
      intro j hj
      rw [hat r j (by have := Finset.mem_range.1 hj; omega)]
      simp only [if_true]
      ring
    · simp only [hir, if_false]
      apply Finset.sum_congr rfl
      intro j hj
      rw [hat i j (by have := Finset.mem_range.1 hj; omega)]
      simp [hir]
  refine ⟨⟨?_, ?_, ?_, ?_, ?_⟩, e1, e2, fun x hs => ⟨?_, ?_⟩⟩
  · show 1 ≤ (Matrix.scale_row _ _ _).m
    rw [e1]; exact hwf.1
  · show 1 ≤ (Matrix.scale_row _ _ _).n
    rw [e2]; exact hwf.2.1
  · show (Matrix.scale_row _ _ _).wf
    unfold Matrix.wf
    rw [e1, e2, e3]; exact hwf.2.2.1
  · show (Matrix.scale_row _ _ _).m - 1 ≤ _
    rw [e1]; exact hwf.2.2.2.1
  · show (Matrix.scale_row _ _ _).m - 1 ≤ _
    rw [e1]; exact hwf.2.2.2.2
  · intro i hi
    have em : ({ s with toMatrix := s.toMatrix.scale_row r k } : Tableau).m = s.m := e1
    have en : ({ s with toMatrix := s.toMatrix.scale_row r k } : Tableau).n = s.n := e2
    rw [em] at hi
    rw [hdot i x, en, hat i _ (by omega), hs i hi]
  · unfold Tableau.objective
    have em : ({ s with toMatrix := s.toMatrix.scale_row r k } : Tableau).m = s.m := e1
    have en : ({ s with toMatrix := s.toMatrix.scale_row r k } : Tableau).n = s.n := e2
    have hne : s.m - 1 ≠ r := by omega
    rw [em, en, hdot, hat _ _ (by omega)]
    simp [hne]

/-- An invariant of the steps of a loop is an invariant of the loop. -/
theorem foldl_invariant {α β : Type} (P : β → Prop) (step : β → α → β) (l : List α) :
    ∀ (s : β), P s → (∀ s a, a ∈ l → P s → P (step s a)) → P (l.foldl step s) := by
  induction l with
  | nil => intro s h _; exact h
  | cons a l ih =>
    intro s h hstep
    simp only [List.foldl_cons]
    exact ih _ (hstep s a (List.mem_cons_self _ _) h)
      (fun s b hb hs => hstep s b (List.mem_cons_of_mem _ hb) hs)

/-- Step 1 of `two_phase` (rows of negative right-hand side scaled by `-1`)
keeps the solutions of the constraint rows. -/
theorem step_1_relaxes (tab : Tableau) (hwf : tab.wf) :
    ((List.range (tab.m - 1)).foldl
      (fun (s : Tableau) i =>
        if s.at_ i (s.n - 1) < 0 then { s with toMatrix := s.toMatrix.scale_row i (-1) }
        else s)
      tab).wf ∧
    tab.relaxes ((List.range (tab.m - 1)).foldl
      (fun (s : Tableau) i =>
        if s.at_ i (s.n - 1) < 0 then { s with toMatrix := s.toMatrix.scale_row i (-1) }
        else s)
      tab) := by
  apply foldl_invariant (fun s => s.wf ∧ tab.relaxes s)
  · exact ⟨hwf, relaxes_refl _⟩
  · intro s i hi ⟨hw, hr⟩
    have hi' : i < s.m - 1 := by rw [hr.1]; exact List.mem_range.1 hi
    split_ifs
    · obtain ⟨w, r⟩ := scale_row_relaxes s hw i (-1) hi'
      exact ⟨w, relaxes_trans _ _ _ hr r⟩
    · exact ⟨hw, hr⟩

section UsableVariables
open PrimalSimplex

/-- `search_usable_variables` keeps the solutions of the constraint rows. -/
theorem search_usable_relaxes (tab : Tableau) (hwf : tab.wf) (tab2 : Tableau) (found : Nat)
    (h : search_usable_variables tab = some (tab2, found)) : tab2.wf ∧ tab.relaxes tab2 := by
  have key : ∀ p, search_usable_variables tab = some p → p.1.wf ∧ tab.relaxes p.1 := by
    unfold search_usable_variables
    apply foldl_invariant
      (fun (st : Option (Tableau × Nat)) => ∀ p, st = some p → p.1.wf ∧ tab.relaxes p.1)
    · intro p hp
      simp only [Option.some.injEq] at hp
      rw [← hp]
      exact ⟨hwf, relaxes_refl _⟩
    · intro st j _ hst p hp
      cases st with
      | none => simp [usable_step] at hp
      | some q =>
        obtain ⟨hw, hr⟩ := hst q rfl
        simp only [usable_step, Option.some_bind] at hp
        split_ifs at hp with h1 h2 h3
        · simp only [Option.some.injEq] at hp; rw [← hp]; exact ⟨hw, hr⟩
        · cases hb : q.1.basis_at_set
              (usable_scan q.1 j (List.range (q.1.m - 1)) (-1, 0)).1 j with
          | none => simp [hb] at hp
          | some tab1 =>
            simp only [hb, Option.map_some', Option.some.injEq] at hp
            rw [← hp]
            simp only
            unfold Tableau.basis_at_set at hb
            split_ifs at hb with hc
            simp only [Option.some.injEq] at hb
            obtain ⟨c1, c2, _, _⟩ := hc
            obtain ⟨i0, hi0⟩ := Int.eq_ofNat_of_zero_le c1
            rw [hi0] at c2 hb ⊢
            simp only [Int.toNat_ofNat] at hb ⊢
            have hw1 : tab1.wf := by
              rw [← hb]
              refine ⟨hw.1, hw.2.1, hw.2.2.1, ?_, ?_⟩
              · simpa using hw.2.2.2.1
              · simpa using hw.2.2.2.2
            have hr1 : q.1.relaxes tab1 := by
              rw [← hb]
              exact ⟨rfl, rfl, fun x hx => ⟨hx, rfl⟩⟩
            have hm1 : tab1.m = q.1.m := by rw [← hb]
            obtain ⟨w, r⟩ := scale_row_relaxes tab1 hw1 i0 (1 / tab1.at_ i0 j)
              (by rw [hm1]; omega)
            exact ⟨w, relaxes_trans _ _ _ hr (relaxes_trans _ _ _ hr1 r)⟩
        · simp only [Option.some.injEq] at hp; rw [← hp]; exact ⟨hw, hr⟩
        · simp only [Option.some.injEq] at hp; rw [← hp]; exact ⟨hw, hr⟩
  exact key (tab2, found) h

end UsableVariables

/-- Writing one entry of a tableau. -/
theorem put_spec (s : Tableau) (hwf : s.wf) (i j : Nat) (v : ℚ) (hi : i < s.m) (hj : j < s.n) :
    ({ s with toMatrix := s.toMatrix.at_set i j v } : Tableau).wf ∧
      ∀ i' j', j' < s.n →
        Tableau.at_ ({ s with toMatrix := s.toMatrix.at_set i j v } : Tableau) i' j' =
          if i' = i ∧ j' = j then v else s.at_ i' j' := by
  refine ⟨⟨hwf.1, hwf.2.1, at_set_wf _ (tableau_wf_matrix s hwf) _ _ _, hwf.2.2.2.1,
    hwf.2.2.2.2⟩, ?_⟩
  intro i' j' hj'
  exact at_at_set s.toMatrix (tableau_wf_matrix s hwf) i j v hi hj i' j' hj'

/-- A loop of writes: an entry no write addresses keeps its value, and an
entry that is written holds the value written (when all writes to it agree). -/
theorem foldl_put_spec {α : Type} (ci cj : α → Nat) (val : α → ℚ) (l : List α) :
    ∀ (s : Tableau), s.wf → (∀ a ∈ l, ci a < s.m ∧ cj a < s.n) →
      (l.foldl (fun (s : Tableau) a =>
          ({ s with toMatrix := s.toMatrix.at_set (ci a) (cj a) (val a) } : Tableau)) s).wf ∧
      (l.foldl (fun (s : Tableau) a =>
          ({ s with toMatrix := s.toMatrix.at_set (ci a) (cj a) (val a) } : Tableau)) s).m = s.m ∧
      (l.foldl (fun (s : Tableau) a =>
          ({ s with toMatrix := s.toMatrix.at_set (ci a) (cj a) (val a) } : Tableau)) s).n = s.n ∧
      (l.foldl (fun (s : Tableau) a =>
          ({ s with toMatrix := s.toMatrix.at_set (ci a) (cj a) (val a) } : Tableau))
            s).basis_indices = s.basis_indices ∧
      (l.foldl (fun (s : Tableau) a =>
          ({ s with toMatrix := s.toMatrix.at_set (ci a) (cj a) (val a) } : Tableau))
            s).basis_indices_set = s.basis_indices_set ∧
      (∀ i j, j < s.n → (∀ a ∈ l, ¬ (ci a = i ∧ cj a = j)) →
        (l.foldl (fun (s : Tableau) a =>
          ({ s with toMatrix := s.toMatrix.at_set (ci a) (cj a) (val a) } : Tableau)) s).at_ i j =
          s.at_ i j) ∧
      ∀ a ∈ l, (∀ b ∈ l, ci b = ci a → cj b = cj a → val b = val a) →
        (l.foldl (fun (s : Tableau) a =>
          ({ s with toMatrix := s.toMatrix.at_set (ci a) (cj a) (val a) } : Tableau)) s).at_
            (ci a) (cj a) = val a := by
  induction l with
  | nil =>
    intro s hwf _
    exact ⟨hwf, rfl, rfl, rfl, rfl, fun _ _ _ _ => rfl, fun a ha => absurd ha (List.not_mem_nil a)⟩
  | cons c l ih =>
    intro s hwf hl
    simp only [List.foldl_cons]
    obtain ⟨hci, hcj⟩ := hl c (List.mem_cons_self _ _)
    obtain ⟨w1, hput⟩ := put_spec s hwf (ci c) (cj c) (val c) hci hcj
    obtain ⟨e0, e1, e2, e3, e4, e5, e6⟩ := ih _ w1
      (fun a ha => hl a (List.mem_cons_of_mem _ ha))
    refine ⟨e0, e1, e2, e3, e4, ?_, ?_⟩
    · intro i j hj hno
      rw [e5 i j hj (fun a ha => hno a (List.mem_cons_of_mem _ ha)), hput i j hj]
      rw [if_neg]
      intro hc
      exact hno c (List.mem_cons_self _ _) ⟨hc.1.symm, hc.2.symm⟩
    · intro a ha hsame
      by_cases hex : ∃ b ∈ l, ci b = ci a ∧ cj b = cj a
      · obtain ⟨b, hb, hb1, hb2⟩ := hex
        have := e6 b hb (fun b' hb' h1 h2 => by
          rw [hsame b' (List.mem_cons_of_mem _ hb') (h1.trans hb1) (h2.trans hb2),
            hsame b (List.mem_cons_of_mem _ hb) hb1 hb2])
        rw [hb1, hb2] at this
        rw [this]
        exact hsame b (List.mem_cons_of_mem _ hb) hb1 hb2
      · push_neg at hex
        have hac : a = c ∨ a ∈ l := List.mem_cons.1 ha
        rcases hac with hac | hac
        · subst hac
          rw [e5 (ci a) (cj a) hcj (fun b hb hc => hex b hb hc.1 hc.2), hput _ _ hcj]
          simp
        · exact absurd rfl (hex a hac rfl)

/-- A loop nested in a loop is a loop over the pairs of indices. -/
theorem foldl_nested {β : Type} (f : β → Nat → Nat → β) (l1 l2 : List Nat) :
    ∀ (s : β), l1.foldl (fun s i => l2.foldl (fun s j => f s i j) s) s =
      (l1.flatMap (fun i => l2.map (fun j => (i, j)))).foldl (fun s p => f s p.1 p.2) s := by
  induction l1 with
  | nil => intro s; rfl
  | cons a l ih =>
    intro s
    simp only [List.foldl_cons, List.flatMap_cons, List.foldl_append, List.foldl_map]
    exact ih _

/-- The basis setter leaves the matrix alone and keeps a tableau
well-formed. -/
theorem basis_at_set_frame (t t' : Tableau) (hwf : t.wf) (i c : Int)
    (h : t.basis_at_set i c = some t') : t'.wf ∧ t'.toMatrix = t.toMatrix := by
  unfold Tableau.basis_at_set at h
  split_ifs at h
  simp only [Option.some.injEq] at h
  rw [← h]
  refine ⟨⟨hwf.1, hwf.2.1, hwf.2.2.1, ?_, ?_⟩, rfl⟩
  · simpa using hwf.2.2.2.1
  · simpa using hwf.2.2.2.2

section Artificial
open PrimalSimplex

/-- The entries of the auxiliary tableau that phase I reads: the structural
columns and the right-hand sides of the constraint rows are those of the
original tableau, and the objective row is zero on the structural columns and
on the right-hand side. -/
theorem create_artificial_spec (orig : Tableau) (hwf : orig.wf) (k : Nat) (art : Tableau)
    (h : create_artificial_tableau orig k = some art) :
    art.wf ∧ art.m = orig.m ∧ art.n = orig.n + k ∧
      (∀ i j, i < orig.m - 1 → j < orig.n - 1 → art.at_ i j = orig.at_ i j) ∧
      (∀ i, i < orig.m - 1 → art.at_ i (orig.n - 1 + k) = orig.at_ i (orig.n - 1)) ∧
      (∀ j, j < orig.n - 1 → art.at_ (orig.m - 1) j = 0) ∧
      art.at_ (orig.m - 1) (orig.n - 1 + k) = 0 := by
  have hm := hwf.1
  have hn := hwf.2.1
  unfold create_artificial_tableau at h
  simp only at h
  obtain ⟨a4, h4, h5⟩ := Option.map_eq_some'.1 h
  obtain ⟨a3, h3, h4⟩ := Option.map_eq_some'.1 h4
  -- the state after the first two loops and the loop of the artificial columns
  have inv3 : a3.wf ∧ a3.m = orig.m ∧ a3.n = orig.n + k ∧
      (∀ i j, i < orig.m - 1 → j < orig.n - 1 → a3.at_ i j = orig.at_ i j) ∧
      ∀ j, j < orig.n + k → a3.at_ (orig.m - 1) j = 0 := by
    revert h3
    generalize a3 = s3
    have key := @foldl_invariant Nat (Option Tableau)
      (fun (a : Option Tableau) => ∀ s, a = some s →
        s.wf ∧ s.m = orig.m ∧ s.n = orig.n + k ∧
          (∀ i j, i < orig.m - 1 → j < orig.n - 1 → s.at_ i j = orig.at_ i j) ∧
          ∀ j, j < orig.n + k → s.at_ (orig.m - 1) j = 0)
    refine fun h3 => key _ _ _ ?_ ?_ s3 h3
    · -- the first two loops
      intro a2 h2
      obtain ⟨a1, h1, h2⟩ := Option.map_eq_some'.1 h2
      have inv1 : a1.wf ∧ a1.m = orig.m ∧ a1.n = orig.n + k ∧ ∀ i j, a1.at_ i j = 0 := by
        revert h1
        generalize a1 = s1
        have key1 := @foldl_invariant Nat (Option Tableau)
          (fun (a : Option Tableau) => ∀ s, a = some s →
            s.wf ∧ s.m = orig.m ∧ s.n = orig.n + k ∧ ∀ i j, s.at_ i j = 0)
        refine fun h1 => key1 _ _ _ ?_ ?_ s1 h1
        · intro s hs
          simp only [Option.some.injEq] at hs
          rw [← hs]
          refine ⟨⟨hm, ?_, ?_, ?_, ?_⟩, rfl, rfl, ?_⟩
          · show 1 ≤ orig.n + k
            omega
          · show orig.m * (orig.n + k) ≤ (List.replicate (orig.m * (orig.n + k)) (0 : ℚ)).length
            simp
          · show orig.m - 1 ≤ (List.replicate (orig.m - 1) 0).length
            simp
          · show orig.m - 1 ≤ (List.replicate (orig.m - 1) false).length
            simp
          · intro i j
            exact zeros_at _ _ i j
        · intro a i _ ha s hs
          cases a with
          | none => simp at hs
          | some q =>
            obtain ⟨w, e1, e2, e3⟩ := ha q rfl
            simp only [Option.some_bind] at hs
            split_ifs at hs
            · obtain ⟨w', em⟩ := basis_at_set_frame q s w _ _ hs
              have hat : ∀ i j, s.at_ i j = q.at_ i j := by
                intro i j; unfold Tableau.at_; rw [em]
              refine ⟨w', ?_, ?_, fun i j => (hat i j).trans (e3 i j)⟩
              · show s.toMatrix.m = _
                rw [em]; exact e1
              · show s.toMatrix.n = _
                rw [em]; exact e2
            · simp only [Option.some.injEq] at hs
              rw [← hs]
              exact ⟨w, e1, e2, e3⟩
      obtain ⟨w1, m1, n1, z1⟩ := inv1
      have e := foldl_nested
        (fun (s : Tableau) i j =>
          ({ s with toMatrix := s.toMatrix.at_set i j (orig.at_ i j) } : Tableau))
        (List.range (orig.m - 1)) (List.range (orig.n - 1)) a1
      have h2' := h2.symm.trans e
      obtain ⟨f0, f1, f2, _, _, f5, f6⟩ := foldl_put_spec (fun p : Nat × Nat => p.1)
        (fun p : Nat × Nat => p.2) (fun p : Nat × Nat => orig.at_ p.1 p.2)
        ((List.range (orig.m - 1)).flatMap
          (fun i => (List.range (orig.n - 1)).map (fun j => (i, j)))) a1 w1
        (by
          intro p hp
          simp only [List.mem_flatMap, List.mem_range, List.mem_map] at hp
          obtain ⟨i, hi, j, hj, rfl⟩ := hp
          rw [m1, n1]
          exact ⟨by show i < orig.m; omega, by show j < orig.n + k; omega⟩)
      rw [← h2'] at f0 f1 f2 f5 f6
      refine ⟨f0, f1.trans m1, f2.trans n1, ?_, ?_⟩
      · intro i j hi hj
        have := f6 (i, j)
          (by
            simp only [List.mem_flatMap, List.mem_range, List.mem_map]
            exact ⟨i, hi, j, hj, rfl⟩)
          (by
            intro b _ hb1 hb2
            have : b = (i, j) := Prod.ext hb1 hb2
            rw [this])
        exact this
      · intro j hj
        rw [f5 (orig.m - 1) j (by rw [n1]; exact hj)]
        · exact z1 _ _
        · intro p hp hc
          simp only [List.mem_flatMap, List.mem_range, List.mem_map] at hp
          obtain ⟨i, hi, j', _, rfl⟩ := hp
          have : i = orig.m - 1 := hc.1
          omega
    · -- the loop of the artificial columns
      intro a i hi ha
      have hi' : i < orig.m - 1 := List.mem_range.1 hi
      apply foldl_invariant
        (fun (a : Option Tableau) => ∀ s, a = some s →
          s.wf ∧ s.m = orig.m ∧ s.n = orig.n + k ∧
            (∀ i j, i < orig.m - 1 → j < orig.n - 1 → s.at_ i j = orig.at_ i j) ∧
            ∀ j, j < orig.n + k → s.at_ (orig.m - 1) j = 0)
      · exact ha
      · intro a1 j hj ha1 s hs
        have hj' := List.mem_range'_1.1 hj
        cases a1 with
        | none => simp at hs
        | some q =>
          obtain ⟨w, e1, e2, e3, e4⟩ := ha1 q rfl
          simp only [Option.some_bind] at hs
          split_ifs at hs
          · obtain ⟨w1, hput⟩ := put_spec q w i j 1 (by rw [e1]; omega) (by rw [e2]; omega)
            obtain ⟨w', em⟩ := basis_at_set_frame _ s w1 _ _ hs
            have hat : ∀ i' j', s.at_ i' j' =
                Tableau.at_ ({ q with toMatrix := q.toMatrix.at_set i j 1 } : Tableau) i' j' := by
              intro i' j'; unfold Tableau.at_; rw [em]
            have d1 : (q.toMatrix.at_set i j 1).m = q.m := rfl
            have d2 : (q.toMatrix.at_set i j 1).n = q.n := rfl
            refine ⟨w', ?_, ?_, ?_, ?_⟩
            · show s.toMatrix.m = _
              rw [em]; exact d1.trans e1
            · show s.toMatrix.n = _
              rw [em]; exact d2.trans e2
            · intro i' j' hi1 hj1
              rw [hat, hput i' j' (by rw [e2]; omega), if_neg (by omega)]
              exact e3 i' j' hi1 hj1
            · intro j' hj1
              rw [hat, hput _ j' (by rw [e2]; omega), if_neg (by omega)]
              exact e4 j' hj1
          · simp only [Option.some.injEq] at hs
            rw [← hs]
            exact ⟨w, e1, e2, e3, e4⟩
  obtain ⟨w3, m3, n3, s3, z3⟩ := inv3
  -- the cost function of the artificial variables
  obtain ⟨g0, g1, g2, _, _, g5, _⟩ := foldl_put_spec (fun _ : Nat => orig.m - 1)
    (fun j : Nat => j) (fun _ : Nat => (1 : ℚ)) (List.range' (orig.n - 1) k) a3 w3
    (by
      intro j hj
      have := List.mem_range'_1.1 hj
      rw [m3, n3]
      exact ⟨by show orig.m - 1 < orig.m; omega, by show j < orig.n + k; omega⟩)
  rw [h4] at g0 g1 g2 g5
  -- the values of the variables column
  obtain ⟨k0, k1, k2, _, _, k5, k6⟩ := foldl_put_spec (fun i : Nat => i)
    (fun _ : Nat => orig.n - 1 + k) (fun i : Nat => orig.at_ i (orig.n - 1))
    (List.range (orig.m - 1)) a4 g0
    (by
      intro i hi
      have := List.mem_range.1 hi
      rw [g1, g2, m3, n3]
      exact ⟨by show i < orig.m; omega, by show orig.n - 1 + k < orig.n + k; omega⟩)
  rw [h5] at k0 k1 k2 k5 k6
  refine ⟨k0, k1.trans (g1.trans m3), k2.trans (g2.trans n3), ?_, ?_, ?_, ?_⟩
  · intro i j hi hj
    rw [k5 i j (by rw [g2, n3]; omega) (fun a _ hc => by have := hc.2; omega)]
    rw [g5 i j (by rw [n3]; omega)
      (fun a ha hc => by have := List.mem_range'_1.1 ha; have := hc.2; omega)]
    exact s3 i j hi hj
  · intro i hi
    exact k6 i (List.mem_range.2 hi) (fun b _ hb _ => by
      have : b = i := hb
      rw [this])
  · intro j hj
    rw [k5 _ j (by rw [g2, n3]; omega) (fun a _ hc => by have := hc.2; omega)]
    rw [g5 _ j (by rw [n3]; omega)
      (fun a ha hc => by have := List.mem_range'_1.1 ha; have := hc.2; omega)]
    exact z3 j (by omega)
  · rw [k5 _ _ (by rw [g2, n3]; omega)
      (fun a ha hc => by have := List.mem_range.1 ha; have := hc.1; omega)]
    rw [g5 _ _ (by rw [n3]; omega)
      (fun a ha hc => by have := List.mem_range'_1.1 ha; have := hc.2; omega)]
    exact z3 _ (by omega)

end Artificial

section PhaseOne
open PrimalSimplex

/-- The passes of `canonicalize` keep the solutions of the constraint rows. -/
theorem canonicalize_upto_relaxes (t : Tableau) (hwf : t.wf) (k : Nat) :
    ∀ s, t.canonicalize_upto k = some s → s.wf ∧ t.relaxes s := by
  induction k with
  | zero =>
    intro s h
    simp only [Tableau.canonicalize_upto, List.range_zero, List.foldl_nil,
      Option.some.injEq] at h
    rw [← h]
    exact ⟨hwf, relaxes_refl _⟩
  | succ k ih =>
    intro s h
    rw [canonicalize_upto_succ] at h
    cases hk : t.canonicalize_upto k with
    | none => simp [hk] at h
    | some s' =>
      obtain ⟨w, r⟩ := ih s' hk
      simp only [hk, Option.some_bind] at h
      unfold Tableau.pivot at h
      split_ifs at h with hc
      simp only [Option.some.injEq, Int.toNat_ofNat] at h
      obtain ⟨_, _, c3, c4⟩ := hc
      have hr : k < s'.m - 1 := by omega
      have hcol : s'.basis_indices.getD k 0 < s'.n - 1 := by omega
      obtain ⟨e0, e1, e2, _, _, e5⟩ := pivot_body_spec s' w k (s'.basis_indices.getD k 0)
        (by omega) (by omega)
      rw [← h]
      exact ⟨e0, relaxes_trans _ _ _ r
        (pivoted_relaxes s' _ k _ ⟨e1, e2, e5⟩ w.1 w.2.1 hr)⟩

/-- A run of the primal simplex from any well-formed tableau keeps the
solutions of the constraint rows, never raises Infeasible, and a returned
value is the negated objective cell of a tableau without negative reduced
cost. -/
theorem primal_run_relaxes (fuel : Nat) :
    ∀ (tab : Tableau), tab.wf →
      ∀ (o : Outcome) (tab' : Tableau), simplex fuel tab = some (o, tab') →
        tab'.wf ∧ tab.relaxes tab' ∧ o ≠ Outcome.impossible ∧
          ∀ v, o = Outcome.value v →
            tab'.costs_nonneg ∧ v = - tab'.at_ (tab'.m - 1) (tab'.n - 1) := by
  induction fuel with
  | zero => intro tab _ o tab' h; simp [simplex] at h
  | succ fuel ih =>
    intro tab hwf o tab' h
    simp only [simplex] at h
    split_ifs at h with hopt
    · simp only [Option.some.injEq, Prod.mk.injEq] at h
      obtain ⟨ho, ht⟩ := h
      subst ht
      refine ⟨hwf, relaxes_refl _, by rw [← ho]; simp, ?_⟩
      intro v hv
      rw [← ho] at hv
      injection hv with hv
      exact ⟨(test_optimality_iff tab).1 hopt, hv.symm⟩
    · cases hj : select_entering_column tab with
      | none =>
        exact absurd (select_entering_none tab hj) hopt
      | some j =>
        simp only [hj] at h
        split_ifs at h with hunl
        · simp only [Option.some.injEq, Prod.mk.injEq] at h
          obtain ⟨ho, ht⟩ := h
          subst ht
          refine ⟨hwf, relaxes_refl _, by rw [← ho]; simp, ?_⟩
          intro v hv
          rw [← ho] at hv
          cases hv
        · cases h1 : tab.basis_at_set (select_exiting_column tab j) j with
          | none =>
            simp only [h1, Option.some.injEq, Prod.mk.injEq] at h
            obtain ⟨ho, ht⟩ := h
            subst ht
            refine ⟨hwf, relaxes_refl _, by rw [← ho]; simp, ?_⟩
            intro v hv
            rw [← ho] at hv
            cases hv
          | some tab1 =>
            simp only [h1] at h
            cases h2 : tab1.pivot (select_exiting_column tab j) j with
            | none =>
              simp only [h2, Option.some.injEq, Prod.mk.injEq] at h
              obtain ⟨ho, ht⟩ := h
              obtain ⟨w1, em⟩ := basis_at_set_frame tab tab1 hwf _ _ h1
              subst ht
              refine ⟨w1, ?_, by rw [← ho]; simp, ?_⟩
              · refine ⟨?_, ?_, fun x hx => ?_⟩
                · show tab1.toMatrix.m = _
                  rw [em]
                · show tab1.toMatrix.n = _
                  rw [em]
                · have hat : ∀ i j, tab1.at_ i j = tab.at_ i j := by
                    intro i j; unfold Tableau.at_; rw [em]
                  have hm1 : tab1.m = tab.m := by
                    show tab1.toMatrix.m = _
                    rw [em]
                  have hn1 : tab1.n = tab.n := by
                    show tab1.toMatrix.n = _
                    rw [em]
                  have hdot : ∀ i, tab1.row_dot i x = tab.row_dot i x := by
                    intro i
                    unfold Tableau.row_dot
                    rw [hn1]
                    exact Finset.sum_congr rfl (fun j _ => by rw [hat])
                  refine ⟨fun i hi => ?_, ?_⟩
                  · rw [hdot, hn1, hat]
                    exact hx i (by rw [← hm1]; exact hi)
                  · unfold Tableau.objective
                    rw [hdot, hm1, hn1, hat]
              · intro v hv
                rw [← ho] at hv
                cases hv
            | some tab2 =>
              simp only [h2] at h
              obtain ⟨i0, j0, _, _, hi0, _, hwf2, hpiv, _⟩ :=
                basis_pivot_spec tab hwf _ _ tab1 tab2 h1 h2
              obtain ⟨w3, r3, n3, hv⟩ := ih tab2 hwf2 o tab' h
              exact ⟨w3, relaxes_trans _ _ _
                (pivoted_relaxes tab tab2 i0 j0 hpiv hwf.1 hwf.2.1 hi0) r3, n3, hv⟩

/-- The `step_3` loop raises Infeasible only for a positive auxiliary
optimum. -/
theorem step_3_impossible (cost : ℚ) (fuel : Nat) :
    ∀ (art_tab tab tab' : Tableau),
      step_3 cost fuel art_tab tab = some (Step3.failed Outcome.impossible tab') →
        cost > 0 := by
  induction fuel with
  | zero => intro _ _ _ h; simp [step_3] at h
  | succ fuel ih =>
    intro art_tab tab tab' h
    simp only [step_3] at h
    split_ifs at h with hc
    · exact hc
    · split at h
      · simp at h
      · split at h
        · split at h
          · simp at h
          · split at h
            · simp at h
            · exact ih _ _ _ h
        · split at h
          · simp at h
          · exact ih _ _ _ h

/-- The primal simplex never raises Infeasible. -/
theorem simplex_not_impossible (fuel : Nat) :
    ∀ (t t' : Tableau), simplex fuel t ≠ some (Outcome.impossible, t') := by
  induction fuel with
  | zero => intro t t' h; simp [simplex] at h
  | succ fuel ih =>
    intro t t' h
    simp only [simplex] at h
    split_ifs at h
    · simp at h
    · split at h
      · simp at h
      · split_ifs at h
        · simp at h
        · split at h
          · simp at h
          · split at h
            · simp at h
            · exact ih _ _ h

/-- Phase II never raises Infeasible. -/
theorem phase_II_not_impossible (fuel : Nat) (art_tab tab tab' : Tableau) :
    phase_II fuel art_tab tab ≠ some (Outcome.impossible, tab') := by
  intro h
  simp only [phase_II] at h
  split at h
  · simp at h
  · split at h
    · simp at h
    · exact simplex_not_impossible _ _ _ h

/-- When `two_phase` raises Infeasible, phase I has built the auxiliary
problem, the simplex has returned its optimum, and the optimum is positive. -/
theorem two_phase_impossible (fuel : Nat) (tab tab' : Tableau)
    (h : two_phase fuel tab = some (Outcome.impossible, tab')) :
    ∃ tab2 art_tab1 cost art_tab2, auxiliary_problem tab = some (tab2, art_tab1) ∧
      simplex fuel art_tab1 = some (Outcome.value cost, art_tab2) ∧ cost > 0 := by
  unfold two_phase at h
  unfold auxiliary_problem
  simp only at h ⊢
  cases hs : search_usable_variables
      ((List.range (tab.m - 1)).foldl
        (fun (s : Tableau) i =>
          if s.at_ i (s.n - 1) < 0 then { s with toMatrix := s.toMatrix.scale_row i (-1) }
          else s)
        tab) with
  | none => simp [hs] at h
  | some p =>
    obtain ⟨tab2, found⟩ := p
    simp only [hs] at h ⊢
    cases hc : create_artificial_tableau tab2 (tab2.m - 1 - found) with
    | none => simp [hc] at h
    | some art_tab =>
      simp only [hc] at h ⊢
      cases hk : art_tab.canonicalize with
      | none => simp [hk] at h
      | some art_tab1 =>
        simp only [hk] at h ⊢
        cases hx : simplex fuel art_tab1 with
        | none => simp [hx] at h
        | some r =>
          obtain ⟨o, art_tab2⟩ := r
          cases o with
          | value cost =>
            simp only [hx] at h
            cases h3 : step_3 cost fuel art_tab2 tab2 with
            | none => simp [h3] at h
            | some r3 =>
              cases r3 with
              | failed o3 tab3 =>
                simp only [h3, Option.some.injEq, Prod.mk.injEq] at h
                obtain ⟨ho, _⟩ := h
                subst ho
                exact ⟨tab2, art_tab1, cost, art_tab2, rfl, hx,
                  step_3_impossible cost fuel _ _ _ h3⟩
              | phase_II a3 t3 =>
                simp only [h3] at h
                exact absurd h (phase_II_not_impossible _ _ _ _)
          | unlimited => simp [hx] at h
          | invalidForm => simp [hx] at h
          | impossible => exact absurd hx (simplex_not_impossible _ _ _)
          | abort => simp [hx] at h

end PhaseOne

section PhaseOneBound
open PrimalSimplex

/-- A feasible point of the input, extended by zero on the artificial
columns, solves the constraint rows of the auxiliary problem with auxiliary
objective 0. -/
theorem auxiliary_problem_feasible (tab : Tableau) (hwf : tab.wf) (tab2 art_tab1 : Tableau)
    (h : auxiliary_problem tab = some (tab2, art_tab1)) (x : Nat → ℚ) (hx : tab.feasible x) :
    art_tab1.wf ∧
      art_tab1.satisfies (fun j => if j < tab.n - 1 then x j else 0) ∧
      art_tab1.objective (fun j => if j < tab.n - 1 then x j else 0) = 0 := by
  unfold auxiliary_problem at h
  simp only at h
  obtain ⟨w1, r1⟩ := step_1_relaxes tab hwf
  cases hs : search_usable_variables
      ((List.range (tab.m - 1)).foldl
        (fun (s : Tableau) i =>
          if s.at_ i (s.n - 1) < 0 then { s with toMatrix := s.toMatrix.scale_row i (-1) }
          else s)
        tab) with
  | none => simp [hs] at h
  | some p =>
    obtain ⟨t2, found⟩ := p
    simp only [hs] at h
    obtain ⟨w2, r2⟩ := search_usable_relaxes _ w1 t2 found hs
    have r02 := relaxes_trans _ _ _ r1 r2
    cases hc : create_artificial_tableau t2 (t2.m - 1 - found) with
    | none => simp [hc] at h
    | some art_tab =>
      simp only [hc] at h
      cases hk : art_tab.canonicalize with
      | none => simp [hk] at h
      | some a1 =>
        simp only [hk, Option.some.injEq, Prod.mk.injEq] at h
        obtain ⟨_, rfl⟩ := h
        obtain ⟨wa, ma, na, s1, s2, s3, s4⟩ :=
          create_artificial_spec t2 w2 (t2.m - 1 - found) art_tab hc
        obtain ⟨wc, rc⟩ := canonicalize_upto_relaxes art_tab wa (art_tab.m - 1) a1 hk
        obtain ⟨m2, n2, sat2⟩ := r02
        obtain ⟨hsat2, _⟩ := sat2 x hx.2
        have hn := hwf.2.1
        have hn1 : art_tab.n - 1 = (t2.n - 1) + (t2.m - 1 - found) := by
          rw [na, n2]; omega
        -- the rows of the auxiliary tableau at the extended point
        have hdot : ∀ i, art_tab.row_dot i (fun j => if j < tab.n - 1 then x j else 0) =
            ∑ j in Finset.range (t2.n - 1), art_tab.at_ i j * x j := by
          intro i
          unfold Tableau.row_dot
          rw [hn1, Finset.sum_range_add]
          have z : ∑ j in Finset.range (t2.m - 1 - found),
              art_tab.at_ i (t2.n - 1 + j) *
                (fun j => if j < tab.n - 1 then x j else 0) (t2.n - 1 + j) = 0 := by
            apply Finset.sum_eq_zero
            intro j _
            have : ¬ (t2.n - 1 + j < tab.n - 1) := by rw [n2]; omega
            simp only [this, if_false, mul_zero]
          rw [z, add_zero]
          apply Finset.sum_congr rfl
          intro j hj
          have : j < tab.n - 1 := by rw [← n2]; exact Finset.mem_range.1 hj
          simp only [this, if_true]
        have hsat : art_tab.satisfies (fun j => if j < tab.n - 1 then x j else 0) := by
          intro i hi
          rw [ma] at hi
          rw [hdot, hn1, s2 i hi, ← hsat2 i hi]
          unfold Tableau.row_dot
          exact Finset.sum_congr rfl
            (fun j hj => by rw [s1 i j hi (Finset.mem_range.1 hj)])
        have hobj : art_tab.objective (fun j => if j < tab.n - 1 then x j else 0) = 0 := by
          unfold Tableau.objective
          rw [hdot, hn1, ma, s4, sub_zero]
          apply Finset.sum_eq_zero
          intro j hj
          rw [s3 j (Finset.mem_range.1 hj), zero_mul]
        obtain ⟨c1, c2⟩ := rc.2.2 _ hsat
        exact ⟨wc, c1, c2.trans hobj⟩

/-- The auxiliary optimum that the simplex returns in phase I is at most 0
when the input has a feasible point. -/
theorem auxiliary_optimum_nonpos (tab : Tableau) (hwf : tab.wf) (tab2 art_tab1 : Tableau)
    (h : auxiliary_problem tab = some (tab2, art_tab1)) (x : Nat → ℚ) (hx : tab.feasible x)
    (fuel : Nat) (cost : ℚ) (art_tab2 : Tableau)
    (hrun : simplex fuel art_tab1 = some (Outcome.value cost, art_tab2)) : cost ≤ 0 := by
  obtain ⟨w1, hsat, hobj⟩ := auxiliary_problem_feasible tab hwf tab2 art_tab1 h x hx
  obtain ⟨_, r, _, hv⟩ := primal_run_relaxes fuel art_tab1 w1 _ art_tab2 hrun
  obtain ⟨hcost, hval⟩ := hv cost rfl
  obtain ⟨_, e2⟩ := r.2.2 _ hsat
  rw [hobj] at e2
  unfold Tableau.objective at e2
  have hpos : 0 ≤ art_tab2.row_dot (art_tab2.m - 1)
      (fun j => if j < tab.n - 1 then x j else 0) := by
    unfold Tableau.row_dot
    apply Finset.sum_nonneg
    intro j hj
    apply mul_nonneg (hcost j (Finset.mem_range.1 hj))
    show 0 ≤ (if j < tab.n - 1 then x j else 0)
    split_ifs with hj'
    · exact hx.1 j hj'
    · exact le_refl _
  linarith

end PhaseOneBound

/-! ## Gauss-Jordan elimination (`Matrix::invert`) -/

/-- The row swap of a column pass keeps the state of the elimination. -/
theorem eliminated_swap (A : Matrix) (j p : Nat) (s : Matrix × Matrix)
    (h : A.eliminated j s) (hp : p < A.n) (hjp : j < p) :
    A.eliminated j (s.1.swap_rows j p, s.2.swap_rows j p) ∧
      (s.1.kernel_trivial → (s.1.swap_rows j p).kernel_trivial) ∧
      (s.1.swap_rows j p).at_ j j = s.1.at_ p j := by
  obtain ⟨w1, w2, m1, n1, m2, n2, ha, hu⟩ := h
  have hne : j ≠ p := ne_of_lt hjp
  obtain ⟨a1, a2, a3, a4⟩ := swap_rows_spec s.1 w1 j p hne (by omega) (by omega)
  obtain ⟨b1, b2, b3, b4⟩ := swap_rows_spec s.2 w2 j p hne (by omega) (by omega)
  refine ⟨⟨?_, ?_, a1.trans m1, a2.trans n1, b1.trans m2, b2.trans n2, ?_, ?_⟩, ?_, ?_⟩
  · unfold Matrix.wf; rw [a1, a2, a3]; exact w1
  · unfold Matrix.wf; rw [b1, b2, b3]; exact w2
  · intro i k hi hk
    show (s.2.swap_rows j p).product_entry A i k = (s.1.swap_rows j p).at_ i k
    unfold Matrix.product_entry
    rw [b2, a4 i k (by omega)]
    have e : ∀ z ∈ Finset.range s.2.n, (s.2.swap_rows j p).at_ i z * A.at_ z k =
        (if i = j then s.2.at_ p z else if i = p then s.2.at_ j z else s.2.at_ i z) *
          A.at_ z k := fun z hz => by rw [b4 i z (Finset.mem_range.1 hz)]
    rw [Finset.sum_congr rfl e]
    split_ifs
    · exact ha p k hp hk
    · exact ha j k (by omega) hk
    · exact ha i k hi hk
  · intro c hc i hi
    show (s.1.swap_rows j p).at_ i c = _
    rw [a4 i c (by omega)]
    have hjc := hu c hc j (by omega)
    have hpc := hu c hc p hp
    rw [if_neg (by omega)] at hjc hpc
    by_cases h1 : i = j
    · rw [if_pos h1, hpc, if_neg (by omega)]
    · rw [if_neg h1]
      by_cases h2 : i = p
      · rw [if_pos h2, hjc, if_neg (by omega)]
      · rw [if_neg h2]
        exact hu c hc i hi
  · intro hk v hv k hkn
    rw [a2] at hkn
    refine hk v (fun i hi => ?_) k hkn
    rw [a1, a2] at hv
    by_cases hij : i = j
    · have := hv p (by omega)
      rw [hij]
      rw [← this]
      exact Finset.sum_congr rfl (fun z hz => by
        rw [a4 p z (Finset.mem_range.1 hz), if_neg (by omega), if_pos rfl])
    · by_cases hip : i = p
      · have := hv j (by omega)
        rw [hip, ← this]
        exact Finset.sum_congr rfl (fun z hz => by
          rw [a4 j z (Finset.mem_range.1 hz), if_pos rfl])
      · have := hv i hi
        rw [← this]
        exact Finset.sum_congr rfl (fun z hz => by
          rw [a4 i z (Finset.mem_range.1 hz), if_neg hij, if_neg hip])
  · rw [a4 j j (by omega), if_pos rfl]

/-- The scaling of the pivot row keeps the state of the elimination. -/
theorem eliminated_scale (A : Matrix) (j : Nat) (c : ℚ) (s : Matrix × Matrix)
    (h : A.eliminated j s) (hj : j < A.n) (hc : c ≠ 0) :
    A.eliminated j (s.1.scale_row j c, s.2.scale_row j c) ∧
      (s.1.kernel_trivial → (s.1.scale_row j c).kernel_trivial) ∧
      (s.1.scale_row j c).at_ j j = s.1.at_ j j * c := by
  obtain ⟨w1, w2, m1, n1, m2, n2, ha, hu⟩ := h
  obtain ⟨a1, a2, a3, a4⟩ := scale_row_spec s.1 w1 j c (by omega)
  obtain ⟨b1, b2, b3, b4⟩ := scale_row_spec s.2 w2 j c (by omega)
  refine ⟨⟨?_, ?_, a1.trans m1, a2.trans n1, b1.trans m2, b2.trans n2, ?_, ?_⟩, ?_, ?_⟩
  · unfold Matrix.wf; rw [a1, a2, a3]; exact w1
  · unfold Matrix.wf; rw [b1, b2, b3]; exact w2
  · intro i k hi hk
    show (s.2.scale_row j c).product_entry A i k = (s.1.scale_row j c).at_ i k
    unfold Matrix.product_entry
    rw [b2, a4 i k (by omega)]
    have e : ∀ z ∈ Finset.range s.2.n, (s.2.scale_row j c).at_ i z * A.at_ z k =
        (if i = j then s.2.at_ i z * c else s.2.at_ i z) * A.at_ z k :=
      fun z hz => by rw [b4 i z (Finset.mem_range.1 hz)]
    rw [Finset.sum_congr rfl e]
    split_ifs
    · rw [← ha i k hi hk]
      unfold Matrix.product_entry
      rw [Finset.sum_mul]
      exact Finset.sum_congr rfl (fun z _ => by ring)
    · exact ha i k hi hk
  · intro c' hc' i hi
    show (s.1.scale_row j c).at_ i c' = _
    rw [a4 i c' (by omega), hu c' hc' i hi]
    split_ifs <;> first | omega | simp
  · intro hk v hv k hkn
    rw [a2] at hkn
    refine hk v (fun i hi => ?_) k hkn
    rw [a1, a2] at hv
    have := hv i hi
    have e : ∑ z in Finset.range s.1.n, (s.1.scale_row j c).at_ i z * v z =
        (if i = j then c else 1) * ∑ z in Finset.range s.1.n, s.1.at_ i z * v z := by
      rw [Finset.mul_sum]
      apply Finset.sum_congr rfl
      intro z hz
      rw [a4 i z (Finset.mem_range.1 hz)]
      split_ifs <;> ring
    rw [e] at this
    rcases mul_eq_zero.1 this with h0 | h0
    · split_ifs at h0
      · exact absurd h0 hc
      · exact absurd h0 one_ne_zero
    · exact h0
  · rw [a4 j j (by omega), if_pos rfl]

/-- One row elimination of a column pass keeps the state of the
elimination. -/
theorem eliminated_add (A : Matrix) (j i : Nat) (c : ℚ) (s : Matrix × Matrix)
    (h : A.eliminated j s) (hj : j < A.n) (hi : i < A.n) (hij : i ≠ j) :
    A.eliminated j (s.1.add_premultiplied_row j c i, s.2.add_premultiplied_row j c i) ∧
      (s.1.kernel_trivial → (s.1.add_premultiplied_row j c i).kernel_trivial) ∧
      ∀ i' k, k < A.n → (s.1.add_premultiplied_row j c i).at_ i' k =
        if i' = i then s.1.at_ i' k + s.1.at_ j k * c else s.1.at_ i' k := by
  obtain ⟨w1, w2, m1, n1, m2, n2, ha, hu⟩ := h
  obtain ⟨a1, a2, a3, a4⟩ := add_premultiplied_row_spec s.1 w1 j i c (Ne.symm hij) (by omega)
  obtain ⟨b1, b2, b3, b4⟩ := add_premultiplied_row_spec s.2 w2 j i c (Ne.symm hij) (by omega)
  refine ⟨⟨?_, ?_, a1.trans m1, a2.trans n1, b1.trans m2, b2.trans n2, ?_, ?_⟩, ?_, ?_⟩
  · unfold Matrix.wf; rw [a1, a2, a3]; exact w1
  · unfold Matrix.wf; rw [b1, b2, b3]; exact w2
  · intro i' k hi' hk
    show (s.2.add_premultiplied_row j c i).product_entry A i' k =
      (s.1.add_premultiplied_row j c i).at_ i' k
    unfold Matrix.product_entry
    rw [b2, a4 i' k (by omega)]
    have e : ∀ z ∈ Finset.range s.2.n, (s.2.add_premultiplied_row j c i).at_ i' z * A.at_ z k =
        (if i' = i then s.2.at_ i' z + s.2.at_ j z * c else s.2.at_ i' z) * A.at_ z k :=
      fun z hz => by rw [b4 i' z (Finset.mem_range.1 hz)]
    rw [Finset.sum_congr rfl e]
    split_ifs
    · rw [← ha i' k hi' hk, ← ha j k hj hk]
      unfold Matrix.product_entry
      rw [Finset.sum_mul, ← Finset.sum_add_distrib]
      exact Finset.sum_congr rfl (fun z _ => by ring)
    · exact ha i' k hi' hk
  · intro c' hc' i' hi'
    show (s.1.add_premultiplied_row j c i).at_ i' c' = _
    rw [a4 i' c' (by omega), hu c' hc' i' hi', hu c' hc' j hj]
    have : j ≠ c' := by omega
    simp [this]
  · intro hk v hv k hkn
    rw [a2] at hkn
    refine hk v (fun i' hi' => ?_) k hkn
    rw [a1, a2] at hv
    have hrow : ∀ r, ∑ z in Finset.range s.1.n, (s.1.add_premultiplied_row j c i).at_ r z * v z =
        ∑ z in Finset.range s.1.n, s.1.at_ r z * v z +
          (if r = i then c * ∑ z in Finset.range s.1.n, s.1.at_ j z * v z else 0) := by
      intro r
      by_cases hr : r = i
      · rw [if_pos hr, Finset.mul_sum, ← Finset.sum_add_distrib]
        apply Finset.sum_congr rfl
        intro z hz
        rw [a4 r z (Finset.mem_range.1 hz), if_pos hr]
        ring
      · rw [if_neg hr, add_zero]
        apply Finset.sum_congr rfl
        intro z hz
        rw [a4 r z (Finset.mem_range.1 hz), if_neg hr]
    have hjrow := hv j (by omega)
    rw [hrow j, if_neg (Ne.symm hij), add_zero] at hjrow
    have := hv i' hi'
    rw [hrow i', hjrow] at this
    simpa using this
  · intro i' k hk
    exact a4 i' k (by omega)

/-- A loop whose pass `a` establishes `Q a`, while every pass keeps `Inv` and
every `Q b`: after the loop `Q a` holds for every `a` of the list. -/
theorem foldl_establish {σ : Type} (Inv : σ → Prop) (Q : Nat → σ → Prop) (step : σ → Nat → σ)
    (l : List Nat) :
    (∀ s a, a ∈ l → Inv s → Inv (step s a) ∧ Q a (step s a) ∧ ∀ b, Q b s → Q b (step s a)) →
      ∀ s, Inv s → Inv (l.foldl step s) ∧ ∀ a ∈ l, Q a (l.foldl step s) := by
  induction l with
  | nil =>
    intro _ s h
    exact ⟨h, fun a ha => absurd ha (List.not_mem_nil a)⟩
  | cons c l ih =>
    intro hstep s h
    simp only [List.foldl_cons]
    obtain ⟨i1, q1, p1⟩ := hstep s c (List.mem_cons_self _ _) h
    have hstep' : ∀ s a, a ∈ l → Inv s →
        Inv (step s a) ∧ Q a (step s a) ∧ ∀ b, Q b s → Q b (step s a) :=
      fun s a ha => hstep s a (List.mem_cons_of_mem _ ha)
    obtain ⟨i2, q2⟩ := ih hstep' (step s c) i1
    refine ⟨i2, ?_⟩
    intro a ha
    rcases List.mem_cons.1 ha with hac | hal
    · subst hac
      have := foldl_invariant (fun s => Inv s ∧ Q a s) step l (step s a) ⟨i1, q1⟩
        (fun s b hb hs => ⟨(hstep' s b hb hs.1).1, (hstep' s b hb hs.1).2.2 a hs.2⟩)
      exact this.2
    · exact q2 a hal

/-- The elimination loop of a column pass: started with 1 on the pivot
position, it leaves column `j` a unit column. -/
theorem eliminate_column (A : Matrix) (j : Nat) (hj : j < A.n) (s2 : Matrix × Matrix)
    (h : A.eliminated j s2) (h1 : s2.1.at_ j j = 1) :
    A.eliminated (j + 1)
        ((List.range s2.1.m).foldl
          (fun (s : Matrix × Matrix) i =>
            if i = j then s
            else
              let value := s.1.at_ i j
              let multiplier := -1 * value
              (s.1.add_premultiplied_row j multiplier i,
                s.2.add_premultiplied_row j multiplier i))
          s2) ∧
      (s2.1.kernel_trivial →
        ((List.range s2.1.m).foldl
          (fun (s : Matrix × Matrix) i =>
            if i = j then s
            else
              let value := s.1.at_ i j
              let multiplier := -1 * value
              (s.1.add_premultiplied_row j multiplier i,
                s.2.add_premultiplied_row j multiplier i))
          s2).1.kernel_trivial) := by
  have hm : s2.1.m = A.n := h.2.2.1
  have key := foldl_establish
    (fun (s : Matrix × Matrix) => A.eliminated j s ∧ s.1.at_ j j = 1 ∧
      (s2.1.kernel_trivial → s.1.kernel_trivial))
    (fun b (s : Matrix × Matrix) => b = j ∨ s.1.at_ b j = 0)
    (fun (s : Matrix × Matrix) i =>
      if i = j then s
      else
        let value := s.1.at_ i j
        let multiplier := -1 * value
        (s.1.add_premultiplied_row j multiplier i,
          s.2.add_premultiplied_row j multiplier i))
    (List.range s2.1.m)
    (by
      intro s a ha ⟨he, hjj, hk⟩
      have ha' : a < A.n := by rw [← hm]; exact List.mem_range.1 ha
      by_cases haj : a = j
      · simp only [if_pos haj]
        exact ⟨⟨he, hjj, hk⟩, Or.inl haj, fun b hb => hb⟩
      · simp only [if_neg haj]
        obtain ⟨e1, e2, e3⟩ := eliminated_add A j a (-1 * s.1.at_ a j) s he hj ha' haj
        refine ⟨⟨e1, ?_, fun hk0 => e2 (hk hk0)⟩, ?_, ?_⟩
        · show (s.1.add_premultiplied_row j (-1 * s.1.at_ a j) a).at_ j j = 1
          rw [e3 j j hj, if_neg (Ne.symm haj)]
          exact hjj
        · right
          show (s.1.add_premultiplied_row j (-1 * s.1.at_ a j) a).at_ a j = 0
          rw [e3 a j hj, if_pos rfl, hjj]
          ring
        · intro b hb
          rcases hb with hb | hb
          · exact Or.inl hb
          · right
            show (s.1.add_premultiplied_row j (-1 * s.1.at_ a j) a).at_ b j = 0
            rw [e3 b j hj]
            split_ifs with hba
            · rw [hba, hjj]; ring
            · exact hb)
    s2 ⟨h, h1, fun hk => hk⟩
  obtain ⟨⟨he, hjj, hk⟩, hq⟩ := key
  refine ⟨?_, hk⟩
  obtain ⟨w1, w2, m1, n1, m2, n2, ha, hu⟩ := he
  refine ⟨w1, w2, m1, n1, m2, n2, ha, ?_⟩
  intro c hc i hi
  rcases Nat.lt_succ_iff_lt_or_eq.1 hc with hlt | heq
  · exact hu c hlt i hi
  · subst heq
    by_cases hic : i = c
    · rw [if_pos hic, hic]; exact hjj
    · rw [if_neg hic]
      rcases hq i (List.mem_range.2 (by rw [hm]; exact hi)) with h0 | h0
      · exact absurd h0 hic
      · exact h0

/-- With a trivial kernel, column `j` has a non-zero entry on or below the
diagonal. -/
theorem pivot_exists (A : Matrix) (j : Nat) (hj : j < A.n) (s : Matrix × Matrix)
    (h : A.eliminated j s) (hk : s.1.kernel_trivial) :
    ¬ ∀ i, j ≤ i → i < A.n → s.1.at_ i j = 0 := by
  intro hz
  obtain ⟨_, _, m1, n1, _, _, _, hu⟩ := h
  have hv := hk (fun k => if k = j then 1 else if k < j then - s.1.at_ k j else 0)
    (by
      intro i hi
      rw [m1] at hi
      rw [n1]
      have e : ∀ k ∈ Finset.range A.n,
          s.1.at_ i k * (fun k => if k = j then 1 else if k < j then - s.1.at_ k j else 0) k =
            (if j = k then s.1.at_ i j else 0) +
              (if i = k then (if i < j then - s.1.at_ i j else 0) else 0) := by
        intro k hk'
        simp only
        by_cases hkj : k = j
        · subst hkj
          by_cases hik : i = k
          · subst hik; simp
          · simp [hik]
        · by_cases hlt : k < j
          · rw [hu k hlt i hi]
            by_cases hik : i = k
            · subst hik; simp [hkj, hlt, Ne.symm hkj]
            · simp [hkj, hlt, hik, Ne.symm hkj]
          · by_cases hik : i = k
            · subst hik; simp [hkj, hlt, Ne.symm hkj]
            · simp [hkj, hlt, hik, Ne.symm hkj]
      rw [Finset.sum_congr rfl e, Finset.sum_add_distrib, Finset.sum_ite_eq, Finset.sum_ite_eq]
      simp only [Finset.mem_range, hj, hi, if_true]
      by_cases hij : i < j
      · simp [hij]
      · simp [hij, hz i (by omega) hi])
    j (by rw [n1]; exact hj)
  simp at hv

/-- A right inverse of a square array of rationals is a left inverse. -/
theorem product_comm (n : Nat) (f g : Nat → Nat → ℚ)
    (h : ∀ i k, i < n → k < n →
      ∑ z in Finset.range n, f i z * g z k = if i = k then 1 else 0) :
    ∀ i k, i < n → k < n → ∑ z in Finset.range n, g i z * f z k = if i = k then 1 else 0 := by
  have hFG : Matrix.of (fun (i j : Fin n) => f i j) * Matrix.of (fun (i j : Fin n) => g i j)
      = 1 := by
    ext i k
    rw [Matrix.mul_apply, Matrix.one_apply]
    have := h i k i.2 k.2
    rw [Finset.sum_range] at this
    simp only [Matrix.of_apply]
    rw [this]
    simp only [Fin.ext_iff]
  have hGF := Matrix.mul_eq_one_comm.1 hFG
  intro i k hi hk
  have := congrFun (congrFun hGF ⟨i, hi⟩) ⟨k, hk⟩
  rw [Matrix.mul_apply, Matrix.one_apply] at this
  simp only [Matrix.of_apply, Fin.ext_iff] at this
  rw [Finset.sum_range]
  exact this

/-- The loop that writes the diagonal of the auxiliary matrix. -/
theorem foldl_diag (l : List Nat) :
    ∀ (M : Matrix), M.wf → (∀ j ∈ l, j < M.m ∧ j < M.n) →
      (l.foldl (fun A j => A.at_set j j 1) M).wf ∧
      (l.foldl (fun A j => A.at_set j j 1) M).m = M.m ∧
      (l.foldl (fun A j => A.at_set j j 1) M).n = M.n ∧
      ∀ i k, k < M.n → (l.foldl (fun A j => A.at_set j j 1) M).at_ i k =
        if i = k ∧ i ∈ l then 1 else M.at_ i k := by
  induction l with
  | nil => intro M hwf _; exact ⟨hwf, rfl, rfl, fun i k _ => by simp⟩
  | cons a l ih =>
    intro M hwf hl
    simp only [List.foldl_cons]
    obtain ⟨ha1, ha2⟩ := hl a (List.mem_cons_self _ _)
    obtain ⟨e1, e2, e3, e4⟩ := ih (M.at_set a a 1) (at_set_wf M hwf a a 1)
      (fun j hj => hl j (List.mem_cons_of_mem _ hj))
    refine ⟨e1, e2, e3, ?_⟩
    intro i k hk
    rw [e4 i k hk, at_at_set M hwf a a 1 ha1 ha2 i k hk]
    by_cases hik : i = k
    · by_cases hia : i = a
      · subst hik; subst hia; simp
      · have hka : ¬ k = a := by rw [← hik]; exact hia
        simp [hik, hka]
    · have : ¬ (i = a ∧ k = a) := fun hc => hik (hc.1.trans hc.2.symm)
      simp [hik, this]

/-- The auxiliary matrix of `invert` is the identity. -/
theorem identity_spec (n : Nat) :
    (Matrix.identity n n).wf ∧ (Matrix.identity n n).m = n ∧ (Matrix.identity n n).n = n ∧
      ∀ i k, k < n → (Matrix.identity n n).at_ i k = if i = k then 1 else 0 := by
  obtain ⟨e1, e2, e3, e4⟩ := foldl_diag (List.range n) (Matrix.zeros n n) (zeros_wf n n)
    (fun j hj => ⟨List.mem_range.1 hj, List.mem_range.1 hj⟩)
  refine ⟨e1, e2, e3, ?_⟩
  intro i k hk
  have := e4 i k hk
  rw [zeros_at] at this
  unfold Matrix.identity
  rw [this]
  by_cases hik : i = k
  · have : i ∈ List.range n := List.mem_range.2 (by omega)
    simp [hik, List.mem_range.2 hk]
  · simp [hik]

/-- The column loop of `invert` starts in a state of the elimination. -/
theorem eliminated_start (A : Matrix) (hwf : A.wf) (hsq : A.m = A.n) :
    A.eliminated 0 (A, Matrix.identity A.m A.n) := by
  rw [hsq]
  obtain ⟨e1, e2, e3, e4⟩ := identity_spec A.n
  refine ⟨hwf, e1, hsq, rfl, e2, e3, ?_, fun c hc => absurd hc (Nat.not_lt_zero _)⟩
  intro i k hi hk
  show (Matrix.identity A.n A.n).product_entry A i k = A.at_ i k
  unfold Matrix.product_entry
  rw [e3]
  have e : ∀ z ∈ Finset.range A.n, (Matrix.identity A.n A.n).at_ i z * A.at_ z k =
      if i = z then A.at_ i k else 0 := by
    intro z hz
    rw [e4 i z (Finset.mem_range.1 hz)]
    by_cases hiz : i = z
    · subst hiz; simp
    · simp [hiz]
  rw [Finset.sum_congr rfl e, Finset.sum_ite_eq]
  simp [hi]

/-- One pass of the column loop of `invert`: without a pivot the column is
zero on and below the diagonal; with one, the pass leads to the state of the
elimination before the next column. -/
theorem invert_column_spec (A : Matrix) (j : Nat) (hj : j < A.n) (s : Matrix × Matrix)
    (h : A.eliminated j s) :
    (Matrix.invert_column s j = none → ∀ i, j ≤ i → i < A.n → s.1.at_ i j = 0) ∧
      ∀ s', Matrix.invert_column s j = some s' →
        A.eliminated (j + 1) s' ∧ (s.1.kernel_trivial → s'.1.kernel_trivial) := by
  have hm : s.1.m = A.n := h.2.2.1
  unfold Matrix.invert_column
  cases hf : Matrix.find_pivot_row s.1 j with
  | none =>
    refine ⟨fun _ i hji hi => ?_, fun s' hs' => by simp at hs'⟩
    unfold Matrix.find_pivot_row at hf
    have := List.find?_eq_none.1 hf i (List.mem_range'_1.2 ⟨hji, by omega⟩)
    simpa using this
  | some p =>
    refine ⟨fun hn => by simp at hn, fun s' hs' => ?_⟩
    unfold Matrix.find_pivot_row at hf
    have hpiv : s.1.at_ p j ≠ 0 := by simpa using List.find?_some hf
    have hmem := List.mem_range'_1.1 (List.mem_of_find?_eq_some hf)
    have hp : p < A.n := by omega
    simp only [Option.some.injEq] at hs'
    -- the state after the swap
    have h1 : A.eliminated j
          (if j ≠ p then (s.1.swap_rows j p, s.2.swap_rows j p) else s) ∧
        (s.1.kernel_trivial →
          (if j ≠ p then (s.1.swap_rows j p, s.2.swap_rows j p) else s).1.kernel_trivial) ∧
        (if j ≠ p then (s.1.swap_rows j p, s.2.swap_rows j p) else s).1.at_ j j =
          s.1.at_ p j := by
      by_cases hjp : j = p
      · rw [if_neg (by simpa using hjp)]
        exact ⟨h, fun hk => hk, by rw [← hjp]⟩
      · rw [if_pos hjp]
        exact eliminated_swap A j p s h hp (by omega)
    obtain ⟨a1, a2, a3⟩ := h1
    obtain ⟨b1, b2, b3⟩ := eliminated_scale A j (1 / s.1.at_ p j) _ a1 hj
      (one_div_ne_zero hpiv)
    have b4 : (Matrix.scale_row
        (if j ≠ p then (s.1.swap_rows j p, s.2.swap_rows j p) else s).1 j
          (1 / s.1.at_ p j)).at_ j j = 1 := by
      rw [b3, a3]
      field_simp
    obtain ⟨c1, c2⟩ := eliminate_column A j hj _ b1 b4
    rw [← hs']
    exact ⟨c1, fun hk => c2 (b2 (a2 hk))⟩

/-- The column loop of `invert` from column `j` on: when it ends with the
final copy, the state of the elimination has been carried through all
columns; when it ends at a column `c` without pivot, the columns before `c`
are unit columns, column `c` is zero on and below the diagonal, and the
matrix had a non-trivial kernel. -/
theorem invert_loop_spec (A : Matrix) :
    ∀ (d j : Nat), j + d = A.n → ∀ (s : Matrix × Matrix), A.eliminated j s →
      (∀ R, Matrix.invert_loop (List.range' j d) s = InvertResult.inverted R →
        ∃ s', A.eliminated A.n s' ∧
          R = { s'.1 with buffer :=
            s'.2.buffer.take (s'.1.m * s'.1.n) ++ s'.1.buffer.drop (s'.1.m * s'.1.n) }) ∧
      ∀ c M', Matrix.invert_loop (List.range' j d) s = InvertResult.singular c M' →
        j ≤ c ∧ c < A.n ∧ M'.m = A.n ∧ M'.n = A.n ∧
          (∀ c', c' < c → ∀ i, i < A.n → M'.at_ i c' = if i = c' then 1 else 0) ∧
          (∀ i, c ≤ i → i < A.n → M'.at_ i c = 0) ∧ (c = j → M' = s.1) ∧
          ¬ s.1.kernel_trivial := by
  intro d
  induction d with
  | zero =>
    intro j hj s h
    have : j = A.n := by omega
    subst this
    refine ⟨fun R hR => ?_, fun c M' hc => ?_⟩
    · simp only [List.range'_zero, Matrix.invert_loop] at hR
      injection hR with hR
      exact ⟨s, h, hR.symm⟩
    · simp [Matrix.invert_loop] at hc
  | succ d ih =>
    intro j hj s h
    have hjn : j < A.n := by omega
    obtain ⟨hnone, hsome⟩ := invert_column_spec A j hjn s h
    have hr : List.range' j (d + 1) = j :: List.range' (j + 1) d := by
      simp [List.range'_succ]
    rw [hr]
    refine ⟨fun R hR => ?_, fun c M' hc => ?_⟩
    · simp only [Matrix.invert_loop] at hR
      cases hcol : Matrix.invert_column s j with
      | none => simp [hcol] at hR
      | some s1 =>
        simp only [hcol] at hR
        exact (ih (j + 1) (by omega) s1 (hsome s1 hcol).1).1 R hR
    · simp only [Matrix.invert_loop] at hc
      cases hcol : Matrix.invert_column s j with
      | none =>
        simp only [hcol] at hc
        injection hc with hc1 hc2
        subst hc1
        subst hc2
        have hz := hnone hcol
        refine ⟨le_refl _, hjn, h.2.2.1, h.2.2.2.1, h.2.2.2.2.2.2.2, hz, fun _ => rfl, ?_⟩
        intro hk
        exact pivot_exists A j hjn s h hk hz
      | some s1 =>
        simp only [hcol] at hc
        obtain ⟨e1, e2⟩ := hsome s1 hcol
        obtain ⟨k1, k2, k3, k4, k5, k6, _, k8⟩ := (ih (j + 1) (by omega) s1 e1).2 c M' hc
        exact ⟨by omega, k2, k3, k4, k5, k6, fun hcj => by omega, fun hk => k8 (e2 hk)⟩

/-- The entries of the matrix after the final copy of `invert` are those of
the auxiliary matrix. -/
theorem final_copy_spec (M J : Matrix) (n : Nat) (hm : M.m = n) (hn : M.n = n) (hJn : J.n = n)
    (hJ : n * n ≤ J.buffer.length) (i k : Nat) (hi : i < n) (hk : k < n) :
    Matrix.at_
        ({ M with
            buffer := J.buffer.take (M.m * M.n) ++ M.buffer.drop (M.m * M.n) } : Matrix)
        i k = J.at_ i k := by
  unfold Matrix.at_
  simp only
  rw [hm, hn, hJn]
  have hlt : i * n + k < n * n := by
    calc i * n + k < i * n + n := by omega
      _ = (i + 1) * n := by ring
      _ ≤ n * n := Nat.mul_le_mul_right n hi
  rw [List.getD_eq_getElem?_getD, List.getD_eq_getElem?_getD,
    List.getElem?_append_left (by rw [List.length_take]; omega),
    List.getElem?_take_of_lt hlt]

/-- When `invert` ends with the final copy, the matrix it leaves is a right
inverse of the original. -/
theorem invert_inverted (A : Matrix) (hwf : A.wf) (hsq : A.m = A.n) (R : Matrix)
    (h : A.invert = some (InvertResult.inverted R)) :
    R.m = A.n ∧ R.n = A.n ∧
      ∀ i k, i < A.n → k < A.n → A.product_entry R i k = if i = k then 1 else 0 := by
  unfold Matrix.invert at h
  rw [if_pos hsq, List.range_eq_range'] at h
  simp only [Option.some.injEq] at h
  obtain ⟨s', he, hR⟩ :=
    (invert_loop_spec A A.n 0 (by omega) _ (eliminated_start A hwf hsq)).1 R h
  obtain ⟨w1, w2, m1, n1, m2, n2, ha, hu⟩ := he
  have hleft : ∀ i k, i < A.n → k < A.n →
      ∑ z in Finset.range A.n, s'.2.at_ i z * A.at_ z k = if i = k then 1 else 0 := by
    intro i k hi hk
    have := ha i k hi hk
    unfold Matrix.product_entry at this
    rw [n2] at this
    rw [this]
    exact hu k hk i hi
  have hright := product_comm A.n (fun i z => s'.2.at_ i z) (fun z k => A.at_ z k) hleft
  have hlen : A.n * A.n ≤ s'.2.buffer.length := by
    have := w2
    unfold Matrix.wf at this
    rw [m2, n2] at this
    exact this
  refine ⟨by rw [hR]; exact m1, by rw [hR]; exact n1, ?_⟩
  intro i k hi hk
  unfold Matrix.product_entry
  rw [← hright i k hi hk]
  apply Finset.sum_congr rfl
  intro z hz
  rw [hR, final_copy_spec s'.1 s'.2 A.n m1 n1 n2 hlen z k (Finset.mem_range.1 hz) hk]

/-- A matrix with a right inverse has a trivial kernel. -/
theorem invertible_kernel_trivial (A : Matrix) (hsq : A.m = A.n) (h : A.invertible) :
    A.kernel_trivial := by
  obtain ⟨B, _, _, hB⟩ := h
  have hleft := product_comm A.n (fun i z => A.at_ i z) (fun z k => B.at_ z k) hB
  intro v hv k hk
  rw [hsq] at hv
  have e1 : v k = ∑ i in Finset.range A.n, (if k = i then 1 else 0) * v i := by
    have : ∀ i ∈ Finset.range A.n, (if k = i then (1 : ℚ) else 0) * v i =
        if k = i then v k else 0 := by
      intro i _
      by_cases hki : k = i
      · subst hki; simp
      · simp [hki]
    rw [Finset.sum_congr rfl this, Finset.sum_ite_eq]
    simp [hk]
  rw [e1]
  have e2 : ∀ i ∈ Finset.range A.n, (if k = i then (1 : ℚ) else 0) * v i =
      ∑ z in Finset.range A.n, B.at_ k z * (A.at_ z i * v i) := by
    intro i hi
    rw [← hleft k i hk (Finset.mem_range.1 hi), Finset.sum_mul]
    exact Finset.sum_congr rfl (fun z _ => by ring)
  rw [Finset.sum_congr rfl e2, Finset.sum_comm]
  apply Finset.sum_eq_zero
  intro z hz
  rw [← Finset.mul_sum, hv z (Finset.mem_range.1 hz), mul_zero]

/-- The two ways `invert` ends on a square matrix. -/
theorem invert_cases (A : Matrix) (hwf : A.wf) (hsq : A.m = A.n) :
    (∃ R, A.invert = some (InvertResult.inverted R)) ∨
      ∃ c M', A.invert = some (InvertResult.singular c M') ∧ c < A.n ∧ M'.m = A.n ∧
        M'.n = A.n ∧ (∀ c', c' < c → ∀ i, i < A.n → M'.at_ i c' = if i = c' then 1 else 0) ∧
        (∀ i, c ≤ i → i < A.n → M'.at_ i c = 0) ∧ (c = 0 → M' = A) ∧ ¬ A.kernel_trivial := by
  have hdef : A.invert =
      some (Matrix.invert_loop (List.range' 0 A.n) (A, Matrix.identity A.m A.n)) := by
    unfold Matrix.invert
    rw [if_pos hsq, List.range_eq_range']
  cases hr : Matrix.invert_loop (List.range' 0 A.n) (A, Matrix.identity A.m A.n) with
  | inverted R => exact Or.inl ⟨R, by rw [hdef, hr]⟩
  | singular c M' =>
    right
    obtain ⟨_, k2, k3, k4, k5, k6, k7, k8⟩ :=
      (invert_loop_spec A A.n 0 (by omega) _ (eliminated_start A hwf hsq)).2 c M' hr
    exact ⟨c, M', by rw [hdef, hr], k2, k3, k4, k5, k6, k7, k8⟩

/-! ## The loops of `search_usable_variables` -/

section UsableSpec
open PrimalSimplex

/-- The inner loop of `search_usable_variables` ends with
`positive_elements = 1` only when the rows it scanned hold no negative entry
and, together with the count it started from, exactly one positive entry,
whose row is `elem_row`. -/
theorem usable_scan_spec (tab : Tableau) (j : Nat) (l : List Nat) :
    ∀ (st : Int × Nat), st.2 ≤ 1 → (usable_scan tab j l st).2 = 1 →
      (st.2 = 1 ∧ (∀ i ∈ l, tab.at_ i j = 0) ∧ (usable_scan tab j l st).1 = st.1) ∨
      (st.2 = 0 ∧ ∃ i0 ∈ l, 0 < tab.at_ i0 j ∧ (usable_scan tab j l st).1 = (i0 : Int) ∧
        ∀ i ∈ l, i ≠ i0 → tab.at_ i j = 0) := by
  induction l with
  | nil =>
    intro st _ h
    simp only [usable_scan] at h ⊢
    left
    exact ⟨h, fun i hi => absurd hi (List.not_mem_nil i), trivial⟩
  | cons i rest ih =>
    intro st hst h
    simp only [usable_scan] at h ⊢
    by_cases hneg : tab.at_ i j < 0
    · rw [if_pos hneg] at h
      simp at h
    · rw [if_neg hneg] at h ⊢
      by_cases hpos : tab.at_ i j > 0
      · simp only [hpos, if_true] at h ⊢
        by_cases hgt : st.2 + 1 > 1
        · rw [if_pos hgt] at h
          simp only at h
          omega
        · rw [if_neg hgt] at h ⊢
          have hst0 : st.2 = 0 := by omega
          rcases ih ((i : Int), st.2 + 1) (by simp only; omega) h with ⟨_, hz, hr⟩ | ⟨hc, _⟩
          · right
            refine ⟨hst0, i, List.mem_cons_self _ _, hpos, hr, ?_⟩
            intro i' hi' hne
            rcases List.mem_cons.1 hi' with h1 | h1
            · exact absurd h1 hne
            · exact hz i' h1
          · simp only at hc
            omega
      · have hzero : tab.at_ i j = 0 := le_antisymm (not_lt.1 hpos) (not_lt.1 hneg)
        simp only [hpos, if_false] at h ⊢
        by_cases hgt : st.2 > 1
        · rw [if_pos hgt] at h
          omega
        · rw [if_neg hgt] at h ⊢
          rcases ih st hst h with ⟨h1, hz, hr⟩ | ⟨h0, i0, hi0, hp0, hr, hz⟩
          · left
            refine ⟨h1, ?_, hr⟩
            intro i' hi'
            rcases List.mem_cons.1 hi' with h2 | h2
            · rw [h2]; exact hzero
            · exact hz i' h2
          · right
            refine ⟨h0, i0, List.mem_cons_of_mem _ hi0, hp0, hr, ?_⟩
            intro i' hi' hne
            rcases List.mem_cons.1 hi' with h2 | h2
            · rw [h2]; exact hzero
            · exact hz i' h2 hne

end UsableSpec

section UsableStep
open PrimalSimplex

theorem getD_set_self {α : Type} (l : List α) (i : Nat) (a d : α) (h : i < l.length) :
    (l.set i a).getD i d = a := by
  rw [List.getD_eq_getElem?_getD, List.getElem?_set_self h]
  rfl

theorem getD_set_other {α : Type} (l : List α) (i k : Nat) (a d : α) (h : k ≠ i) :
    (l.set i a).getD k d = l.getD k d := by
  rw [List.getD_eq_getElem?_getD, List.getD_eq_getElem?_getD, List.getElem?_set_ne (Ne.symm h)]

/-- One pass of the outer loop of `search_usable_variables` on column `j`:
either nothing changes, or the column has one positive entry, in a row `i`
without basic variable, and zeros in the other constraint rows; then row `i`
is marked with column `j`, the count grows by one and row `i` is divided by
`at(i,j)`. -/
theorem usable_step_spec (tab : Tableau) (hwf : tab.wf) (found j : Nat) (hj : j < tab.n - 1) :
    ∃ s' f', usable_step (some (tab, found)) j = some (s', f') ∧ s'.wf ∧ s'.m = tab.m ∧
      s'.n = tab.n ∧
      ((s' = tab ∧ f' = found) ∨
        ∃ i, i < tab.m - 1 ∧ 0 < tab.at_ i j ∧
          (∀ k, k < tab.m - 1 → k ≠ i → tab.at_ k j = 0) ∧
          tab.basis_set_at i = false ∧ s'.basis_set_at i = true ∧ s'.basis_at i = j ∧
          (∀ k, k ≠ i →
            s'.basis_set_at k = tab.basis_set_at k ∧ s'.basis_at k = tab.basis_at k) ∧
          (∀ k c, c < tab.n →
            s'.at_ k c = if k = i then tab.at_ i c / tab.at_ i j else tab.at_ k c) ∧
          f' = found + 1) := by
  have same : ∃ s' f', some (tab, found) = some (s', f') ∧ s'.wf ∧ s'.m = tab.m ∧
      s'.n = tab.n ∧
      ((s' = tab ∧ f' = found) ∨
        ∃ i, i < tab.m - 1 ∧ 0 < tab.at_ i j ∧
          (∀ k, k < tab.m - 1 → k ≠ i → tab.at_ k j = 0) ∧
          tab.basis_set_at i = false ∧ s'.basis_set_at i = true ∧ s'.basis_at i = j ∧
          (∀ k, k ≠ i →
            s'.basis_set_at k = tab.basis_set_at k ∧ s'.basis_at k = tab.basis_at k) ∧
          (∀ k c, c < tab.n →
            s'.at_ k c = if k = i then tab.at_ i c / tab.at_ i j else tab.at_ k c) ∧
          f' = found + 1) :=
    ⟨tab, found, rfl, hwf, rfl, rfl, Or.inl ⟨rfl, rfl⟩⟩
  simp only [usable_step, Option.some_bind]
  split_ifs with h1 h2 h3
  · exact same
  · -- the column is usable and its row has no basic variable yet
    rcases usable_scan_spec tab j (List.range (tab.m - 1)) (-1, 0) (by simp) h2 with
      ⟨hc, _⟩ | ⟨_, i0, hi0, hpos, hrow, hz⟩
    · simp at hc
    · have hi0' : i0 < tab.m - 1 := List.mem_range.1 hi0
      rw [hrow] at h3 ⊢
      simp only [Int.toNat_ofNat] at h3 ⊢
      have hc : (0 : Int) ≤ (i0 : Int) ∧ (i0 : Int) < (tab.m : Int) - 1 ∧
          (0 : Int) ≤ (j : Int) ∧ (j : Int) < (tab.n : Int) - 1 :=
        ⟨by omega, by omega, by omega, by omega⟩
      have hset : tab.basis_at_set (i0 : Int) (j : Int) =
          some { tab with
            basis_indices_set := tab.basis_indices_set.set i0 true
            basis_indices := tab.basis_indices.set i0 j } := by
        unfold Tableau.basis_at_set
        rw [if_pos hc]
        simp
      rw [hset]
      simp only [Option.map_some']
      obtain ⟨e1, e2, e3, e4⟩ :=
        scale_row_spec tab.toMatrix (tableau_wf_matrix tab hwf) i0
          (1 / Tableau.at_ ({ tab with
            basis_indices_set := tab.basis_indices_set.set i0 true
            basis_indices := tab.basis_indices.set i0 j } : Tableau) i0 j) (by omega)
      refine ⟨_, _, rfl, ?_, e1, e2, Or.inr ⟨i0, hi0', hpos, ?_, h3, ?_, ?_, ?_, ?_, rfl⟩⟩
      · refine ⟨?_, ?_, ?_, ?_, ?_⟩
        · show 1 ≤ (Matrix.scale_row _ _ _).m
          rw [e1]; exact hwf.1
        · show 1 ≤ (Matrix.scale_row _ _ _).n
          rw [e2]; exact hwf.2.1
        · show (Matrix.scale_row _ _ _).wf
          unfold Matrix.wf
          rw [e1, e2, e3]; exact hwf.2.2.1
        · show (Matrix.scale_row _ _ _).m - 1 ≤ (tab.basis_indices.set i0 j).length
          rw [e1, List.length_set]; exact hwf.2.2.2.1
        · show (Matrix.scale_row _ _ _).m - 1 ≤ (tab.basis_indices_set.set i0 true).length
          rw [e1, List.length_set]; exact hwf.2.2.2.2
      · intro k hk hne
        exact hz k (List.mem_range.2 hk) hne
      · show (tab.basis_indices_set.set i0 true).getD i0 false = true
        exact getD_set_self _ _ _ _ (lt_of_lt_of_le hi0' hwf.2.2.2.2)
      · show (tab.basis_indices.set i0 j).getD i0 0 = j
        exact getD_set_self _ _ _ _ (lt_of_lt_of_le hi0' hwf.2.2.2.1)
      · intro k hk
        exact ⟨getD_set_other _ _ _ _ _ hk, getD_set_other _ _ _ _ _ hk⟩
      · intro k c hc'
        show (Matrix.scale_row tab.toMatrix i0 _).at_ k c = _
        rw [e4 k c hc']
        by_cases hk : k = i0
        · rw [if_pos hk, if_pos hk, hk]
          show tab.at_ i0 c * (1 / tab.at_ i0 j) = _
          ring
        · rw [if_neg hk, if_neg hk]
          rfl
  · exact same
  · exact same

end UsableStep

/-! ## Steps of the two-phase driver -/

section TwoPhaseSteps
open PrimalSimplex

/-- What `two_phase` does once phase I has built the auxiliary problem. -/
theorem two_phase_of_auxiliary (tab tab2 art_tab1 : Tableau)
    (haux : auxiliary_problem tab = some (tab2, art_tab1)) (fuel : Nat) :
    two_phase fuel tab =
      match simplex fuel art_tab1 with
      | none => none
      | some (Outcome.value cost, art_tab2) =>
        match step_3 cost fuel art_tab2 tab2 with
        | none => none
        | some (Step3.failed o tab3) => some (o, tab3)
        | some (Step3.phase_II art_tab3 tab3) => phase_II fuel art_tab3 tab3
      | some (o, _) => some (o, tab2) := by
  unfold auxiliary_problem at haux
  unfold two_phase
  simp only at haux ⊢
  cases hs : search_usable_variables
      ((List.range (tab.m - 1)).foldl
        (fun (s : Tableau) i =>
          if s.at_ i (s.n - 1) < 0 then { s with toMatrix := s.toMatrix.scale_row i (-1) }
          else s)
        tab) with
  | none => simp [hs] at haux
  | some p =>
    obtain ⟨t2, found⟩ := p
    simp only [hs] at haux ⊢
    cases hc : create_artificial_tableau t2 (t2.m - 1 - found) with
    | none => simp [hc] at haux
    | some art_tab =>
      simp only [hc] at haux ⊢
      cases hk : art_tab.canonicalize with
      | none => simp [hk] at haux
      | some a1 =>
        simp only [hk, Option.some.injEq, Prod.mk.injEq] at haux ⊢
        obtain ⟨rfl, rfl⟩ := haux
        rfl

/-- Case 3.3.2 of `step_3` pivots without recording the entering column in
the basis: when the pivot leaves the auxiliary tableau as it is, the next
pass finds the same row and the same column, and the loop never ends. -/
theorem step_3_stuck (cost : ℚ) (art_tab tab : Tableau) (r c : Nat) (hcost : ¬ cost > 0)
    (hrow : (List.range (art_tab.m - 1)).find? (fun i => art_tab.basis_at i ≥ tab.n) = some r)
    (hcol : (List.range (tab.n - 1)).find? (fun j => art_tab.at_ r j ≠ 0) = some c)
    (hpiv : art_tab.pivot (r : Int) (c : Int) = some art_tab) :
    ∀ fuel, step_3 cost fuel art_tab tab = none := by
  intro fuel
  induction fuel with
  | zero => simp [step_3]
  | succ fuel ih =>
    simp only [step_3, hcost, if_false, hrow, hcol, hpiv]
    exact ih

/-- Phase II from the tableau `phase_II_start` describes. -/
theorem phase_II_of_start (art_tab tab t3 : Tableau) (fuel : Nat)
    (h : phase_II_start art_tab tab = some t3) :
    phase_II fuel art_tab tab =
      match t3.canonicalize with
      | none => some (Outcome.abort, t3)
      | some t4 => simplex fuel t4 := by
  unfold phase_II_start at h
  unfold phase_II
  simp only at h ⊢
  rw [h]

end TwoPhaseSteps

/-! ## The claims -/

section PrimalClaims
open PrimalSimplex

theorem scenario_bounded_wf : scenario_bounded.wf := by
  unfold Tableau.wf Matrix.wf; decide

theorem scenario_bounded_canonical : scenario_bounded.canonical := by
  unfold Tableau.canonical; decide!

theorem scenario_bounded_rhs : scenario_bounded.rhs_nonneg := by
  unfold Tableau.rhs_nonneg; decide!

theorem scenario_bounded_run :
    simplex 3 scenario_bounded = some (Outcome.value (-4), scenario_bounded_final) := by
  decide!

/-- In exact arithmetic: for a tableau that is canonical for its basis with
every right-hand side `>= 0`, a value `v` returned by `PrimalSimplex::simplex`
is the negated right-hand-side cell of the objective row of the final tableau
and is the minimum of `c.x - r` over the feasible points `x >= 0` of the input
tableau: some feasible point attains it and none does better. -/
theorem primal_simplex_optimum_exact (tab : Tableau) (hwf : tab.wf)
    (hcan : tab.canonical) (hrhs : tab.rhs_nonneg) (fuel : Nat) (v : ℚ) (tab' : Tableau)
    (h : simplex fuel tab = some (Outcome.value v, tab')) :
    v = - tab'.at_ (tab'.m - 1) (tab'.n - 1) ∧
      (∃ x, tab.feasible x ∧ tab.objective x = v) ∧
      ∀ x, tab.feasible x → v ≤ tab.objective x := by
  obtain ⟨w, c, r, l, hv⟩ := primal_run fuel tab hwf hcan hrhs _ tab' h
  obtain ⟨hc, hval⟩ := hv v rfl
  exact ⟨hval, optimal_of_same_lp tab tab' l w c r hc v hval⟩

/-- C2 (as amended): on the tableau of the scenario "bounded optimum" the
primal simplex ends normally after two pivots and returns `-4`, the negated
right-hand-side cell of the objective row, which holds `4`. -/
theorem C2_scenario_bounded_returns_minus_4 :
    simplex 2 scenario_bounded = none ∧
      (∀ k, simplex (3 + k) scenario_bounded =
        some (Outcome.value (-4), scenario_bounded_final)) ∧
      scenario_bounded_final.at_ 2 4 = 4 := by
  refine ⟨by decide!, fun k => primal_fuel_mono 3 _ _ scenario_bounded_run k, by decide!⟩

/-- C2 (as stated) fails: no run on the tableau of the scenario "bounded
optimum" returns the value `4`. -/
theorem C2_scenario_bounded_does_not_return_4 :
    ¬ ∃ fuel tab', simplex fuel scenario_bounded = some (Outcome.value 4, tab') := by
  rintro ⟨fuel, tab', h⟩
  have h1 := primal_fuel_mono fuel _ _ h 3
  have h2 := primal_fuel_mono 3 _ _ scenario_bounded_run fuel
  rw [Nat.add_comm] at h2
  rw [h1] at h2
  simp only [Option.some.injEq, Prod.mk.injEq] at h2
  have h3 := h2.1
  injection h3 with h3
  norm_num at h3

/-- In exact arithmetic: when the primal simplex, started from a feasible
canonical tableau, returns normally, the final tableau has every reduced cost
`>= 0` and every constraint right-hand side `>= 0`. -/
theorem primal_certificate_exact (tab : Tableau) (hwf : tab.wf)
    (hcan : tab.canonical) (hrhs : tab.rhs_nonneg) (fuel : Nat) (v : ℚ) (tab' : Tableau)
    (h : simplex fuel tab = some (Outcome.value v, tab')) :
    tab'.costs_nonneg ∧ tab'.rhs_nonneg := by
  obtain ⟨_, _, r, _, hv⟩ := primal_run fuel tab hwf hcan hrhs _ tab' h
  exact ⟨(hv v rfl).1, r⟩

/-- C9 fails on `zero_column`: the tableau is not optimal, its entering
column `0` holds no positive entry (its only constraint entry is `0`), yet
`test_unlimited` answers 0 and the run stops on the failed assertion of
`basis_at(-1, 0)` instead of raising Unbounded. -/
theorem C9_zero_column_aborts :
    test_optimality zero_column = false ∧
      select_entering_column zero_column = some 0 ∧
      (∀ i, i < zero_column.m - 1 → zero_column.at_ i 0 ≤ 0) ∧
      test_unlimited zero_column 0 = false ∧
      select_exiting_column zero_column 0 = -1 ∧
      ∀ k, simplex (1 + k) zero_column = some (Outcome.abort, zero_column) := by
  refine ⟨by decide!, by decide!, by decide!, by decide!, by decide!, fun k => ?_⟩
  exact primal_fuel_mono 1 _ _ (by decide!) k

/-- C10: on the tableau of the scenario "unbounded" the primal simplex
selects the entering column `0` and raises Unbounded in the first iteration,
before any basis update or pivot: the tableau it leaves is the input. -/
theorem C10_scenario_unbounded_raises :
    select_entering_column scenario_unbounded = some 0 ∧
      ∀ k, simplex (1 + k) scenario_unbounded =
        some (Outcome.unlimited, scenario_unbounded) := by
  refine ⟨by decide!, fun k => primal_fuel_mono 1 _ _ (by decide!) k⟩

/-- C5 fails on `zero_column`, a feasible canonical tableau: no run of the
primal simplex on it returns a value or raises Unbounded (every run with
fuel stops on the failed assertion of `basis_at`). -/
theorem C5_zero_column_neither_returns_nor_unbounded :
    zero_column.wf ∧ zero_column.canonical ∧ zero_column.rhs_nonneg ∧
      ¬ ∃ fuel o tab', simplex fuel zero_column = some (o, tab') ∧ o ≠ Outcome.abort := by
  refine ⟨by unfold Tableau.wf Matrix.wf; decide, by unfold Tableau.canonical; decide!,
    by unfold Tableau.rhs_nonneg; decide!, ?_⟩
  rintro ⟨fuel, o, tab', h, ho⟩
  have h1 := primal_fuel_mono fuel _ _ h 1
  have h2 := primal_fuel_mono 1 zero_column (Outcome.abort, zero_column) (by decide!) fuel
  rw [Nat.add_comm] at h2
  rw [h1] at h2
  simp only [Option.some.injEq, Prod.mk.injEq] at h2
  exact ho h2.1

end PrimalClaims

section DualClaims
open DualSimplex

theorem dual_test_wf : dual_test_tableau.wf := by
  unfold Tableau.wf Matrix.wf; decide

theorem dual_test_canonical : dual_test_tableau.canonical := by
  unfold Tableau.canonical; decide!

theorem dual_test_costs : dual_test_tableau.costs_nonneg := by
  unfold Tableau.costs_nonneg; decide!

theorem dual_test_run :
    simplex 3 dual_test_tableau = some (Outcome.value 11, dual_test_final) := by
  decide!

/-- What a normal return of `DualSimplex::simplex` says about the loop. -/
theorem dual_simplex_value (fuel : Nat) (tab : Tableau) (v : ℚ) (tab' : Tableau)
    (h : simplex fuel tab = some (Outcome.value v, tab')) :
    tab.costs_nonneg ∧ simplex_loop fuel tab = some (Outcome.value v, tab') := by
  by_cases hc : check_correct_form tab = true
  · simp only [simplex, hc, not_true_eq_false, if_false] at h
    exact ⟨(check_correct_form_iff tab).1 hc, h⟩
  · simp [simplex, hc] at h

/-- In exact arithmetic: for a tableau that is canonical for its basis with
every reduced cost `>= 0`, a value `v` returned by `DualSimplex::simplex` is
the negated right-hand-side cell of the objective row of the final tableau and
is the minimum of `c.x - r` over the feasible points `x >= 0` of the input
tableau; on the tableau of `DualSimplex::test` the run returns `11`. -/
theorem dual_simplex_optimum_exact :
    (∀ (tab : Tableau), tab.wf → tab.canonical → tab.costs_nonneg →
      ∀ (fuel : Nat) (v : ℚ) (tab' : Tableau),
        simplex fuel tab = some (Outcome.value v, tab') →
          v = - tab'.at_ (tab'.m - 1) (tab'.n - 1) ∧
            (∃ x, tab.feasible x ∧ tab.objective x = v) ∧
            ∀ x, tab.feasible x → v ≤ tab.objective x) ∧
      simplex 2 dual_test_tableau = none ∧
      ∀ k, simplex (3 + k) dual_test_tableau = some (Outcome.value 11, dual_test_final) := by
  refine ⟨?_, by decide!, ?_⟩
  · intro tab hwf hcan hcost fuel v tab' h
    obtain ⟨_, hl⟩ := dual_simplex_value fuel tab v tab' h
    obtain ⟨w, c, l, k, hv⟩ := dual_loop_run fuel tab hwf hcost _ tab' hl
    obtain ⟨hr, hval⟩ := hv v rfl
    exact ⟨hval, optimal_of_same_lp tab tab' l w (k hcan) hr c v hval⟩
  · intro k
    have hc : check_correct_form dual_test_tableau = true := by decide!
    have h := (dual_simplex_value 3 _ _ _ dual_test_run).2
    simp only [simplex, hc, not_true_eq_false, if_false]
    exact dual_fuel_mono 3 _ _ h k

/-- In exact arithmetic: for a tableau whose reduced costs are all `>= 0`,
when `DualSimplex::simplex` returns normally the final tableau has every
constraint right-hand side `>= 0` and every reduced cost `>= 0`. -/
theorem dual_certificate_exact (tab : Tableau) (hwf : tab.wf)
    (hcost : tab.costs_nonneg) (fuel : Nat) (v : ℚ) (tab' : Tableau)
    (h : simplex fuel tab = some (Outcome.value v, tab')) :
    tab'.rhs_nonneg ∧ tab'.costs_nonneg := by
  obtain ⟨_, hl⟩ := dual_simplex_value fuel tab v tab' h
  obtain ⟨_, c, _, _, hv⟩ := dual_loop_run fuel tab hwf hcost _ tab' hl
  exact ⟨(hv v rfl).1, c⟩

end DualClaims

section TwoPhaseClaims
open PrimalSimplex

/-- C4 fails on the pair of tableaux of `PrimalSimplex::test`: tableau 1,
canonicalized and solved by the simplex, gives `-6`; tableau 2 (the same
problem with a redundant row) through `two_phase` gives `-1/8`. -/
theorem C4_test_tableaux_disagree :
    (test_tableau_1.canonicalize.bind (simplex 4)).map Prod.fst = some (Outcome.value (-6)) ∧
      (two_phase 4 test_tableau_2).map Prod.fst = some (Outcome.value (-1 / 8)) := by
  constructor <;> decide!

end TwoPhaseClaims

section DualTerminationClaim
open DualSimplex

end DualTerminationClaim

section DualInvalidForm
open DualSimplex

/-- The loop of the dual simplex never raises InvalidForm. -/
theorem dual_loop_not_invalid (fuel : Nat) :
    ∀ (tab tab' : Tableau), simplex_loop fuel tab ≠ some (Outcome.invalidForm, tab') := by
  induction fuel with
  | zero => intro tab tab' h; simp [simplex_loop] at h
  | succ fuel ih =>
    intro tab tab' h
    simp only [simplex_loop] at h
    split_ifs at h with hfeas hneg hunl
    · simp at h
    · simp at h
    · simp at h
    · cases h1 : tab.basis_at_set (select_pivot_row tab)
          (select_pivot_column tab (select_pivot_row tab).toNat) with
      | none => simp [h1] at h
      | some tab1 =>
        simp only [h1] at h
        cases h2 : tab1.pivot (select_pivot_row tab)
            (select_pivot_column tab (select_pivot_row tab).toNat) with
        | none => simp [h2] at h
        | some tab2 =>
          simp only [h2] at h
          exact ih tab2 tab' h

/-- C13: `DualSimplex::simplex` raises InvalidForm exactly when some reduced
cost (objective row, columns `0..n-2`) of the input tableau is negative, and
it does so before any pivot: the tableau it leaves is the input, entries and
basis map alike. -/
theorem C13_dual_invalid_form (tab : Tableau) :
    ((∃ j, j < tab.n - 1 ∧ tab.at_ (tab.m - 1) j < 0) →
        ∀ fuel, simplex fuel tab = some (Outcome.invalidForm, tab)) ∧
      ∀ fuel tab', simplex fuel tab = some (Outcome.invalidForm, tab') →
        (∃ j, j < tab.n - 1 ∧ tab.at_ (tab.m - 1) j < 0) ∧ tab' = tab := by
  constructor
  · rintro ⟨j, hj, hneg⟩ fuel
    have hc : ¬ check_correct_form tab = true := by
      intro hc
      have := (check_correct_form_iff tab).1 hc j hj
      linarith
    simp [simplex, hc]
  · intro fuel tab' h
    by_cases hc : check_correct_form tab = true
    · simp only [simplex, hc, not_true_eq_false, if_false] at h
      exact absurd h (dual_loop_not_invalid fuel tab tab')
    · have h' : tab = tab' := by
        simpa [simplex, hc] using h
      refine ⟨?_, h'.symm⟩
      by_contra hcon
      push_neg at hcon
      exact hc ((check_correct_form_iff tab).2 (fun j hj => hcon j hj))

end DualInvalidForm

section PivotClaims

/-- In exact arithmetic: for a constraint row `i < m-1` and a structural
column `j < n-1` with `at(i,j) != 0`, `pivot(i,j)` leaves column `j` as the
unit vector of row `i`: `at(i,j) = 1` and `at(k,j) = 0` for every other row
`k`, the objective row included. -/
theorem pivot_unit_column_exact (t : Tableau) (hwf : t.wf) (i j : Nat) (hi : i < t.m - 1)
    (hj : j < t.n - 1) (hp : t.at_ i j ≠ 0) :
    ∃ t', t.pivot (i : Int) (j : Int) = some t' ∧ t'.at_ i j = 1 ∧
      ∀ k, k < t.m → k ≠ i → t'.at_ k j = 0 := by
  obtain ⟨_, e1, e2, _, _, e5⟩ := pivot_body_spec t hwf i j (by omega) (by omega)
  obtain ⟨a1, a0⟩ := pivoted_unit_column t _ i j ⟨e1, e2, e5⟩ (by omega) (by omega) hp
  exact ⟨_, pivot_eq_body t i j hi hj, a1, a0⟩

/-- In exact arithmetic: pivoting again on the same element `(i,j)` is a
no-op: the second `pivot(i,j)` returns the tableau the first one produced,
every entry unchanged. -/
theorem pivot_twice_exact (t : Tableau) (hwf : t.wf) (i j : Nat) (hi : i < t.m - 1)
    (hj : j < t.n - 1) (hp : t.at_ i j ≠ 0) :
    ∃ t', t.pivot (i : Int) (j : Int) = some t' ∧ t'.pivot (i : Int) (j : Int) = some t' := by
  obtain ⟨_, e1, e2, _, _, e5⟩ := pivot_body_spec t hwf i j (by omega) (by omega)
  obtain ⟨a1, a0⟩ := pivoted_unit_column t _ i j ⟨e1, e2, e5⟩ (by omega) (by omega) hp
  refine ⟨_, pivot_eq_body t i j hi hj, ?_⟩
  rw [pivot_eq_body _ i j (by rw [e1]; exact hi) (by rw [e2]; exact hj)]
  rw [pivot_body_fixed _ i j a1 (fun k hk hki => a0 k (by rw [← e1]; exact hk) hki)]

/-- In exact arithmetic: when the basis columns are structural columns and
every pivot element `at(i, basis[i])` is non-zero as `canonicalize` reaches
row `i`, `canonicalize` ends with the basis unchanged and the tableau
canonical: `at(i, basis[i]) = 1` and `at(k, basis[i]) = 0` for every other row
`k`, the objective row included. -/
theorem canonicalize_canonical_exact (t : Tableau) (hwf : t.wf)
    (hb : ∀ i, i < t.m - 1 → t.basis_at i < t.n - 1)
    (hp : ∀ i s, i < t.m - 1 → t.canonicalize_upto i = some s →
      s.at_ i (s.basis_at i) ≠ 0) :
    ∃ t', t.canonicalize = some t' ∧ t'.basis_indices = t.basis_indices ∧
      t'.m = t.m ∧ t'.n = t.n ∧ t'.canonical := by
  obtain ⟨s, hs, _, hm, hn, hbi, _, hunit⟩ :=
    canonicalize_upto_spec t hwf hb hp (t.m - 1) (le_refl _)
  refine ⟨s, hs, hbi, hm, hn, ?_⟩
  intro i hi
  rw [hm] at hi
  have hbas : s.basis_at i = t.basis_at i := by unfold Tableau.basis_at; rw [hbi]
  rw [hbas, hn, hm]
  exact ⟨hb i hi, (hunit i hi).1, (hunit i hi).2⟩

theorem test_tableau_1_wf : test_tableau_1.wf := by
  unfold Tableau.wf Matrix.wf; decide

theorem test_tableau_1_pivots (i : Nat) (s : Tableau) (hi : i < test_tableau_1.m - 1)
    (h : test_tableau_1.canonicalize_upto i = some s) : s.at_ i (s.basis_at i) ≠ 0 := by
  have hi' : i < 2 := hi
  interval_cases i
  · have h0 : (test_tableau_1.canonicalize_upto 0).map
        (fun s => decide (s.at_ 0 (s.basis_at 0) ≠ 0)) = some true := by decide!
    rw [h] at h0
    simpa using h0
  · have h1 : (test_tableau_1.canonicalize_upto 1).map
        (fun s => decide (s.at_ 1 (s.basis_at 1) ≠ 0)) = some true := by decide!
    rw [h] at h1
    simpa using h1

end PivotClaims

section MatrixClaims

end MatrixClaims

section DeleteRowClaim

/-- C20: for a constraint row `r < m-1` of a tableau whose basis entries are
structural columns, `delete_row(r)` yields a tableau with `m-1` rows in
which row `i` is the old row `i` for `i < r` and the old row `i+1` for
`i >= r` (the objective row stays last), and `basis[i]` is the old
`basis[i]` for `i < r` and the old `basis[i+1]` for `r <= i < m-2`. -/
theorem C20_delete_row (t : Tableau) (hwf : t.wf) (r : Nat) (hr : r < t.m - 1)
    (hb : ∀ i, r < i → i < t.m - 1 → t.basis_at i < t.n - 1) :
    ∃ t', t.delete_row (r : Int) = some t' ∧ t'.m = t.m - 1 ∧ t'.n = t.n ∧
      (∀ i j, i < t.m - 1 → j < t.n →
        t'.at_ i j = if i < r then t.at_ i j else t.at_ (i + 1) j) ∧
      ∀ i, i < t.m - 2 → t'.basis_at i = if i < r then t.basis_at i else t.basis_at (i + 1) := by
  obtain ⟨s, hs, _, hm, hn, hat, hbas⟩ :=
    delete_row_loop_spec t hwf r hb (t.m - 1 - r) (by omega)
  have hcond : (0 : Int) ≤ (r : Int) ∧ (r : Int) ≤ (t.m : Int) - 1 := by omega
  refine ⟨{ s with m := s.m - 1 }, ?_, ?_, hn, ?_, ?_⟩
  · unfold Tableau.delete_row Tableau.delete_row_loop
    rw [if_pos hcond]
    simp only [Int.toNat_ofNat]
    rw [hs]
    rfl
  · show s.m - 1 = t.m - 1
    rw [hm]
  · intro i j hi hj
    show s.at_ i j = _
    rw [hat i j hj]
    by_cases h1 : i < r
    · simp [h1]
    · have h2 : i < r + (t.m - 1 - r) := by omega
      simp [h1, h2]
  · intro i hi
    show s.basis_at i = _
    rw [hbas i]
    by_cases h1 : i < r
    · have : ¬ (r ≤ i ∧ i < r + (t.m - 1 - r) ∧ i + 2 < t.m) := by omega
      simp [h1, this]
    · have : r ≤ i ∧ i < r + (t.m - 1 - r) ∧ i + 2 < t.m := by omega
      simp [h1, this]

theorem test_tableau_2_wf : test_tableau_2.wf := by
  unfold Tableau.wf Matrix.wf; decide

theorem test_tableau_2_basis (i : Nat) (hi : i < test_tableau_2.m - 1) :
    test_tableau_2.basis_at i < test_tableau_2.n - 1 := by
  have hi' : i < 3 := hi
  interval_cases i <;> decide

/-- Witness of C20: row 1 of tableau 2 of `PrimalSimplex::test`. -/
theorem C20_witness :
    ∃ t', test_tableau_2.delete_row ((1 : Nat) : Int) = some t' ∧
      t'.m = test_tableau_2.m - 1 ∧ t'.n = test_tableau_2.n ∧
      (∀ i j, i < test_tableau_2.m - 1 → j < test_tableau_2.n →
        t'.at_ i j = if i < 1 then test_tableau_2.at_ i j else test_tableau_2.at_ (i + 1) j) ∧
      ∀ i, i < test_tableau_2.m - 2 →
        t'.basis_at i =
          if i < 1 then test_tableau_2.basis_at i else test_tableau_2.basis_at (i + 1) :=
  C20_delete_row test_tableau_2 test_tableau_2_wf 1 (by decide)
    (fun i _ hi => test_tableau_2_basis i hi)

end DeleteRowClaim

/-! ## Infeasible problems (`PrimalSimplex::two_phase`) -/

section InfeasibleClaims
open PrimalSimplex

theorem test_tableau_3_wf : test_tableau_3.wf := by
  unfold Tableau.wf Matrix.wf; decide

theorem test_tableau_3_run :
    two_phase 4 test_tableau_3 = some (Outcome.impossible, test_tableau_3_final) := by
  decide!

/-- In exact arithmetic: whenever `PrimalSimplex::two_phase` raises Infeasible
on a tableau, no vector `x >= 0` satisfies all constraint rows of that
tableau. (A pivot of `canonicalize` on a zero element scales by `1 / 0 = 0`
here, where the program computes with `inf`/`NaN`.) -/
theorem two_phase_infeasible_exact (tab : Tableau) (hwf : tab.wf) (fuel : Nat)
    (tab' : Tableau) (h : two_phase fuel tab = some (Outcome.impossible, tab')) :
    ¬ ∃ x, tab.feasible x := by
  rintro ⟨x, hx⟩
  obtain ⟨tab2, art_tab1, cost, art_tab2, haux, hrun, hpos⟩ := two_phase_impossible fuel tab tab' h
  have := auxiliary_optimum_nonpos tab hwf tab2 art_tab1 haux x hx fuel cost art_tab2 hrun
  linarith

end InfeasibleClaims

section InfeasibleScenario
open PrimalSimplex

/-- When phase I builds the auxiliary problem and the simplex returns a
positive optimum for it, `two_phase` raises Infeasible and leaves the tableau
of steps 1 and 2. -/
theorem two_phase_raises (tab tab2 art_tab1 : Tableau)
    (haux : auxiliary_problem tab = some (tab2, art_tab1)) (fuel : Nat) (cost : ℚ)
    (art_tab2 : Tableau) (hrun : simplex fuel art_tab1 = some (Outcome.value cost, art_tab2))
    (hpos : cost > 0) (k : Nat) :
    two_phase (fuel + k) tab = some (Outcome.impossible, tab2) := by
  have hrun' := primal_fuel_mono fuel art_tab1 _ hrun k
  have hfuel : ∃ f, fuel + k = f + 1 := by
    cases fuel with
    | zero => simp [simplex] at hrun
    | succ f => exact ⟨f + k, by omega⟩
  unfold auxiliary_problem at haux
  unfold two_phase
  simp only at haux ⊢
  cases hs : search_usable_variables
      ((List.range (tab.m - 1)).foldl
        (fun (s : Tableau) i =>
          if s.at_ i (s.n - 1) < 0 then { s with toMatrix := s.toMatrix.scale_row i (-1) }
          else s)
        tab) with
  | none => simp [hs] at haux
  | some p =>
    obtain ⟨t2, found⟩ := p
    simp only [hs] at haux ⊢
    cases hc : create_artificial_tableau t2 (t2.m - 1 - found) with
    | none => simp [hc] at haux
    | some art_tab =>
      simp only [hc] at haux ⊢
      cases hk : art_tab.canonicalize with
      | none => simp [hk] at haux
      | some a1 =>
        simp only [hk, Option.some.injEq, Prod.mk.injEq] at haux ⊢
        obtain ⟨rfl, rfl⟩ := haux
        simp only [hrun']
        obtain ⟨f, hf⟩ := hfuel
        rw [hf]
        simp only [step_3, hpos, if_true]

theorem scenario_infeasible_auxiliary (c0 c1 r : ℚ) :
    auxiliary_problem (scenario_infeasible c0 c1 r) =
      some (scenario_infeasible c0 c1 r, scenario_infeasible_aux) := by
  have e1 : ((List.range ((scenario_infeasible c0 c1 r).m - 1)).foldl
      (fun (s : Tableau) i =>
        if s.at_ i (s.n - 1) < 0 then { s with toMatrix := s.toMatrix.scale_row i (-1) }
        else s)
      (scenario_infeasible c0 c1 r)) = scenario_infeasible c0 c1 r := rfl
  have e2 : search_usable_variables (scenario_infeasible c0 c1 r) =
      some (scenario_infeasible c0 c1 r, 0) := rfl
  have e3 : create_artificial_tableau (scenario_infeasible c0 c1 r)
      ((scenario_infeasible c0 c1 r).m - 1 - 0) = some scenario_infeasible_art := rfl
  have e4 : scenario_infeasible_art.canonicalize = some scenario_infeasible_aux := by
    decide!
  unfold auxiliary_problem
  simp only [e1, e2, e3, e4]

theorem scenario_infeasible_aux_run :
    simplex 2 scenario_infeasible_aux =
      some (Outcome.value 2, scenario_infeasible_aux_final) := by
  decide!

theorem test_tableau_3_auxiliary :
    auxiliary_problem test_tableau_3 = some (test_tableau_3_final, test_tableau_3_aux) := by
  decide!

theorem test_tableau_3_aux_run :
    simplex 1 test_tableau_3_aux = some (Outcome.value 5, test_tableau_3_aux) := by
  decide!

/-- C12. Run with no basis on a contradictory system, `two_phase` raises
Infeasible with a positive phase-I auxiliary optimum: on the rows `[1,1|1]`,
`[1,1|3]` with any objective row `[c0, c1 | r]` the auxiliary optimum is 2,
on tableau 3 of `PrimalSimplex::test` it is 5, and in both runs (whatever
the iteration bound `2 + k`) Infeasible is raised. -/
theorem C12_contradictory_systems_raise_infeasible (c0 c1 r : ℚ) (k : Nat) :
    (auxiliary_problem (scenario_infeasible c0 c1 r) =
        some (scenario_infeasible c0 c1 r, scenario_infeasible_aux) ∧
      simplex (2 + k) scenario_infeasible_aux =
        some (Outcome.value 2, scenario_infeasible_aux_final) ∧
      (2 : ℚ) > 0 ∧
      two_phase (2 + k) (scenario_infeasible c0 c1 r) =
        some (Outcome.impossible, scenario_infeasible c0 c1 r)) ∧
    (auxiliary_problem test_tableau_3 = some (test_tableau_3_final, test_tableau_3_aux) ∧
      simplex (1 + k) test_tableau_3_aux = some (Outcome.value 5, test_tableau_3_aux) ∧
      (5 : ℚ) > 0 ∧
      two_phase (1 + k) test_tableau_3 = some (Outcome.impossible, test_tableau_3_final)) :=
  ⟨⟨scenario_infeasible_auxiliary c0 c1 r,
      primal_fuel_mono 2 _ _ scenario_infeasible_aux_run k, by norm_num,
      two_phase_raises _ _ _ (scenario_infeasible_auxiliary c0 c1 r) 2 2 _
        scenario_infeasible_aux_run (by norm_num) k⟩,
    ⟨test_tableau_3_auxiliary, primal_fuel_mono 1 _ _ test_tableau_3_aux_run k, by norm_num,
      two_phase_raises _ _ _ test_tableau_3_auxiliary 1 5 _ test_tableau_3_aux_run
        (by norm_num) k⟩⟩

end InfeasibleScenario

/-! ## Inversion (`Matrix::invert`) -/

section InvertClaims

theorem test_matrix_2_wf : test_matrix_2.wf := by
  unfold Matrix.wf; decide

theorem test_matrix_2_invertible : test_matrix_2.invertible := by
  refine ⟨test_matrix_2_inverse, rfl, rfl, ?_⟩
  intro i k hi hk
  have hi' : i < 3 := hi
  have hk' : k < 3 := hk
  interval_cases i <;> interval_cases k <;> decide!

theorem singular_matrix_wf : singular_matrix.wf := by
  unfold Matrix.wf; decide

theorem singular_matrix_not_invertible : ¬ singular_matrix.invertible := by
  rintro ⟨B, _, _, hB⟩
  have h00 := hB 0 0 (by decide) (by decide)
  have h10 := hB 1 0 (by decide) (by decide)
  have e0 : singular_matrix.product_entry B 0 0 = B.at_ 0 0 + B.at_ 1 0 := by
    unfold Matrix.product_entry
    have a0 : singular_matrix.at_ 0 0 = 1 := by decide!
    have a1 : singular_matrix.at_ 0 1 = 1 := by decide!
    have hn : singular_matrix.n = 2 := rfl
    rw [hn, Finset.sum_range_succ, Finset.sum_range_succ, Finset.sum_range_zero, a0, a1]
    ring
  have e1 : singular_matrix.product_entry B 1 0 = B.at_ 0 0 + B.at_ 1 0 := by
    unfold Matrix.product_entry
    have a0 : singular_matrix.at_ 1 0 = 1 := by decide!
    have a1 : singular_matrix.at_ 1 1 = 1 := by decide!
    have hn : singular_matrix.n = 2 := rfl
    rw [hn, Finset.sum_range_succ, Finset.sum_range_succ, Finset.sum_range_zero, a0, a1]
    ring
  rw [e0] at h00
  rw [e1] at h10
  simp at h00 h10
  linarith

/-- In exact arithmetic: for every invertible square matrix `A`, `A.invert()`
ends with the final copy and leaves the inverse of the original: the original
multiplied (`multiply_by`) by the inverted matrix is the identity. -/
theorem invert_inverse_exact (A : Matrix) (hwf : A.wf) (hsq : A.m = A.n) (hinv : A.invertible) :
    ∃ R P, A.invert = some (InvertResult.inverted R) ∧ R.m = A.m ∧ R.n = A.n ∧
      A.multiply_by R = some P ∧ P.m = A.m ∧ P.n = A.n ∧ P.is_identity := by
  rcases invert_cases A hwf hsq with ⟨R, hR⟩ | ⟨c, M', _, _, _, _, _, _, _, hk⟩
  · obtain ⟨r1, r2, r3⟩ := invert_inverted A hwf hsq R hR
    obtain ⟨P, p1, p2, p3, _, p5⟩ := multiply_by_spec A R r1.symm
    refine ⟨R, P, hR, r1.trans hsq.symm, r2, p1, p2, p3.trans r2, ?_⟩
    intro i j hi hj
    rw [p2] at hi
    rw [p3] at hj
    rw [p5 i j hi hj]
    exact r3 i j (by omega) (by omega)
  · exact absurd (invertible_kernel_trivial A hsq hinv) hk

/-- C18, the claim as stated fails: `[[1, 1], [1, 1]]` is singular, `invert`
returns at column 1, and the matrix is left as `[[1, 1], [0, 0]]`: its entry
`(1, 0)` is not the one before the call.  The run is the same on doubles (no
operation of it rounds). -/
theorem C18_singular_matrix_is_mutated :
    singular_matrix.m = singular_matrix.n ∧ ¬ singular_matrix.invertible ∧
      singular_matrix.invert = some (InvertResult.singular 1 singular_matrix_left) ∧
      singular_matrix_left.at_ 1 0 ≠ singular_matrix.at_ 1 0 ∧
      singular_matrix.to_double.invert =
        some (Dbl.InvertResult.singular 1 singular_matrix_left.to_double) ∧
      (singular_matrix_left.to_double.at_ 1 0).eq (singular_matrix.to_double.at_ 1 0) = false :=
  ⟨rfl, singular_matrix_not_invertible, by decide!, by decide!, by decide!, by decide!⟩

/-- In exact arithmetic: for every singular square matrix, `invert()` reports
failure by returning at the first column `c` without a non-zero pivot
candidate on or below the diagonal; the matrix is left as the elimination of
the columns before `c` has transformed it (those columns are unit columns,
column `c` is zero from the diagonal down) and is the matrix before the call
when `c` is the first column. -/
theorem invert_singular_exact (A : Matrix) (hwf : A.wf) (hsq : A.m = A.n)
    (hsing : ¬ A.invertible) :
    ∃ c M', A.invert = some (InvertResult.singular c M') ∧ c < A.n ∧
      M'.m = A.m ∧ M'.n = A.n ∧
      (∀ c', c' < c → ∀ i, i < A.n → M'.at_ i c' = if i = c' then 1 else 0) ∧
      (∀ i, c ≤ i → i < A.n → M'.at_ i c = 0) ∧ (c = 0 → M' = A) := by
  rcases invert_cases A hwf hsq with ⟨R, hR⟩ | ⟨c, M', k1, k2, k3, k4, k5, k6, k7, _⟩
  · obtain ⟨r1, r2, r3⟩ := invert_inverted A hwf hsq R hR
    exact absurd ⟨R, r1, r2, r3⟩ hsing
  · exact ⟨c, M', k1, k2, k3.trans hsq.symm, k4, k5, k6, k7⟩

end InvertClaims

/-! ## Selection rules, pivot and iteration -/

section SelectionClaims

end SelectionClaims

section PivotLpClaim

/-- In exact arithmetic: for a constraint row `i < m-1`, a structural column
`j < n-1` and `at(i,j) != 0`, `pivot(i,j)` keeps the linear program: the same
shape, a vector `x` satisfies every constraint row after the pivot if and only
if it does before, and for every such `x` the objective-row functional `c.x -
r` has the same value before and after. -/
theorem pivot_preserves_lp_exact (t : Tableau) (hwf : t.wf) (i j : Nat) (hi : i < t.m - 1)
    (hj : j < t.n - 1) (hp : t.at_ i j ≠ 0) :
    ∃ t', t.pivot (i : Int) (j : Int) = some t' ∧ t'.m = t.m ∧ t'.n = t.n ∧
      (∀ x, t'.satisfies x ↔ t.satisfies x) ∧
      ∀ x, t.satisfies x → t'.objective x = t.objective x := by
  obtain ⟨_, e1, e2, _, _, e5⟩ := pivot_body_spec t hwf i j (by omega) (by omega)
  exact ⟨t.pivot_body i j, pivot_eq_body t i j hi hj,
    pivoted_same_lp t _ i j ⟨e1, e2, e5⟩ hwf.1 hwf.2.1 hi hp⟩

end PivotLpClaim

section DualPivotClaim
open DualSimplex

end DualPivotClaim

/-- A pass of the loop of the primal simplex that goes on is one unfolding of
`simplex`. -/
theorem primal_step_some (tab t2 : Tableau) (h : PrimalSimplex.next_tableau tab = some t2)
    (fuel : Nat) :
    PrimalSimplex.simplex (fuel + 1) tab = PrimalSimplex.simplex fuel t2 := by
  unfold PrimalSimplex.next_tableau at h
  simp only [PrimalSimplex.simplex]
  split_ifs at h ⊢ with hopt
  cases hj : PrimalSimplex.select_entering_column tab with
  | none => simp [hj] at h
  | some j =>
    simp only [hj] at h ⊢
    split_ifs at h ⊢ with hunl
    cases h1 : tab.basis_at_set (PrimalSimplex.select_exiting_column tab j) j with
    | none => simp [h1] at h
    | some tab1 =>
      simp only [h1] at h ⊢
      rw [h]

/-- What a pass of the loop of the primal simplex that goes on does: a pivot
on a positive element of a column of negative reduced cost, recorded in the
basis. -/
theorem primal_next_tableau_spec (tab tab2 : Tableau) (hwf : tab.wf)
    (h : PrimalSimplex.next_tableau tab = some tab2) :
    ∃ i j : Nat, i < tab.m - 1 ∧ j < tab.n - 1 ∧ tab.at_ (tab.m - 1) j < 0 ∧
      0 < tab.at_ i j ∧ tab2.wf ∧ tab.pivoted tab2 i j ∧
      ∀ k, tab2.basis_at k = if k = i then j else tab.basis_at k := by
  unfold PrimalSimplex.next_tableau at h
  split_ifs at h with hopt
  cases hj : PrimalSimplex.select_entering_column tab with
  | none => simp [hj] at h
  | some j =>
    simp only [hj] at h
    split_ifs at h with hunl
    cases h1 : tab.basis_at_set (PrimalSimplex.select_exiting_column tab j) j with
    | none => simp [h1] at h
    | some tab1 =>
      simp only [h1] at h
      obtain ⟨i0, j0, hi, hjj, hi0, hj0, hwf2, hpiv, hb⟩ :=
        basis_pivot_spec tab hwf _ _ tab1 tab2 h1 h
      have hjeq : j = j0 := by exact_mod_cast hjj
      subst hjeq
      obtain ⟨_, hneg, _⟩ := select_entering_column_spec tab j hj
      rcases select_exiting_column_spec tab j with ⟨hm1, _⟩ | ⟨i1, hsel, _, hpos, _⟩
      · rw [hm1] at hi; omega
      · have hieq : i1 = i0 := by rw [hsel] at hi; exact_mod_cast hi
        subst hieq
        exact ⟨i1, j, hi0, hj0, hneg, hpos, hwf2, hpiv, hb⟩

/-! ## Canonical form through the iterations -/

section CanonicalClaim

/-- In exact arithmetic: canonical form is an invariant of the simplex
iterations: when a pass of the loop of `PrimalSimplex::simplex` or of
`DualSimplex::simplex` goes on from a canonical tableau (`basis_at(i,j)`
followed by `pivot(i,j)`), the tableau the next pass starts from is canonical
for the updated basis (row `i` now has column `j`), and the entering column
`j` was the basis column of no row. -/
theorem iteration_keeps_canonical_exact (tab : Tableau) (hwf : tab.wf) (hcan : tab.canonical) :
    (∀ tab2, PrimalSimplex.next_tableau tab = some tab2 →
      (∀ fuel, PrimalSimplex.simplex (fuel + 1) tab = PrimalSimplex.simplex fuel tab2) ∧
        tab2.canonical ∧
        ∃ i j, i < tab.m - 1 ∧ j < tab.n - 1 ∧
          (∀ k, tab2.basis_at k = if k = i then j else tab.basis_at k) ∧
          ∀ k, k < tab.m - 1 → tab.basis_at k ≠ j) ∧
      ∀ tab2, DualSimplex.next_tableau tab = some tab2 →
        (∀ fuel,
          DualSimplex.simplex_loop (fuel + 1) tab = DualSimplex.simplex_loop fuel tab2) ∧
          tab2.canonical ∧
          ∃ i j, i < tab.m - 1 ∧ j < tab.n - 1 ∧
            (∀ k, tab2.basis_at k = if k = i then j else tab.basis_at k) ∧
            ∀ k, k < tab.m - 1 → tab.basis_at k ≠ j := by
  constructor
  · intro tab2 h
    obtain ⟨i, j, hi, hj, hneg, hpos, _, hpiv, hb⟩ := primal_next_tableau_spec tab tab2 hwf h
    refine ⟨primal_step_some tab tab2 h,
      pivoted_canonical tab tab2 i j hcan hwf.1 hi hj (ne_of_gt hpos) hpiv hb,
      i, j, hi, hj, hb, ?_⟩
    intro k hk hkj
    have := (hcan k hk).2.2 (tab.m - 1) (by omega) (by omega)
    rw [hkj] at this
    rw [this] at hneg
    exact lt_irrefl _ hneg
  · intro tab2 h
    obtain ⟨_, hstep⟩ := next_tableau_spec tab tab2 hwf h
    have hnb := dual_step_entering_not_basic tab tab2 _ _ hwf.1 hcan hstep
    obtain ⟨hr, hs, _, _, ha, _, hpiv, hb⟩ := hstep
    refine ⟨loop_step_some tab tab2 h,
      pivoted_canonical tab tab2 _ _ hcan hwf.1 hr hs (ne_of_lt ha) hpiv hb,
      _, _, hr, hs, hb, ?_⟩
    intro k hk hkj
    exact hnb ((mem_basis_set tab _).2 ⟨k, hk, hkj⟩)

end CanonicalClaim

section UsableRun
open PrimalSimplex

theorem usable_upto_succ (tab : Tableau) (k : Nat) :
    usable_upto tab (k + 1) = usable_step (usable_upto tab k) k := by
  unfold usable_upto
  rw [List.range_succ, List.foldl_append]
  rfl

/-- Marking one more row raises the number of marked rows by one. -/
theorem rows_set_mark (s s' : Tableau) (i : Nat) (hm : s'.m = s.m) (hi : i < s.m - 1)
    (h0 : s.basis_set_at i = false) (h1 : s'.basis_set_at i = true)
    (hk : ∀ k, k ≠ i → s'.basis_set_at k = s.basis_set_at k) :
    s'.rows_set = s.rows_set + 1 := by
  unfold Tableau.rows_set
  rw [hm]
  have e : (Finset.range (s.m - 1)).filter (fun k => s'.basis_set_at k = true) =
      insert i ((Finset.range (s.m - 1)).filter (fun k => s.basis_set_at k = true)) := by
    ext k
    simp only [Finset.mem_filter, Finset.mem_range, Finset.mem_insert]
    by_cases hki : k = i
    · subst hki
      simp [h1, hi]
    · rw [hk k hki]
      simp [hki]
  rw [e, Finset.card_insert_of_not_mem]
  simp [h0]

/-- The outer loop of `search_usable_variables` never fails an assertion, it
keeps the tableau well-formed, and its count is the number of marked rows. -/
theorem usable_upto_inv (tab : Tableau) (hwf : tab.wf)
    (hno : ∀ i, i < tab.m - 1 → tab.basis_set_at i = false) (k : Nat) (hk : k ≤ tab.n - 1) :
    ∃ s f, usable_upto tab k = some (s, f) ∧ s.wf ∧ s.m = tab.m ∧ s.n = tab.n ∧
      f = s.rows_set := by
  induction k with
  | zero =>
    refine ⟨tab, 0, rfl, hwf, rfl, rfl, ?_⟩
    unfold Tableau.rows_set
    symm
    rw [Finset.card_eq_zero, Finset.filter_eq_empty_iff]
    intro i hi
    rw [hno i (Finset.mem_range.1 hi)]
    simp
  | succ k ih =>
    obtain ⟨s, f, hs, w, hm, hn, hf⟩ := ih (by omega)
    obtain ⟨s', f', h', w', hm', hn', hcase⟩ := usable_step_spec s w f k (by rw [hn]; omega)
    refine ⟨s', f', by rw [usable_upto_succ, hs, h'], w', hm'.trans hm, hn'.trans hn, ?_⟩
    rcases hcase with ⟨h1, h2⟩ | ⟨i, hi, _, _, h0, h1, _, hk', _, hf'⟩
    · rw [h1, h2]; exact hf
    · rw [hf', hf]
      exact (rows_set_mark s s' i hm' hi h0 h1 (fun k hki => (hk' k hki).1)).symm

end UsableRun

/-! ## Usable variables (`PrimalSimplex::search_usable_variables`) -/

section UsableClaim
open PrimalSimplex

/-- In exact arithmetic: on a tableau with no basis set,
`search_usable_variables` returns the number of rows it has marked, and the
pass of its outer loop on column `j`, from the state `(s, f)` to the state
`(s', f')`, either changes nothing or records column `j` as the basic variable
of a row `i`; it records only if column `j` of `s` has a strictly positive
entry in row `i` and zero in every other constraint row, and row `i` has no
basic variable yet; then row `i` is divided by `at(i,j)`, so that `at(i,j) =
1` and every right-hand side keeps its sign, and the count grows by one. -/
theorem search_usable_variables_exact (tab : Tableau) (hwf : tab.wf)
    (hno : ∀ i, i < tab.m - 1 → tab.basis_set_at i = false) :
    (∃ final found, search_usable_variables tab = some (final, found) ∧
      found = final.rows_set) ∧
    ∀ j, j < tab.n - 1 →
      ∃ s f s' f', usable_upto tab j = some (s, f) ∧ usable_upto tab (j + 1) = some (s', f') ∧
        ((s' = s ∧ f' = f) ∨
          ∃ i, i < tab.m - 1 ∧ 0 < s.at_ i j ∧
            (∀ k, k < tab.m - 1 → k ≠ i → s.at_ k j = 0) ∧
            s.basis_set_at i = false ∧ s'.basis_set_at i = true ∧ s'.basis_at i = j ∧
            (∀ k, k ≠ i →
              s'.basis_set_at k = s.basis_set_at k ∧ s'.basis_at k = s.basis_at k) ∧
            (∀ k c, c < tab.n →
              s'.at_ k c = if k = i then s.at_ i c / s.at_ i j else s.at_ k c) ∧
            s'.at_ i j = 1 ∧
            (∀ k, 0 ≤ s'.at_ k (tab.n - 1) ↔ 0 ≤ s.at_ k (tab.n - 1)) ∧
            f' = f + 1) := by
  constructor
  · obtain ⟨s, f, hs, _, _, _, hf⟩ := usable_upto_inv tab hwf hno (tab.n - 1) (le_refl _)
    exact ⟨s, f, hs, hf⟩
  · intro j hj
    obtain ⟨s, f, hs, w, hm, hn, _⟩ := usable_upto_inv tab hwf hno j (by omega)
    obtain ⟨s', f', h', _, _, _, hcase⟩ := usable_step_spec s w f j (by rw [hn]; omega)
    refine ⟨s, f, s', f', hs, by rw [usable_upto_succ, hs, h'], ?_⟩
    rcases hcase with h | ⟨i, hi, hpos, hz, h0, h1, hb, hk, hat, hf'⟩
    · exact Or.inl h
    · right
      rw [hm] at hi hz
      rw [hn] at hat
      have hn1 := hwf.2.1
      refine ⟨i, hi, hpos, hz, h0, h1, hb, hk, hat, ?_, ?_, hf'⟩
      · rw [hat i j (by omega), if_pos rfl]
        exact div_self (ne_of_gt hpos)
      · intro k
        rw [hat k (tab.n - 1) (by omega)]
        by_cases hki : k = i
        · rw [if_pos hki, hki]
          constructor
          · intro h
            by_contra hneg
            exact absurd h (not_le.2 (div_neg_of_neg_of_pos (not_le.1 hneg) hpos))
          · intro h
            exact div_nonneg h (le_of_lt hpos)
        · rw [if_neg hki]

theorem test_tableau_3_unset (i : Nat) (hi : i < test_tableau_3.m - 1) :
    test_tableau_3.basis_set_at i = false := by
  have hi' : i < 2 := hi
  interval_cases i <;> rfl

end UsableClaim

/-! ## Defects of the two-phase driver -/

section TwoPhaseDefects
open PrimalSimplex

/-- C21, the code at a failing input. On the rows `[1,1|2]`, `[0,1|1]` step 2
finds a basic variable for row 0 only, so one row lacks one and
`art_columns = 1`; `create_artificial_tableau` tests
`j - (n - 1) == i`, which no artificial column satisfies for row 1: the
auxiliary tableau leaves row 1 without basic variable and its only
artificial column (column 2) holds 0 in both constraint rows. -/
theorem C21_second_row_gets_no_artificial :
    search_usable_variables second_row_unset = some (second_row_unset_found, 1) ∧
      second_row_unset_found.basis_set_at 1 = false ∧
      second_row_unset_found.m - 1 - second_row_unset_found.rows_set = 1 ∧
      create_artificial_tableau second_row_unset_found 1 = some second_row_unset_art ∧
      second_row_unset_art.basis_set_at 1 = false ∧
      second_row_unset_art.at_ 0 2 = 0 ∧ second_row_unset_art.at_ 1 2 = 0 :=
  ⟨by decide!, by decide!, by decide!, by decide!, by decide!, by decide!, by decide!⟩

/-- C22, the code at a failing input. On the row `[-1,-1|0]` the auxiliary
optimum is 0 with the artificial column `n - 1 = 2` basic in row 0; the test
`basis_at(i) >= tab->n()` of `step_3` does not see it and jumps to phase II,
where `basis_at(0, 2)` fails its assertion. -/
theorem C22_artificial_variable_stays_basic :
    auxiliary_problem degenerate_row = some (degenerate_row, degenerate_row_aux) ∧
      simplex 1 degenerate_row_aux = some (Outcome.value 0, degenerate_row_aux) ∧
      step_3 0 1 degenerate_row_aux degenerate_row =
        some (Step3.phase_II degenerate_row_aux degenerate_row) ∧
      degenerate_row_aux.basis_at 0 = degenerate_row.n - 1 ∧
      phase_II_start degenerate_row_aux degenerate_row = none ∧
      ∃ t, two_phase 1 degenerate_row = some (Outcome.abort, t) :=
  ⟨by decide!, by decide!, by decide!, by decide!, by decide!,
    ⟨_, (by decide! : two_phase 1 degenerate_row =
      some (Outcome.abort,
        { m := 2, n := 3, buffer := [-1, -1, 1,  0, 0, 0],
          basis_indices := [0], basis_indices_set := [false] }))⟩⟩

theorem degenerate_rows_stuck (fuel : Nat) :
    step_3 0 fuel degenerate_rows_pivoted degenerate_rows = none :=
  step_3_stuck 0 degenerate_rows_pivoted degenerate_rows 1 0 (by norm_num) (by decide!)
    (by decide!) (by decide!) fuel

/-- C23, the code at a failing input. On the rows `[-1,-1|0]`, `[-1,-1|0]`
the auxiliary optimum is 0 with the artificial column 3 basic in row 1, whose
entry in column 0 is not zero; case 3.3.2 pivots on `(1, 0)` and leaves
`basis[1] = 3`, so every later pass finds the same artificial variable in
row 1 and `two_phase` never returns, whatever the number of passes. -/
theorem C23_step_3_makes_no_progress :
    auxiliary_problem degenerate_rows = some (degenerate_rows, degenerate_rows_aux) ∧
      simplex 1 degenerate_rows_aux = some (Outcome.value 0, degenerate_rows_aux) ∧
      degenerate_rows_aux.basis_at 1 = 3 ∧ degenerate_rows.n ≤ 3 ∧
      degenerate_rows_aux.at_ 1 0 ≠ 0 ∧
      degenerate_rows_aux.pivot ((1 : Nat) : Int) ((0 : Nat) : Int) =
        some degenerate_rows_pivoted ∧
      degenerate_rows_pivoted.basis_at 1 = 3 ∧
      (∀ fuel, step_3 0 fuel degenerate_rows_aux degenerate_rows = none) ∧
      ∀ fuel, two_phase fuel degenerate_rows = none := by
  have haux : auxiliary_problem degenerate_rows =
      some (degenerate_rows, degenerate_rows_aux) := by decide!
  have hrun : simplex 1 degenerate_rows_aux =
      some (Outcome.value 0, degenerate_rows_aux) := by decide!
  have hpiv : degenerate_rows_aux.pivot ((1 : Nat) : Int) ((0 : Nat) : Int) =
      some degenerate_rows_pivoted := by decide!
  have hrow : (List.range (degenerate_rows_aux.m - 1)).find?
      (fun i => degenerate_rows_aux.basis_at i ≥ degenerate_rows.n) = some 1 := by decide!
  have hcol : (List.range (degenerate_rows.n - 1)).find?
      (fun j => degenerate_rows_aux.at_ 1 j ≠ 0) = some 0 := by decide!
  have hloop : ∀ fuel, step_3 0 fuel degenerate_rows_aux degenerate_rows = none := by
    intro fuel
    cases fuel with
    | zero => simp [step_3]
    | succ fuel =>
      simp only [step_3, gt_iff_lt, lt_self_iff_false, if_false, hrow, hcol, hpiv]
      exact degenerate_rows_stuck fuel
  refine ⟨haux, hrun, by decide!, by decide!, by decide!, hpiv, by decide!, hloop, ?_⟩
  intro fuel
  rw [two_phase_of_auxiliary _ _ _ haux fuel]
  cases fuel with
  | zero => simp [simplex]
  | succ fuel =>
    have := primal_fuel_mono 1 degenerate_rows_aux _ hrun fuel
    rw [Nat.add_comm] at this
    rw [this]
    simp only [hloop]

/-- C24, the code at a failing input. On the rows `[1,1|2]`, `[1,-1|0]` two
artificial columns are added and phase II is reached; the copy loop runs over
`j < tab->n()`, so the right-hand side of row 0 of the original tableau
receives the entry of the first artificial column (`1/2`) and not the
right-hand side of the auxiliary row (auxiliary column `n - 1 + art_columns =
4`, which holds 1). -/
theorem C24_rhs_receives_artificial_column :
    auxiliary_problem two_artificials = some (two_artificials, two_artificials_aux) ∧
      simplex 3 two_artificials_aux =
        some (Outcome.value 0, two_artificials_aux_final) ∧
      step_3 0 3 two_artificials_aux_final two_artificials =
        some (Step3.phase_II two_artificials_aux_final two_artificials) ∧
      phase_II_start two_artificials_aux_final two_artificials = some two_artificials_start ∧
      two_artificials_start.at_ 0 (two_artificials.n - 1) =
        two_artificials_aux_final.at_ 0 (two_artificials.n - 1) ∧
      two_artificials_start.at_ 0 (two_artificials.n - 1) ≠
        two_artificials_aux_final.at_ 0 (two_artificials.n - 1 + 2) :=
  ⟨by decide!, by decide!, by decide!, by decide!, by decide!, by decide!⟩

end TwoPhaseDefects

/-! ## Claims that depend on rounding -/

/-! ## Doubles and their exact values -/

theorem values_getD (l : List Double) (b : List ℚ) (h : Double.values? l = some b) (k : Nat) :
    (l.getD k 0).value? = some (b.getD k 0) := by
  induction l generalizing b k with
  | nil =>
    simp only [Double.values?, Option.some.injEq] at h
    subst h
    rfl
  | cons d ds ih =>
    unfold Double.values? at h
    cases hd : d.value? with
    | none => rw [hd] at h; simp at h
    | some q =>
      cases hds : Double.values? ds with
      | none => rw [hd, hds] at h; simp at h
      | some qs =>
        rw [hd, hds] at h
        simp only [Option.some.injEq] at h
        subst h
        cases k with
        | zero => simpa using hd
        | succ k => simpa using ih qs hds k

theorem values_length (l : List Double) (b : List ℚ) (h : Double.values? l = some b) :
    b.length = l.length := by
  induction l generalizing b with
  | nil =>
    simp only [Double.values?, Option.some.injEq] at h
    subst h
    rfl
  | cons d ds ih =>
    unfold Double.values? at h
    cases hd : d.value? with
    | none => rw [hd] at h; simp at h
    | some q =>
      cases hds : Double.values? ds with
      | none => rw [hd, hds] at h; simp at h
      | some qs =>
        rw [hd, hds] at h
        simp only [Option.some.injEq] at h
        subst h
        simp [ih qs hds]

theorem values_map_fin (b : List ℚ) : Double.values? (b.map Double.fin) = some b := by
  induction b with
  | nil => rfl
  | cons q qs ih =>
    simp only [List.map_cons, Double.values?, ih, Double.value?]

/-- A tableau of doubles and its exact image have the same shape and basis. -/
theorem to_rat_shape (T : Dbl.Tableau) (t : Tableau) (h : T.to_rat = some t) :
    t.m = T.m ∧ t.n = T.n ∧ t.basis_indices = T.basis_indices ∧
      t.basis_indices_set = T.basis_indices_set ∧ t.buffer.length = T.buffer.length := by
  unfold Dbl.Tableau.to_rat Dbl.Matrix.to_rat at h
  cases hb : Double.values? T.toMatrix.buffer with
  | none => rw [hb] at h; simp at h
  | some b =>
    rw [hb] at h
    simp only [Option.map_some', Option.some.injEq] at h
    subst h
    exact ⟨rfl, rfl, rfl, rfl, values_length _ _ hb⟩

/-- The exact image holds the real value of every entry. -/
theorem to_rat_at (T : Dbl.Tableau) (t : Tableau) (h : T.to_rat = some t) (i j : Nat) :
    (T.at_ i j).value? = some (t.at_ i j) := by
  unfold Dbl.Tableau.to_rat Dbl.Matrix.to_rat at h
  cases hb : Double.values? T.toMatrix.buffer with
  | none => rw [hb] at h; simp at h
  | some b =>
    rw [hb] at h
    simp only [Option.map_some', Option.some.injEq] at h
    subst h
    exact values_getD _ _ hb _

/-- The tableau of doubles made of the entries of `t` has `t` as its exact
image. -/
theorem to_rat_to_double (t : Tableau) : t.to_double.to_rat = some t := by
  unfold Tableau.to_double Matrix.to_double Dbl.Tableau.to_rat Dbl.Matrix.to_rat
  simp only [values_map_fin, Option.map_some']

/-- A double of real value 1 compares equal to `1.0`. -/
theorem eq_one_of_value (d : Double) (h : d.value? = some 1) : d.eq 1 = true := by
  cases d with
  | fin q =>
    simp only [Double.value?, Option.some.injEq] at h
    subst h
    decide
  | negzero => simp [Double.value?] at h
  | inf s => simp [Double.value?] at h
  | nan => simp [Double.value?] at h

/-- A double of real value 0 compares equal to `0`. -/
theorem eq_zero_of_value (d : Double) (h : d.value? = some 0) : d.eq 0 = true := by
  cases d with
  | fin q =>
    simp only [Double.value?, Option.some.injEq] at h
    subst h
    decide
  | negzero => decide
  | inf s => simp [Double.value?] at h
  | nan => simp [Double.value?] at h

/-- A finite double that compares different from 0 has a non-zero value. -/
theorem ne_zero_of_value (d : Double) (q : ℚ) (h : d.value? = some q) (hne : d.ne 0 = true) :
    q ≠ 0 := by
  cases d with
  | fin p =>
    simp only [Double.value?, Option.some.injEq] at h
    subst h
    intro h0
    subst h0
    revert hne
    decide
  | negzero => exact absurd hne (by decide)
  | inf s => simp [Double.value?] at h
  | nan => simp [Double.value?] at h

/-- The comparison `d < 0` on a finite double is that of its value. -/
theorem value_lt_zero (d : Double) (q : ℚ) (h : d.value? = some q) : d < 0 ↔ q < 0 := by
  cases d with
  | fin p =>
    simp only [Double.value?, Option.some.injEq] at h
    subst h
    show Double.lt (Double.fin p) 0 = true ↔ p < 0
    simp [Double.lt, Double.value?, OfNat.ofNat]
  | negzero =>
    simp only [Double.value?, Option.some.injEq] at h
    subst h
    show Double.lt Double.negzero 0 = true ↔ (0 : ℚ) < 0
    simp [Double.lt, Double.value?, OfNat.ofNat]
  | inf s => simp [Double.value?] at h
  | nan => simp [Double.value?] at h
/-- A double that compares equal to `1.0` has the value 1. -/
theorem value_of_eq_one (d : Double) (q : ℚ) (h : d.value? = some q) (h1 : d.eq 1 = true) :
    q = 1 := by
  cases d with
  | fin p =>
    simp only [Double.value?, Option.some.injEq] at h
    subst h
    simpa [Double.eq, Double.value?, OfNat.ofNat] using h1
  | negzero => exact absurd h1 (by decide)
  | inf s => simp [Double.value?] at h
  | nan => simp [Double.value?] at h

/-- A double that compares equal to 0 has the value 0. -/
theorem value_of_eq_zero (d : Double) (q : ℚ) (h : d.value? = some q) (h0 : d.eq 0 = true) :
    q = 0 := by
  cases d with
  | fin p =>
    simp only [Double.value?, Option.some.injEq] at h
    subst h
    simpa [Double.eq, Double.value?, OfNat.ofNat] using h0
  | negzero =>
    simp only [Double.value?, Option.some.injEq] at h
    exact h.symm
  | inf s => simp [Double.value?] at h
  | nan => simp [Double.value?] at h

theorem to_rat_basis_at (T : Dbl.Tableau) (t : Tableau) (hT : T.to_rat = some t) (i : Nat) :
    t.basis_at i = T.basis_at i := by
  obtain ⟨_, _, hbi, _⟩ := to_rat_shape T t hT
  unfold Tableau.basis_at Dbl.Tableau.basis_at
  rw [hbi]

theorem to_rat_basis_set_at (T : Dbl.Tableau) (t : Tableau) (hT : T.to_rat = some t)
    (i : Nat) : t.basis_set_at i = T.basis_set_at i := by
  obtain ⟨_, _, _, hbs, _⟩ := to_rat_shape T t hT
  unfold Tableau.basis_set_at Dbl.Tableau.basis_set_at
  rw [hbs]

/-- A result whose exact image is `some` is itself `some`. -/
theorem bind_to_rat_some {α β : Type} (o : Option α) (f : α → Option β) (b : β)
    (h : o.bind f = some b) : ∃ a, o = some a ∧ f a = some b := by
  cases o with
  | none => simp at h
  | some a => exact ⟨a, rfl, by simpa using h⟩

/-! ## Pivot on doubles -/

/-- On doubles too, `pivot` on indices within range is `pivot_body`. -/
theorem dbl_pivot_eq_body (T : Dbl.Tableau) (i j : Nat) (hi : i < T.m - 1)
    (hj : j < T.n - 1) : T.pivot (i : Int) (j : Int) = some (T.pivot_body i j) := by
  unfold Dbl.Tableau.pivot
  have hc : (0 : Int) ≤ (i : Int) ∧ (0 : Int) ≤ (j : Int) ∧ (i : Int) < (T.m : Int) - 1 ∧
      (j : Int) < (T.n : Int) - 1 := ⟨by omega, by omega, by omega, by omega⟩
  rw [if_pos hc]
  simp

/-- The row operations on doubles keep the shape of the matrix. -/
theorem dbl_scale_row_shape (M : Dbl.Matrix) (row : Nat) (k : Double) :
    (M.scale_row row k).m = M.m ∧ (M.scale_row row k).n = M.n := by
  unfold Dbl.Matrix.scale_row
  exact foldl_invariant (fun A : Dbl.Matrix => A.m = M.m ∧ A.n = M.n) _ _ M ⟨rfl, rfl⟩
    (fun A j _ h => h)

theorem dbl_add_row_shape (M : Dbl.Matrix) (src : Nat) (k : Double) (dst : Nat) :
    (M.add_premultiplied_row src k dst).m = M.m ∧
      (M.add_premultiplied_row src k dst).n = M.n := by
  unfold Dbl.Matrix.add_premultiplied_row
  exact foldl_invariant (fun A : Dbl.Matrix => A.m = M.m ∧ A.n = M.n) _ _ M ⟨rfl, rfl⟩
    (fun A j _ h => h)

/-- On doubles, `pivot` keeps the shape and the basis of the tableau. -/
theorem dbl_pivot_body_shape (T : Dbl.Tableau) (r c : Nat) :
    (T.pivot_body r c).m = T.m ∧ (T.pivot_body r c).n = T.n ∧
      (T.pivot_body r c).basis_indices = T.basis_indices ∧
      (T.pivot_body r c).basis_indices_set = T.basis_indices_set := by
  unfold Dbl.Tableau.pivot_body
  apply foldl_invariant
    (fun A : Dbl.Tableau => A.m = T.m ∧ A.n = T.n ∧ A.basis_indices = T.basis_indices ∧
      A.basis_indices_set = T.basis_indices_set)
  · by_cases hp : (T.at_ r c).ne 1 = true
    · rw [if_pos hp]
      exact ⟨(dbl_scale_row_shape _ _ _).1, (dbl_scale_row_shape _ _ _).2, rfl, rfl⟩
    · rw [if_neg hp]
      exact ⟨rfl, rfl, rfl, rfl⟩
  · intro A i _ h
    by_cases hi : i = r
    · rw [if_pos hi]; exact h
    · rw [if_neg hi]
      by_cases hv : (A.at_ i c).eq 0 = true
      · simp only [hv, if_true]; exact h
      · simp only [hv]
        exact ⟨(dbl_add_row_shape _ _ _ _).1.trans h.1,
          (dbl_add_row_shape _ _ _ _).2.trans h.2.1, h.2.2.1, h.2.2.2⟩

/-- On doubles, a pivot on a column that already compares equal to the unit
vector of its row changes nothing: the scaling is skipped (`pivot != 1.0`
fails) and so is every row (`value == 0`). -/
theorem dbl_pivot_body_fixed (T : Dbl.Tableau) (r c : Nat) (h : T.unit_column r c) :
    T.pivot_body r c = T := by
  obtain ⟨h1, h0⟩ := h
  unfold Dbl.Tableau.pivot_body
  have hne : (T.at_ r c).ne 1 = false := by unfold Double.ne; rw [h1]; rfl
  simp only [hne, Bool.false_eq_true, if_false]
  have key : ∀ (l : List Nat), (∀ i ∈ l, i < T.m) →
      l.foldl
        (fun (a : Dbl.Tableau) i =>
          if i = r then a
          else
            let value := a.at_ i c
            if value.eq 0 then a
            else
              let multiplier := -1 * value
              { a with toMatrix := a.toMatrix.add_premultiplied_row r multiplier i })
        T = T := by
    intro l
    induction l with
    | nil => intro _; rfl
    | cons a l ih =>
      intro hl
      simp only [List.foldl_cons]
      by_cases har : a = r
      · simp only [har, if_true]
        exact ih (fun i hi => hl i (List.mem_cons_of_mem _ hi))
      · have hz := h0 a (hl a (List.mem_cons_self _ _)) har
        simp only [har, if_false, hz, if_true]
        exact ih (fun i hi => hl i (List.mem_cons_of_mem _ hi))
  exact key (List.range T.m) (fun i hi => List.mem_range.1 hi)

/-- A tableau of doubles whose exact values have the unit vector of row `i`
in column `j` has it as the program compares. -/
theorem unit_column_of_exact (T : Dbl.Tableau) (t : Tableau) (hT : T.to_rat = some t)
    (i j : Nat) (h1 : t.at_ i j = 1) (h0 : ∀ k, k < t.m → k ≠ i → t.at_ k j = 0) :
    T.unit_column i j := by
  obtain ⟨hm, _⟩ := to_rat_shape T t hT
  constructor
  · apply eq_one_of_value
    rw [to_rat_at T t hT, h1]
  · intro k hk hki
    apply eq_zero_of_value
    rw [to_rat_at T t hT, h0 k (by rw [hm]; exact hk) hki]

/-- A pivot on doubles without rounding error: what the exact pivot gives
holds of the tableau of doubles. -/
theorem exact_pivot (T : Dbl.Tableau) (t : Tableau) (hT : T.to_rat = some t)
    (hwf : t.wf) (i j : Nat) (hi : i < T.m - 1) (hj : j < T.n - 1)
    (hexact : (T.pivot (i : Int) (j : Int)).bind Dbl.Tableau.to_rat =
      t.pivot (i : Int) (j : Int)) :
    ∃ T' t', T.pivot (i : Int) (j : Int) = some T' ∧ T'.to_rat = some t' ∧
      t.pivot (i : Int) (j : Int) = some t' ∧ T'.m = T.m ∧ T'.n = T.n ∧ t.pivoted t' i j := by
  obtain ⟨hm, hn, _⟩ := to_rat_shape T t hT
  obtain ⟨_, e1, e2, _, _, e5⟩ := pivot_body_spec t hwf i j (by omega) (by omega)
  have e := pivot_eq_body t i j (by omega) (by omega)
  rw [e] at hexact
  obtain ⟨T', hT', himg⟩ := bind_to_rat_some _ _ _ hexact
  obtain ⟨hm', hn', _⟩ := to_rat_shape T' _ himg
  exact ⟨T', _, hT', himg, e, by omega, by omega, e1, e2, e5⟩

/-- Without rounding error, a pivot on a non-zero element leaves the unit
column. -/
theorem unit_column_of_exact_pivot (T : Dbl.Tableau) (t : Tableau) (hT : T.to_rat = some t)
    (hwf : t.wf) (i j : Nat) (hi : i < T.m - 1) (hj : j < T.n - 1)
    (hp : (T.at_ i j).ne 0 = true)
    (hexact : (T.pivot (i : Int) (j : Int)).bind Dbl.Tableau.to_rat =
      t.pivot (i : Int) (j : Int)) :
    ∃ T', T.pivot (i : Int) (j : Int) = some T' ∧ T'.m = T.m ∧ T'.n = T.n ∧
      T'.unit_column i j := by
  obtain ⟨hm, hn, _⟩ := to_rat_shape T t hT
  obtain ⟨T', t', hT', himg, _, hm', hn', hpiv⟩ := exact_pivot T t hT hwf i j hi hj hexact
  have hp' : t.at_ i j ≠ 0 := ne_zero_of_value _ _ (to_rat_at T t hT i j) hp
  obtain ⟨a1, a0⟩ := pivoted_unit_column t t' i j hpiv (by omega) (by omega) hp'
  exact ⟨T', hT', hm', hn',
    unit_column_of_exact T' t' himg i j a1 (fun k hk => a0 k (by rw [← hpiv.1]; exact hk))⟩

theorem test_tableau_1_exact (i : Nat) (hi : i ≤ test_tableau_1.m - 1) :
    (test_tableau_1.to_double.canonicalize_upto i).bind Dbl.Tableau.to_rat =
      test_tableau_1.canonicalize_upto i := by
  have hi' : i ≤ 2 := hi
  interval_cases i <;> decide!

theorem test_tableau_1_dbl_pivots (i : Nat) (S : Dbl.Tableau)
    (hi : i < test_tableau_1.to_double.m - 1)
    (h : test_tableau_1.to_double.canonicalize_upto i = some S) :
    (S.at_ i (S.basis_at i)).ne 0 = true := by
  have hi' : i < 2 := hi
  interval_cases i
  · have h0 : (test_tableau_1.to_double.canonicalize_upto 0).map
        (fun s => (s.at_ 0 (s.basis_at 0)).ne 0) = some true := by decide!
    rw [h] at h0
    simpa using h0
  · have h1 : (test_tableau_1.to_double.canonicalize_upto 1).map
        (fun s => (s.at_ 1 (s.basis_at 1)).ne 0) = some true := by decide!
    rw [h] at h1
    simpa using h1

/-- On doubles, the first `k` passes of `canonicalize` on a tableau whose
basis columns are structural columns fail no assertion and keep the shape
and the basis. -/
theorem dbl_canonicalize_upto_some (T : Dbl.Tableau)
    (hb : ∀ i, i < T.m - 1 → T.basis_at i < T.n - 1) (k : Nat) (hk : k ≤ T.m - 1) :
    ∃ S, T.canonicalize_upto k = some S ∧ S.m = T.m ∧ S.n = T.n ∧
      S.basis_indices = T.basis_indices ∧ S.basis_indices_set = T.basis_indices_set := by
  induction k with
  | zero => exact ⟨T, rfl, rfl, rfl, rfl, rfl⟩
  | succ k ih =>
    obtain ⟨S, hS, hm, hn, hbi, hbs⟩ := ih (by omega)
    have hstep : T.canonicalize_upto (k + 1) =
        (T.canonicalize_upto k).bind
          (fun s => s.pivot (k : Int) (s.basis_indices.getD k 0 : Nat)) := by
      unfold Dbl.Tableau.canonicalize_upto
      rw [List.range_succ, List.foldl_append]
      rfl
    have hcol : S.basis_indices.getD k 0 < S.n - 1 := by
      rw [hbi, hn]
      exact hb k (by omega)
    obtain ⟨sm, sn, sbi, sbs⟩ := dbl_pivot_body_shape S k (S.basis_indices.getD k 0)
    refine ⟨S.pivot_body k (S.basis_indices.getD k 0), ?_, sm.trans hm, sn.trans hn,
      sbi.trans hbi, sbs.trans hbs⟩
    rw [hstep, hS, Option.some_bind]
    exact dbl_pivot_eq_body S k _ (by omega) hcol

section CanonicalizeClaim

/-- C16, the claim as stated fails on doubles: `canonicalize()` on
`Tableau(2, 3, {49,1,49, -1,0,0}, {0})`, whose only pivot element is 49,
leaves `at(0, basis[0]) = 1 - 2^-53` and `-2^-53` in the objective row of
column `basis[0]`. -/
theorem C16_canonicalize_leaves_residue :
    (canonicalize_residue.to_double.at_ 0 (canonicalize_residue.to_double.basis_at 0)).ne 0
        = true ∧
      ∃ T', canonicalize_residue.to_double.canonicalize = some T' ∧ T'.basis_at 0 = 0 ∧
        T'.at_ 0 0 = Double.fin (9007199254740991 / 9007199254740992) ∧
        T'.at_ 1 0 = Double.fin (-(1 / 9007199254740992)) ∧
        (T'.at_ 0 0).eq 1 = false ∧ (T'.at_ 1 0).eq 0 = false :=
  ⟨by decide!, canonicalize_residue.to_double.pivot_body 0 0, by decide!, by decide!,
    by decide!, by decide!, by decide!, by decide!⟩

/-- C16, amended. On a tableau of doubles whose basis columns are structural
columns, `canonicalize` fails no assertion and ends with the shape and the
basis unchanged.  When the tableau is finite and well-formed, the pivot
element `at(i, basis[i])` is non-zero as `canonicalize` reaches row `i`, and
the passes of `canonicalize` commit no rounding error (after each pass the
tableau holds the values exact arithmetic gives), then at the end, for every
constraint row `i`, `at(i, basis[i]) == 1.0` and `at(k, basis[i]) == 0` for
every other row `k`, the objective row included. -/
theorem C16_canonicalize_canonical (T : Dbl.Tableau)
    (hb : ∀ i, i < T.m - 1 → T.basis_at i < T.n - 1) :
    ∃ T', T.canonicalize = some T' ∧ T'.basis_indices = T.basis_indices ∧
      T'.m = T.m ∧ T'.n = T.n ∧
      ∀ t, T.to_rat = some t → t.wf →
        (∀ i S, i < T.m - 1 → T.canonicalize_upto i = some S →
          (S.at_ i (S.basis_at i)).ne 0 = true) →
        (∀ i, i ≤ T.m - 1 →
          (T.canonicalize_upto i).bind Dbl.Tableau.to_rat = t.canonicalize_upto i) →
        T'.canonical := by
  obtain ⟨T', hT', sm, sn, sbi, _⟩ := dbl_canonicalize_upto_some T hb (T.m - 1) (le_refl _)
  have hc : T.canonicalize = T.canonicalize_upto (T.m - 1) := rfl
  refine ⟨T', by rw [hc]; exact hT', sbi, sm, sn, ?_⟩
  intro t hT hwf hp hexact
  obtain ⟨hm, hn, hbi, _⟩ := to_rat_shape T t hT
  have hbas : ∀ i, t.basis_at i = T.basis_at i := by
    intro i; unfold Tableau.basis_at Dbl.Tableau.basis_at; rw [hbi]
  have hb' : ∀ i, i < t.m - 1 → t.basis_at i < t.n - 1 := by
    intro i hi; rw [hbas, hn]; exact hb i (by omega)
  have hp' : ∀ i s, i < t.m - 1 → t.canonicalize_upto i = some s →
      s.at_ i (s.basis_at i) ≠ 0 := by
    intro i s hi hs
    have he := hexact i (by omega)
    rw [hs] at he
    obtain ⟨S, hS, himg⟩ := bind_to_rat_some _ _ _ he
    obtain ⟨_, _, hbi', _⟩ := to_rat_shape S s himg
    have hbas' : s.basis_at i = S.basis_at i := by
      unfold Tableau.basis_at Dbl.Tableau.basis_at; rw [hbi']
    rw [hbas']
    exact ne_zero_of_value _ _ (to_rat_at S s himg _ _) (hp i S (by omega) hS)
  obtain ⟨t', ht', _, _, _, hcan⟩ := canonicalize_canonical_exact t hwf hb' hp'
  have he := hexact (T.m - 1) (le_refl _)
  rw [← hm, ← canonicalize_eq_upto, ht', hm, hT', Option.some_bind] at he
  obtain ⟨im, inn, ibi, _⟩ := to_rat_shape T' t' he
  have hbas' : ∀ i, T'.basis_at i = t'.basis_at i := by
    intro i; unfold Tableau.basis_at Dbl.Tableau.basis_at; rw [ibi]
  intro i hi
  obtain ⟨c1, c2, c3⟩ := hcan i (by omega)
  rw [hbas']
  exact ⟨by omega, unit_column_of_exact T' t' he i _ c2 c3⟩

/-- Witness of the amended C16: tableau 1 of `PrimalSimplex::test`, on
doubles. -/
theorem C16_witness :
    ∃ T', test_tableau_1.to_double.canonicalize = some T' ∧
      T'.basis_indices = test_tableau_1.to_double.basis_indices ∧
      T'.m = test_tableau_1.to_double.m ∧ T'.n = test_tableau_1.to_double.n ∧
      T'.canonical :=
  (C16_canonicalize_canonical test_tableau_1.to_double (by decide)).elim
    (fun T' h => ⟨T', h.1, h.2.1, h.2.2.1, h.2.2.2.1,
      h.2.2.2.2 test_tableau_1 (to_rat_to_double test_tableau_1) test_tableau_1_wf
        test_tableau_1_dbl_pivots test_tableau_1_exact⟩)

end CanonicalizeClaim

/-! ## Canonical form on doubles -/

/-- A tableau of finite doubles is canonical as the program compares exactly
when its values are. -/
theorem canonical_iff_exact (T : Dbl.Tableau) (t : Tableau) (hT : T.to_rat = some t) :
    T.canonical ↔ t.canonical := by
  obtain ⟨hm, hn, _⟩ := to_rat_shape T t hT
  constructor
  · intro h i hi
    obtain ⟨c1, c2, c3⟩ := h i (by omega)
    rw [to_rat_basis_at T t hT]
    refine ⟨by omega, value_of_eq_one _ _ (to_rat_at T t hT _ _) c2, ?_⟩
    intro k hk hki
    exact value_of_eq_zero _ _ (to_rat_at T t hT _ _) (c3 k (by omega) hki)
  · intro h i hi
    obtain ⟨c1, c2, c3⟩ := h i (by omega)
    rw [to_rat_basis_at T t hT] at c1 c2 c3
    exact ⟨by omega, unit_column_of_exact T t hT i _ c2 c3⟩

/-- On doubles, a pass of the loop of the primal simplex that goes on is one
unfolding of `simplex`. -/
theorem dbl_primal_step_some (tab t2 : Dbl.Tableau)
    (h : Dbl.PrimalSimplex.next_tableau tab = some t2) (fuel : Nat) :
    Dbl.PrimalSimplex.simplex (fuel + 1) tab = Dbl.PrimalSimplex.simplex fuel t2 := by
  unfold Dbl.PrimalSimplex.next_tableau at h
  simp only [Dbl.PrimalSimplex.simplex]
  split_ifs at h ⊢ with hopt
  cases hj : Dbl.PrimalSimplex.select_entering_column tab with
  | none => simp [hj] at h
  | some j =>
    simp only [hj] at h ⊢
    split_ifs at h ⊢ with hunl
    cases h1 : tab.basis_at_set (Dbl.PrimalSimplex.select_exiting_column tab j) j with
    | none => simp [h1] at h
    | some tab1 =>
      simp only [h1] at h ⊢
      rw [h]

/-- On doubles, a pass of the loop of the dual simplex that goes on is one
unfolding of `simplex_loop`. -/
theorem dbl_loop_step_some (tab t2 : Dbl.Tableau)
    (h : Dbl.DualSimplex.next_tableau tab = some t2) (fuel : Nat) :
    Dbl.DualSimplex.simplex_loop (fuel + 1) tab = Dbl.DualSimplex.simplex_loop fuel t2 := by
  unfold Dbl.DualSimplex.next_tableau at h
  simp only [] at h
  simp only [Dbl.DualSimplex.simplex_loop]
  by_cases hfeas : Dbl.DualSimplex.test_feasibility tab = true
  · rw [if_pos hfeas] at h; cases h
  rw [if_neg hfeas] at h ⊢
  by_cases hneg : Dbl.DualSimplex.select_pivot_row tab < 0
  · rw [if_pos hneg] at h; cases h
  rw [if_neg hneg] at h ⊢
  by_cases hunl : Dbl.DualSimplex.test_unlimited tab
      (Dbl.DualSimplex.select_pivot_row tab).toNat = true
  · rw [if_pos hunl] at h; cases h
  rw [if_neg hunl] at h ⊢
  cases h1 : tab.basis_at_set (Dbl.DualSimplex.select_pivot_row tab)
      (Dbl.DualSimplex.select_pivot_column tab (Dbl.DualSimplex.select_pivot_row tab).toNat) with
  | none => simp [h1] at h
  | some tab1 =>
    simp only [h1] at h ⊢
    rw [h]

/-- A tableau of finite doubles is well-formed exactly when the tableau of its
values is. -/
theorem wf_iff_exact (T : Dbl.Tableau) (t : Tableau) (hT : T.to_rat = some t) :
    T.wf ↔ t.wf := by
  obtain ⟨hm, hn, hbi, hbs, hlen⟩ := to_rat_shape T t hT
  unfold Dbl.Tableau.wf Tableau.wf Matrix.wf
  rw [hm, hn, hbi, hbs]
  have hl : t.toMatrix.buffer.length = T.buffer.length := hlen
  rw [hl]

theorem not_lt_of_eq_zero (d : Double) (h : d.eq 0 = true) : ¬ d < 0 := by
  cases d with
  | fin p =>
    have hp : p = 0 := by simpa [Double.eq, Double.value?, OfNat.ofNat] using h
    subst hp
    decide
  | negzero => decide
  | inf s => exact absurd h (by cases s <;> decide)
  | nan => exact absurd h (by decide)

theorem ge_of_eq_zero (d : Double) (h : d.eq 0 = true) : d ≥ 0 := by
  cases d with
  | fin p =>
    have hp : p = 0 := by simpa [Double.eq, Double.value?, OfNat.ofNat] using h
    subst hp
    decide
  | negzero => decide
  | inf s => exact absurd h (by cases s <;> decide)
  | nan => exact absurd h (by decide)

theorem ge_of_eq_one (d : Double) (h : d.eq 1 = true) : d ≥ 0 := by
  cases d with
  | fin p =>
    have hp : p = 1 := by simpa [Double.eq, Double.value?, OfNat.ofNat] using h
    subst hp
    decide
  | negzero => exact absurd h (by decide)
  | inf s => exact absurd h (by cases s <;> decide)
  | nan => exact absurd h (by decide)

/-- On doubles, the basis update followed by the pivot, as both solvers do
them: the indices pass the assertions, the shape is kept and only the basis
entry of the pivot row changes. -/
theorem dbl_basis_pivot (T : Dbl.Tableau) (hlen : T.m - 1 ≤ T.basis_indices.length)
    (i j : Int) (T1 T2 : Dbl.Tableau) (h1 : T.basis_at_set i j = some T1)
    (h2 : T1.pivot i j = some T2) :
    ∃ i0 j0 : Nat, i = (i0 : Int) ∧ j = (j0 : Int) ∧ i0 < T.m - 1 ∧ j0 < T.n - 1 ∧
      T2.m = T.m ∧ T2.n = T.n ∧
      ∀ k, T2.basis_at k = if k = i0 then j0 else T.basis_at k := by
  unfold Dbl.Tableau.basis_at_set at h1
  split_ifs at h1 with hc
  obtain ⟨c1, c2, c3, c4⟩ := hc
  obtain ⟨i0, rfl⟩ := Int.eq_ofNat_of_zero_le c1
  obtain ⟨j0, rfl⟩ := Int.eq_ofNat_of_zero_le c3
  have hi0 : i0 < T.m - 1 := by omega
  have hj0 : j0 < T.n - 1 := by omega
  simp only [Option.some.injEq, Int.toNat_ofNat] at h1
  have hm1 : T1.m = T.m := by rw [← h1]
  have hn1 : T1.n = T.n := by rw [← h1]
  have hb1 : T1.basis_indices = T.basis_indices.set i0 j0 := by rw [← h1]
  rw [dbl_pivot_eq_body T1 i0 j0 (by omega) (by omega), Option.some.injEq] at h2
  obtain ⟨e1, e2, e3, _⟩ := dbl_pivot_body_shape T1 i0 j0
  rw [h2] at e1 e2 e3
  refine ⟨i0, j0, rfl, rfl, hi0, hj0, e1.trans hm1, e2.trans hn1, ?_⟩
  intro k
  unfold Dbl.Tableau.basis_at
  rw [e3, hb1]
  have hl : i0 < T.basis_indices.length := lt_of_lt_of_le hi0 hlen
  simp only [List.getD_eq_getElem?_getD, List.getElem?_set]
  by_cases hk : k = i0
  · subst hk; simp [hl]
  · simp [hk, Ne.symm hk]

/-- On doubles, what a pass of the loop of the primal simplex that goes on
does: the basis update and the pivot on a column whose reduced cost compares
`< 0`. -/
theorem dbl_primal_next_spec (T T2 : Dbl.Tableau) (hlen : T.m - 1 ≤ T.basis_indices.length)
    (h : Dbl.PrimalSimplex.next_tableau T = some T2) :
    ∃ i j : Nat, i < T.m - 1 ∧ j < T.n - 1 ∧ T.at_ (T.m - 1) j < 0 ∧
      T2.m = T.m ∧ T2.n = T.n ∧
      ∀ k, T2.basis_at k = if k = i then j else T.basis_at k := by
  unfold Dbl.PrimalSimplex.next_tableau at h
  split_ifs at h with hopt
  cases hj : Dbl.PrimalSimplex.select_entering_column T with
  | none => simp [hj] at h
  | some j =>
    simp only [hj] at h
    split_ifs at h with hunl
    cases h1 : T.basis_at_set (Dbl.PrimalSimplex.select_exiting_column T j) j with
    | none => simp [h1] at h
    | some T1 =>
      simp only [h1] at h
      obtain ⟨i0, j0, _, hjj, hi0, hj0, hm, hn, hb⟩ := dbl_basis_pivot T hlen _ _ T1 T2 h1 h
      have hjeq : j = j0 := by exact_mod_cast hjj
      subst hjeq
      unfold Dbl.PrimalSimplex.select_entering_column at hj
      have hneg := List.find?_some hj
      exact ⟨i0, j, hi0, hj0, by simpa using hneg, hm, hn, hb⟩

theorem dbl_pivot_column_fold (T : Dbl.Tableau) (i : Nat) (p : Nat) :
    let st := (List.range p).foldl (Dbl.DualSimplex.pivot_column_step T i) (0, -1)
    st.2 = -1 ∨ ∃ j0 : Nat, st.2 = (j0 : Int) ∧ j0 < p ∧ ¬ T.at_ i j0 ≥ 0 := by
  induction p with
  | zero => left; simp
  | succ p ih =>
    simp only [List.range_succ, List.foldl_append, List.foldl_cons, List.foldl_nil]
    generalize (List.range p).foldl (Dbl.DualSimplex.pivot_column_step T i) (0, -1) = st at ih ⊢
    simp only at ih
    unfold Dbl.DualSimplex.pivot_column_step
    by_cases hp : T.at_ i p ≥ 0
    · simp only [hp, if_true]
      rcases ih with h1 | ⟨j0, h1, h2, h3⟩
      · exact Or.inl h1
      · exact Or.inr ⟨j0, h1, by omega, h3⟩
    · simp only [hp, if_false]
      right
      by_cases hc : st.2 = -1 ∨ T.at_ (T.m - 1) p / (- T.at_ i p) < st.1
      · simp only [hc, if_true]
        exact ⟨p, rfl, by omega, hp⟩
      · simp only [hc, if_false]
        rcases ih with h1 | ⟨j0, h1, h2, h3⟩
        · exact absurd (Or.inl h1) hc
        · exact ⟨j0, h1, by omega, h3⟩

/-- On doubles, what a pass of the loop of the dual simplex that goes on
does: the basis update and the pivot on an element `(i, j)` that does not
compare `>= 0`. -/
theorem dbl_dual_next_spec (T T2 : Dbl.Tableau) (hlen : T.m - 1 ≤ T.basis_indices.length)
    (h : Dbl.DualSimplex.next_tableau T = some T2) :
    ∃ i j : Nat, i < T.m - 1 ∧ j < T.n - 1 ∧ ¬ T.at_ i j ≥ 0 ∧
      T2.m = T.m ∧ T2.n = T.n ∧
      ∀ k, T2.basis_at k = if k = i then j else T.basis_at k := by
  unfold Dbl.DualSimplex.next_tableau at h
  simp only [] at h
  by_cases hfeas : Dbl.DualSimplex.test_feasibility T = true
  · rw [if_pos hfeas] at h; cases h
  rw [if_neg hfeas] at h
  by_cases hneg : Dbl.DualSimplex.select_pivot_row T < 0
  · rw [if_pos hneg] at h; cases h
  rw [if_neg hneg] at h
  by_cases hunl : Dbl.DualSimplex.test_unlimited T
      (Dbl.DualSimplex.select_pivot_row T).toNat = true
  · rw [if_pos hunl] at h; cases h
  rw [if_neg hunl] at h
  cases h1 : T.basis_at_set (Dbl.DualSimplex.select_pivot_row T)
      (Dbl.DualSimplex.select_pivot_column T (Dbl.DualSimplex.select_pivot_row T).toNat) with
  | none => simp [h1] at h
  | some T1 =>
    simp only [h1] at h
    obtain ⟨i0, j0, hii, hjj, hi0, hj0, hm, hn, hb⟩ := dbl_basis_pivot T hlen _ _ T1 T2 h1 h
    refine ⟨i0, j0, hi0, hj0, ?_, hm, hn, hb⟩
    have hi' : (Dbl.DualSimplex.select_pivot_row T).toNat = i0 := by rw [hii]; rfl
    rw [hi'] at hjj
    have hf := dbl_pivot_column_fold T i0 (T.n - 1)
    simp only at hf
    unfold Dbl.DualSimplex.select_pivot_column at hjj
    rcases hf with hf | ⟨j1, hf1, _, hf3⟩
    · rw [hf] at hjj; omega
    · rw [hf1] at hjj
      have : j1 = j0 := by exact_mod_cast hjj
      rw [← this]; exact hf3

/-- On doubles, the column that enters the basis in a pass of the primal
simplex from a canonical tableau is the basis column of no row: its reduced
cost compares `< 0`, that of a basis column `== 0`. -/
theorem dbl_primal_entering_not_basic (T : Dbl.Tableau) (hm : 1 ≤ T.m) (hcan : T.canonical)
    (j : Nat) (hneg : T.at_ (T.m - 1) j < 0) (k : Nat) (hk : k < T.m - 1) :
    T.basis_at k ≠ j := by
  intro hkj
  have h0 := (hcan k hk).2.2 (T.m - 1) (by omega) (by omega)
  rw [hkj] at h0
  exact not_lt_of_eq_zero _ h0 hneg

/-- On doubles, the column that enters the basis in a pass of the dual
simplex from a canonical tableau is the basis column of no row: its entry in
the pivot row does not compare `>= 0`, that of a basis column is `== 1.0` or
`== 0`. -/
theorem dbl_dual_entering_not_basic (T : Dbl.Tableau) (hcan : T.canonical)
    (i j : Nat) (hi : i < T.m - 1) (hneg : ¬ T.at_ i j ≥ 0) (k : Nat) (hk : k < T.m - 1) :
    T.basis_at k ≠ j := by
  intro hkj
  apply hneg
  by_cases hki : k = i
  · have h1 := (hcan k hk).2.1
    rw [hkj, hki] at h1
    exact ge_of_eq_one _ h1
  · have h0 := (hcan k hk).2.2 i (by omega) (Ne.symm hki)
    rw [hkj] at h0
    exact ge_of_eq_zero _ h0

theorem scenario_bounded_dbl_canonical : scenario_bounded.to_double.canonical :=
  (canonical_iff_exact _ _ (to_rat_to_double scenario_bounded)).2 scenario_bounded_canonical

section CanonicalClaim

/-- C28, the claim as stated fails on doubles: `Tableau(2, 3, {49,1,49,
-1,0,0}, {1})` is canonical for its basis; one pass of
`PrimalSimplex::simplex` makes column 0 the basis column of row 0 and pivots
on `(0, 0)`, which leaves `at(0,0) = 1 - 2^-53` and the reduced cost
`-2^-53` in column 0: the tableau is not canonical for the updated basis. -/
theorem C28_iteration_leaves_residue :
    iteration_residue.to_double.canonical ∧
      ∃ T2, Dbl.PrimalSimplex.next_tableau iteration_residue.to_double = some T2 ∧
        T2.basis_at 0 = 0 ∧ (T2.at_ 0 0).eq 1 = false ∧ (T2.at_ 1 0).eq 0 = false ∧
        ¬ T2.canonical := by
  have h1 : (((iteration_residue.to_double.pivot_body 0 0).at_ 0 0).eq 1) = false := by decide!
  refine ⟨(canonical_iff_exact _ _ (to_rat_to_double _)).2 (by
      unfold Tableau.canonical; decide!),
    { iteration_residue.to_double.pivot_body 0 0 with
      basis_indices := [0], basis_indices_set := [true] }, by decide!, by decide!,
    by decide!, by decide!, ?_⟩
  intro hcan
  have := (hcan 0 (by decide)).2.1
  revert this
  decide!

/-- C28, amended. Let `T` be a well-formed tableau of doubles, canonical for
its declared basis as the program compares (`at(i, basis[i]) == 1.0`,
`at(k, basis[i]) == 0` elsewhere).  When a pass of the loop of
`PrimalSimplex::simplex` or of `DualSimplex::simplex` goes on
(`basis_at(i,j)` followed by `pivot(i,j)`), row `i` gets the basis column `j`
and the entering column `j` was the basis column of no row.  When moreover
the pass commits no rounding error (`T` is finite and the tableau the pass
leaves holds the values exact arithmetic gives), the tableau the next pass
starts from is canonical for the updated basis. -/
theorem C28_iteration_keeps_canonical (T : Dbl.Tableau) (hwf : T.wf) (hcan : T.canonical) :
    (∀ T2, Dbl.PrimalSimplex.next_tableau T = some T2 →
      (∀ fuel, Dbl.PrimalSimplex.simplex (fuel + 1) T = Dbl.PrimalSimplex.simplex fuel T2) ∧
        (∃ i j, i < T.m - 1 ∧ j < T.n - 1 ∧
          (∀ k, T2.basis_at k = if k = i then j else T.basis_at k) ∧
          ∀ k, k < T.m - 1 → T.basis_at k ≠ j) ∧
        ∀ t t2, T.to_rat = some t → T2.to_rat = some t2 →
          PrimalSimplex.next_tableau t = some t2 → T2.canonical) ∧
      ∀ T2, Dbl.DualSimplex.next_tableau T = some T2 →
        (∀ fuel, Dbl.DualSimplex.simplex_loop (fuel + 1) T =
          Dbl.DualSimplex.simplex_loop fuel T2) ∧
          (∃ i j, i < T.m - 1 ∧ j < T.n - 1 ∧
            (∀ k, T2.basis_at k = if k = i then j else T.basis_at k) ∧
            ∀ k, k < T.m - 1 → T.basis_at k ≠ j) ∧
          ∀ t t2, T.to_rat = some t → T2.to_rat = some t2 →
            DualSimplex.next_tableau t = some t2 → T2.canonical := by
  constructor
  · intro T2 h
    obtain ⟨i, j, hi, hj, hneg, _, _, hb⟩ := dbl_primal_next_spec T T2 hwf.2.2.2.1 h
    refine ⟨dbl_primal_step_some T T2 h,
      ⟨i, j, hi, hj, hb, dbl_primal_entering_not_basic T hwf.1 hcan j hneg⟩, ?_⟩
    intro t t2 hT hT2 hexact
    obtain ⟨hprimal, _⟩ := iteration_keeps_canonical_exact t ((wf_iff_exact T t hT).1 hwf)
      ((canonical_iff_exact T t hT).1 hcan)
    exact (canonical_iff_exact T2 t2 hT2).2 (hprimal t2 hexact).2.1
  · intro T2 h
    obtain ⟨i, j, hi, hj, hneg, _, _, hb⟩ := dbl_dual_next_spec T T2 hwf.2.2.2.1 h
    refine ⟨dbl_loop_step_some T T2 h,
      ⟨i, j, hi, hj, hb, dbl_dual_entering_not_basic T hcan i j hi hneg⟩, ?_⟩
    intro t t2 hT hT2 hexact
    obtain ⟨_, hdual⟩ := iteration_keeps_canonical_exact t ((wf_iff_exact T t hT).1 hwf)
      ((canonical_iff_exact T t hT).1 hcan)
    exact (canonical_iff_exact T2 t2 hT2).2 (hdual t2 hexact).2.1

theorem scenario_bounded_dbl_wf : scenario_bounded.to_double.wf :=
  (wf_iff_exact _ _ (to_rat_to_double scenario_bounded)).2 scenario_bounded_wf

theorem dual_test_dbl_wf : dual_test_tableau.to_double.wf :=
  (wf_iff_exact _ _ (to_rat_to_double dual_test_tableau)).2 dual_test_wf

theorem dual_test_dbl_canonical : dual_test_tableau.to_double.canonical :=
  (canonical_iff_exact _ _ (to_rat_to_double dual_test_tableau)).2 dual_test_canonical

/-- Witness of the amended C28: the first pass of the primal simplex on the
scenario "bounded optimum" and the first pass of the dual simplex on the
tableau of `DualSimplex::test`, on doubles, commit no rounding error and
lead to canonical tableaux. -/
theorem C28_witness :
    (∃ T2 t2, Dbl.PrimalSimplex.next_tableau scenario_bounded.to_double = some T2 ∧
      T2.to_rat = some t2 ∧ PrimalSimplex.next_tableau scenario_bounded = some t2 ∧
      T2.canonical) ∧
    ∃ T2 t2, Dbl.DualSimplex.next_tableau dual_test_tableau.to_double = some T2 ∧
      T2.to_rat = some t2 ∧ DualSimplex.next_tableau dual_test_tableau = some t2 ∧
      T2.canonical :=
  ⟨(Option.isSome_iff_exists.1
      (by decide! : (Dbl.PrimalSimplex.next_tableau scenario_bounded.to_double).isSome
        = true)).elim
      (fun T2 h2 => (Option.isSome_iff_exists.1
        (by decide! : (PrimalSimplex.next_tableau scenario_bounded).isSome = true)).elim
        (fun t2 e2 =>
          have himg : T2.to_rat = some t2 := by
            have e : (Dbl.PrimalSimplex.next_tableau scenario_bounded.to_double).bind
                Dbl.Tableau.to_rat = PrimalSimplex.next_tableau scenario_bounded := by
              decide!
            rw [h2, e2] at e
            exact e
          ⟨T2, t2, h2, himg, e2,
            ((C28_iteration_keeps_canonical scenario_bounded.to_double
              scenario_bounded_dbl_wf scenario_bounded_dbl_canonical).1 T2 h2).2.2
              scenario_bounded t2 (to_rat_to_double scenario_bounded) himg e2⟩)),
    (Option.isSome_iff_exists.1
      (by decide! : (Dbl.DualSimplex.next_tableau dual_test_tableau.to_double).isSome
        = true)).elim
      (fun T2 h2 => (Option.isSome_iff_exists.1
        (by decide! : (DualSimplex.next_tableau dual_test_tableau).isSome = true)).elim
        (fun t2 e2 =>
          have himg : T2.to_rat = some t2 := by
            have e : (Dbl.DualSimplex.next_tableau dual_test_tableau.to_double).bind
                Dbl.Tableau.to_rat = DualSimplex.next_tableau dual_test_tableau := by
              decide!
            rw [h2, e2] at e
            exact e
          ⟨T2, t2, h2, himg, e2,
            ((C28_iteration_keeps_canonical dual_test_tableau.to_double
              dual_test_dbl_wf dual_test_dbl_canonical).2 T2 h2).2.2
              dual_test_tableau t2 (to_rat_to_double dual_test_tableau) himg e2⟩))⟩

end CanonicalClaim

/-! ## Entry-wise description of the row scaling on doubles -/

theorem dbl_index_lt (M : Dbl.Matrix) (hwf : M.wf) (i j : Nat) (hi : i < M.m) (hj : j < M.n) :
    i * M.n + j < M.buffer.length := by
  have h1 : (i + 1) * M.n ≤ M.m * M.n := Nat.mul_le_mul_right _ hi
  have h2 : (i + 1) * M.n = i * M.n + M.n := by ring
  unfold Dbl.Matrix.wf at hwf
  omega

@[simp] theorem dbl_at_set_m (M : Dbl.Matrix) (i j : Nat) (v : Double) :
    (M.at_set i j v).m = M.m := rfl
@[simp] theorem dbl_at_set_n (M : Dbl.Matrix) (i j : Nat) (v : Double) :
    (M.at_set i j v).n = M.n := rfl
@[simp] theorem dbl_at_set_length (M : Dbl.Matrix) (i j : Nat) (v : Double) :
    (M.at_set i j v).buffer.length = M.buffer.length := by
  simp [Dbl.Matrix.at_set]

theorem dbl_at_set_wf (M : Dbl.Matrix) (hwf : M.wf) (i j : Nat) (v : Double) :
    (M.at_set i j v).wf := by
  unfold Dbl.Matrix.wf at *
  simpa using hwf

theorem dbl_at_at_set (M : Dbl.Matrix) (hwf : M.wf) (i j : Nat) (v : Double) (hi : i < M.m)
    (hj : j < M.n) (i' j' : Nat) (hj' : j' < M.n) :
    (M.at_set i j v).at_ i' j' = if i' = i ∧ j' = j then v else M.at_ i' j' := by
  have hlt := dbl_index_lt M hwf i j hi hj
  unfold Dbl.Matrix.at_ Dbl.Matrix.at_set
  simp only [List.getD_eq_getElem?_getD, List.getElem?_set]
  by_cases h : i * M.n + j = i' * M.n + j'
  · have := (index_inj M.n i j i' j' hj hj').1 h
    have hlt' : i' * M.n + j' < M.buffer.length := h ▸ hlt
    simp [h, this.1.symm, this.2.symm, hlt']
  · have h' : ¬ (i' = i ∧ j' = j) := by
      rintro ⟨rfl, rfl⟩; exact h rfl
    simp [h, h']

theorem dbl_foldl_scale_row (row : Nat) (k : Double) (l : List Nat) :
    ∀ (M : Dbl.Matrix), M.wf → row < M.m → l.Nodup → (∀ j ∈ l, j < M.n) →
      let R := l.foldl (fun A j => A.at_set row j (A.at_ row j * k)) M
      R.m = M.m ∧ R.n = M.n ∧ R.buffer.length = M.buffer.length ∧
        ∀ i j, j < M.n →
          R.at_ i j = if i = row ∧ j ∈ l then M.at_ i j * k else M.at_ i j := by
  induction l with
  | nil => intro M _ _ _ _; simp
  | cons a l ih =>
    intro M hwf hrow hnd hl
    have ha : a < M.n := hl a (List.mem_cons_self _ _)
    have hnd' := List.nodup_cons.1 hnd
    have hwf1 : (M.at_set row a (M.at_ row a * k)).wf := dbl_at_set_wf M hwf _ _ _
    have := ih (M.at_set row a (M.at_ row a * k)) hwf1 (by simpa using hrow) hnd'.2
      (fun j hj => by simpa using hl j (List.mem_cons_of_mem _ hj))
    simp only [List.foldl_cons]
    obtain ⟨h1, h2, h3, h4⟩ := this
    refine ⟨by simpa using h1, by simpa using h2, by simpa using h3, ?_⟩
    intro i j hj
    rw [h4 i j (by simpa using hj), dbl_at_at_set M hwf row a _ hrow ha i j hj]
    by_cases hi : i = row
    · subst hi
      by_cases hja : j = a
      · subst hja
        simp [hnd'.1]
      · by_cases hjl : j ∈ l <;> simp [hja, hjl]
    · simp [hi]

/-- On doubles, `scale_row(row, k)` multiplies every entry of the row by `k`
(one rounded product each) and leaves the other rows. -/
theorem dbl_scale_row_spec (M : Dbl.Matrix) (hwf : M.wf) (row : Nat) (k : Double)
    (hrow : row < M.m) :
    (M.scale_row row k).m = M.m ∧ (M.scale_row row k).n = M.n ∧
      (M.scale_row row k).buffer.length = M.buffer.length ∧
      ∀ i j, j < M.n →
        (M.scale_row row k).at_ i j = if i = row then M.at_ i j * k else M.at_ i j := by
  have := dbl_foldl_scale_row row k (List.range M.n) M hwf hrow (List.nodup_range _)
    (fun j hj => List.mem_range.1 hj)
  obtain ⟨h1, h2, h3, h4⟩ := this
  refine ⟨h1, h2, h3, ?_⟩
  intro i j hj
  have := h4 i j hj
  simp only [List.mem_range, hj, and_true] at this
  exact this

/-- The comparison `d > 0` on a finite double is that of its value. -/
theorem zero_lt_iff_value (d : Double) (q : ℚ) (h : d.value? = some q) :
    d > 0 ↔ 0 < q := by
  cases d with
  | fin p =>
    simp only [Double.value?, Option.some.injEq] at h
    subst h
    show Double.lt 0 (Double.fin p) = true ↔ 0 < p
    simp [Double.lt, Double.value?, OfNat.ofNat]
  | negzero =>
    simp only [Double.value?, Option.some.injEq] at h
    subst h
    show Double.lt 0 Double.negzero = true ↔ (0 : ℚ) < 0
    simp [Double.lt, Double.value?, OfNat.ofNat]
  | inf s => simp [Double.value?] at h
  | nan => simp [Double.value?] at h

/-! ## Entry-wise description of the pivot on doubles -/

theorem dbl_foldl_add_row (src dst : Nat) (k : Double) (hne : src ≠ dst) (l : List Nat) :
    ∀ (M : Dbl.Matrix), M.wf → dst < M.m → l.Nodup → (∀ j ∈ l, j < M.n) →
      let R := l.foldl (fun A j => A.at_set dst j (A.at_ dst j + A.at_ src j * k)) M
      R.m = M.m ∧ R.n = M.n ∧ R.buffer.length = M.buffer.length ∧
        ∀ i j, j < M.n →
          R.at_ i j = if i = dst ∧ j ∈ l then M.at_ i j + M.at_ src j * k else M.at_ i j := by
  induction l with
  | nil => intro M _ _ _ _; simp
  | cons a l ih =>
    intro M hwf hrow hnd hl
    have ha : a < M.n := hl a (List.mem_cons_self _ _)
    have hnd' := List.nodup_cons.1 hnd
    have hwf1 : (M.at_set dst a (M.at_ dst a + M.at_ src a * k)).wf :=
      dbl_at_set_wf M hwf _ _ _
    have := ih (M.at_set dst a (M.at_ dst a + M.at_ src a * k)) hwf1 (by simpa using hrow)
      hnd'.2 (fun j hj => by simpa using hl j (List.mem_cons_of_mem _ hj))
    simp only [List.foldl_cons]
    obtain ⟨h1, h2, h3, h4⟩ := this
    refine ⟨by simpa using h1, by simpa using h2, by simpa using h3, ?_⟩
    intro i j hj
    rw [h4 i j (by simpa using hj), dbl_at_at_set M hwf dst a _ hrow ha i j hj,
      dbl_at_at_set M hwf dst a _ hrow ha src j hj]
    by_cases hi : i = dst
    · subst hi
      by_cases hja : j = a
      · subst hja
        simp [hnd'.1]
      · by_cases hjl : j ∈ l <;> simp [hja, hjl, hne]
    · simp [hi]

/-- On doubles, `add_premultiplied_row(src, k, dst)` adds to every entry of
row `dst` the rounded product of the entry of row `src` by `k` (two
roundings each) and leaves the other rows. -/
theorem dbl_add_premultiplied_row_spec (M : Dbl.Matrix) (hwf : M.wf) (src dst : Nat)
    (k : Double) (hne : src ≠ dst) (hdst : dst < M.m) :
    (M.add_premultiplied_row src k dst).m = M.m ∧
      (M.add_premultiplied_row src k dst).n = M.n ∧
      (M.add_premultiplied_row src k dst).buffer.length = M.buffer.length ∧
      ∀ i j, j < M.n →
        (M.add_premultiplied_row src k dst).at_ i j =
          if i = dst then M.at_ i j + M.at_ src j * k else M.at_ i j := by
  have := dbl_foldl_add_row src dst k hne (List.range M.n) M hwf hdst (List.nodup_range _)
    (fun j hj => List.mem_range.1 hj)
  obtain ⟨h1, h2, h3, h4⟩ := this
  refine ⟨h1, h2, h3, ?_⟩
  intro i j hj
  have := h4 i j hj
  simp only [List.mem_range, hj, and_true] at this
  exact this

theorem dbl_foldl_pivot_rows (row col : Nat) (l : List Nat) :
    ∀ (T : Dbl.Tableau), T.wf → row < T.m → col < T.n → l.Nodup → (∀ i ∈ l, i < T.m) →
      let R := l.foldl
        (fun (a : Dbl.Tableau) i =>
          if i = row then a
          else
            let value := a.at_ i col
            if value.eq 0 then a
            else
              let multiplier := -1 * value
              { a with toMatrix := a.toMatrix.add_premultiplied_row row multiplier i })
        T
      R.wf ∧ R.m = T.m ∧ R.n = T.n ∧ R.basis_indices = T.basis_indices ∧
        R.basis_indices_set = T.basis_indices_set ∧
        ∀ i j, j < T.n →
          R.at_ i j =
            if i ∈ l ∧ i ≠ row ∧ (T.at_ i col).eq 0 = false then
              T.at_ i j + T.at_ row j * (-1 * T.at_ i col)
            else T.at_ i j := by
  induction l with
  | nil => intro T h _ _ _ _; simp [h]
  | cons a l ih =>
    intro T hwf hrow hcol hnd hl
    have ha : a < T.m := hl a (List.mem_cons_self _ _)
    have hnd' := List.nodup_cons.1 hnd
    simp only [List.foldl_cons]
    by_cases har : a = row
    · subst har
      simp only [if_true]
      obtain ⟨h0, h1, h2, h3, h4, h5⟩ := ih T hwf hrow hcol hnd'.2
        (fun i hi => hl i (List.mem_cons_of_mem _ hi))
      refine ⟨h0, h1, h2, h3, h4, ?_⟩
      intro i j hj
      rw [h5 i j hj]
      by_cases hi : i = a
      · subst hi; simp
      · simp [hi]
    · simp only [har, if_false]
      by_cases hv : (T.at_ a col).eq 0 = true
      · simp only [hv, if_true]
        obtain ⟨h0, h1, h2, h3, h4, h5⟩ := ih T hwf hrow hcol hnd'.2
          (fun i hi => hl i (List.mem_cons_of_mem _ hi))
        refine ⟨h0, h1, h2, h3, h4, ?_⟩
        intro i j hj
        rw [h5 i j hj]
        by_cases hi : i = a
        · subst hi; simp [hnd'.1, hv]
        · simp [hi]
      · have hv' : (T.at_ a col).eq 0 = false := by simpa using hv
        simp only [hv', Bool.false_eq_true, if_false]
        obtain ⟨e1, e2, e3, e4⟩ := dbl_add_premultiplied_row_spec T.toMatrix
          hwf.2.2.1 row a (-1 * T.at_ a col) (Ne.symm har) ha
        have hwf1 : ({ T with toMatrix :=
            T.toMatrix.add_premultiplied_row row (-1 * T.at_ a col) a } : Dbl.Tableau).wf := by
          refine ⟨?_, ?_, ?_, ?_, ?_⟩
          · show 1 ≤ (T.toMatrix.add_premultiplied_row row (-1 * T.at_ a col) a).m
            rw [e1]; exact hwf.1
          · show 1 ≤ (T.toMatrix.add_premultiplied_row row (-1 * T.at_ a col) a).n
            rw [e2]; exact hwf.2.1
          · show (T.toMatrix.add_premultiplied_row row (-1 * T.at_ a col) a).m *
              (T.toMatrix.add_premultiplied_row row (-1 * T.at_ a col) a).n ≤
              (T.toMatrix.add_premultiplied_row row (-1 * T.at_ a col) a).buffer.length
            rw [e1, e2, e3]; exact hwf.2.2.1
          · show (T.toMatrix.add_premultiplied_row row (-1 * T.at_ a col) a).m - 1 ≤ _
            rw [e1]; exact hwf.2.2.2.1
          · show (T.toMatrix.add_premultiplied_row row (-1 * T.at_ a col) a).m - 1 ≤ _
            rw [e1]; exact hwf.2.2.2.2
        obtain ⟨h0, h1, h2, h3, h4, h5⟩ := ih _ hwf1
          (by show row < (Dbl.Matrix.add_premultiplied_row _ _ _ _).m; rw [e1]; exact hrow)
          (by show col < (Dbl.Matrix.add_premultiplied_row _ _ _ _).n; rw [e2]; exact hcol)
          hnd'.2
          (fun i hi => by
            show i < (Dbl.Matrix.add_premultiplied_row _ _ _ _).m
            rw [e1]; exact hl i (List.mem_cons_of_mem _ hi))
        refine ⟨h0, h1.trans e1, h2.trans e2, h3, h4, ?_⟩
        intro i j hj
        have hj' : j < (Dbl.Matrix.add_premultiplied_row T.toMatrix row
            (-1 * T.at_ a col) a).n := by
          rw [e2]; exact hj
        rw [h5 i j hj']
        have key : ∀ i' j', j' < T.n →
            Dbl.Tableau.at_ ({ T with toMatrix :=
              T.toMatrix.add_premultiplied_row row (-1 * T.at_ a col) a } : Dbl.Tableau)
                i' j' =
            if i' = a then T.at_ i' j' + T.at_ row j' * (-1 * T.at_ a col)
            else T.at_ i' j' := by
          intro i' j' hj''
          exact e4 i' j' hj''
        rw [key i j hj, key i col hcol, key row j hj]
        by_cases hi : i = a
        · subst hi
          simp [hnd'.1, Ne.symm har, har, hv']
        · simp [hi, Ne.symm har]

/-- Entry-wise description of `pivot_body` on doubles.  The pivot row is
multiplied by the rounded `1.0 / pivot` unless `pivot == 1.0`; every other
row whose entry `value` of the pivot column is not `== 0` gets, entry by
entry, the rounded product of the new pivot row by `-1 * value` added. -/
theorem dbl_pivot_body_spec (t : Dbl.Tableau) (hwf : t.wf) (row col : Nat) (hrow : row < t.m)
    (hcol : col < t.n) :
    (t.pivot_body row col).wf ∧ (t.pivot_body row col).m = t.m ∧
      (t.pivot_body row col).n = t.n ∧
      (t.pivot_body row col).basis_indices = t.basis_indices ∧
      (t.pivot_body row col).basis_indices_set = t.basis_indices_set ∧
      ∀ i j, i < t.m → j < t.n →
        (t.pivot_body row col).at_ i j =
          if i = row then
            (if (t.at_ row col).ne 1 then t.at_ row j * (1 / t.at_ row col) else t.at_ row j)
          else if (t.at_ i col).eq 0 then t.at_ i j
          else
            t.at_ i j +
              (if (t.at_ row col).ne 1 then t.at_ row j * (1 / t.at_ row col)
                else t.at_ row j) * (-1 * t.at_ i col) := by
  -- the scaled tableau
  have hs : ∃ t1 : Dbl.Tableau, t1 = (if (t.at_ row col).ne 1 then
        ({ t with toMatrix := t.toMatrix.scale_row row (1 / t.at_ row col) } : Dbl.Tableau)
        else t) ∧
      t1.wf ∧ t1.m = t.m ∧ t1.n = t.n ∧ t1.basis_indices = t.basis_indices ∧
      t1.basis_indices_set = t.basis_indices_set ∧
      ∀ i j, j < t.n → t1.at_ i j =
        if i = row then
          (if (t.at_ row col).ne 1 then t.at_ row j * (1 / t.at_ row col) else t.at_ row j)
        else t.at_ i j := by
    by_cases hp : (t.at_ row col).ne 1 = true
    · obtain ⟨e1, e2, e3, e4⟩ := dbl_scale_row_spec t.toMatrix hwf.2.2.1 row
        (1 / t.at_ row col) hrow
      refine ⟨({ t with toMatrix := t.toMatrix.scale_row row (1 / t.at_ row col) } :
          Dbl.Tableau),
        by rw [if_pos hp], ⟨?_, ?_, ?_, ?_, ?_⟩, e1, e2, rfl, rfl, ?_⟩
      · show 1 ≤ (Dbl.Matrix.scale_row _ _ _).m
        rw [e1]; exact hwf.1
      · show 1 ≤ (Dbl.Matrix.scale_row _ _ _).n
        rw [e2]; exact hwf.2.1
      · show (Dbl.Matrix.scale_row _ _ _).m * (Dbl.Matrix.scale_row _ _ _).n ≤
          (Dbl.Matrix.scale_row _ _ _).buffer.length
        rw [e1, e2, e3]; exact hwf.2.2.1
      · show (Dbl.Matrix.scale_row _ _ _).m - 1 ≤ _
        rw [e1]; exact hwf.2.2.2.1
      · show (Dbl.Matrix.scale_row _ _ _).m - 1 ≤ _
        rw [e1]; exact hwf.2.2.2.2
      · intro i j hj
        show (Dbl.Matrix.scale_row _ _ _).at_ i j = _
        rw [e4 i j hj, if_pos hp]
        by_cases hi : i = row
        · subst hi; simp [Dbl.Tableau.at_]
        · simp [hi, Dbl.Tableau.at_]
    · refine ⟨t, by rw [if_neg hp], hwf, rfl, rfl, rfl, rfl, ?_⟩
      intro i j _
      rw [if_neg hp]
      by_cases hi : i = row
      · subst hi; simp
      · simp [hi]
  obtain ⟨t1, ht1, hwf1, hm1, hn1, hb1, hbs1, hat1⟩ := hs
  have hfold := dbl_foldl_pivot_rows row col (List.range t1.m) t1 hwf1 (hm1 ▸ hrow)
    (hn1 ▸ hcol) (List.nodup_range _) (fun i hi => List.mem_range.1 hi)
  have hdef : t.pivot_body row col = (List.range t1.m).foldl
        (fun (a : Dbl.Tableau) i =>
          if i = row then a
          else
            let value := a.at_ i col
            if value.eq 0 then a
            else
              let multiplier := -1 * value
              { a with toMatrix := a.toMatrix.add_premultiplied_row row multiplier i })
        t1 := by
    rw [ht1]; rfl
  rw [hdef]
  obtain ⟨h0, h1, h2, h3, h4, h5⟩ := hfold
  refine ⟨h0, h1.trans hm1, h2.trans hn1, h3.trans hb1, h4.trans hbs1, ?_⟩
  intro i j hi hj
  rw [h5 i j (hn1 ▸ hj), hat1 i j hj, hat1 i col hcol, hat1 row j hj]
  by_cases hir : i = row
  · subst hir; simp
  · have : i ∈ List.range t1.m := List.mem_range.2 (hm1 ▸ hi)
    simp only [this, hir, if_false, if_true, true_and, ne_eq, not_false_eq_true]
    by_cases hv : (t.at_ i col).eq 0 = true
    · simp [hv]
    · have hv' : (t.at_ i col).eq 0 = false := by simpa using hv
      simp [hv']


/-! ## When a pivot on doubles leaves the unit column -/

/-- Rounding is symmetric: a value the format holds has its opposite in the
format. -/
theorem round_neg_fixed (q : ℚ) (h : Double.round q = Double.fin q) :
    Double.round (-q) = Double.fin (-q) := by
  by_cases hq : q = 0
  · subst hq
    simp [Double.round]
  · have hq' : -q ≠ 0 := neg_ne_zero.2 hq
    unfold Double.round at h ⊢
    rw [if_neg hq] at h
    rw [if_neg hq']
    simp only [Rat.neg_num, Int.natAbs_neg, Rat.neg_den] at h ⊢
    split_ifs at h ⊢ <;>
      first
      | exact absurd (Double.fin.inj h).symm hq
      | exact Double.noConfusion h
      | (exfalso; linarith)
      | (exfalso; apply hq; linarith)
      | (have e := Double.fin.inj h; congr 1; linarith)

theorem fin_one_of_eq_one (p : Double) (h : p.eq 1 = true) : p = Double.fin 1 := by
  cases p with
  | fin q =>
    have : q = 1 := by simpa [Double.eq, Double.value?, OfNat.ofNat] using h
    rw [this]
  | negzero => exact absurd h (by decide)
  | inf s => exact absurd h (by cases s <;> decide)
  | nan => exact absurd h (by decide)

/-- On a finite double `v`, `v + 1.0 * (-1 * v)` is a zero: the two products
and the sum are exact. -/
theorem dbl_cancel (v : Double) (hf : v.finite = true) :
    (v + Double.fin 1 * (-1 * v)).eq 0 = true := by
  cases v with
  | fin q =>
    by_cases hq : q = 0
    · subst hq
      decide!
    · have hr : Double.round q = Double.fin q := by
        simpa [Double.finite] using hf
      have hn := round_neg_fixed q hr
      have e1 : (-1 : Double) * Double.fin q = Double.fin (-q) := by
        show Double.mul (Double.neg (Double.fin ((1 : Nat) : ℚ))) (Double.fin q) = _
        simp [Double.mul, Double.neg, Double.value?, hq, hn]
      have e2 : Double.fin 1 * Double.fin (-q) = Double.fin (-q) := by
        show Double.mul (Double.fin 1) (Double.fin (-q)) = _
        simp [Double.mul, Double.value?, hq, hn]
      rw [e1, e2]
      show (Double.add (Double.fin q) (Double.fin (-q))).eq 0 = true
      simp [Double.add, Double.round]
      decide
  | negzero => decide!
  | inf s => exact absurd hf (by simp [Double.finite])
  | nan => exact absurd hf (by simp [Double.finite])

/-- `1.0 * (1.0 / 1.0)` is `1.0`, and so is the product for any double that
compares equal to `1.0`. -/
theorem dbl_one_product (a : Double) (h : a.eq 1 = true) : (a * (1 / a)).eq 1 = true := by
  rw [fin_one_of_eq_one a h]
  decide!

/-- On doubles, `pivot(i,j)` leaves in `at(i,j)` the rounded product
`at(i,j) * (1.0 / at(i,j))` (or the entry itself when it is `1.0`), and, when
the other entries of column `j` are finite, it leaves column `j` as the unit
vector of row `i` exactly when that product is `1.0`. -/
theorem dbl_pivot_unit_column_iff (T : Dbl.Tableau) (hwf : T.wf) (i j : Nat) (hi : i < T.m - 1)
    (hj : j < T.n - 1) (hfin : ∀ k, k < T.m → k ≠ i → (T.at_ k j).finite = true) :
    (T.pivot_body i j).at_ i j =
        (if (T.at_ i j).ne 1 then T.at_ i j * (1 / T.at_ i j) else T.at_ i j) ∧
      ((T.pivot_body i j).unit_column i j ↔ (T.at_ i j * (1 / T.at_ i j)).eq 1 = true) := by
  obtain ⟨_, hm, _, _, _, hat⟩ := dbl_pivot_body_spec T hwf i j (by omega) (by omega)
  have e := hat i j (by omega) (by omega)
  rw [if_pos rfl] at e
  have hP : ((if (T.at_ i j).ne 1 then T.at_ i j * (1 / T.at_ i j) else T.at_ i j).eq 1 = true) ↔
      (T.at_ i j * (1 / T.at_ i j)).eq 1 = true := by
    by_cases hne : (T.at_ i j).ne 1 = true
    · rw [if_pos hne]
    · rw [if_neg hne]
      have h1 : (T.at_ i j).eq 1 = true := by
        unfold Double.ne at hne
        simpa using hne
      exact ⟨fun _ => dbl_one_product _ h1, fun _ => h1⟩
  refine ⟨e, ?_, ?_⟩
  · intro hu
    have := hu.1
    rw [e] at this
    exact hP.1 this
  · intro hprod
    have h1 := hP.2 hprod
    refine ⟨by rw [e]; exact h1, ?_⟩
    intro k hk hki
    rw [hm] at hk
    rw [hat k j hk (by omega), if_neg hki]
    by_cases hz : (T.at_ k j).eq 0 = true
    · rw [if_pos hz]; exact hz
    · rw [if_neg hz, fin_one_of_eq_one _ h1]
      exact dbl_cancel _ (hfin k hk hki)

theorem scenario_bounded_dbl_finite (k : Nat) (hk : k < scenario_bounded.to_double.m) :
    (scenario_bounded.to_double.at_ k 0).finite = true := by
  have hk' : k < 3 := hk
  interval_cases k <;> decide!

section PivotColumnClaims

/-- C14, the claim as stated fails on doubles: `pivot(0, 0)` on
`Tableau(3, 3, {49,7,49, 7,1,7, 1,0,0}, NULL)`, whose pivot element is 49,
scales row 0 by the rounded `1.0 / 49` and leaves column 0 as
`(1 - 2^-53, 2^-50, 2^-53)`, which is not the unit vector. -/
theorem C14_pivot_leaves_residue :
    (pivot_residue.to_double.at_ 0 0).ne 0 = true ∧
      ∃ T', pivot_residue.to_double.pivot 0 0 = some T' ∧
        T'.at_ 0 0 = Double.fin (9007199254740991 / 9007199254740992) ∧
        T'.at_ 1 0 = Double.fin (1 / 1125899906842624) ∧
        T'.at_ 2 0 = Double.fin (1 / 9007199254740992) ∧
        (T'.at_ 0 0).eq 1 = false ∧ (T'.at_ 1 0).eq 0 = false ∧
        (T'.at_ 2 0).eq 0 = false :=
  ⟨by decide!, pivot_residue.to_double.pivot_body 0 0, by decide!, by decide!, by decide!,
    by decide!, by decide!, by decide!, by decide!⟩

/-- C14, amended. For a well-formed tableau of doubles, a constraint row
`i < m-1` and a structural column `j < n-1` whose entries in the other rows
are finite: `pivot(i,j)` leaves in `at(i,j)` the rounded product
`at(i,j) * (1.0 / at(i,j))` (the entry itself when it is already `1.0`), and
after it column `j` is the unit vector of row `i`, `at(i,j) == 1.0` and
`at(k,j) == 0` for every other row `k`, the objective row included, exactly
when that product is `1.0`.  It is in particular when `at(i,j) != 0` and the
pivot commits no rounding error (the tableau it leaves holds the values of
the pivot in exact arithmetic). -/
theorem C14_pivot_unit_column (T : Dbl.Tableau) (hwf : T.wf) (i j : Nat) (hi : i < T.m - 1)
    (hj : j < T.n - 1) (hfin : ∀ k, k < T.m → k ≠ i → (T.at_ k j).finite = true) :
    ∃ T', T.pivot (i : Int) (j : Int) = some T' ∧ T'.m = T.m ∧ T'.n = T.n ∧
      T'.at_ i j = (if (T.at_ i j).ne 1 then T.at_ i j * (1 / T.at_ i j) else T.at_ i j) ∧
      (((T'.at_ i j).eq 1 = true ∧ ∀ k, k < T.m → k ≠ i → (T'.at_ k j).eq 0 = true) ↔
        (T.at_ i j * (1 / T.at_ i j)).eq 1 = true) ∧
      ∀ t, T.to_rat = some t → (T.at_ i j).ne 0 = true →
        (T.pivot (i : Int) (j : Int)).bind Dbl.Tableau.to_rat = t.pivot (i : Int) (j : Int) →
        (T.at_ i j * (1 / T.at_ i j)).eq 1 = true := by
  obtain ⟨sm, sn, _⟩ := dbl_pivot_body_shape T i j
  obtain ⟨e, hiff⟩ := dbl_pivot_unit_column_iff T hwf i j hi hj hfin
  have hu : ((T.pivot_body i j).at_ i j).eq 1 = true ∧
      (∀ k, k < T.m → k ≠ i → ((T.pivot_body i j).at_ k j).eq 0 = true) ↔
      (T.pivot_body i j).unit_column i j := by
    unfold Dbl.Tableau.unit_column
    rw [sm]
  refine ⟨T.pivot_body i j, dbl_pivot_eq_body T i j hi hj, sm, sn, e, hu.trans hiff, ?_⟩
  intro t hT hp hexact
  obtain ⟨T', hT', _, _, hunit⟩ :=
    unit_column_of_exact_pivot T t hT ((wf_iff_exact T t hT).1 hwf) i j hi hj hp hexact
  rw [dbl_pivot_eq_body T i j hi hj, Option.some.injEq] at hT'
  subst hT'
  exact hiff.1 hunit

/-- Witness of the amended C14: the pivot on `(1, 0)` of the tableau of the
scenario "bounded optimum", on doubles. -/
theorem C14_witness :
    ∃ T', scenario_bounded.to_double.pivot ((1 : Nat) : Int) ((0 : Nat) : Int) = some T' ∧
      T'.m = scenario_bounded.to_double.m ∧ T'.n = scenario_bounded.to_double.n ∧
      T'.at_ 1 0 =
        (if (scenario_bounded.to_double.at_ 1 0).ne 1 then
          scenario_bounded.to_double.at_ 1 0 * (1 / scenario_bounded.to_double.at_ 1 0)
        else scenario_bounded.to_double.at_ 1 0) ∧
      (((T'.at_ 1 0).eq 1 = true ∧
          ∀ k, k < scenario_bounded.to_double.m → k ≠ 1 → (T'.at_ k 0).eq 0 = true) ↔
        (scenario_bounded.to_double.at_ 1 0 *
          (1 / scenario_bounded.to_double.at_ 1 0)).eq 1 = true) ∧
      ∀ t, scenario_bounded.to_double.to_rat = some t →
        (scenario_bounded.to_double.at_ 1 0).ne 0 = true →
        (scenario_bounded.to_double.pivot ((1 : Nat) : Int) ((0 : Nat) : Int)).bind
            Dbl.Tableau.to_rat = t.pivot ((1 : Nat) : Int) ((0 : Nat) : Int) →
        (scenario_bounded.to_double.at_ 1 0 *
          (1 / scenario_bounded.to_double.at_ 1 0)).eq 1 = true :=
  C14_pivot_unit_column scenario_bounded.to_double scenario_bounded_dbl_wf 1 0 (by decide)
    (by decide) (fun k hk _ => scenario_bounded_dbl_finite k hk)

/-- C15, the claim as stated fails on doubles: on
`Tableau(3, 3, {49,7,49, 7,1,7, 1,0,0}, NULL)` the first `pivot(0, 0)` leaves
`at(0,0) = 1 - 2^-53` and `at(1,0) = 2^-50`, so the second `pivot(0, 0)`
scales row 0 again and subtracts it from row 1: the entries `(0,0)` and
`(1,0)` change. -/
theorem C15_second_pivot_changes_entries :
    (pivot_residue.to_double.at_ 0 0).ne 0 = true ∧
      ∃ T' T'', pivot_residue.to_double.pivot 0 0 = some T' ∧ T'.pivot 0 0 = some T'' ∧
        (T''.at_ 0 0).eq (T'.at_ 0 0) = false ∧
        (T''.at_ 1 0).eq (T'.at_ 1 0) = false ∧ T'' ≠ T' :=
  ⟨by decide!, pivot_residue.to_double.pivot_body 0 0,
    (pivot_residue.to_double.pivot_body 0 0).pivot_body 0 0,
    by decide!, by decide!, by decide!, by decide!, by decide!⟩

/-- C15, amended. On doubles, for a constraint row `i < m-1` and a
structural column `j < n-1`, pivoting again on `(i,j)` is a no-op whenever
the first `pivot(i,j)` has left column `j` as the unit vector of row `i`
(`at(i,j) == 1.0` and `at(k,j) == 0` elsewhere): the second pivot then skips
the scaling and every row, and returns the tableau the first one produced.
The first pivot leaves such a column when the tableau is well-formed, the
other entries of column `j` are finite and the product
`at(i,j) * (1.0 / at(i,j))` is `1.0`; also when it commits no rounding error
on a non-zero pivot element. -/
theorem C15_pivot_twice (T : Dbl.Tableau) (i j : Nat) (hi : i < T.m - 1) (hj : j < T.n - 1) :
    ∃ T', T.pivot (i : Int) (j : Int) = some T' ∧ T'.m = T.m ∧ T'.n = T.n ∧
      (T'.unit_column i j → T'.pivot (i : Int) (j : Int) = some T') ∧
      (T.wf → (∀ k, k < T.m → k ≠ i → (T.at_ k j).finite = true) →
        (T.at_ i j * (1 / T.at_ i j)).eq 1 = true →
        T'.pivot (i : Int) (j : Int) = some T') ∧
      ∀ t, T.to_rat = some t → t.wf → (T.at_ i j).ne 0 = true →
        (T.pivot (i : Int) (j : Int)).bind Dbl.Tableau.to_rat =
          t.pivot (i : Int) (j : Int) →
        T'.pivot (i : Int) (j : Int) = some T' := by
  have key : ∀ T' : Dbl.Tableau, T'.m = T.m → T'.n = T.n → T'.unit_column i j →
      T'.pivot (i : Int) (j : Int) = some T' := by
    intro T' hm hn hu
    rw [dbl_pivot_eq_body T' i j (by omega) (by omega), dbl_pivot_body_fixed T' i j hu]
  obtain ⟨sm, sn, _⟩ := dbl_pivot_body_shape T i j
  refine ⟨T.pivot_body i j, dbl_pivot_eq_body T i j hi hj, sm, sn, key _ sm sn, ?_, ?_⟩
  · intro hwf hfin hprod
    exact key _ sm sn ((dbl_pivot_unit_column_iff T hwf i j hi hj hfin).2.2 hprod)
  · intro t hT hwf hp hexact
    obtain ⟨T', hT', hm', hn', hu⟩ := unit_column_of_exact_pivot T t hT hwf i j hi hj hp hexact
    rw [dbl_pivot_eq_body T i j hi hj, Option.some.injEq] at hT'
    subst hT'
    exact key _ hm' hn' hu

/-- Witness of the amended C15: the pivot on `(1, 0)` of the tableau of the
scenario "bounded optimum", on doubles, leaves `at(1,0) == 1.0`, and the
second pivot on `(1, 0)` returns the tableau of the first. -/
theorem C15_witness :
    ∃ T', scenario_bounded.to_double.pivot ((1 : Nat) : Int) ((0 : Nat) : Int) = some T' ∧
      T'.m = scenario_bounded.to_double.m ∧ T'.n = scenario_bounded.to_double.n ∧
      T'.pivot ((1 : Nat) : Int) ((0 : Nat) : Int) = some T' :=
  (C15_pivot_twice scenario_bounded.to_double 1 0 (by decide) (by decide)).elim
    (fun T' h => ⟨T', h.1, h.2.1, h.2.2.1,
      h.2.2.2.2.1 scenario_bounded_dbl_wf (fun k hk _ => scenario_bounded_dbl_finite k hk)
        (by decide!)⟩)

/-- C29, the claim as stated fails on doubles: `pivot(0, 0)` on
`Tableau(2, 2, {3,1, 1,0}, NULL)` turns the row `3 x0 = 1` into
`1.0 x0 = 0.333...` (the double nearest to `1/3`, which is below `1/3`), so
`x0 = 1/3` satisfies the constraint row before the pivot and not after. -/
theorem C29_pivot_loses_solution :
    (third_row.to_double.at_ 0 0).ne 0 = true ∧
      ∃ T' t', third_row.to_double.pivot 0 0 = some T' ∧ T'.to_rat = some t' ∧
        t'.at_ 0 0 = 1 ∧ t'.at_ 0 1 = 6004799503160661 / 18014398509481984 ∧
        third_row.satisfies (fun _ => 1 / 3) ∧ ¬ t'.satisfies (fun _ => 1 / 3) := by
  refine ⟨by decide!, third_row.to_double.pivot_body 0 0,
    Tableau.new 2 2 [1, 6004799503160661 / 18014398509481984, 0,
      -(6004799503160661 / 18014398509481984)] none,
    by decide!, by decide!, by decide!, by decide!, ?_, ?_⟩
  · intro i hi
    have hi' : i < 1 := hi
    interval_cases i
    unfold Tableau.row_dot
    decide!
  · intro h
    have h0 := h 0 (by decide)
    unfold Tableau.row_dot at h0
    revert h0
    decide!

/-- C29, amended. On a well-formed tableau of doubles, for a constraint row
`i < m-1` and a structural column `j < n-1`, `pivot(i,j)` keeps the shape,
replaces row `i` by its rounded products by the rounded `1.0 / at(i,j)`
(unless `at(i,j) == 1.0`) and adds to every other row whose entry `value` of
column `j` is not `== 0` the rounded products of the new row `i` by
`-1 * value`.  When the tableau is finite, `at(i,j) != 0` and the pivot
commits no rounding error (the tableau it leaves holds the values of the
pivot in exact arithmetic), it keeps the linear program: a vector `x`
satisfies every constraint row after the pivot if and only if it does
before, and for every such `x` the objective-row functional `c.x - r` has the
same value before and after. -/
theorem C29_pivot_preserves_lp (T : Dbl.Tableau) (hwf : T.wf) (i j : Nat) (hi : i < T.m - 1)
    (hj : j < T.n - 1) :
    ∃ T', T.pivot (i : Int) (j : Int) = some T' ∧ T'.m = T.m ∧ T'.n = T.n ∧
      (∀ k c, k < T.m → c < T.n →
        T'.at_ k c =
          if k = i then
            (if (T.at_ i j).ne 1 then T.at_ i c * (1 / T.at_ i j) else T.at_ i c)
          else if (T.at_ k j).eq 0 then T.at_ k c
          else
            T.at_ k c +
              (if (T.at_ i j).ne 1 then T.at_ i c * (1 / T.at_ i j) else T.at_ i c) *
                (-1 * T.at_ k j)) ∧
      ∀ t, T.to_rat = some t → (T.at_ i j).ne 0 = true →
        (T.pivot (i : Int) (j : Int)).bind Dbl.Tableau.to_rat = t.pivot (i : Int) (j : Int) →
        ∃ t', T'.to_rat = some t' ∧ (∀ x, t'.satisfies x ↔ t.satisfies x) ∧
          ∀ x, t.satisfies x → t'.objective x = t.objective x := by
  obtain ⟨_, sm, sn, _, _, hat⟩ := dbl_pivot_body_spec T hwf i j (by omega) (by omega)
  refine ⟨T.pivot_body i j, dbl_pivot_eq_body T i j hi hj, sm, sn, hat, ?_⟩
  intro t hT hp hexact
  have hwf' : t.wf := (wf_iff_exact T t hT).1 hwf
  obtain ⟨hm, hn, _⟩ := to_rat_shape T t hT
  obtain ⟨T', t', hT', himg, _, _, _, hpiv⟩ := exact_pivot T t hT hwf' i j hi hj hexact
  rw [dbl_pivot_eq_body T i j hi hj, Option.some.injEq] at hT'
  subst hT'
  have hp' : t.at_ i j ≠ 0 := ne_zero_of_value _ _ (to_rat_at T t hT i j) hp
  obtain ⟨_, _, h3, h4⟩ := pivoted_same_lp t t' i j hpiv hwf'.1 hwf'.2.1 (by omega) hp'
  exact ⟨t', himg, h3, h4⟩

/-- Witness of the amended C29: the pivot on `(1, 0)` of the tableau of the
scenario "bounded optimum", on doubles. -/
theorem C29_witness :
    ∃ T', scenario_bounded.to_double.pivot ((1 : Nat) : Int) ((0 : Nat) : Int) = some T' ∧
      T'.m = scenario_bounded.to_double.m ∧ T'.n = scenario_bounded.to_double.n ∧
      ∃ t', T'.to_rat = some t' ∧ (∀ x, t'.satisfies x ↔ scenario_bounded.satisfies x) ∧
        ∀ x, scenario_bounded.satisfies x → t'.objective x = scenario_bounded.objective x :=
  (C29_pivot_preserves_lp scenario_bounded.to_double scenario_bounded_dbl_wf 1 0 (by decide)
    (by decide)).elim
    (fun T' h => ⟨T', h.1, h.2.1, h.2.2.1,
      h.2.2.2.2 scenario_bounded (to_rat_to_double scenario_bounded) (by decide!)
        (by decide!)⟩)

end PivotColumnClaims

/-! ## Usable variables on doubles -/

section DblUsable
open Dbl.PrimalSimplex

/-- On doubles, the inner loop of `search_usable_variables` ends with
`positive_elements = 1` only when the rows it scanned hold no entry that
compares `< 0` and, together with the count it started from, exactly one
entry that compares `> 0`, whose row is `elem_row`. -/
theorem dbl_usable_scan_spec (tab : Dbl.Tableau) (j : Nat) (l : List Nat) :
    ∀ (st : Int × Nat), st.2 ≤ 1 → (usable_scan tab j l st).2 = 1 →
      (st.2 = 1 ∧ (∀ i ∈ l, ¬ tab.at_ i j < 0 ∧ ¬ tab.at_ i j > 0) ∧
        (usable_scan tab j l st).1 = st.1) ∨
      (st.2 = 0 ∧ ∃ i0 ∈ l, tab.at_ i0 j > 0 ∧ (usable_scan tab j l st).1 = (i0 : Int) ∧
        ∀ i ∈ l, i ≠ i0 → ¬ tab.at_ i j < 0 ∧ ¬ tab.at_ i j > 0) := by
  induction l with
  | nil =>
    intro st _ h
    simp only [usable_scan] at h ⊢
    left
    exact ⟨h, fun i hi => absurd hi (List.not_mem_nil i), trivial⟩
  | cons i rest ih =>
    intro st hst h
    simp only [usable_scan] at h ⊢
    by_cases hneg : tab.at_ i j < 0
    · rw [if_pos hneg] at h
      simp at h
    · rw [if_neg hneg] at h ⊢
      by_cases hpos : tab.at_ i j > 0
      · simp only [hpos, if_true] at h ⊢
        by_cases hgt : st.2 + 1 > 1
        · rw [if_pos hgt] at h
          simp only at h
          omega
        · rw [if_neg hgt] at h ⊢
          have hst0 : st.2 = 0 := by omega
          rcases ih ((i : Int), st.2 + 1) (by simp only; omega) h with ⟨_, hz, hr⟩ | ⟨hc, _⟩
          · right
            refine ⟨hst0, i, List.mem_cons_self _ _, hpos, hr, ?_⟩
            intro i' hi' hne
            rcases List.mem_cons.1 hi' with h1 | h1
            · exact absurd h1 hne
            · exact hz i' h1
          · simp only at hc
            omega
      · simp only [hpos, if_false] at h ⊢
        by_cases hgt : st.2 > 1
        · rw [if_pos hgt] at h
          omega
        · rw [if_neg hgt] at h ⊢
          rcases ih st hst h with ⟨h1, hz, hr⟩ | ⟨h0, i0, hi0, hp0, hr, hz⟩
          · left
            refine ⟨h1, ?_, hr⟩
            intro i' hi'
            rcases List.mem_cons.1 hi' with h2 | h2
            · rw [h2]; exact ⟨hneg, hpos⟩
            · exact hz i' h2
          · right
            refine ⟨h0, i0, List.mem_cons_of_mem _ hi0, hp0, hr, ?_⟩
            intro i' hi' hne
            rcases List.mem_cons.1 hi' with h2 | h2
            · rw [h2]; exact ⟨hneg, hpos⟩
            · exact hz i' h2 hne

/-- On doubles, one pass of the outer loop of `search_usable_variables` on
column `j`: either nothing changes, or the column has one entry that compares
`> 0`, in a row `i` without basic variable, and no other entry of a
constraint row that compares `< 0` or `> 0`; then row `i` is marked with
column `j`, the count grows by one and every entry of row `i` is multiplied
by the rounded `1.0 / at(i,j)`. -/
theorem dbl_usable_step_spec (tab : Dbl.Tableau) (hwf : tab.wf) (found j : Nat)
    (hj : j < tab.n - 1) :
    ∃ s' f', usable_step (some (tab, found)) j = some (s', f') ∧ s'.wf ∧ s'.m = tab.m ∧
      s'.n = tab.n ∧
      ((s' = tab ∧ f' = found) ∨
        ∃ i, i < tab.m - 1 ∧ tab.at_ i j > 0 ∧
          (∀ k, k < tab.m - 1 → k ≠ i → ¬ tab.at_ k j < 0 ∧ ¬ tab.at_ k j > 0) ∧
          tab.basis_set_at i = false ∧ s'.basis_set_at i = true ∧ s'.basis_at i = j ∧
          (∀ k, k ≠ i →
            s'.basis_set_at k = tab.basis_set_at k ∧ s'.basis_at k = tab.basis_at k) ∧
          (∀ k c, c < tab.n →
            s'.at_ k c = if k = i then tab.at_ i c * (1 / tab.at_ i j) else tab.at_ k c) ∧
          f' = found + 1) := by
  have same : ∃ s' f', some (tab, found) = some (s', f') ∧ s'.wf ∧ s'.m = tab.m ∧
      s'.n = tab.n ∧
      ((s' = tab ∧ f' = found) ∨
        ∃ i, i < tab.m - 1 ∧ tab.at_ i j > 0 ∧
          (∀ k, k < tab.m - 1 → k ≠ i → ¬ tab.at_ k j < 0 ∧ ¬ tab.at_ k j > 0) ∧
          tab.basis_set_at i = false ∧ s'.basis_set_at i = true ∧ s'.basis_at i = j ∧
          (∀ k, k ≠ i →
            s'.basis_set_at k = tab.basis_set_at k ∧ s'.basis_at k = tab.basis_at k) ∧
          (∀ k c, c < tab.n →
            s'.at_ k c = if k = i then tab.at_ i c * (1 / tab.at_ i j) else tab.at_ k c) ∧
          f' = found + 1) :=
    ⟨tab, found, rfl, hwf, rfl, rfl, Or.inl ⟨rfl, rfl⟩⟩
  simp only [usable_step, Option.some_bind]
  split_ifs with h1 h2 h3
  · exact same
  · -- the column is usable and its row has no basic variable yet
    rcases dbl_usable_scan_spec tab j (List.range (tab.m - 1)) (-1, 0) (by simp) h2 with
      ⟨hc, _⟩ | ⟨_, i0, hi0, hpos, hrow, hz⟩
    · simp at hc
    · have hi0' : i0 < tab.m - 1 := List.mem_range.1 hi0
      rw [hrow] at h3 ⊢
      simp only [Int.toNat_ofNat] at h3 ⊢
      have hc : (0 : Int) ≤ (i0 : Int) ∧ (i0 : Int) < (tab.m : Int) - 1 ∧
          (0 : Int) ≤ (j : Int) ∧ (j : Int) < (tab.n : Int) - 1 :=
        ⟨by omega, by omega, by omega, by omega⟩
      have hset : tab.basis_at_set (i0 : Int) (j : Int) =
          some { tab with
            basis_indices_set := tab.basis_indices_set.set i0 true
            basis_indices := tab.basis_indices.set i0 j } := by
        unfold Dbl.Tableau.basis_at_set
        rw [if_pos hc]
        simp
      rw [hset]
      simp only [Option.map_some']
      obtain ⟨e1, e2, e3, e4⟩ :=
        dbl_scale_row_spec tab.toMatrix hwf.2.2.1 i0
          (1 / Dbl.Tableau.at_ ({ tab with
            basis_indices_set := tab.basis_indices_set.set i0 true
            basis_indices := tab.basis_indices.set i0 j } : Dbl.Tableau) i0 j) (by omega)
      refine ⟨_, _, rfl, ?_, e1, e2, Or.inr ⟨i0, hi0', hpos, ?_, h3, ?_, ?_, ?_, ?_, rfl⟩⟩
      · refine ⟨?_, ?_, ?_, ?_, ?_⟩
        · show 1 ≤ (Dbl.Matrix.scale_row _ _ _).m
          rw [e1]; exact hwf.1
        · show 1 ≤ (Dbl.Matrix.scale_row _ _ _).n
          rw [e2]; exact hwf.2.1
        · show (Dbl.Matrix.scale_row _ _ _).m * (Dbl.Matrix.scale_row _ _ _).n ≤
            (Dbl.Matrix.scale_row _ _ _).buffer.length
          rw [e1, e2, e3]; exact hwf.2.2.1
        · show (Dbl.Matrix.scale_row _ _ _).m - 1 ≤ (tab.basis_indices.set i0 j).length
          rw [e1, List.length_set]; exact hwf.2.2.2.1
        · show (Dbl.Matrix.scale_row _ _ _).m - 1 ≤ (tab.basis_indices_set.set i0 true).length
          rw [e1, List.length_set]; exact hwf.2.2.2.2
      · intro k hk hne
        exact hz k (List.mem_range.2 hk) hne
      · show (tab.basis_indices_set.set i0 true).getD i0 false = true
        exact getD_set_self _ _ _ _ (lt_of_lt_of_le hi0' hwf.2.2.2.2)
      · show (tab.basis_indices.set i0 j).getD i0 0 = j
        exact getD_set_self _ _ _ _ (lt_of_lt_of_le hi0' hwf.2.2.2.1)
      · intro k hk
        exact ⟨getD_set_other _ _ _ _ _ hk, getD_set_other _ _ _ _ _ hk⟩
      · intro k c hc'
        show (Dbl.Matrix.scale_row tab.toMatrix i0 _).at_ k c = _
        rw [e4 k c hc']
        by_cases hk : k = i0
        · rw [if_pos hk, if_pos hk, hk]
          rfl
        · rw [if_neg hk, if_neg hk]
          rfl
  · exact same
  · exact same

theorem dbl_usable_upto_succ (tab : Dbl.Tableau) (k : Nat) :
    usable_upto tab (k + 1) = usable_step (usable_upto tab k) k := by
  unfold usable_upto
  rw [List.range_succ, List.foldl_append]
  rfl

/-- On doubles, marking one more row raises the number of marked rows by
one. -/
theorem dbl_rows_set_mark (s s' : Dbl.Tableau) (i : Nat) (hm : s'.m = s.m) (hi : i < s.m - 1)
    (h0 : s.basis_set_at i = false) (h1 : s'.basis_set_at i = true)
    (hk : ∀ k, k ≠ i → s'.basis_set_at k = s.basis_set_at k) :
    s'.rows_set = s.rows_set + 1 := by
  unfold Dbl.Tableau.rows_set
  rw [hm]
  have e : (Finset.range (s.m - 1)).filter (fun k => s'.basis_set_at k = true) =
      insert i ((Finset.range (s.m - 1)).filter (fun k => s.basis_set_at k = true)) := by
    ext k
    simp only [Finset.mem_filter, Finset.mem_range, Finset.mem_insert]
    by_cases hki : k = i
    · subst hki
      simp [h1, hi]
    · rw [hk k hki]
      simp [hki]
  rw [e, Finset.card_insert_of_not_mem]
  simp [h0]

/-- On doubles, the outer loop of `search_usable_variables` never fails an
assertion, it keeps the tableau well-formed, and its count is the number of
marked rows. -/
theorem dbl_usable_upto_inv (tab : Dbl.Tableau) (hwf : tab.wf)
    (hno : ∀ i, i < tab.m - 1 → tab.basis_set_at i = false) (k : Nat) (hk : k ≤ tab.n - 1) :
    ∃ s f, usable_upto tab k = some (s, f) ∧ s.wf ∧ s.m = tab.m ∧ s.n = tab.n ∧
      f = s.rows_set := by
  induction k with
  | zero =>
    refine ⟨tab, 0, rfl, hwf, rfl, rfl, ?_⟩
    unfold Dbl.Tableau.rows_set
    symm
    rw [Finset.card_eq_zero, Finset.filter_eq_empty_iff]
    intro i hi
    rw [hno i (Finset.mem_range.1 hi)]
    simp
  | succ k ih =>
    obtain ⟨s, f, hs, w, hm, hn, hf⟩ := ih (by omega)
    obtain ⟨s', f', h', w', hm', hn', hcase⟩ :=
      dbl_usable_step_spec s w f k (by rw [hn]; omega)
    refine ⟨s', f', by rw [dbl_usable_upto_succ, hs, h'], w', hm'.trans hm, hn'.trans hn, ?_⟩
    rcases hcase with ⟨h1, h2⟩ | ⟨i, hi, _, _, h0, h1, _, hk', _, hf'⟩
    · rw [h1, h2]; exact hf
    · rw [hf', hf]
      exact (dbl_rows_set_mark s s' i hm' hi h0 h1 (fun k hki => (hk' k hki).1)).symm

end DblUsable

/-- A finite double that compares neither `< 0` nor `> 0` has the value 0. -/
theorem value_zero_of_not_lt (d : Double) (q : ℚ) (h : d.value? = some q) (h1 : ¬ d < 0)
    (h2 : ¬ d > 0) : q = 0 :=
  le_antisymm (not_lt.1 ((zero_lt_iff_value d q h).not.1 h2))
    (not_lt.1 ((value_lt_zero d q h).not.1 h1))

theorem test_tableau_3_dbl_wf : test_tableau_3.to_double.wf :=
  (wf_iff_exact _ _ (to_rat_to_double test_tableau_3)).2 test_tableau_3_wf

theorem test_tableau_3_dbl_unset (i : Nat) (hi : i < test_tableau_3.to_double.m - 1) :
    test_tableau_3.to_double.basis_set_at i = false := by
  have hi' : i < 2 := hi
  interval_cases i <;> rfl

section UsableClaim
open PrimalSimplex

/-- C25, the claim as stated fails on doubles: on
`Tableau(2, 3, {49,1,49, -1,0,0}, NULL)` column 0 has its only positive
entry, 49, in row 0; `search_usable_variables` records it as the basic
variable of row 0 and multiplies the row by the rounded `1.0 / 49`, which
leaves `at(0,0) = 1 - 2^-53`, not 1. -/
theorem C25_scaling_leaves_residue :
    ∃ S, Dbl.PrimalSimplex.search_usable_variables usable_residue.to_double = some (S, 1) ∧
      S.basis_set_at 0 = true ∧ S.basis_at 0 = 0 ∧
      S.at_ 0 0 = Double.fin (9007199254740991 / 9007199254740992) ∧
      (S.at_ 0 0).eq 1 = false :=
  ⟨{ usable_residue.to_double with
      toMatrix := usable_residue.to_double.toMatrix.scale_row 0 (1 / 49)
      basis_indices := [0], basis_indices_set := [true] },
    by decide!, by decide!, by decide!, by decide!, by decide!⟩

/-- C25, amended. On a well-formed tableau of doubles with no basis set,
`search_usable_variables` returns the number of rows it has marked, and the
pass of its outer loop on column `j`, from the state `(S, f)` to the state
`(S', f')`, either changes nothing or records column `j` as the basic
variable of a row `i`; it records only if column `j` of `S` has an entry
`> 0` in row `i`, no entry `< 0` or `> 0` in any other constraint row, and
row `i` has no basic variable yet; it then multiplies every entry of row `i`
by the rounded reciprocal `1.0 / at(i,j)`, and the count grows by one.  When
the two tableaux are finite and the scaling commits no rounding error (row
`i` of `S'` holds the quotients by `at(i,j)`), the other constraint entries
of column `j` are zero, `at(i,j)` becomes 1 and every right-hand side keeps
its sign. -/
theorem C25_search_usable_variables (T : Dbl.Tableau) (hwf : T.wf)
    (hno : ∀ i, i < T.m - 1 → T.basis_set_at i = false) :
    (∃ final found, Dbl.PrimalSimplex.search_usable_variables T = some (final, found) ∧
      found = final.rows_set) ∧
    ∀ j, j < T.n - 1 →
      ∃ S f S' f', Dbl.PrimalSimplex.usable_upto T j = some (S, f) ∧
        Dbl.PrimalSimplex.usable_upto T (j + 1) = some (S', f') ∧
        ((S' = S ∧ f' = f) ∨
          ∃ i, i < T.m - 1 ∧ S.at_ i j > 0 ∧
            (∀ k, k < T.m - 1 → k ≠ i → ¬ S.at_ k j < 0 ∧ ¬ S.at_ k j > 0) ∧
            S.basis_set_at i = false ∧ S'.basis_set_at i = true ∧ S'.basis_at i = j ∧
            (∀ k, k ≠ i →
              S'.basis_set_at k = S.basis_set_at k ∧ S'.basis_at k = S.basis_at k) ∧
            (∀ k c, c < T.n →
              S'.at_ k c = if k = i then S.at_ i c * (1 / S.at_ i j) else S.at_ k c) ∧
            f' = f + 1 ∧
            ∀ s s', S.to_rat = some s → S'.to_rat = some s' →
              (∀ c, c < T.n → s'.at_ i c = s.at_ i c / s.at_ i j) →
              (∀ k, k < T.m - 1 → k ≠ i → s.at_ k j = 0) ∧ s'.at_ i j = 1 ∧
                ∀ k, 0 ≤ s'.at_ k (T.n - 1) ↔ 0 ≤ s.at_ k (T.n - 1)) := by
  constructor
  · obtain ⟨s, f, hs, _, _, _, hf⟩ := dbl_usable_upto_inv T hwf hno (T.n - 1) (le_refl _)
    exact ⟨s, f, hs, hf⟩
  · intro j hj
    obtain ⟨S, f, hs, w, hm, hn, _⟩ := dbl_usable_upto_inv T hwf hno j (by omega)
    obtain ⟨S', f', h', _, _, _, hcase⟩ := dbl_usable_step_spec S w f j (by rw [hn]; omega)
    refine ⟨S, f, S', f', hs, by rw [dbl_usable_upto_succ, hs, h'], ?_⟩
    rcases hcase with h | ⟨i, hi, hpos, hz, h0, h1, hb, hk, hat, hf'⟩
    · exact Or.inl h
    · right
      rw [hm] at hi hz
      rw [hn] at hat
      have hn1 := hwf.2.1
      refine ⟨i, hi, hpos, hz, h0, h1, hb, hk, hat, hf', ?_⟩
      intro s s' hS hS' hexact
      have hp : 0 < s.at_ i j := (zero_lt_iff_value _ _ (to_rat_at S s hS i j)).1 hpos
      refine ⟨?_, ?_, ?_⟩
      · intro k hk' hki
        exact value_zero_of_not_lt _ _ (to_rat_at S s hS k j) (hz k hk' hki).1
          (hz k hk' hki).2
      · rw [hexact j (by omega)]
        exact div_self (ne_of_gt hp)
      · intro k
        by_cases hki : k = i
        · rw [hki, hexact (T.n - 1) (by omega)]
          constructor
          · intro h
            by_contra hneg
            exact absurd h (not_le.2 (div_neg_of_neg_of_pos (not_le.1 hneg) hp))
          · intro h
            exact div_nonneg h (le_of_lt hp)
        · have e : S'.at_ k (T.n - 1) = S.at_ k (T.n - 1) := by
            rw [hat k (T.n - 1) (by omega), if_neg hki]
          have e' : s'.at_ k (T.n - 1) = s.at_ k (T.n - 1) := by
            have a := to_rat_at S' s' hS' k (T.n - 1)
            rw [e, to_rat_at S s hS k (T.n - 1)] at a
            exact (Option.some.inj a).symm
          rw [e']

/-- Witness of the amended C25: the run of `search_usable_variables` on
tableau 3 of `PrimalSimplex::test`, on doubles. -/
theorem C25_witness :
    (∃ final found,
      Dbl.PrimalSimplex.search_usable_variables test_tableau_3.to_double =
        some (final, found) ∧ found = final.rows_set) ∧
    ∀ j, j < test_tableau_3.to_double.n - 1 →
      ∃ S f S' f', Dbl.PrimalSimplex.usable_upto test_tableau_3.to_double j = some (S, f) ∧
        Dbl.PrimalSimplex.usable_upto test_tableau_3.to_double (j + 1) = some (S', f') ∧
        ((S' = S ∧ f' = f) ∨
          ∃ i, i < test_tableau_3.to_double.m - 1 ∧ S.at_ i j > 0 ∧
            (∀ k, k < test_tableau_3.to_double.m - 1 → k ≠ i →
              ¬ S.at_ k j < 0 ∧ ¬ S.at_ k j > 0) ∧
            S.basis_set_at i = false ∧ S'.basis_set_at i = true ∧ S'.basis_at i = j ∧
            (∀ k, k ≠ i →
              S'.basis_set_at k = S.basis_set_at k ∧ S'.basis_at k = S.basis_at k) ∧
            (∀ k c, c < test_tableau_3.to_double.n →
              S'.at_ k c = if k = i then S.at_ i c * (1 / S.at_ i j) else S.at_ k c) ∧
            f' = f + 1 ∧
            ∀ s s', S.to_rat = some s → S'.to_rat = some s' →
              (∀ c, c < test_tableau_3.to_double.n → s'.at_ i c = s.at_ i c / s.at_ i j) →
              (∀ k, k < test_tableau_3.to_double.m - 1 → k ≠ i → s.at_ k j = 0) ∧
                s'.at_ i j = 1 ∧
                ∀ k, 0 ≤ s'.at_ k (test_tableau_3.to_double.n - 1) ↔
                  0 ≤ s.at_ k (test_tableau_3.to_double.n - 1)) :=
  C25_search_usable_variables test_tableau_3.to_double test_tableau_3_dbl_wf
    test_tableau_3_dbl_unset

end UsableClaim

/-! ## Runs of the primal simplex on doubles -/

theorem dbl_test_optimality_iff (T : Dbl.Tableau) :
    Dbl.PrimalSimplex.test_optimality T = true ↔
      ∀ j, j < T.n - 1 → ¬ T.at_ (T.m - 1) j < 0 := by
  unfold Dbl.PrimalSimplex.test_optimality
  simp [List.all_eq_true]

/-- On doubles, a value returned by `PrimalSimplex::simplex` is the negated
right-hand-side cell of the objective row of the final tableau, and the
final tableau passes `test_optimality`. -/
theorem dbl_primal_value (fuel : Nat) :
    ∀ (T T' : Dbl.Tableau) (V : Double),
      Dbl.PrimalSimplex.simplex fuel T = some (Dbl.Outcome.value V, T') →
        Dbl.PrimalSimplex.test_optimality T' = true ∧
          V = - T'.at_ (T'.m - 1) (T'.n - 1) := by
  induction fuel with
  | zero => intro T T' V h; simp [Dbl.PrimalSimplex.simplex] at h
  | succ fuel ih =>
    intro T T' V h
    simp only [Dbl.PrimalSimplex.simplex] at h
    split_ifs at h with hopt
    · simp only [Option.some.injEq, Prod.mk.injEq, Dbl.Outcome.value.injEq] at h
      obtain ⟨hv, ht⟩ := h
      subst ht
      exact ⟨hopt, hv.symm⟩
    · cases hj : Dbl.PrimalSimplex.select_entering_column T with
      | none => simp [hj] at h
      | some j =>
        simp only [hj] at h
        split_ifs at h with hunl
        · simp at h
        · cases h1 : T.basis_at_set (Dbl.PrimalSimplex.select_exiting_column T j) j with
          | none => simp [h1] at h
          | some tab1 =>
            simp only [h1] at h
            cases h2 : tab1.pivot (Dbl.PrimalSimplex.select_exiting_column T j) j with
            | none => simp [h2] at h
            | some tab2 =>
              simp only [h2] at h
              exact ih tab2 T' V h

theorem dbl_primal_fuel_mono (fuel : Nat) :
    ∀ (tab : Dbl.Tableau) (r : Dbl.Outcome × Dbl.Tableau),
      Dbl.PrimalSimplex.simplex fuel tab = some r →
      ∀ k, Dbl.PrimalSimplex.simplex (fuel + k) tab = some r := by
  induction fuel with
  | zero => intro tab r h; simp [Dbl.PrimalSimplex.simplex] at h
  | succ fuel ih =>
    intro tab r h k
    have e : fuel + 1 + k = (fuel + k) + 1 := by omega
    rw [e]
    simp only [Dbl.PrimalSimplex.simplex] at h ⊢
    split_ifs at h ⊢ with hopt
    · exact h
    · cases hj : Dbl.PrimalSimplex.select_entering_column tab with
      | none => simpa [hj] using h
      | some j =>
        simp only [hj] at h ⊢
        split_ifs at h ⊢ with hunl
        · exact h
        · cases h1 : tab.basis_at_set (Dbl.PrimalSimplex.select_exiting_column tab j) j with
          | none => simpa [h1] using h
          | some tab1 =>
            simp only [h1] at h ⊢
            cases h2 : tab1.pivot (Dbl.PrimalSimplex.select_exiting_column tab j) j with
            | none => simpa [h2] using h
            | some tab2 =>
              simp only [h2] at h ⊢
              exact ih tab2 r h k

/-- The comparison `0 <= d` on a finite double is that of its value. -/
theorem zero_le_iff_value (d : Double) (q : ℚ) (h : d.value? = some q) :
    (0 : Double) ≤ d ↔ 0 ≤ q := by
  cases d with
  | fin p =>
    simp only [Double.value?, Option.some.injEq] at h
    subst h
    show Double.le 0 (Double.fin p) = true ↔ 0 ≤ p
    simp [Double.le, Double.lt, Double.eq, Double.value?, OfNat.ofNat, le_iff_lt_or_eq]
  | negzero =>
    simp only [Double.value?, Option.some.injEq] at h
    subst h
    show Double.le 0 Double.negzero = true ↔ (0 : ℚ) ≤ 0
    simp [Double.le, Double.lt, Double.eq, Double.value?, OfNat.ofNat]
  | inf s => simp [Double.value?] at h
  | nan => simp [Double.value?] at h

theorem rounded_optimum_bound (x : Nat → ℚ) (hx : rounded_optimum.feasible x) :
    -(3 / 10) ≤ rounded_optimum.objective x := by
  obtain ⟨hpos, hs⟩ := hx
  have h0 := hs 0 (by decide)
  have hn : rounded_optimum.n - 1 = 2 := rfl
  have hm : rounded_optimum.m - 1 = 1 := rfl
  have a00 : rounded_optimum.at_ 0 0 = 10 := by decide!
  have a01 : rounded_optimum.at_ 0 1 = 1 := by decide!
  have a02 : rounded_optimum.at_ 0 2 = 3 := by decide!
  have a10 : rounded_optimum.at_ 1 0 = -1 := by decide!
  have a11 : rounded_optimum.at_ 1 1 = 0 := by decide!
  have a12 : rounded_optimum.at_ 1 2 = 0 := by decide!
  unfold Tableau.row_dot at h0
  unfold Tableau.objective Tableau.row_dot
  rw [hn, Finset.sum_range_succ, Finset.sum_range_succ, Finset.sum_range_zero] at h0 ⊢
  rw [hm, a10, a11, a12]
  rw [a00, a01, a02] at h0
  have p0 := hpos 0 (by decide)
  have p1 := hpos 1 (by decide)
  linarith

section PrimalRunClaims
open PrimalSimplex

/-- C1, the claim as stated fails on doubles: `Tableau(2, 3, {10,1,3,
-1,0,0}, {1})` is canonical for its basis with right-hand side `3 >= 0`; the
run pivots once, scaling row 0 by the rounded `1.0 / 10`, and returns
`-0.30000000000000004`, which is below the minimum `-3/10` of `-x0` on the
feasible set: no feasible point attains the returned value. -/
theorem C1_returned_value_below_minimum :
    rounded_optimum.canonical ∧ rounded_optimum.rhs_nonneg ∧
      ∃ T', Dbl.PrimalSimplex.simplex 2 rounded_optimum.to_double =
          some (Dbl.Outcome.value (Double.fin (-(1351079888211149 / 4503599627370496))), T') ∧
        (∀ x, rounded_optimum.feasible x → -(3 / 10) ≤ rounded_optimum.objective x) ∧
        (-(1351079888211149 / 4503599627370496) : ℚ) < -(3 / 10) ∧
        ¬ ∃ x, rounded_optimum.feasible x ∧
          rounded_optimum.objective x = -(1351079888211149 / 4503599627370496) := by
  refine ⟨by unfold Tableau.canonical; decide!, by unfold Tableau.rhs_nonneg; decide!,
    { rounded_optimum.to_double.pivot_body 0 0 with
      basis_indices := [0], basis_indices_set := [true] },
    by decide!, rounded_optimum_bound, by norm_num, ?_⟩
  rintro ⟨x, hx, hv⟩
  have := rounded_optimum_bound x hx
  rw [hv] at this
  norm_num at this

/-- C1, amended. On doubles, a value `V` returned by
`PrimalSimplex::simplex` is the negated right-hand-side cell of the objective
row of the final tableau.  When the input `T` is a tableau of finite doubles
of exact values `t`, canonical for its basis with every right-hand side
`>= 0`, and the run commits no rounding error (the returned value and the
final tableau are the ones exact arithmetic gives), the value is the minimum
of `c.x - r` over the feasible points `x >= 0` of the input tableau: some
feasible point attains it and none does better. -/
theorem C1_primal_simplex_returns_optimum (T : Dbl.Tableau) (fuel : Nat) (V : Double)
    (T' : Dbl.Tableau)
    (h : Dbl.PrimalSimplex.simplex fuel T = some (Dbl.Outcome.value V, T')) :
    V = - T'.at_ (T'.m - 1) (T'.n - 1) ∧
      ∀ t v t', T.to_rat = some t → t.wf → t.canonical → t.rhs_nonneg →
        V.value? = some v → T'.to_rat = some t' →
        simplex fuel t = some (Outcome.value v, t') →
        v = - t'.at_ (t'.m - 1) (t'.n - 1) ∧
          (∃ x, t.feasible x ∧ t.objective x = v) ∧
          ∀ x, t.feasible x → v ≤ t.objective x :=
  ⟨(dbl_primal_value fuel T T' V h).2,
    fun t v t' _ hwf hcan hrhs _ _ hexact =>
      primal_simplex_optimum_exact t hwf hcan hrhs fuel v t' hexact⟩

/-- Witness of the amended C1 on the tableau of the scenario "bounded
optimum": the run on doubles commits no rounding error and returns `-4`,
the minimum of `-x1 - x2` on its feasible set. -/
theorem C1_witness :
    Dbl.PrimalSimplex.simplex 3 scenario_bounded.to_double =
        some (Dbl.Outcome.value (-4), scenario_bounded_final.to_double) ∧
      (-4 : Double) = - scenario_bounded_final.to_double.at_
        (scenario_bounded_final.to_double.m - 1) (scenario_bounded_final.to_double.n - 1) ∧
      (∃ x, scenario_bounded.feasible x ∧ scenario_bounded.objective x = -4) ∧
      ∀ x, scenario_bounded.feasible x → -4 ≤ scenario_bounded.objective x :=
  have hrun : Dbl.PrimalSimplex.simplex 3 scenario_bounded.to_double =
      some (Dbl.Outcome.value (-4), scenario_bounded_final.to_double) := by decide!
  have hc := C1_primal_simplex_returns_optimum scenario_bounded.to_double 3 (-4)
    scenario_bounded_final.to_double hrun
  ⟨hrun, hc.1,
    (hc.2 scenario_bounded (-4) scenario_bounded_final (to_rat_to_double _)
      scenario_bounded_wf scenario_bounded_canonical scenario_bounded_rhs (by decide!)
      (to_rat_to_double _) scenario_bounded_run).2⟩

/-- C7, the claim as stated fails on doubles: `Tableau(3, 4, {10,1,0,3,
10,0,1,3, -1,0,0,0}, {1,2})` is in feasible canonical form; the run pivots on
`(0, 0)`, returns normally, and the final tableau has the right-hand side
`3 - 10 * 0.30000000000000004 = -2^-51 < 0` in row 1. -/
theorem C7_negative_rhs_at_return :
    rounded_rhs.canonical ∧ rounded_rhs.rhs_nonneg ∧
      ∃ V T', Dbl.PrimalSimplex.simplex 2 rounded_rhs.to_double =
          some (Dbl.Outcome.value V, T') ∧
        T'.at_ 1 (T'.n - 1) = Double.fin (-(1 / 2251799813685248)) ∧
        T'.at_ 1 (T'.n - 1) < 0 := by
  refine ⟨by unfold Tableau.canonical; decide!, by unfold Tableau.rhs_nonneg; decide!,
    Double.fin (-(1351079888211149 / 4503599627370496)),
    { rounded_rhs.to_double.pivot_body 0 0 with
      basis_indices := [0, 2], basis_indices_set := [true, true] },
    by decide!, by decide!, by decide!⟩

/-- C7, amended. On doubles, when `PrimalSimplex::simplex` returns normally
the final tableau has no negative reduced cost (it passes
`test_optimality`).  When the input `T` is a tableau of finite doubles of
exact values `t` in feasible canonical form and the run commits no rounding
error (the returned value and the final tableau are the ones exact arithmetic
gives), every reduced cost and every constraint right-hand side of the final
tableau is `>= 0`. -/
theorem C7_primal_final_tableau_certificate (T : Dbl.Tableau) (fuel : Nat) (V : Double)
    (T' : Dbl.Tableau)
    (h : Dbl.PrimalSimplex.simplex fuel T = some (Dbl.Outcome.value V, T')) :
    (∀ j, j < T'.n - 1 → ¬ T'.at_ (T'.m - 1) j < 0) ∧
      ∀ t v t', T.to_rat = some t → t.wf → t.canonical → t.rhs_nonneg →
        V.value? = some v → T'.to_rat = some t' →
        simplex fuel t = some (Outcome.value v, t') →
        (∀ j, j < T'.n - 1 → (0 : Double) ≤ T'.at_ (T'.m - 1) j) ∧
          ∀ i, i < T'.m - 1 → (0 : Double) ≤ T'.at_ i (T'.n - 1) := by
  refine ⟨(dbl_test_optimality_iff T').1 (dbl_primal_value fuel T T' V h).1, ?_⟩
  intro t v t' _ hwf hcan hrhs _ hT' hexact
  obtain ⟨hc, hr⟩ := primal_certificate_exact t hwf hcan hrhs fuel v t' hexact
  obtain ⟨hm, hn, _⟩ := to_rat_shape T' t' hT'
  constructor
  · intro j hj
    rw [zero_le_iff_value _ _ (to_rat_at T' t' hT' _ _), ← hm]
    exact hc j (by omega)
  · intro i hi
    rw [zero_le_iff_value _ _ (to_rat_at T' t' hT' _ _), ← hn]
    exact hr i (by omega)

/-- Witness of the amended C7 on the tableau of the scenario "bounded
optimum", on doubles. -/
theorem C7_witness :
    Dbl.PrimalSimplex.simplex 3 scenario_bounded.to_double =
        some (Dbl.Outcome.value (-4), scenario_bounded_final.to_double) ∧
      (∀ j, j < scenario_bounded_final.to_double.n - 1 →
        ¬ scenario_bounded_final.to_double.at_ (scenario_bounded_final.to_double.m - 1) j
          < 0) ∧
      (∀ j, j < scenario_bounded_final.to_double.n - 1 →
        (0 : Double) ≤
          scenario_bounded_final.to_double.at_ (scenario_bounded_final.to_double.m - 1) j) ∧
      ∀ i, i < scenario_bounded_final.to_double.m - 1 →
        (0 : Double) ≤
          scenario_bounded_final.to_double.at_ i (scenario_bounded_final.to_double.n - 1) :=
  have hrun : Dbl.PrimalSimplex.simplex 3 scenario_bounded.to_double =
      some (Dbl.Outcome.value (-4), scenario_bounded_final.to_double) := by decide!
  have hc := C7_primal_final_tableau_certificate scenario_bounded.to_double 3 (-4)
    scenario_bounded_final.to_double hrun
  ⟨hrun, hc.1,
    hc.2 scenario_bounded (-4) scenario_bounded_final (to_rat_to_double _)
      scenario_bounded_wf scenario_bounded_canonical scenario_bounded_rhs (by decide!)
      (to_rat_to_double _) scenario_bounded_run⟩

end PrimalRunClaims

/-! ## Runs of the dual simplex on doubles -/

theorem dbl_test_feasibility_iff (T : Dbl.Tableau) :
    Dbl.DualSimplex.test_feasibility T = true ↔
      ∀ i, i < T.m - 1 → ¬ T.at_ i (T.n - 1) < 0 := by
  unfold Dbl.DualSimplex.test_feasibility
  simp [List.all_eq_true]

/-- On doubles, a value returned by the loop of `DualSimplex::simplex` is
the negated right-hand-side cell of the objective row of the final tableau,
and the final tableau passes `test_feasibility`. -/
theorem dbl_dual_loop_value (fuel : Nat) :
    ∀ (T T' : Dbl.Tableau) (V : Double),
      Dbl.DualSimplex.simplex_loop fuel T = some (Dbl.Outcome.value V, T') →
        Dbl.DualSimplex.test_feasibility T' = true ∧
          V = - T'.at_ (T'.m - 1) (T'.n - 1) := by
  induction fuel with
  | zero => intro T T' V h; simp [Dbl.DualSimplex.simplex_loop] at h
  | succ fuel ih =>
    intro T T' V h
    simp only [Dbl.DualSimplex.simplex_loop] at h
    split_ifs at h with hfeas hneg hunl
    · simp only [Option.some.injEq, Prod.mk.injEq, Dbl.Outcome.value.injEq] at h
      obtain ⟨hv, ht⟩ := h
      subst ht
      exact ⟨hfeas, hv.symm⟩
    · simp at h
    · simp at h
    · cases h1 : T.basis_at_set (Dbl.DualSimplex.select_pivot_row T)
          (Dbl.DualSimplex.select_pivot_column T (Dbl.DualSimplex.select_pivot_row T).toNat) with
      | none => simp [h1] at h
      | some tab1 =>
        simp only [h1] at h
        cases h2 : tab1.pivot (Dbl.DualSimplex.select_pivot_row T)
            (Dbl.DualSimplex.select_pivot_column T
              (Dbl.DualSimplex.select_pivot_row T).toNat) with
        | none => simp [h2] at h
        | some tab2 =>
          simp only [h2] at h
          exact ih tab2 T' V h

/-- On doubles, a normal return of `DualSimplex::simplex` is one of its
loop. -/
theorem dbl_dual_value (fuel : Nat) (T T' : Dbl.Tableau) (V : Double)
    (h : Dbl.DualSimplex.simplex fuel T = some (Dbl.Outcome.value V, T')) :
    Dbl.DualSimplex.test_feasibility T' = true ∧ V = - T'.at_ (T'.m - 1) (T'.n - 1) := by
  by_cases hc : Dbl.DualSimplex.check_correct_form T = true
  · simp only [Dbl.DualSimplex.simplex, hc, not_true_eq_false, if_false] at h
    exact dbl_dual_loop_value fuel T T' V h
  · simp [Dbl.DualSimplex.simplex, hc] at h

theorem dbl_dual_fuel_mono (fuel : Nat) :
    ∀ (tab : Dbl.Tableau) (r : Dbl.Outcome × Dbl.Tableau),
      Dbl.DualSimplex.simplex_loop fuel tab = some r →
      ∀ k, Dbl.DualSimplex.simplex_loop (fuel + k) tab = some r := by
  induction fuel with
  | zero => intro tab r h; simp [Dbl.DualSimplex.simplex_loop] at h
  | succ fuel ih =>
    intro tab r h k
    have e : fuel + 1 + k = (fuel + k) + 1 := by omega
    rw [e]
    simp only [Dbl.DualSimplex.simplex_loop] at h ⊢
    split_ifs at h ⊢ with hfeas hneg hunl
    · exact h
    · exact h
    · exact h
    · cases h1 : tab.basis_at_set (Dbl.DualSimplex.select_pivot_row tab)
          (Dbl.DualSimplex.select_pivot_column tab
            (Dbl.DualSimplex.select_pivot_row tab).toNat) with
      | none => simpa [h1] using h
      | some tab1 =>
        simp only [h1] at h ⊢
        cases h2 : tab1.pivot (Dbl.DualSimplex.select_pivot_row tab)
            (Dbl.DualSimplex.select_pivot_column tab
              (Dbl.DualSimplex.select_pivot_row tab).toNat) with
        | none => simpa [h2] using h
        | some tab2 =>
          simp only [h2] at h ⊢
          exact ih tab2 r h k

theorem dbl_dual_simplex_mono (fuel : Nat) (tab : Dbl.Tableau)
    (r : Dbl.Outcome × Dbl.Tableau) (h : Dbl.DualSimplex.simplex fuel tab = some r) (k : Nat) :
    Dbl.DualSimplex.simplex (fuel + k) tab = some r := by
  unfold Dbl.DualSimplex.simplex at h ⊢
  split_ifs at h ⊢ with hc
  · exact dbl_dual_fuel_mono fuel tab r h k
  · exact h

/-- The run of the dual simplex on doubles on the tableau of
`DualSimplex::test`: the value 11 and a final tableau of the exact values. -/
theorem dual_test_dbl_run :
    ∃ T', Dbl.DualSimplex.simplex 3 dual_test_tableau.to_double =
        some (Dbl.Outcome.value 11, T') ∧ T'.to_rat = some dual_test_final := by
  have h1 : (Dbl.DualSimplex.simplex 3 dual_test_tableau.to_double).map Prod.fst =
      some (Dbl.Outcome.value 11) := by decide!
  have h2 : (Dbl.DualSimplex.simplex 3 dual_test_tableau.to_double).bind
      (fun r => r.2.to_rat) = some dual_test_final := by decide!
  cases hr : Dbl.DualSimplex.simplex 3 dual_test_tableau.to_double with
  | none => rw [hr] at h1; simp at h1
  | some r =>
    rw [hr] at h1 h2
    simp only [Option.map_some', Option.some.injEq, Option.some_bind] at h1 h2
    refine ⟨r.2, ?_, h2⟩
    rw [← h1]

theorem rounded_dual_point :
    rounded_dual.feasible (fun j => if j = 0 then 3 / 5 else 0) ∧
      rounded_dual.objective (fun j => if j = 0 then 3 / 5 else 0) = 3 := by
  have hn : rounded_dual.n - 1 = 3 := rfl
  have hm : rounded_dual.m - 1 = 1 := rfl
  refine ⟨⟨?_, ?_⟩, ?_⟩
  · intro j _
    by_cases hj : j = 0
    · simp only [hj, if_true]; norm_num
    · simp only [hj, if_false]; exact le_refl _
  · intro i hi
    rw [hm] at hi
    interval_cases i
    unfold Tableau.row_dot
    decide!
  · unfold Tableau.objective Tableau.row_dot
    decide!

section DualRunClaims
open DualSimplex

/-- C3, the claim as stated fails on doubles: `Tableau(2, 4, {-5,-7,1,-3,
5,7,0,0}, {2})` is canonical for its basis with every reduced cost `>= 0`;
the run pivots once, on `(0, 0)`, and returns `3.0000000000000004`, although
the feasible point `x = (3/5, 0, 0)` has the objective value `3`: the
returned value is not the minimum. -/
theorem C3_returned_value_above_minimum :
    rounded_dual.canonical ∧ rounded_dual.costs_nonneg ∧
      ∃ T', Dbl.DualSimplex.simplex 2 rounded_dual.to_double =
          some (Dbl.Outcome.value (Double.fin (6755399441055745 / 2251799813685248)), T') ∧
        ∃ x, rounded_dual.feasible x ∧
          rounded_dual.objective x < 6755399441055745 / 2251799813685248 := by
  refine ⟨by unfold Tableau.canonical; decide!, by unfold Tableau.costs_nonneg; decide!,
    { rounded_dual.to_double.pivot_body 0 0 with
      basis_indices := [0], basis_indices_set := [true] },
    by decide!, _, rounded_dual_point.1, ?_⟩
  rw [rounded_dual_point.2]
  norm_num

/-- C3, amended. On doubles, a value `V` returned by `DualSimplex::simplex`
is the negated right-hand-side cell of the objective row of the final
tableau.  When the input `T` is a tableau of finite doubles of exact values
`t`, canonical for its basis with every reduced cost `>= 0`, and the run
commits no rounding error (the returned value and the final tableau are the
ones exact arithmetic gives), the value is the minimum of `c.x - r` over the
feasible points `x >= 0` of the input tableau.  On the tableau of
`DualSimplex::test` the run on doubles takes two pivots and returns `11`. -/
theorem C3_dual_simplex_returns_optimum :
    (∀ (T : Dbl.Tableau) (fuel : Nat) (V : Double) (T' : Dbl.Tableau),
      Dbl.DualSimplex.simplex fuel T = some (Dbl.Outcome.value V, T') →
        V = - T'.at_ (T'.m - 1) (T'.n - 1) ∧
          ∀ t v t', T.to_rat = some t → t.wf → t.canonical → t.costs_nonneg →
            V.value? = some v → T'.to_rat = some t' →
            simplex fuel t = some (Outcome.value v, t') →
            v = - t'.at_ (t'.m - 1) (t'.n - 1) ∧
              (∃ x, t.feasible x ∧ t.objective x = v) ∧
              ∀ x, t.feasible x → v ≤ t.objective x) ∧
      Dbl.DualSimplex.simplex 2 dual_test_tableau.to_double = none ∧
      ∃ T', T'.to_rat = some dual_test_final ∧
        ∀ k, Dbl.DualSimplex.simplex (3 + k) dual_test_tableau.to_double =
          some (Dbl.Outcome.value 11, T') := by
  refine ⟨?_, by decide!, ?_⟩
  · intro T fuel V T' h
    refine ⟨(dbl_dual_value fuel T T' V h).2, ?_⟩
    intro t v t' _ hwf hcan hcost _ _ hexact
    exact dual_simplex_optimum_exact.1 t hwf hcan hcost fuel v t' hexact
  · obtain ⟨T', hrun, himg⟩ := dual_test_dbl_run
    exact ⟨T', himg, fun k => dbl_dual_simplex_mono 3 _ _ hrun k⟩

/-- Witness of the amended C3 on the tableau of `DualSimplex::test`: the run
on doubles commits no rounding error, and the returned `11` is the minimum of
`3 x1 + 4 x2 + 5 x3` on its feasible set. -/
theorem C3_witness :
    ∃ T', Dbl.DualSimplex.simplex 3 dual_test_tableau.to_double =
        some (Dbl.Outcome.value 11, T') ∧
      (11 : Double) = - T'.at_ (T'.m - 1) (T'.n - 1) ∧
      (∃ x, dual_test_tableau.feasible x ∧ dual_test_tableau.objective x = 11) ∧
      ∀ x, dual_test_tableau.feasible x → 11 ≤ dual_test_tableau.objective x :=
  dual_test_dbl_run.elim (fun T' hT' =>
    have hc := C3_dual_simplex_returns_optimum.1 dual_test_tableau.to_double 3 11 T' hT'.1
    ⟨T', hT'.1, hc.1,
      (hc.2 dual_test_tableau 11 dual_test_final (to_rat_to_double _) dual_test_wf
        dual_test_canonical dual_test_costs (by decide!) hT'.2 dual_test_run).2⟩)

/-- C8, the claim as stated fails on doubles: on `Tableau(2, 4, {-5,-7,1,-3,
5,7,0,0}, {2})`, whose reduced costs are `5, 7, 0`, the run pivots on
`(0, 0)`, returns normally, and the final tableau has the reduced cost
`7 - 5 * 1.4000000000000001 = -2^-50 < 0` in column 1. -/
theorem C8_negative_cost_at_return :
    rounded_dual.costs_nonneg ∧
      ∃ V T', Dbl.DualSimplex.simplex 2 rounded_dual.to_double =
          some (Dbl.Outcome.value V, T') ∧
        T'.at_ (T'.m - 1) 1 = Double.fin (-(1 / 1125899906842624)) ∧
        T'.at_ (T'.m - 1) 1 < 0 := by
  refine ⟨by unfold Tableau.costs_nonneg; decide!,
    Double.fin (6755399441055745 / 2251799813685248),
    { rounded_dual.to_double.pivot_body 0 0 with
      basis_indices := [0], basis_indices_set := [true] },
    by decide!, by decide!, by decide!⟩

/-- C8, amended. On doubles, when `DualSimplex::simplex` returns normally
the final tableau has no negative right-hand side (it passes
`test_feasibility`).  When the input `T` is a tableau of finite doubles of
exact values `t` whose reduced costs are all `>= 0` and the run commits no
rounding error (the returned value and the final tableau are the ones exact
arithmetic gives), every constraint right-hand side and every reduced cost
of the final tableau is `>= 0`. -/
theorem C8_dual_final_tableau_certificate (T : Dbl.Tableau) (fuel : Nat) (V : Double)
    (T' : Dbl.Tableau)
    (h : Dbl.DualSimplex.simplex fuel T = some (Dbl.Outcome.value V, T')) :
    (∀ i, i < T'.m - 1 → ¬ T'.at_ i (T'.n - 1) < 0) ∧
      ∀ t v t', T.to_rat = some t → t.wf → t.costs_nonneg →
        V.value? = some v → T'.to_rat = some t' →
        simplex fuel t = some (Outcome.value v, t') →
        (∀ i, i < T'.m - 1 → (0 : Double) ≤ T'.at_ i (T'.n - 1)) ∧
          ∀ j, j < T'.n - 1 → (0 : Double) ≤ T'.at_ (T'.m - 1) j := by
  refine ⟨(dbl_test_feasibility_iff T').1 (dbl_dual_value fuel T T' V h).1, ?_⟩
  intro t v t' _ hwf hcost _ hT' hexact
  obtain ⟨hr, hc⟩ := dual_certificate_exact t hwf hcost fuel v t' hexact
  obtain ⟨hm, hn, _⟩ := to_rat_shape T' t' hT'
  constructor
  · intro i hi
    rw [zero_le_iff_value _ _ (to_rat_at T' t' hT' _ _), ← hn]
    exact hr i (by omega)
  · intro j hj
    rw [zero_le_iff_value _ _ (to_rat_at T' t' hT' _ _), ← hm]
    exact hc j (by omega)

/-- Witness of the amended C8 on the tableau of `DualSimplex::test`, on
doubles. -/
theorem C8_witness :
    ∃ T', Dbl.DualSimplex.simplex 3 dual_test_tableau.to_double =
        some (Dbl.Outcome.value 11, T') ∧
      (∀ i, i < T'.m - 1 → ¬ T'.at_ i (T'.n - 1) < 0) ∧
      (∀ i, i < T'.m - 1 → (0 : Double) ≤ T'.at_ i (T'.n - 1)) ∧
      ∀ j, j < T'.n - 1 → (0 : Double) ≤ T'.at_ (T'.m - 1) j :=
  dual_test_dbl_run.elim (fun T' hT' =>
    have hc := C8_dual_final_tableau_certificate dual_test_tableau.to_double 3 11 T' hT'.1
    ⟨T', hT'.1, hc.1,
      hc.2 dual_test_tableau 11 dual_test_final (to_rat_to_double _) dual_test_wf
        dual_test_costs (by decide!) hT'.2 dual_test_run⟩)

end DualRunClaims

/-! ## Termination of the dual simplex on doubles -/

section DualTerminationClaim
open DualSimplex

end DualTerminationClaim

/-! ## Phase I on doubles -/

section DblPhaseOne
open Dbl.PrimalSimplex

theorem dbl_step_3_impossible (cost : Double) (fuel : Nat) :
    ∀ (art_tab tab tab' : Dbl.Tableau),
      step_3 cost fuel art_tab tab = some (Dbl.PrimalSimplex.Step3.failed Dbl.Outcome.impossible tab') →
        cost > 0 := by
  induction fuel with
  | zero => intro _ _ _ h; simp [step_3] at h
  | succ fuel ih =>
    intro art_tab tab tab' h
    simp only [step_3] at h
    split_ifs at h with hc
    · exact hc
    · split at h
      · simp at h
      · split at h
        · split at h
          · simp at h
          · split at h
            · simp at h
            · exact ih _ _ _ h
        · split at h
          · simp at h
          · exact ih _ _ _ h

/-- On doubles, the primal simplex never raises Infeasible. -/
theorem dbl_simplex_not_impossible (fuel : Nat) :
    ∀ (t t' : Dbl.Tableau), simplex fuel t ≠ some (Dbl.Outcome.impossible, t') := by
  induction fuel with
  | zero => intro t t' h; simp [simplex] at h
  | succ fuel ih =>
    intro t t' h
    simp only [simplex] at h
    split_ifs at h
    · simp at h
    · split at h
      · simp at h
      · split_ifs at h
        · simp at h
        · split at h
          · simp at h
          · split at h
            · simp at h
            · exact ih _ _ h

/-- On doubles, phase II never raises Infeasible. -/
theorem dbl_phase_II_not_impossible (fuel : Nat) (art_tab tab tab' : Dbl.Tableau) :
    phase_II fuel art_tab tab ≠ some (Dbl.Outcome.impossible, tab') := by
  intro h
  simp only [phase_II] at h
  split at h
  · simp at h
  · split at h
    · simp at h
    · exact dbl_simplex_not_impossible _ _ _ h

/-- On doubles, when `two_phase` raises Infeasible, phase I has built the
auxiliary problem, the simplex has returned a value for it, and the value
compares `> 0`. -/
theorem dbl_two_phase_impossible (fuel : Nat) (tab tab' : Dbl.Tableau)
    (h : two_phase fuel tab = some (Dbl.Outcome.impossible, tab')) :
    ∃ tab2 art_tab1 cost art_tab2, auxiliary_problem tab = some (tab2, art_tab1) ∧
      simplex fuel art_tab1 = some (Dbl.Outcome.value cost, art_tab2) ∧ cost > 0 := by
  unfold two_phase at h
  unfold auxiliary_problem
  simp only at h ⊢
  cases hs : search_usable_variables
      ((List.range (tab.m - 1)).foldl
        (fun (s : Dbl.Tableau) i =>
          if s.at_ i (s.n - 1) < 0 then { s with toMatrix := s.toMatrix.scale_row i (-1) }
          else s)
        tab) with
  | none => simp [hs] at h
  | some p =>
    obtain ⟨tab2, found⟩ := p
    simp only [hs] at h ⊢
    cases hc : create_artificial_tableau tab2 (tab2.m - 1 - found) with
    | none => simp [hc] at h
    | some art_tab =>
      simp only [hc] at h ⊢
      cases hk : art_tab.canonicalize with
      | none => simp [hk] at h
      | some art_tab1 =>
        simp only [hk] at h ⊢
        cases hx : simplex fuel art_tab1 with
        | none => simp [hx] at h
        | some r =>
          obtain ⟨o, art_tab2⟩ := r
          cases o with
          | value cost =>
            simp only [hx] at h
            cases h3 : step_3 cost fuel art_tab2 tab2 with
            | none => simp [h3] at h
            | some r3 =>
              cases r3 with
              | failed o3 tab3 =>
                simp only [h3, Option.some.injEq, Prod.mk.injEq] at h
                obtain ⟨ho, _⟩ := h
                subst ho
                exact ⟨tab2, art_tab1, cost, art_tab2, rfl, hx,
                  dbl_step_3_impossible cost fuel _ _ _ h3⟩
              | phase_II a3 t3 =>
                simp only [h3] at h
                exact absurd h (dbl_phase_II_not_impossible _ _ _ _)
          | unlimited => simp [hx] at h
          | invalidForm => simp [hx] at h
          | impossible => exact absurd hx (dbl_simplex_not_impossible _ _ _)
          | abort => simp [hx] at h

end DblPhaseOne

theorem rounded_phase_one_point : rounded_phase_one.feasible (fun _ => 1) := by
  have hm : rounded_phase_one.m - 1 = 2 := rfl
  refine ⟨fun j _ => by norm_num, ?_⟩
  intro i hi
  rw [hm] at hi
  interval_cases i <;> (unfold Tableau.row_dot; decide!)

section InfeasibleClaims
open PrimalSimplex

/-- C11, the claim as stated fails on doubles: the rows `x0 + x1 = 2`,
`3 x0 + x1 = 4` of `Tableau(3, 3, {1,1,2, 3,1,4, 0,0,0}, NULL)` are satisfied
by `x = (1, 1) >= 0`, yet `two_phase` raises Infeasible: phase I ends with
the objective right-hand-side cell `-2^-52`, so the cost `2^-52` passes the
test `cost > 0`. -/
theorem C11_feasible_system_raises_infeasible :
    (∃ x, rounded_phase_one.feasible x) ∧
      (Dbl.PrimalSimplex.two_phase 6 rounded_phase_one.to_double).map Prod.fst =
        some Dbl.Outcome.impossible ∧
      ((Dbl.PrimalSimplex.auxiliary_problem rounded_phase_one.to_double).bind
        (fun p => Dbl.PrimalSimplex.simplex 6 p.2)).map Prod.fst =
        some (Dbl.Outcome.value (Double.fin (1 / 4503599627370496))) :=
  ⟨⟨_, rounded_phase_one_point⟩, by decide!, by decide!⟩

/-- C11, amended. On doubles, `PrimalSimplex::two_phase` raises Infeasible
only when the simplex run of phase I on the auxiliary tableau has returned a
value that compares `> 0`.  When the input `T` is a tableau of finite doubles
of exact values `t` and phase I commits no rounding error (the canonicalized
auxiliary tableau holds the values exact arithmetic gives, and so does the
value returned for it), no vector `x >= 0` satisfies all constraint rows of
the input tableau. -/
theorem C11_two_phase_infeasible (T : Dbl.Tableau) (fuel : Nat) (T' : Dbl.Tableau)
    (h : Dbl.PrimalSimplex.two_phase fuel T = some (Dbl.Outcome.impossible, T')) :
    ∃ T2 A C A', Dbl.PrimalSimplex.auxiliary_problem T = some (T2, A) ∧
      Dbl.PrimalSimplex.simplex fuel A = some (Dbl.Outcome.value C, A') ∧ C > 0 ∧
      ∀ t t2 a c a', T.to_rat = some t → t.wf → A.to_rat = some a →
        auxiliary_problem t = some (t2, a) → C.value? = some c →
        simplex fuel a = some (Outcome.value c, a') →
        ¬ ∃ x, t.feasible x := by
  obtain ⟨T2, A, C, A', h1, h2, h3⟩ := dbl_two_phase_impossible fuel T T' h
  refine ⟨T2, A, C, A', h1, h2, h3, ?_⟩
  intro t t2 a c a' _ hwf _ haux hc hrun
  rintro ⟨x, hx⟩
  have hle := auxiliary_optimum_nonpos t hwf t2 a haux x hx fuel c a' hrun
  have hpos := (zero_lt_iff_value C c hc).1 h3
  linarith

/-- Witness of the amended C11: on tableau 3 of `PrimalSimplex::test` the
run on doubles raises Infeasible, phase I commits no rounding error (its
value is 5), and the rows `x0 + 2 x1 + x3 = -5`, `x1 + 2 x2 = 6` have no
solution `x >= 0`. -/
theorem C11_witness :
    (Dbl.PrimalSimplex.two_phase 4 test_tableau_3.to_double).map Prod.fst =
        some Dbl.Outcome.impossible ∧
      ¬ ∃ x, test_tableau_3.feasible x := by
  have hfst : (Dbl.PrimalSimplex.two_phase 4 test_tableau_3.to_double).map Prod.fst =
      some Dbl.Outcome.impossible := by decide!
  refine ⟨hfst, ?_⟩
  cases hr : Dbl.PrimalSimplex.two_phase 4 test_tableau_3.to_double with
  | none => rw [hr] at hfst; simp at hfst
  | some r =>
    rw [hr] at hfst
    simp only [Option.map_some', Option.some.injEq] at hfst
    have hr' : Dbl.PrimalSimplex.two_phase 4 test_tableau_3.to_double =
        some (Dbl.Outcome.impossible, r.2) := by rw [hr, ← hfst]
    obtain ⟨T2, A, C, A', h1, h2, _, hinf⟩ :=
      C11_two_phase_infeasible test_tableau_3.to_double 4 r.2 hr'
    have e1 : (Dbl.PrimalSimplex.auxiliary_problem test_tableau_3.to_double).bind
        (fun p => p.2.to_rat) = some test_tableau_3_aux := by decide!
    have e2 : ((Dbl.PrimalSimplex.auxiliary_problem test_tableau_3.to_double).bind
        (fun p => Dbl.PrimalSimplex.simplex 4 p.2)).bind (fun r => r.1.to_rat) =
        some (Outcome.value 5) := by decide!
    rw [h1] at e1 e2
    simp only [Option.some_bind] at e1 e2
    rw [h2] at e2
    simp only [Option.some_bind, Dbl.Outcome.to_rat, Option.map_eq_some'] at e2
    obtain ⟨c, hc, hc5⟩ := e2
    injection hc5 with hc5
    subst hc5
    exact hinf test_tableau_3 test_tableau_3_final test_tableau_3_aux _ test_tableau_3_aux
      (to_rat_to_double _) test_tableau_3_wf e1 test_tableau_3_auxiliary hc
      (primal_fuel_mono 1 _ _ test_tableau_3_aux_run 3)

end InfeasibleClaims

/-! ## Inversion on doubles -/

theorem matrix_to_rat_shape (A : Dbl.Matrix) (a : Matrix) (h : A.to_rat = some a) :
    a.m = A.m ∧ a.n = A.n := by
  unfold Dbl.Matrix.to_rat at h
  cases hb : Double.values? A.buffer with
  | none => rw [hb] at h; simp at h
  | some b =>
    rw [hb] at h
    simp only [Option.map_some', Option.some.injEq] at h
    subst h
    exact ⟨rfl, rfl⟩

theorem matrix_to_rat_at (A : Dbl.Matrix) (a : Matrix) (h : A.to_rat = some a) (i j : Nat) :
    (A.at_ i j).value? = some (a.at_ i j) := by
  unfold Dbl.Matrix.to_rat at h
  cases hb : Double.values? A.buffer with
  | none => rw [hb] at h; simp at h
  | some b =>
    rw [hb] at h
    simp only [Option.map_some', Option.some.injEq] at h
    subst h
    exact values_getD _ _ hb _

theorem matrix_to_rat_to_double (a : Matrix) : a.to_double.to_rat = some a := by
  unfold Matrix.to_double Dbl.Matrix.to_rat
  simp only [values_map_fin, Option.map_some']

/-- A matrix of finite doubles whose values are `1` or `0` at an entry
compares so. -/
theorem eq_of_value_ite (d : Double) (c : Prop) [Decidable c]
    (h : d.value? = some (if c then 1 else 0)) : d.eq (if c then 1 else 0) = true := by
  by_cases hc : c
  · rw [if_pos hc] at h ⊢; exact eq_one_of_value d h
  · rw [if_neg hc] at h ⊢; exact eq_zero_of_value d h

theorem dbl_swap_rows_shape (M : Dbl.Matrix) (r1 r2 : Nat) :
    (M.swap_rows r1 r2).m = M.m ∧ (M.swap_rows r1 r2).n = M.n := by
  unfold Dbl.Matrix.swap_rows
  exact foldl_invariant (fun A : Dbl.Matrix => A.m = M.m ∧ A.n = M.n) _ _ M ⟨rfl, rfl⟩
    (fun A j _ h => h)

/-- On doubles, a pass of the column loop of `invert` keeps the shape of the
matrix. -/
theorem dbl_invert_column_shape (st st1 : Dbl.Matrix × Dbl.Matrix) (j : Nat)
    (h : Dbl.Matrix.invert_column st j = some st1) :
    st1.1.m = st.1.m ∧ st1.1.n = st.1.n := by
  unfold Dbl.Matrix.invert_column at h
  cases hf : Dbl.Matrix.find_pivot_row st.1 j with
  | none => rw [hf] at h; simp at h
  | some i =>
    rw [hf] at h
    simp only [Option.some.injEq] at h
    subst h
    have h2 : (if j ≠ i then (st.1.swap_rows j i, st.2.swap_rows j i) else st).1.m = st.1.m ∧
        (if j ≠ i then (st.1.swap_rows j i, st.2.swap_rows j i) else st).1.n = st.1.n := by
      by_cases hji : j ≠ i
      · rw [if_pos hji]; exact dbl_swap_rows_shape _ _ _
      · rw [if_neg hji]; exact ⟨rfl, rfl⟩
    apply foldl_invariant
      (fun s : Dbl.Matrix × Dbl.Matrix => s.1.m = st.1.m ∧ s.1.n = st.1.n)
    · exact ⟨(dbl_scale_row_shape _ _ _).1.trans h2.1, (dbl_scale_row_shape _ _ _).2.trans h2.2⟩
    · intro s k _ hs
      by_cases hk : k = j
      · rw [if_pos hk]; exact hs
      · rw [if_neg hk]
        exact ⟨(dbl_add_row_shape _ _ _ _).1.trans hs.1, (dbl_add_row_shape _ _ _ _).2.trans hs.2⟩

/-- On doubles, when the column loop of `invert` returns at column `c`, the
column is one of the list, the matrix has kept its shape and no entry of
column `c` from the diagonal down compares different from 0; when `c` is the
first column of the list, the matrix is the one the loop started from. -/
theorem dbl_invert_loop_singular (l : List Nat) :
    ∀ (st : Dbl.Matrix × Dbl.Matrix) (c : Nat) (M' : Dbl.Matrix),
      Dbl.Matrix.invert_loop l st = Dbl.InvertResult.singular c M' →
        c ∈ l ∧ M'.m = st.1.m ∧ M'.n = st.1.n ∧
          Dbl.Matrix.find_pivot_row M' c = none ∧
          (∀ js, l = c :: js → c ∉ js → M' = st.1) := by
  induction l with
  | nil => intro st c M' h; simp [Dbl.Matrix.invert_loop] at h
  | cons j js ih =>
    intro st c M' h
    simp only [Dbl.Matrix.invert_loop] at h
    cases hc : Dbl.Matrix.invert_column st j with
    | none =>
      rw [hc] at h
      simp only [Dbl.InvertResult.singular.injEq] at h
      obtain ⟨hj, hM⟩ := h
      subst hj
      subst hM
      refine ⟨List.mem_cons_self _ _, rfl, rfl, ?_, fun _ _ _ => rfl⟩
      unfold Dbl.Matrix.invert_column at hc
      cases hf : Dbl.Matrix.find_pivot_row st.1 j with
      | none => rfl
      | some i => rw [hf] at hc; simp at hc
    | some st1 =>
      rw [hc] at h
      obtain ⟨h1, h2, h3, h4, _⟩ := ih st1 c M' h
      obtain ⟨s1, s2⟩ := dbl_invert_column_shape st st1 j hc
      refine ⟨List.mem_cons_of_mem _ h1, h2.trans s1, h3.trans s2, h4, ?_⟩
      intro js' hl hnot
      simp only [List.cons.injEq] at hl
      obtain ⟨_, hjs⟩ := hl
      subst hjs
      exact absurd h1 hnot

/-- On doubles, when `invert` reports failure at column `c`, `c` is a column
of the matrix, the matrix has kept its shape, every entry of column `c` from
the diagonal down compares equal to 0, and the matrix is the one before the
call when `c` is the first column. -/
theorem dbl_invert_singular (A : Dbl.Matrix) (c : Nat) (M' : Dbl.Matrix)
    (h : A.invert = some (Dbl.InvertResult.singular c M')) :
    c < A.n ∧ M'.m = A.m ∧ M'.n = A.n ∧
      (∀ i, c ≤ i → i < A.m → (M'.at_ i c).eq 0 = true) ∧ (c = 0 → M' = A) := by
  unfold Dbl.Matrix.invert at h
  split_ifs at h with hsq
  simp only [Option.some.injEq] at h
  obtain ⟨h1, h2, h3, h4, h5⟩ := dbl_invert_loop_singular _ _ c M' h
  have h2' : M'.m = A.m := h2
  refine ⟨List.mem_range.1 h1, h2, h3, ?_, ?_⟩
  · intro i hci hi
    unfold Dbl.Matrix.find_pivot_row at h4
    rw [List.find?_eq_none] at h4
    have := h4 i (by
      rw [List.mem_range'_1, h2']
      exact ⟨hci, by omega⟩)
    simpa [Double.ne] using this
  · intro hc0
    subst hc0
    have hn : 0 < A.n := List.mem_range.1 h1
    apply h5 (List.range' 1 (A.n - 1))
    · obtain ⟨k, hk⟩ : ∃ k, A.n = k + 1 := ⟨A.n - 1, by omega⟩
      rw [hk, List.range_eq_range', List.range'_succ]
      simp
    · intro hmem
      rw [List.mem_range'] at hmem
      obtain ⟨i, _, hi⟩ := hmem
      omega

theorem rounded_inverse_invertible : rounded_inverse.invertible := by
  refine ⟨{ m := 1, n := 1, buffer := [1 / 49] }, rfl, rfl, ?_⟩
  intro i k hi hk
  have hi' : i < 1 := hi
  have hk' : k < 1 := hk
  interval_cases i; interval_cases k; decide!

theorem exact_inverse_invertible : exact_inverse.invertible := by
  refine ⟨{ m := 2, n := 2, buffer := [0, 1 / 4, 1 / 2, 0] }, rfl, rfl, ?_⟩
  intro i k hi hk
  have hi' : i < 2 := hi
  have hk' : k < 2 := hk
  interval_cases i <;> interval_cases k <;> decide!

theorem exact_inverse_wf : exact_inverse.wf := by
  unfold Matrix.wf; decide

/-- What the results of `invert` on doubles and in exact arithmetic say of
each other when the first holds the values of the second. -/
theorem invert_result_to_rat (X : Dbl.InvertResult) (x : InvertResult)
    (h : X.to_rat = some x) :
    (∀ r, x = InvertResult.inverted r →
      ∃ R, X = Dbl.InvertResult.inverted R ∧ R.to_rat = some r) ∧
    (∀ c m', x = InvertResult.singular c m' →
      ∃ M', X = Dbl.InvertResult.singular c M' ∧ M'.to_rat = some m') := by
  cases X with
  | inverted R =>
    simp only [Dbl.InvertResult.to_rat, Option.map_eq_some'] at h
    obtain ⟨r0, hr0, hx⟩ := h
    subst hx
    refine ⟨fun r hr => ⟨R, rfl, ?_⟩, fun c m' hc => by cases hc⟩
    injection hr with hr
    rw [← hr]; exact hr0
  | singular c0 M0 =>
    simp only [Dbl.InvertResult.to_rat, Option.map_eq_some'] at h
    obtain ⟨m0, hm0, hx⟩ := h
    subst hx
    refine ⟨fun r hr => (by cases hr), fun c m' hc => ⟨M0, ?_, ?_⟩⟩
    · injection hc with hc1 hc2
      rw [hc1]
    · injection hc with hc1 hc2
      rw [← hc2]; exact hm0

section InvertClaims

/-- C17, the claim as stated fails on doubles: the 1x1 matrix `[49]` is
invertible; `invert` leaves the double nearest to `1/49`, and the original
multiplied by it is `1 - 2^-53`, which is not 1: the product is not the
identity. -/
theorem C17_product_is_not_identity :
    rounded_inverse.invertible ∧
      ∃ R P, rounded_inverse.to_double.invert = some (Dbl.InvertResult.inverted R) ∧
        R.at_ 0 0 = Double.fin (5882252574524729 / 288230376151711744) ∧
        rounded_inverse.to_double.multiply_by R = some P ∧
        P.at_ 0 0 = Double.fin (9007199254740991 / 9007199254740992) ∧
        (P.at_ 0 0).eq 1 = false ∧ ¬ P.is_identity := by
  refine ⟨rounded_inverse_invertible,
    { m := 1, n := 1, buffer := [Double.fin (5882252574524729 / 288230376151711744)] },
    { m := 1, n := 1, buffer := [Double.fin (9007199254740991 / 9007199254740992)] },
    by decide!, by decide!, by decide!, by decide!, by decide!, ?_⟩
  intro h
  have := h 0 0 (by decide) (by decide)
  revert this
  decide!

/-- C17, amended. Let `A` be a square matrix of finite doubles whose values
form an invertible matrix `a`.  When `invert` and the product commit no
rounding error (the matrix `invert` leaves and the product of the original
with it hold the values exact arithmetic gives), `A.invert()` ends with the
final copy and the original multiplied (`multiply_by`) by the inverted matrix
is the identity.  On the matrix `b2` of `Matrix::test`, the 3x3 anti-diagonal
matrix of 3s, `invert` leaves the anti-diagonal matrix of the double nearest
to `1/3` and the product is the identity (`3 * 0.333...` rounds to 1). -/
theorem C17_invert_inverse :
    (∀ (A : Dbl.Matrix) (a : Matrix), A.to_rat = some a → a.wf → a.m = a.n →
      a.invertible → A.invert.bind Dbl.InvertResult.to_rat = a.invert →
      (∀ R r, A.invert = some (Dbl.InvertResult.inverted R) → R.to_rat = some r →
        (A.multiply_by R).bind Dbl.Matrix.to_rat = a.multiply_by r) →
      ∃ R P, A.invert = some (Dbl.InvertResult.inverted R) ∧ R.m = A.m ∧ R.n = A.n ∧
        A.multiply_by R = some P ∧ P.m = A.m ∧ P.n = A.n ∧ P.is_identity) ∧
      test_matrix_2.to_double.invert =
        some (Dbl.InvertResult.inverted test_matrix_2_rounded) ∧
      test_matrix_2.to_double.multiply_by test_matrix_2_rounded =
        some identity_3.to_double := by
  refine ⟨?_, by decide!, by decide!⟩
  · intro A a hA hwf hsq hinv hexact hprod
    obtain ⟨r, p, hr, rm, rn, hp, pm, pn, hid⟩ := invert_inverse_exact a hwf hsq hinv
    rw [hr] at hexact
    obtain ⟨X, hX, himg⟩ := bind_to_rat_some _ _ _ hexact
    obtain ⟨R, hXR, hR⟩ := (invert_result_to_rat X _ himg).1 r rfl
    subst hXR
    have he := hprod R r hX hR
    rw [hp] at he
    obtain ⟨P, hP, hPimg⟩ := bind_to_rat_some _ _ _ he
    obtain ⟨am, an⟩ := matrix_to_rat_shape A a hA
    obtain ⟨Rm, Rn⟩ := matrix_to_rat_shape R r hR
    obtain ⟨Pm, Pn⟩ := matrix_to_rat_shape P p hPimg
    refine ⟨R, P, hX, by omega, by omega, hP, by omega, by omega, ?_⟩
    intro i j hi hj
    apply eq_of_value_ite
    rw [matrix_to_rat_at P p hPimg, hid i j (by omega) (by omega)]

/-- Witness of the amended C17: the matrix `[[0, 2], [4, 0]]`, on doubles. -/
theorem C17_witness :
    ∃ R P, exact_inverse.to_double.invert = some (Dbl.InvertResult.inverted R) ∧
      R.m = exact_inverse.to_double.m ∧ R.n = exact_inverse.to_double.n ∧
      exact_inverse.to_double.multiply_by R = some P ∧ P.m = exact_inverse.to_double.m ∧
      P.n = exact_inverse.to_double.n ∧ P.is_identity :=
  C17_invert_inverse.1 exact_inverse.to_double exact_inverse
    (matrix_to_rat_to_double exact_inverse) exact_inverse_wf rfl exact_inverse_invertible
    (by decide!)
    (fun R r hR hr => by
      have e : exact_inverse.to_double.invert = some (Dbl.InvertResult.inverted
          { m := 2, n := 2, buffer := [0, Double.fin (1 / 4), Double.fin (1 / 2), 0] }) := by
        decide!
      rw [e] at hR
      injection hR with hR
      injection hR with hR
      subst hR
      have er : r = { m := 2, n := 2, buffer := [0, 1 / 4, 1 / 2, 0] } := by
        have e2 : Dbl.Matrix.to_rat
            { m := 2, n := 2, buffer := [0, Double.fin (1 / 4), Double.fin (1 / 2), 0] } =
            some { m := 2, n := 2, buffer := [0, 1 / 4, 1 / 2, 0] } := by decide!
        rw [e2] at hr
        injection hr with hr
        exact hr.symm
      subst er
      decide!)

/-- C18, amended. On doubles, when `invert()` reports failure it has
returned at a column `c` of the matrix in which every entry from the diagonal
down compares equal to 0 (no non-zero pivot candidate); the matrix has kept
its shape and is the matrix before the call when `c` is the first column.
For a singular square matrix of finite doubles, when the elimination commits
no rounding error (the matrix `invert` leaves holds the values exact
arithmetic gives), `invert()` does report failure, and the matrix is left as
the elimination of the columns before `c` has transformed it: those columns
are unit columns. -/
theorem C18_invert_singular :
    (∀ (A : Dbl.Matrix) (c : Nat) (M' : Dbl.Matrix),
      A.invert = some (Dbl.InvertResult.singular c M') →
        c < A.n ∧ M'.m = A.m ∧ M'.n = A.n ∧
          (∀ i, c ≤ i → i < A.m → (M'.at_ i c).eq 0 = true) ∧ (c = 0 → M' = A)) ∧
      ∀ (A : Dbl.Matrix) (a : Matrix), A.to_rat = some a → a.wf → a.m = a.n →
        ¬ a.invertible → A.invert.bind Dbl.InvertResult.to_rat = a.invert →
        ∃ c M', A.invert = some (Dbl.InvertResult.singular c M') ∧ c < A.n ∧
          ∀ c', c' < c → ∀ i, i < A.n →
            (M'.at_ i c').eq (if i = c' then 1 else 0) = true := by
  refine ⟨dbl_invert_singular, ?_⟩
  intro A a hA hwf hsq hsing hexact
  obtain ⟨c, m', hr, hc, _, _, hunit, _⟩ := invert_singular_exact a hwf hsq hsing
  rw [hr] at hexact
  obtain ⟨X, hX, himg⟩ := bind_to_rat_some _ _ _ hexact
  obtain ⟨M', hXM, hM'⟩ := (invert_result_to_rat X _ himg).2 c m' rfl
  subst hXM
  obtain ⟨am, an⟩ := matrix_to_rat_shape A a hA
  refine ⟨c, M', hX, by omega, ?_⟩
  intro c' hc' i hi
  apply eq_of_value_ite
  rw [matrix_to_rat_at M' m' hM', hunit c' hc' i (by omega)]

/-- Witness of the amended C18 at `[[1, 1], [1, 1]]`, on doubles: the
elimination commits no rounding error, `invert` reports failure at column 1
and column 0 is left as a unit column. -/
theorem C18_witness :
    (∃ c M', singular_matrix.to_double.invert = some (Dbl.InvertResult.singular c M') ∧
      c < singular_matrix.to_double.n ∧
      ∀ c', c' < c → ∀ i, i < singular_matrix.to_double.n →
        (M'.at_ i c').eq (if i = c' then 1 else 0) = true) ∧
      (1 < singular_matrix.to_double.n ∧
        singular_matrix_left.to_double.m = singular_matrix.to_double.m ∧
        singular_matrix_left.to_double.n = singular_matrix.to_double.n ∧
        (∀ i, 1 ≤ i → i < singular_matrix.to_double.m →
          (singular_matrix_left.to_double.at_ i 1).eq 0 = true) ∧
        (1 = 0 → singular_matrix_left.to_double = singular_matrix.to_double)) :=
  ⟨C18_invert_singular.2 singular_matrix.to_double singular_matrix
      (matrix_to_rat_to_double singular_matrix) singular_matrix_wf rfl
      singular_matrix_not_invertible (by decide!),
    C18_invert_singular.1 singular_matrix.to_double 1 singular_matrix_left.to_double
      (by decide!)⟩

end InvertClaims

end Simplex
